import Mathlib

/-!
# RRT* planner kernel (`rrts.h`): shallow embedding and invariants

The planner of `rrts.h` is a class template over a `system_tt`.  The embedding
below keeps the template parameters as type variables:

* `S` : `system_tt::state`, `U` : `system_tt::control`,
* `C` : `system_tt::cost_t` (only `+`, `<` and `>` are used by the planner),
* `O` : `system_tt::opt_data_t`, `R` : the scalar of `trajectory::total_variation`.

Vertices live on the C++ heap and are linked by raw pointers.  The embedding
uses an arena: a handle is a natural number, `heap h = none` means that no live
object is stored at `h`, and `new` hands out the handle `next`.  Every function
that dereferences a pointer returns an `Option`; `none` stands for an execution
that does not return normally (null or dangling dereference, or, for the
recursive walks, exhausted recursion budget).
-/

namespace Smpl

/-! ## Data model -/

/-- Modelled from the spec: the `trajectory` type of `system.h` (absent from the
sources): "an ordered sequence of states paired with an ordered sequence of
controls, plus a scalar `total_variation`". -/
structure Trajectory (S U R : Type) where
  states : List S
  controls : List U
  total_variation : R

/-- Modelled from the spec: a default-constructed (or cleared) trajectory has no
states, no controls and zero total variation. -/
def Trajectory.empty {S U R : Type} [Zero R] : Trajectory S U R :=
  { states := [], controls := [], total_variation := 0 }

/-- Modelled from the spec: `trajectory::clear`. -/
def Trajectory.clear {S U R : Type} [Zero R] (_t : Trajectory S U R) : Trajectory S U R :=
  Trajectory.empty

/-- Modelled from the spec: `trajectory::reverse`, "reversing reverses both
sequences and preserves `total_variation`". -/
def Trajectory.reverse {S U R : Type} (t : Trajectory S U R) : Trajectory S U R :=
  { states := t.states.reverse, controls := t.controls.reverse,
    total_variation := t.total_variation }

/-- Modelled from the spec: `trajectory::append`, which appends both sequences of
the argument and adds its total variation. -/
def Trajectory.append {S U R : Type} [Add R] (t a : Trajectory S U R) : Trajectory S U R :=
  { states := t.states ++ a.states, controls := t.controls ++ a.controls,
    total_variation := t.total_variation + a.total_variation }

/-- The class `edge_c`.  The two state pointers are kept as the values they point to. -/
structure Edge (S C O : Type) where
  start_state : S
  end_state : S
  cost : C
  opt_data : O

/-- The class `vertex_c`.  `parent` and the elements of `children` are handles;
the owned `edge_from_parent` pointer is the edge value, `none` for `NULL`.  The
pointer set `children` is a duplicate-free list in insertion order. -/
structure Vertex (S C O : Type) where
  parent : Option Nat
  state : S
  children : List Nat
  mark : Int
  cost_from_root : C
  cost_from_parent : C
  edge_from_parent : Option (Edge S C O)

/-- The deterministic part of the `system_tt` member of `rrts_c` (its declaration,
`system.h`, is absent from the sources, so it is a parameter).  Functions with
output parameters return them next to the `int` return code (nonzero is failure).
`cost_default` and `opt_data_default` are what the default constructors of `cost_t`
and `opt_data_t` produce. -/
structure System (S U C O R : Type) where
  get_zero_cost : C
  get_inf_cost : C
  is_in_goal : S → Bool
  is_in_collision : S → Bool
  evaluate_extend_cost : S → S → O → Int × O × C
  extend_to : S → S → Bool → Trajectory S U R → O → Int × Trajectory S U R × O
  cost_default : C
  opt_data_default : O

/-- The planner object `rrts_c`: the heap of its vertices, the allocation counter
and the data members (`gamma` and `goal_sample_freq` only feed the random draw
and the query radius, which are inputs of `iteration`, see `Draw`).  The k-d tree
is represented by the list of payload handles inserted into it. -/
structure Rrts (S C O : Type) where
  heap : Nat → Option (Vertex S C O)
  next : Nat
  num_vertices : Int
  list_vertices : List Nat
  do_branch_and_bound : Bool
  root : Option Nat
  lower_bound_cost : C
  lower_bound_vertex : Option Nat
  kdtree : Option (List Nat)

/-- What one call of `iteration` draws from outside the planner: whether
`RANDF < goal_sample_freq`, the results of the two samplers, and the answers of
the two k-d tree queries (`kd_nearest` is `none` when the result set is at its end). -/
structure Draw (S : Type) where
  p_lt_goal_sample_freq : Bool
  sample_in_goal : Int × S
  sample_state : Int × S
  kd_nearest_range : List Nat
  kd_nearest : Option Nat

section Model

variable {S U C O R : Type} [Add C] [LT C] [DecidableRel (fun a b : C => a < b)]
variable [Zero R] [Add R]

/-- Store the vertex object `vv` at handle `h`. -/
def Rrts.setV (st : Rrts S C O) (h : Nat) (vv : Vertex S C O) : Rrts S C O :=
  { st with heap := Function.update st.heap h (some vv) }

/-- Read-modify-write of the live vertex at `h`. -/
def Rrts.modify (st : Rrts S C O) (h : Nat) (f : Vertex S C O → Vertex S C O) :
    Option (Rrts S C O) :=
  match st.heap h with
  | none => none
  | some vv => some (st.setV h (f vv))

/-- The constructor `rrts_c()`. -/
def rrts_c (sys : System S U C O R) : Rrts S C O :=
  { heap := fun _ => none, next := 0, num_vertices := 0, list_vertices := [],
    do_branch_and_bound := true, root := none, lower_bound_cost := sys.cost_default,
    lower_bound_vertex := none, kdtree := none }

/-- `clear_list_vertices`: deletes every listed vertex and empties the list. -/
def clear_list_vertices (st : Rrts S C O) : Rrts S C O :=
  { st with
    heap := fun h => if h ∈ st.list_vertices then none else st.heap h,
    list_vertices := [],
    num_vertices := 0 }

/-- `insert_into_kdtree`: inserts the payload into the index and appends the
vertex to `list_vertices`. -/
def insert_into_kdtree (st : Rrts S C O) (v : Nat) : Option (Rrts S C O) :=
  match st.heap v, st.kdtree with
  | some _, some kd =>
    some { st with kdtree := some (kd ++ [v]),
                   list_vertices := st.list_vertices ++ [v],
                   num_vertices := st.num_vertices + 1 }
  | _, _ => none

/-- `new vertex(si)`: allocates a vertex with the given state at a fresh handle. -/
def new_vertex (sys : System S U C O R) (st : Rrts S C O) (si : S) : Nat × Rrts S C O :=
  (st.next,
   { st with
     heap := Function.update st.heap st.next
       (some { parent := none, state := si, children := [], mark := 0,
               cost_from_root := sys.cost_default, cost_from_parent := sys.cost_default,
               edge_from_parent := none }),
     next := st.next + 1 })

/-- `set_root`. -/
def set_root (sys : System S U C O R) (st : Rrts S C O) (rs : S) : Option (Int × Rrts S C O) :=
  let (r, st1) := new_vertex sys st rs
  let st2 := { st1 with root := some r }
  match st2.modify r (fun vv => { vv with
      cost_from_root := sys.get_zero_cost, cost_from_parent := sys.get_zero_cost,
      edge_from_parent := none, parent := none, children := [] }) with
  | none => none
  | some st3 =>
    match insert_into_kdtree st3 r with
    | none => none
    | some st4 => some (0, st4)

/-- The member function `initialize` (renamed: the original name is reserved). -/
def initialise (sys : System S U C O R) (st : Rrts S C O) (rs : S)
    (do_branch_and_bound_in : Bool) : Option (Int × Rrts S C O) :=
  let st1 := clear_list_vertices st
  let st2 := { st1 with lower_bound_cost := sys.get_inf_cost, lower_bound_vertex := none,
                        do_branch_and_bound := do_branch_and_bound_in }
  let st3 := { st2 with kdtree := some [] }
  match set_root sys st3 rs with
  | none => none
  | some (_, st4) => some (0, st4)

/-- `update_best_vertex` (its constant return value 0 is dropped). -/
def update_best_vertex (sys : System S U C O R) (st : Rrts S C O) (v : Nat) :
    Option (Rrts S C O) :=
  match st.heap v with
  | none => none
  | some vv =>
    if sys.is_in_goal vv.state then
      if st.lower_bound_vertex = none ∨ vv.cost_from_root < st.lower_bound_cost then
        some { st with lower_bound_cost := vv.cost_from_root, lower_bound_vertex := some v }
      else some st
    else some st

/-- The three-argument overload `insert_edge(vs, e, ve)`. -/
def insert_edge_into (sys : System S U C O R) (st : Rrts S C O) (vs : Nat) (e : Edge S C O)
    (ve : Nat) : Option (Rrts S C O) :=
  match st.heap vs with
  | none => none
  | some vvs =>
    match st.modify ve (fun x => { x with cost_from_parent := e.cost,
                                          cost_from_root := vvs.cost_from_root + e.cost }) with
    | none => none
    | some st1 =>
      match update_best_vertex sys st1 ve with
      | none => none
      | some st2 =>
        match st2.modify ve (fun x => { x with edge_from_parent := some e }) with
        | none => none
        | some st3 =>
          match st3.heap ve with
          | none => none
          | some vve =>
            match (match vve.parent with
                   | none => some st3
                   | some p => st3.modify p (fun x => { x with children := x.children.erase ve })) with
            | none => none
            | some st4 =>
              match st4.modify ve (fun x => { x with parent := some vs }) with
              | none => none
              | some st5 =>
                st5.modify vs (fun x => { x with children :=
                  if ve ∈ x.children then x.children else x.children ++ [ve] })

/-- The two-argument overload `insert_edge(vs, e)`; the first component is the
returned vertex pointer (`none` for `NULL`). -/
def insert_edge (sys : System S U C O R) (st : Rrts S C O) (vs : Nat) (e : Edge S C O) :
    Option (Option Nat × Rrts S C O) :=
  match st.heap vs with
  | none => none
  | some vvs =>
    if st.do_branch_and_bound = true ∧ st.lower_bound_cost < vvs.cost_from_root + e.cost then
      some (none, st)
    else
      let (nv, st1) := new_vertex sys st e.end_state
      match insert_into_kdtree st1 nv with
      | none => none
      | some st2 =>
        match insert_edge_into sys st2 vs e nv with
        | none => none
        | some st3 => some (some nv, st3)

/-- The body of the loop of `update_branch_cost` for the child `pc` of `v`; `recurse`
is the recursive call.  The cost of `v` is read again for every child, as the
reference `v` is in the source. -/
def update_branch_child (sys : System S U C O R) (recurse : Rrts S C O → Nat → Option (Rrts S C O))
    (v : Nat) (s : Rrts S C O) (pc : Nat) : Option (Rrts S C O) :=
  match s.heap v with
  | none => none
  | some cur =>
    match s.modify pc (fun child => { child with
        cost_from_root := cur.cost_from_root + child.cost_from_parent }) with
    | none => none
    | some s1 =>
      match update_best_vertex sys s1 pc with
      | none => none
      | some s2 => recurse s2 pc

/-- `update_branch_cost(v, depth)` (the unused `depth` argument is dropped).  The first
argument bounds the recursion depth; `none` is returned when it is exhausted. -/
def update_branch_cost (sys : System S U C O R) : Nat → Rrts S C O → Nat → Option (Rrts S C O)
  | 0, _, _ => none
  | fuel + 1, st, v =>
    match st.heap v with
    | none => none
    | some vv =>
      vv.children.foldlM (update_branch_child sys (update_branch_cost sys fuel) v) st

/-- `update_all_costs`. -/
def update_all_costs (sys : System S U C O R) (fuel : Nat) (st : Rrts S C O) :
    Option (Rrts S C O) :=
  match st.root with
  | none => none
  | some r =>
    update_branch_cost sys fuel
      { st with lower_bound_cost := sys.get_inf_cost, lower_bound_vertex := none } r

/-- `compare_vertex_cost_pairs`. -/
def compare_vertex_cost_pairs (p1 p2 : Nat × C) : Prop := p1.2 < p2.2

instance compare_vertex_cost_pairs_decidable :
    DecidableRel (compare_vertex_cost_pairs : Nat × C → Nat × C → Prop) :=
  fun p1 p2 => inferInstanceAs (Decidable (p1.2 < p2.2))

/-- The `std::sort` call of `find_best_parent`: an insertion sort that places an
element before the first one that it does not compare greater than. -/
def sort_vertex_cost_pairs (l : List (Nat × C)) : List (Nat × C) :=
  l.insertionSort (fun p1 p2 => ¬ compare_vertex_cost_pairs p2 p1)

/-- Step 1 of `find_best_parent`: the candidate pairs and the `vertex_map`
(an association list; `insert` keeps an existing entry). -/
def find_best_parent_pairs (sys : System S U C O R) (st : Rrts S C O) (si : S) :
    List Nat → List (Nat × C) → List (Nat × (C × C × O)) →
    Option (List (Nat × C) × List (Nat × (C × C × O)))
  | [], pairs, vmap => some (pairs, vmap)
  | pv :: rest, pairs, vmap =>
    match st.heap pv with
    | none => none
    | some v =>
      let r := sys.evaluate_extend_cost v.state si sys.opt_data_default
      if r.1 ≠ 0 then find_best_parent_pairs sys st si rest pairs vmap
      else
        let edge_cost := r.2.2
        let v_cost := v.cost_from_root + edge_cost
        find_best_parent_pairs sys st si rest (pairs ++ [(pv, v_cost)])
          (if (vmap.lookup pv).isSome then vmap else vmap ++ [(pv, (edge_cost, v_cost, r.2.1))])

/-- Step 3 of `find_best_parent`: obstacle check in order of increasing cost.  The
trajectory buffer and the `opt_data` of the map entry are passed by reference.
The result is the return code with `best_parent` and `best_edge`. -/
def find_best_parent_scan (sys : System S U C O R) (st : Rrts S C O) (si : S) :
    List (Nat × C) → Trajectory S U R → List (Nat × (C × C × O)) →
    Option (Int × Option Nat × Option (Edge S C O))
  | [], _, _ => some (1, none, none)
  | p :: ps, traj, vmap =>
    match st.heap p.1 with
    | none => none
    | some v =>
      let entry := (vmap.lookup p.1).getD (sys.cost_default, sys.cost_default, sys.opt_data_default)
      let r := sys.extend_to v.state si true traj entry.2.2
      if r.1 = 0 then
        some (0, some p.1, some { start_state := v.state, end_state := si,
                                  cost := entry.1, opt_data := r.2.2 })
      else
        find_best_parent_scan sys st si ps r.2.1
          (vmap.map (fun kv => if kv.1 = p.1 then (kv.1, (kv.2.1, kv.2.2.1, r.2.2)) else kv))

/-- `find_best_parent`. -/
def find_best_parent (sys : System S U C O R) (st : Rrts S C O) (si : S) (near_vertices : List Nat) :
    Option (Int × Option Nat × Option (Edge S C O)) :=
  match find_best_parent_pairs sys st si near_vertices [] [] with
  | none => none
  | some (pairs, vmap) =>
    find_best_parent_scan sys st si (sort_vertex_cost_pairs pairs) Trajectory.empty vmap

/-- The body of the loop of `rewire_vertices` for one near vertex `pvn`. -/
def rewire_vertex (sys : System S U C O R) (fuel : Nat) (v : Nat) (st : Rrts S C O) (pvn : Nat) :
    Option (Rrts S C O) :=
  match st.heap v, st.heap pvn with
  | some vv, some vn =>
    let r := sys.evaluate_extend_cost vv.state vn.state sys.opt_data_default
    if r.1 ≠ 0 then some st
    else
      let cost_edge := r.2.2
      let cvn := vv.cost_from_root + cost_edge
      if cvn < vn.cost_from_root then
        let x := sys.extend_to vv.state vn.state true Trajectory.empty r.2.1
        if x.1 ≠ 0 then some st
        else
          match insert_edge_into sys st v
              { start_state := vv.state, end_state := vn.state, cost := cost_edge,
                opt_data := x.2.2 } pvn with
          | none => none
          | some st1 => update_branch_cost sys fuel st1 pvn
      else some st
  | _, _ => none

/-- `rewire_vertices`. -/
def rewire_vertices (sys : System S U C O R) (fuel : Nat) (st : Rrts S C O) (v : Nat)
    (near_vertices : List Nat) : Option (Rrts S C O) :=
  near_vertices.foldlM (rewire_vertex sys fuel v) st

/-- `get_near_vertices`: the range query, with the single nearest vertex as the
fallback when the range is empty. -/
def get_near_vertices (st : Rrts S C O) (d : Draw S) (near_vertices : List Nat) :
    Option (Int × List Nat) :=
  match st.kdtree with
  | none => none
  | some _ =>
    if d.kd_nearest_range.length = 0 then
      match d.kd_nearest with
      | none => some (1, near_vertices)
      | some vc => some (0, near_vertices ++ [vc])
    else some (0, near_vertices ++ d.kd_nearest_range)

/-- `iteration`: one RRT* step.  `fuel` bounds the recursion depth of the cost
propagation started by the rewiring. -/
def iteration (sys : System S U C O R) (fuel : Nat) (d : Draw S) (st : Rrts S C O) :
    Option (Int × Rrts S C O) :=
  let smp := if d.p_lt_goal_sample_freq then d.sample_in_goal else d.sample_state
  if smp.1 ≠ 0 then some (1, st)
  else
    let sr := smp.2
    match get_near_vertices st d [] with
    | none => none
    | some (ret, near_vertices) =>
      if ret ≠ 0 then some (2, st)
      else
        match find_best_parent sys st sr near_vertices with
        | none => none
        | some (ret3, best_parent, edge_from_parent) =>
          if ret3 ≠ 0 then some (3, st)
          else
            match best_parent, edge_from_parent with
            | some bp, some e =>
              match insert_edge sys st bp e with
              | none => none
              | some (none, st1) => some (4, st1)
              | some (some new_vertex, st1) =>
                if near_vertices.length ≠ 0 then
                  match rewire_vertices sys fuel st1 new_vertex near_vertices with
                  | none => none
                  | some st2 => some (0, st2)
                else some (0, st1)
            | _, _ => none

/-- The loop of `get_best_trajectory`: walks the parent links from `vc`, appending
the reversed trajectory of every edge.  The edge's `opt_data` is passed to
`extend_to` by reference, so what `extend_to` leaves in it is stored back. -/
def get_best_trajectory_walk (sys : System S U C O R) :
    Nat → Rrts S C O → Option Nat → Trajectory S U R → Option (Trajectory S U R × Rrts S C O)
  | _, st, none, best_traj => some (best_traj, st)
  | 0, _, some _, _ => none
  | fuel + 1, st, some vc, best_traj =>
    match st.heap vc with
    | none => none
    | some vvc =>
      match vvc.parent with
      | none => get_best_trajectory_walk sys fuel st none best_traj
      | some vparent =>
        match st.heap vparent, vvc.edge_from_parent with
        | some vvp, some e =>
          let r := sys.extend_to vvp.state vvc.state false Trajectory.empty e.opt_data
          let st1 := st.setV vc { vvc with edge_from_parent := some { e with opt_data := r.2.2 } }
          get_best_trajectory_walk sys fuel st1 (some vparent) (best_traj.append r.2.1.reverse)
        | _, _ => none

/-- `get_best_trajectory`: the return code, the output trajectory and the planner. -/
def get_best_trajectory (sys : System S U C O R) (fuel : Nat) (st : Rrts S C O)
    (best_traj : Trajectory S U R) : Option (Int × Trajectory S U R × Rrts S C O) :=
  match st.lower_bound_vertex with
  | none => some (1, best_traj, st)
  | some b =>
    match get_best_trajectory_walk sys fuel st (some b) best_traj.clear with
    | none => none
    | some (t, st1) => some (0, t.reverse, st1)

end Model

/-! ## Invariants and auxiliary notions -/

section Notions

variable {S U C O R : Type}

/-- What the planner keeps fixed while it rewires and propagates costs: the
bookkeeping members and, for every handle, liveness and the stored state. -/
def Frame (st st' : Rrts S C O) : Prop :=
  st'.list_vertices = st.list_vertices ∧ st'.num_vertices = st.num_vertices ∧
  st'.next = st.next ∧ st'.kdtree = st.kdtree ∧ st'.root = st.root ∧
  st'.do_branch_and_bound = st.do_branch_and_bound ∧
  ∀ h, (st'.heap h).map (fun v => v.state) = (st.heap h).map (fun v => v.state)

/-- The parent pointer stored in the vertex at `h` (`none` for `NULL` and for a
handle without a live vertex). -/
def Rrts.par (st : Rrts S C O) (h : Nat) : Option Nat :=
  (st.heap h).bind (fun v => v.parent)

/-- The child set stored in the vertex at `h`. -/
def Rrts.kids (st : Rrts S C O) (h : Nat) : List Nat :=
  match st.heap h with
  | some v => v.children
  | none => []

/-- Whether the vertex at `h` has a non-null `edge_from_parent`. -/
def Rrts.has_edge (st : Rrts S C O) (h : Nat) : Bool :=
  match st.heap h with
  | some v => v.edge_from_parent.isSome
  | none => false

/-- Everything of a vertex except `cost_from_root`. -/
def Vertex.links (v : Vertex S C O) :
    Option Nat × S × List Nat × Int × C × Option (Edge S C O) :=
  (v.parent, v.state, v.children, v.mark, v.cost_from_parent, v.edge_from_parent)

/-- Two planner states that differ at most in the `cost_from_root` fields and in
the best-vertex record. -/
def SameLinks (st st' : Rrts S C O) : Prop :=
  st'.list_vertices = st.list_vertices ∧ st'.num_vertices = st.num_vertices ∧
  st'.next = st.next ∧ st'.kdtree = st.kdtree ∧ st'.root = st.root ∧
  st'.do_branch_and_bound = st.do_branch_and_bound ∧
  ∀ h, (st'.heap h).map Vertex.links = (st.heap h).map Vertex.links

/-- The structural invariants of the planner: bookkeeping (the vertex list is
duplicate free, counted by `num_vertices`, mirrored by the index, made of live
vertices), I1 (one parentless listed vertex, the root; parent links strictly
decrease a depth function, so every vertex reaches the root), I4 (child sets and
parent pointers describe the same relation) and the presence of an edge on every
vertex that has a parent. -/
structure TreeInv (st : Rrts S C O) : Prop where
  nodup : st.list_vertices.Nodup
  count : st.num_vertices = st.list_vertices.length
  index : st.kdtree = some st.list_vertices
  fresh : ∀ h ∈ st.list_vertices, h < st.next
  live : ∀ h ∈ st.list_vertices, ∃ vv, st.heap h = some vv
  root_ok : ∃ r, st.root = some r ∧ r ∈ st.list_vertices ∧ st.par r = none
  root_unique : ∀ h ∈ st.list_vertices, st.par h = none → st.root = some h
  parent_ok : ∀ h ∈ st.list_vertices, ∀ p, st.par h = some p →
    p ∈ st.list_vertices ∧ h ∈ st.kids p ∧ st.has_edge h = true
  children_ok : ∀ u ∈ st.list_vertices,
    (st.kids u).Nodup ∧ ∀ c ∈ st.kids u, c ∈ st.list_vertices ∧ st.par c = some u
  depth : ∃ d : Nat → Nat, ∀ h ∈ st.list_vertices, ∀ p, st.par h = some p → d p < d h

/-- I2 at one vertex: its cost from the root is its parent's plus its edge cost. -/
def CostAt [Add C] (st : Rrts S C O) (x : Nat) : Prop :=
  ∀ vv p vp, st.heap x = some vv → vv.parent = some p → st.heap p = some vp →
    vv.cost_from_root = vp.cost_from_root + vv.cost_from_parent

/-- I2 (cost consistency) for every listed vertex. -/
def CostInv [Add C] (st : Rrts S C O) : Prop :=
  ∀ x ∈ st.list_vertices, CostAt st x

/-- The recorded best vertex, if any, is a listed vertex. -/
def BestListed (st : Rrts S C O) : Prop :=
  ∀ b, st.lower_bound_vertex = some b → b ∈ st.list_vertices

/-- Height bound: every chain of child links starting at `x` has fewer than `n`
vertices. -/
def Below (K : Nat → List Nat) : Nat → Nat → Prop
  | 0, _ => False
  | n + 1, x => ∀ c ∈ K x, Below K n c

/-- The answers of the k-d tree queries are payloads stored in the index. -/
def KdSound (st : Rrts S C O) (d : Draw S) : Prop :=
  match st.kdtree with
  | none => True
  | some kd => (∀ h ∈ d.kd_nearest_range, h ∈ kd) ∧ (∀ h ∈ d.kd_nearest, h ∈ kd)

instance KdSound.decidable (st : Rrts S C O) (d : Draw S) : Decidable (KdSound st d) := by
  unfold KdSound
  split <;> infer_instance

section

variable [Add C] [LT C] [DecidableRel (fun a b : C => a < b)] [Zero R] [Add R]

/-- The planner states reached from a call of `initialize` (on any planner object)
by finitely many calls of `iteration` that return, with arbitrary draws whose
k-d tree answers come from the index. -/
inductive Reachable (sys : System S U C O R) : Rrts S C O → Prop
  | init (st0 : Rrts S C O) (rs : S) (bnb : Bool) (st : Rrts S C O) :
      initialise sys st0 rs bnb = some (0, st) → Reachable sys st
  | iter (st : Rrts S C O) (d : Draw S) (fuel : Nat) (code : Int) (st' : Rrts S C O) :
      Reachable sys st → KdSound st d → iteration sys fuel d st = some (code, st') →
      Reachable sys st'

end

end Notions

/-! ## A concrete system on which the theorems are exercised -/

section Example

/-- States are points of a line, steering always succeeds, an edge costs the squared
distance, the goal is the set of points from 10 on, and nothing is in collision. -/
def line_system : System Nat Nat (WithTop Nat) Nat Nat :=
  { get_zero_cost := 0
    get_inf_cost := ⊤
    is_in_goal := fun s => decide (10 ≤ s)
    is_in_collision := fun _ => false
    evaluate_extend_cost := fun si sf o => (0, o, (((max si sf - min si sf) ^ 2 : Nat) : WithTop Nat))
    extend_to := fun si sf _ _ o =>
      (0, { states := [si, sf], controls := [0], total_variation := max si sf - min si sf }, o)
    cost_default := 0
    opt_data_default := 0 }

/-- A draw that samples the state `s` with the free-space sampler and gets `range`
from the range query. -/
def line_draw (s : Nat) (range : List Nat) : Draw Nat :=
  { p_lt_goal_sample_freq := false, sample_in_goal := (1, 0), sample_state := (0, s),
    kd_nearest_range := range, kd_nearest := none }

/-- The planner after a call of `iteration` (unchanged if the call does not return). -/
def after_iteration {S U C O R : Type} [Add C] [LT C] [DecidableRel (fun a b : C => a < b)]
    [Zero R] [Add R] (sys : System S U C O R) (fuel : Nat) (d : Draw S) (st : Rrts S C O) :
    Rrts S C O :=
  match iteration sys fuel d st with
  | some (_, s) => s
  | none => st

/-- The planner after `initialize` at the point 0. -/
def line_s0 : Rrts Nat (WithTop Nat) Nat :=
  match initialise line_system (rrts_c line_system) 0 true with
  | some (_, s) => s
  | none => rrts_c line_system

/-- Then the point 10 is sampled: vertex 1, a goal vertex of cost 100 below the root. -/
def line_s1 : Rrts Nat (WithTop Nat) Nat :=
  after_iteration line_system 4 (line_draw 10 [0]) line_s0

/-- Then the point 5 is sampled: vertex 2, of cost 25 below the root, and vertex 1 is
rewired below it at cost 50. -/
def line_s2 : Rrts Nat (WithTop Nat) Nat :=
  after_iteration line_system 4 (line_draw 5 [0, 1]) line_s1

end Example

section OrderNotions

variable {S U C O R : Type}

/-- While no best vertex is recorded, `lower_bound_cost` is the infinite cost. -/
def NoBestInf (sys : System S U C O R) (st : Rrts S C O) : Prop :=
  st.lower_bound_vertex = none → st.lower_bound_cost = sys.get_inf_cost

/-- A transition that keeps `NoBestInf` and does not increase `lower_bound_cost`. -/
def LowerBoundStep [LE C] (sys : System S U C O R) (st st' : Rrts S C O) : Prop :=
  NoBestInf sys st → NoBestInf sys st' ∧ st'.lower_bound_cost ≤ st.lower_bound_cost

end OrderNotions

section BestNotions

variable {S U C O R : Type}

/-- I6 with the root left out: the recorded best vertex, if any, is a listed goal
vertex other than the root and `lower_bound_cost` is its `cost_from_root`; and whenever
a listed vertex other than the root is in the goal, a best vertex is recorded and
`lower_bound_cost` is at most the cost of that vertex. -/
def BestInv [LE C] (sys : System S U C O R) (st : Rrts S C O) : Prop :=
  (∀ b, st.lower_bound_vertex = some b →
    b ∈ st.list_vertices ∧ st.root ≠ some b ∧
    ∃ vb, st.heap b = some vb ∧ sys.is_in_goal vb.state = true ∧
      st.lower_bound_cost = vb.cost_from_root) ∧
  (∀ g ∈ st.list_vertices, ∀ vg, st.heap g = some vg → st.root ≠ some g →
    sys.is_in_goal vg.state = true →
    st.lower_bound_vertex ≠ none ∧ st.lower_bound_cost ≤ vg.cost_from_root)

/-- The one-sided form of I2 that holds while costs are being propagated: the stored
cost of a vertex is at least its parent's cost plus its edge cost. -/
def CostLe [Add C] [LE C] (st : Rrts S C O) : Prop :=
  ∀ x ∈ st.list_vertices, ∀ vv p vp, st.heap x = some vv → vv.parent = some p →
    st.heap p = some vp → vp.cost_from_root + vv.cost_from_parent ≤ vv.cost_from_root

/-- Two planner states with the same vertex list, root and best-vertex record, in which
every vertex has the same state and the same `cost_from_root`. -/
def SameCosts (a b : Rrts S C O) : Prop :=
  b.list_vertices = a.list_vertices ∧ b.root = a.root ∧
  b.lower_bound_vertex = a.lower_bound_vertex ∧ b.lower_bound_cost = a.lower_bound_cost ∧
  ∀ h, (b.heap h).map (fun v => (v.state, v.cost_from_root))
     = (a.heap h).map (fun v => (v.state, v.cost_from_root))

end BestNotions

section Example2

/-- The line system with a goal that contains every point, the root included. -/
def root_goal_system : System Nat Nat (WithTop Nat) Nat Nat :=
  { line_system with is_in_goal := fun _ => true }

/-- The planner after `initialize` at the point 0 of `root_goal_system`. -/
def root_goal_s0 : Rrts Nat (WithTop Nat) Nat :=
  match initialise root_goal_system (rrts_c root_goal_system) 0 true with
  | some (_, s) => s
  | none => rrts_c root_goal_system

/-- Then the point 10 is sampled: vertex 1, of cost 100, becomes the best vertex. -/
def root_goal_s1 : Rrts Nat (WithTop Nat) Nat :=
  after_iteration root_goal_system 4 (line_draw 10 [0]) root_goal_s0

end Example2

section Example3

/-- The line example after the second sample was inserted below the root and before
the rewiring loop runs. -/
def line_s1_inserted : Rrts Nat (WithTop Nat) Nat :=
  match insert_edge line_system line_s1 0
      { start_state := 0, end_state := 5, cost := 25, opt_data := 0 } with
  | some (_, s) => s
  | none => line_s1

end Example3

section PathNotions

variable {S U C O R : Type} [Zero R]

/-- In the words of the spec (§4.3.4): walk the parent links from `vc` to the root and,
for each edge, ask the system to re-materialise the trajectory, without obstacle
check, using the cached `opt_data`.  The result lists the trajectories of the edges in
the order of the walk (the edge into `vc` first, the edge out of the root last), next
to the planner, in whose edges `extend_to` may have updated the cached `opt_data`. -/
def best_path_trajectories (sys : System S U C O R) :
    Nat → Rrts S C O → Option Nat → Option (List (Trajectory S U R) × Rrts S C O)
  | _, st, none => some ([], st)
  | 0, _, some _ => none
  | fuel + 1, st, some vc =>
    match st.heap vc with
    | none => none
    | some vvc =>
      match vvc.parent with
      | none => some ([], st)
      | some vparent =>
        match st.heap vparent, vvc.edge_from_parent with
        | some vvp, some e =>
          let r := sys.extend_to vvp.state vvc.state false Trajectory.empty e.opt_data
          match best_path_trajectories sys fuel
              (st.setV vc { vvc with edge_from_parent := some { e with opt_data := r.2.2 } })
              (some vparent) with
          | none => none
          | some (l, s) => some (r.2.1 :: l, s)
        | _, _ => none

end PathNotions

section NonnegNotions

variable {S U C O R : Type}

/-- The edge costs that a successful `evaluate_extend_cost` reports are never below
the zero cost. -/
def NonnegCosts [LE C] (sys : System S U C O R) : Prop :=
  ∀ si sf o, (sys.evaluate_extend_cost si sf o).1 = 0 →
    sys.get_zero_cost ≤ (sys.evaluate_extend_cost si sf o).2.2

/-- No listed vertex has a `cost_from_parent` below the zero cost. -/
def EdgeNonneg [LE C] (sys : System S U C O R) (st : Rrts S C O) : Prop :=
  ∀ x ∈ st.list_vertices, ∀ vv, st.heap x = some vv → sys.get_zero_cost ≤ vv.cost_from_parent

end NonnegNotions

section Example4

/-- A chain below the root: the point 8 is sampled (vertex 1, cost 64 below the
root). -/
def chain_s1 : Rrts Nat (WithTop Nat) Nat :=
  after_iteration line_system 4 (line_draw 8 [0]) line_s0

/-- Then the point 12 is sampled with vertex 1 as the only near vertex: vertex 2, of
cost 80, below vertex 1. -/
def chain_s2 : Rrts Nat (WithTop Nat) Nat :=
  after_iteration line_system 4 (line_draw 12 [1]) chain_s1

/-- Then the point 4 is sampled and vertex 3 is inserted below the root at cost 16:
the state in which the rewiring loop starts. -/
def chain_s2_inserted : Rrts Nat (WithTop Nat) Nat :=
  match insert_edge line_system chain_s2 0
      { start_state := 0, end_state := 4, cost := 16, opt_data := 0 } with
  | some (_, s) => s
  | none => chain_s2

/-- The state after that third call of `iteration`, with near vertices 0, 1, 2. -/
def chain_s3 : Rrts Nat (WithTop Nat) Nat :=
  after_iteration line_system 4 (line_draw 4 [0, 1, 2]) chain_s2

end Example4

/-! ## Tree revalidation and root switching -/

section Model2

variable {S U C O R : Type} [Add C] [LT C] [DecidableRel (fun a b : C => a < b)]
variable [Zero R] [Add R]

/-- `mark_descendent_vertices(v)`.  The first argument bounds the recursion depth. -/
def mark_descendent_vertices : Nat → Rrts S C O → Nat → Option (Rrts S C O)
  | 0, _, _ => none
  | fuel + 1, st, v =>
    match st.heap v with
    | none => none
    | some vv =>
      vv.children.foldlM (mark_descendent_vertices fuel) (st.setV v { vv with mark := 1 })

/-- The body of the loop of `delete_unmarked_vertices` for the list element `pv`:
a marked vertex is unmarked and kept, any other vertex is deleted. -/
def delete_unmarked_vertex (acc : List Nat × Rrts S C O) (pv : Nat) :
    Option (List Nat × Rrts S C O) :=
  match acc.2.heap pv with
  | none => none
  | some vv =>
    if vv.mark = 1 then some (acc.1 ++ [pv], acc.2.setV pv { vv with mark := 0 })
    else some (acc.1, { acc.2 with heap := Function.update acc.2.heap pv none })

/-- `delete_unmarked_vertices`: returns the output vector `surviving_vertices` (which
the function clears first) next to the planner. -/
def delete_unmarked_vertices (st : Rrts S C O) : Option (List Nat × Rrts S C O) :=
  st.list_vertices.foldlM delete_unmarked_vertex ([], st)

/-- A range-based `for` over the pointer set `children` of the vertex `v`, for a body
that may erase elements of that set.  `l` is what was left to visit when the loop
started; an element erased before its turn is not visited, and when the body erases
the very element the iterator stands on, advancing the iterator has no defined
result. -/
def for_children (body : Rrts S C O → Nat → Option (Rrts S C O)) (v : Nat) :
    List Nat → Rrts S C O → Option (Rrts S C O)
  | [], st => some st
  | pc :: rest, st =>
    if pc ∈ st.kids v then
      match body st pc with
      | none => none
      | some st1 => if pc ∈ st1.kids v then for_children body v rest st1 else none
    else for_children body v rest st

/-- `mark_vertex_and_remove_from_parent(v)`. -/
def mark_vertex_and_remove_from_parent : Nat → Rrts S C O → Nat → Option (Rrts S C O)
  | 0, _, _ => none
  | fuel + 1, st, v =>
    match st.heap v with
    | none => none
    | some vv =>
      match vv.parent with
      | none => none
      | some p =>
        match (st.setV v { vv with mark := 1 }).modify p
            (fun x => { x with children := x.children.erase v }) with
        | none => none
        | some st1 =>
          for_children (mark_vertex_and_remove_from_parent fuel) v (st1.kids v) st1

/-- `check_and_mark_children(v)`.  The cached `opt_data` of the edge is passed to
`extend_to` by reference, so what `extend_to` leaves in it is stored back. -/
def check_and_mark_children (sys : System S U C O R) :
    Nat → Rrts S C O → Nat → Option (Rrts S C O)
  | 0, _, _ => none
  | fuel + 1, st, v =>
    match st.heap v with
    | none => none
    | some vv =>
      match vv.parent, vv.edge_from_parent with
      | some p, some e =>
        match st.heap p with
        | none => none
        | some vp =>
          let r := sys.extend_to vp.state vv.state true Trajectory.empty e.opt_data
          let st1 := st.setV v { vv with edge_from_parent := some { e with opt_data := r.2.2 } }
          if r.1 ≠ 0 then mark_vertex_and_remove_from_parent fuel st1 v
          else for_children (check_and_mark_children sys fuel) v vv.children st1
      | _, _ => none

/-- The body of the sweep of `check_tree` for the list element `pv`: an unmarked
vertex is kept, a marked one is deleted. -/
def check_tree_sweep (acc : List Nat × Rrts S C O) (pv : Nat) :
    Option (List Nat × Rrts S C O) :=
  match acc.2.heap pv with
  | none => none
  | some vv =>
    if vv.mark = 0 then some (acc.1 ++ [pv], acc.2)
    else some (acc.1, { acc.2 with heap := Function.update acc.2.heap pv none })

/-- `check_tree`: the return code and the planner. -/
def check_tree (sys : System S U C O R) (fuel : Nat) (st : Rrts S C O) :
    Option (Int × Rrts S C O) :=
  match st.root with
  | none => none
  | some r =>
    match st.heap r with
    | none => none
    | some vr =>
      if sys.is_in_collision vr.state then some (1, st)
      else if vr.children ≠ [] then
        let st1 := st.setV r { vr with mark := 0 }
        match for_children (check_and_mark_children sys fuel) r vr.children st1 with
        | none => none
        | some st2 =>
          match st2.list_vertices.foldlM check_tree_sweep ([], st2) with
          | none => none
          | some (surviving_vertices, st3) =>
            match surviving_vertices.foldlM insert_into_kdtree
                { st3 with kdtree := some [], list_vertices := [], num_vertices := 0 } with
            | none => none
            | some st4 =>
              match update_all_costs sys fuel st4 with
              | none => none
              | some st5 => some (0, st5)
      else some (0, st)

/-- The loop of `get_best_trajectory_vertices`: pushes the vertices met on the walk
along the parent links to the front of the list. -/
def get_best_trajectory_vertices_walk :
    Nat → Rrts S C O → Option Nat → List Nat → Option (List Nat)
  | _, _, none, l => some l
  | 0, _, some _, _ => none
  | fuel + 1, st, some pvc, l =>
    match st.heap pvc with
    | none => none
    | some vv => get_best_trajectory_vertices_walk fuel st vv.parent (pvc :: l)

/-- `get_best_trajectory_vertices`: the return code and the output list. -/
def get_best_trajectory_vertices (fuel : Nat) (st : Rrts S C O)
    (best_trajectory_vertices : List Nat) : Option (Int × List Nat) :=
  match st.lower_bound_vertex with
  | none => some (1, best_trajectory_vertices)
  | some b =>
    match get_best_trajectory_vertices_walk fuel st (some b) [] with
    | none => none
    | some l => some (0, l)

variable [LT R] [DecidableRel (fun a b : R => a < b)]

/-- Step 1.b of `switch_root`, the loop over the states of the trajectory of one edge.
`dist` is `state::dist` (declared in `system.h`, absent from the sources), `cc` is what
is left of the controls, `sp` the previous state.  The result is the running length,
the committed trajectory and, when the loop stopped at a state, that state (the new
root state). -/
def switch_root_cut (dist : S → S → Bool → R) (distance : R) :
    List S → List U → S → R → Trajectory S U R → Option (R × Trajectory S U R × Option S)
  | [], _, _, length, committed_trajectory => some (length, committed_trajectory, none)
  | ps :: rest, cc, sp, length, committed_trajectory =>
    let sc := ps
    let t1 := dist sp sc true
    if t1 + length < distance then
      match cc with
      | [] => none
      | c :: cc1 =>
        switch_root_cut dist distance rest cc1 sc (length + t1)
          { states := committed_trajectory.states ++ [sc],
            controls := committed_trajectory.controls ++ [c],
            total_variation := committed_trajectory.total_variation + t1 }
    else some (length, committed_trajectory, some sc)

/-- Step 1 of `switch_root`, the loop over the vertices of the best path.  The result
is 2 for the early return and 0 otherwise, then the new root state with the handle
`child_of_new_root_vertex` when the cut fell inside an edge, the running length, the
committed trajectory and the planner (whose cached `opt_data` the calls of
`extend_to` may have updated). -/
def switch_root_walk (sys : System S U C O R) (dist : S → S → Bool → R) (distance : R) :
    List Nat → Rrts S C O → R → Trajectory S U R →
    Option (Int × Option (S × Nat) × R × Trajectory S U R × Rrts S C O)
  | [], st, length, committed_trajectory => some (0, none, length, committed_trajectory, st)
  | pv :: rest, st, length, committed_trajectory =>
    match st.heap pv with
    | none => none
    | some vc =>
      match vc.parent with
      | none => switch_root_walk sys dist distance rest st length committed_trajectory
      | some p =>
        match st.heap p, vc.edge_from_parent with
        | some vp, some e =>
          let r := sys.extend_to vp.state vc.state false Trajectory.empty e.opt_data
          let st1 := st.setV pv { vc with edge_from_parent := some { e with opt_data := r.2.2 } }
          if r.1 = 0 then
            if length + r.2.1.total_variation < distance then
              switch_root_walk sys dist distance rest st1 (length + r.2.1.total_variation)
                (committed_trajectory.append r.2.1)
            else
              match r.2.1.states with
              | [] => none
              | s0 :: _ =>
                match switch_root_cut dist distance r.2.1.states r.2.1.controls s0 length
                    committed_trajectory with
                | none => none
                | some (length1, committed1, some new_root_state) =>
                  some (0, some (new_root_state, pv), length1, committed1, st1)
                | some (length1, committed1, none) =>
                  switch_root_walk sys dist distance rest st1 length1 committed1
          else some (2, none, length, committed_trajectory, st1)
        | _, _ => none

/-- The branch of `switch_root` taken when there is no `child_of_new_root_vertex`:
the whole tree is deleted and a fresh root is set at `new_root_state`. -/
def switch_root_goal (sys : System S U C O R) (fuel : Nat) (st : Rrts S C O)
    (new_root_state : S) : Option (Int × Rrts S C O) :=
  let st1 := clear_list_vertices st
  match set_root sys { st1 with kdtree := some [] } new_root_state with
  | none => none
  | some (_, st2) =>
    match update_all_costs sys fuel st2 with
    | none => none
    | some st3 => some (0, st3)

/-- The branch of `switch_root` taken when the cut fell inside the edge of the vertex
`c` (`child_of_new_root_vertex`).  The deleted old edge of `c` is represented like a
null one (dereferencing either has no defined result). -/
def switch_root_prune (sys : System S U C O R) (fuel : Nat) (st : Rrts S C O)
    (new_root_state : S) (c : Nat) : Option (Int × Rrts S C O) :=
  match mark_descendent_vertices fuel st c with
  | none => none
  | some st1 =>
    match delete_unmarked_vertices st1 with
    | none => none
    | some (surviving_vertices, st2) =>
      match set_root sys { st2 with list_vertices := [], num_vertices := 0, kdtree := some [] }
          new_root_state with
      | none => none
      | some (_, st3) =>
        match st3.heap c with
        | none => none
        | some vc =>
          let st4 := st3.setV c { vc with edge_from_parent := none }
          let x := sys.extend_to new_root_state vc.state false Trajectory.empty
            sys.opt_data_default
          if x.1 ≠ 0 then some (5, st4)
          else
            let y := sys.evaluate_extend_cost new_root_state vc.state x.2.2
            if y.1 ≠ 0 then some (6, st4)
            else
              match st4.root with
              | none => none
              | some r =>
                let e : Edge S C O := { start_state := new_root_state, end_state := vc.state, cost := y.2.2, opt_data := y.2.1 }
                let st5 := st4.setV c { vc with edge_from_parent := some e, parent := some r, cost_from_parent := e.cost }
                match st5.modify r (fun z => { z with children :=
                    if c ∈ z.children then z.children else z.children ++ [c] }) with
                | none => none
                | some st6 =>
                  match surviving_vertices.foldlM insert_into_kdtree st6 with
                  | none => none
                  | some st7 =>
                    match update_all_costs sys fuel st7 with
                    | none => none
                    | some st8 => some (0, st8)

/-- `switch_root(distance, committed_trajectory)`: the return code, the committed
trajectory and the planner. -/
def switch_root (sys : System S U C O R) (dist : S → S → Bool → R) (fuel : Nat)
    (distance : R) (committed_trajectory : Trajectory S U R) (st : Rrts S C O) :
    Option (Int × Trajectory S U R × Rrts S C O) :=
  match st.lower_bound_vertex with
  | none => some (1, committed_trajectory, st)
  | some b =>
    match st.root with
    | none => none
    | some r =>
      match st.heap r with
      | none => none
      | some vr =>
        if sys.is_in_goal vr.state then some (0, committed_trajectory, st)
        else
          match get_best_trajectory_vertices fuel st [] with
          | none => none
          | some (_, best_trajectory_vertices) =>
            match switch_root_walk sys dist distance best_trajectory_vertices st 0
                committed_trajectory with
            | none => none
            | some (code, found, _, committed1, st1) =>
              if code ≠ 0 then some (2, committed1, st1)
              else
                match found with
                | none =>
                  match st1.heap b with
                  | none => none
                  | some vb =>
                    match switch_root_goal sys fuel st1 vb.state with
                    | none => none
                    | some (ret, st2) => some (ret, committed1, st2)
                | some (new_root_state, c) =>
                  match switch_root_prune sys fuel st1 new_root_state c with
                  | none => none
                  | some (ret, st2) => some (ret, committed1, st2)

end Model2

section Notions2

variable {S U C O R : Type}

/-- What the tree invariant reads of a vertex: the parent pointer, the child set and
whether there is an edge record. -/
def Vertex.tree (v : Vertex S C O) : Option Nat × List Nat × Bool :=
  (v.parent, v.children, v.edge_from_parent.isSome)

/-- Two planner states with the same bookkeeping members whose vertices have the same
parent pointers, child sets and edge presence. -/
def SameTree (st st' : Rrts S C O) : Prop :=
  st'.list_vertices = st.list_vertices ∧ st'.num_vertices = st.num_vertices ∧
  st'.next = st.next ∧ st'.kdtree = st.kdtree ∧ st'.root = st.root ∧
  ∀ h, (st'.heap h).map Vertex.tree = (st.heap h).map Vertex.tree

/-- Everything of a vertex except the contents of the edge record. -/
def Vertex.shape (v : Vertex S C O) : Option Nat × S × List Nat × Int × C × C × Bool :=
  (v.parent, v.state, v.children, v.mark, v.cost_from_root, v.cost_from_parent,
    v.edge_from_parent.isSome)

/-- Two planner states that differ at most in the contents of the edge records (the
cached `opt_data`, which `extend_to` receives by reference). -/
def SameShape (st st' : Rrts S C O) : Prop :=
  st'.list_vertices = st.list_vertices ∧ st'.num_vertices = st.num_vertices ∧
  st'.next = st.next ∧ st'.kdtree = st.kdtree ∧ st'.root = st.root ∧
  st'.do_branch_and_bound = st.do_branch_and_bound ∧
  st'.lower_bound_vertex = st.lower_bound_vertex ∧
  st'.lower_bound_cost = st.lower_bound_cost ∧
  ∀ h, (st'.heap h).map Vertex.shape = (st.heap h).map Vertex.shape

/-- The scratch marks of all listed vertices are clear, as the sweeps leave them. -/
def MarksClear (st : Rrts S C O) : Prop :=
  ∀ x ∈ st.list_vertices, ∀ vv, st.heap x = some vv → vv.mark = 0

end Notions2

section Example5

/-- The distance of two points of the line (`state::dist` of the line example). -/
def line_dist : Nat → Nat → Bool → Nat := fun a b _ => max a b - min a b

/-- The line system with an obstacle at the point 10: the obstacle-checked steering
into that point fails. -/
def blocked_system : System Nat Nat (WithTop Nat) Nat Nat :=
  { line_system with
    extend_to := fun si sf check_obstacles traj o =>
      if check_obstacles && decide (sf = 10) then (1, traj, o)
      else line_system.extend_to si sf check_obstacles traj o }

/-- The line system with the point 0 in collision. -/
def collision_system : System Nat Nat (WithTop Nat) Nat Nat :=
  { line_system with is_in_collision := fun s => decide (s = 0) }

/-- The planner after the root was switched from `line_s2` with distance 20, which is
beyond the best vertex (unchanged if the call does not return). -/
def line_s2_goal : Rrts Nat (WithTop Nat) Nat :=
  match switch_root line_system line_dist 5 20 Trajectory.empty line_s2 with
  | some (_, _, s) => s
  | none => line_s2

/-- The planner after the root was switched from `line_s2` with distance 3, which falls
inside the first edge of the best path (unchanged if the call does not return). -/
def line_s2_cut : Rrts Nat (WithTop Nat) Nat :=
  match switch_root line_system line_dist 5 3 Trajectory.empty line_s2 with
  | some (_, _, s) => s
  | none => line_s2

end Example5

section Notions3

variable {S U C O R : Type}

/-- The vertices of the subtree rooted at `c`: the listed vertices from which following
parent links leads to `c` (`c` itself included). -/
def Desc (st : Rrts S C O) (c x : Nat) : Prop :=
  x ∈ st.list_vertices ∧ Relation.ReflTransGen (fun a b => st.par a = some b) x c

/-- The planner `st'` is `st` with the mark set on the vertices that satisfy `P`. -/
def MarkedBy (st st' : Rrts S C O) (P : Nat → Prop) : Prop :=
  st'.list_vertices = st.list_vertices ∧ st'.num_vertices = st.num_vertices ∧
  st'.next = st.next ∧ st'.kdtree = st.kdtree ∧ st'.root = st.root ∧
  st'.do_branch_and_bound = st.do_branch_and_bound ∧
  st'.lower_bound_vertex = st.lower_bound_vertex ∧
  st'.lower_bound_cost = st.lower_bound_cost ∧
  ∀ h, (P h → st'.heap h = (st.heap h).map (fun v => { v with mark := 1 })) ∧
       (¬ P h → st'.heap h = st.heap h)

/-- Whether the vertex at `x` is live and has its mark set. -/
def Rrts.marked (st : Rrts S C O) (x : Nat) : Bool :=
  match st.heap x with
  | some v => decide (v.mark = 1)
  | none => false

/-- The best-vertex invariant restricted to a set `V` of vertices whose costs are
final: a recorded best vertex is a listed goal vertex of `V` other than the root whose
cost is `lower_bound_cost`, and no goal vertex of `V` other than the root is cheaper. -/
def BestOn [LE C] (sys : System S U C O R) (st : Rrts S C O) (V : Nat → Prop) : Prop :=
  (∀ b, st.lower_bound_vertex = some b →
    V b ∧ b ∈ st.list_vertices ∧ st.root ≠ some b ∧
    ∃ vb, st.heap b = some vb ∧ sys.is_in_goal vb.state = true ∧
      st.lower_bound_cost = vb.cost_from_root) ∧
  (∀ g, V g → g ∈ st.list_vertices → ∀ vg, st.heap g = some vg → st.root ≠ some g →
    sys.is_in_goal vg.state = true →
    st.lower_bound_vertex ≠ none ∧ st.lower_bound_cost ≤ vg.cost_from_root)

end Notions3

section Notions4

variable {S U C O R : Type}

/-- The planner `st7` is what `switch_root` builds from `st` before the final
`update_all_costs` when it cuts inside the edge of `c`: a fresh root with state `nrs`
whose only child is `c`, the subtree of `c` as it was except that `c` hangs below the
fresh root by the edge `e`, and nothing else of the old vertex list. -/
def Rerooted (sys : System S U C O R) (st st7 : Rrts S C O) (nrs : S) (c : Nat)
    (e : Edge S C O) : Prop :=
  st7.root = some st.next ∧ st7.next = st.next + 1 ∧
  st7.do_branch_and_bound = st.do_branch_and_bound ∧
  st7.lower_bound_vertex = st.lower_bound_vertex ∧
  st7.lower_bound_cost = st.lower_bound_cost ∧
  (∃ surv : List Nat, st7.list_vertices = st.next :: surv ∧
    st7.kdtree = some (st.next :: surv) ∧ st7.num_vertices = (surv.length : Int) + 1 ∧
    surv.Nodup ∧ ∀ x, x ∈ surv ↔ Desc st c x) ∧
  st7.heap st.next = some { parent := none, state := nrs, children := [c], mark := 0, cost_from_root := sys.get_zero_cost, cost_from_parent := sys.get_zero_cost, edge_from_parent := none } ∧
  (∃ vc, st.heap c = some vc ∧ st7.heap c = some { vc with edge_from_parent := some e, parent := some st.next, cost_from_parent := e.cost }) ∧
  (∀ x, Desc st c x → x ≠ c → st7.heap x = st.heap x) ∧
  (∀ x ∈ st.list_vertices, ¬ Desc st c x → st7.heap x = none)

end Notions4

section Notions5

variable {S U C O R : Type}

/-- A decidable form of `MarksClear`. -/
def marks_clear_check (st : Rrts S C O) : Bool :=
  st.list_vertices.all (fun x =>
    match st.heap x with
    | some v => decide (v.mark = 0)
    | none => true)

end Notions5

section Example6

/-- The line system in which steering from a point to itself fails. -/
def strict_system : System Nat Nat (WithTop Nat) Nat Nat :=
  { line_system with
    extend_to := fun si sf check_obstacles traj o =>
      if si = sf then (1, traj, o) else line_system.extend_to si sf check_obstacles traj o }

/-- The planner of `strict_system` after `initialize` at the point 0. -/
def strict_s0 : Rrts Nat (WithTop Nat) Nat :=
  match initialise strict_system (rrts_c strict_system) 0 true with
  | some (_, s) => s
  | none => rrts_c strict_system

/-- Then the point 10 is sampled: vertex 1, the best vertex, below the root. -/
def strict_s1 : Rrts Nat (WithTop Nat) Nat :=
  after_iteration strict_system 4 (line_draw 10 [0]) strict_s0

/-- The planner after the root of `strict_s1` was switched with distance 3 (unchanged if
the call does not return). -/
def strict_s1_switched : Rrts Nat (WithTop Nat) Nat :=
  match switch_root strict_system line_dist 5 3 Trajectory.empty strict_s1 with
  | some (_, _, s) => s
  | none => strict_s1

end Example6

section Notions6

variable {S U C O R : Type} [Zero R]

/-- The edge into the non-root vertex `x` is obstacle free: the obstacle-checked
`extend_to(parent.state, x.state)` with the cached `opt_data` succeeds. -/
def EdgeFree (sys : System S U C O R) (st : Rrts S C O) (x : Nat) : Prop :=
  ∃ vx p vp e, st.heap x = some vx ∧ vx.parent = some p ∧ st.heap p = some vp ∧
    vx.edge_from_parent = some e ∧
    (sys.extend_to vp.state vx.state true Trajectory.empty e.opt_data).1 = 0

/-- The planner `st'` is `st` after the edges of the vertices in `G` were checked and
found obstacle free, vertices outside `T` being untouched and vertices in `T`
changed at most in the contents of their edge records. -/
def Checked (sys : System S U C O R) (st st' : Rrts S C O) (T G : Nat → Prop) : Prop :=
  SameShape st st' ∧ (∀ x, ¬ T x → st'.heap x = st.heap x) ∧ ∀ x, G x → EdgeFree sys st x

/-- The half of I4 that survives the removal of children: the child sets of listed
vertices are duplicate free and hold listed vertices with that parent. -/
def KidsOK (st : Rrts S C O) : Prop :=
  ∀ u ∈ st.list_vertices,
    (st.kids u).Nodup ∧ ∀ c ∈ st.kids u, c ∈ st.list_vertices ∧ st.par c = some u

end Notions6

/-! ## The Dubins steering model (`dubins.h`) -/

section Dubins

/-- The functions of `<math.h>` and the constants of `<math.h>` and `<float.h>` that
`dubins.h` uses, over the number type `K` that stands for `float`.  The arithmetic is
exact: neither the rounding nor the overflow of `float` is modelled. -/
structure Libm (K : Type) where
  cos : K → K
  sin : K → K
  atan2 : K → K → K
  acos : K → K
  sqrt : K → K
  M_PI : K
  FLT_MAX : K

/-- The class `dubins_optimization_data_c`. -/
structure dubins_optimization_data_c where
  turning_radius : Int
deriving DecidableEq

/-- The data members of the class `dubins_c`; the array `turning_radii` is a list, whose
length is `num_turning_radii`. -/
structure dubins_c (K : Type) where
  delta_distance : K
  turning_radii : List K

/-- Modelled from the spec: the state type `state_c<3>` of `dynamical_system.h` (absent
from the sources), "State is `(x, y, θ)`"; the control type `control_c<1>` is a
number. -/
abbrev dubins_state_t (K : Type) : Type := K × K × K

/-- The type `trajectory_t` of the Dubins model. -/
abbrev dubins_trajectory_t (K : Type) : Type := Trajectory (dubins_state_t K) K K

variable {K : Type} [LinearOrderedField K] [FloorRing K]

/-- The constant `M_PI_2` of `<math.h>`. -/
def Libm.M_PI_2 (m : Libm K) : K := m.M_PI / 2

/-- The constructor `dubins_optimization_data_c()`. -/
def dubins_optimization_data_new : dubins_optimization_data_c := { turning_radius := -1 }

/-- The constructor `dubins_c()`. -/
def dubins_new : dubins_c K := { delta_distance := 5 / 100, turning_radii := [35 / 10] }

/-- Modelled from the spec: `modulo_zero_2pi` of `dynamical_system.h` (absent from the
sources) reduces an angle to `[0, 2π)`. -/
def modulo_zero_2pi (m : Libm K) (t : K) : K :=
  t - 2 * m.M_PI * (Int.floor (t / (2 * m.M_PI)) : K)

/-- Modelled from the spec: `modulo_mpi_pi` of `dynamical_system.h` (absent from the
sources) wraps an angle to `[−π, π)`. -/
def modulo_mpi_pi (m : Libm K) (t : K) : K :=
  t - 2 * m.M_PI * (Int.floor ((t + m.M_PI) / (2 * m.M_PI)) : K)

/-- Modelled from the spec: `push_back` on the two sequences of a trajectory. -/
def Trajectory.push {S U R : Type} (t : Trajectory S U R) (s : S) (u : U) : Trajectory S U R :=
  { t with states := t.states ++ [s], controls := t.controls ++ [u] }

/-- The first `while` loop of `extend_dubins_spheres` (the arc on the first circle): the
final `t_inc_curr` and the trajectory; `none` when the recursion budget runs out. -/
def extend_dubins_spheres_arc1 (m : Libm K) (x_s1 y_s1 t_s1 turning_radius : K)
    (direction_s1 : Int) (del_t t_increment_s1 : K) :
    Nat → K → dubins_trajectory_t K → Option (K × dubins_trajectory_t K)
  | 0, t_inc_curr, traj => if t_inc_curr < t_increment_s1 then none else some (t_inc_curr, traj)
  | fuel + 1, t_inc_curr, traj =>
    if t_inc_curr < t_increment_s1 then
      let t_inc_next := t_inc_curr + del_t
      let t_inc_curr := if t_inc_next > t_increment_s1 then t_increment_s1 else t_inc_next
      let state_curr : dubins_state_t K :=
        (x_s1 + turning_radius * m.cos ((direction_s1 : K) * t_inc_curr + t_s1),
         y_s1 + turning_radius * m.sin ((direction_s1 : K) * t_inc_curr + t_s1),
         modulo_mpi_pi m ((direction_s1 : K) * t_inc_curr + t_s1
           + (if direction_s1 = 1 then m.M_PI_2 else 3 * m.M_PI_2)))
      let control_curr : K := (direction_s1 : K) * turning_radius
      extend_dubins_spheres_arc1 m x_s1 y_s1 t_s1 turning_radius direction_s1 del_t
        t_increment_s1 fuel t_inc_curr (traj.push state_curr control_curr)
    else some (t_inc_curr, traj)

/-- The second `while` loop of `extend_dubins_spheres` (the straight segment);
`t_inc_curr` is what the first loop left. -/
def extend_dubins_spheres_line (m : Libm K) (x_start y_start x_end y_end t_s1 : K)
    (direction_s1 : Int) (t_inc_curr del_d distance : K) :
    Nat → K → dubins_trajectory_t K → Option (dubins_trajectory_t K)
  | 0, d_inc_curr, traj => if d_inc_curr < distance then none else some traj
  | fuel + 1, d_inc_curr, traj =>
    if d_inc_curr < distance then
      let d_inc_next := d_inc_curr + del_d
      let d_inc_curr := if d_inc_next > distance then distance else d_inc_next
      let state_curr : dubins_state_t K :=
        ((x_end - x_start) * d_inc_curr / distance + x_start,
         (y_end - y_start) * d_inc_curr / distance + y_start,
         modulo_mpi_pi m ((direction_s1 : K) * t_inc_curr + t_s1
           + (if direction_s1 = 1 then m.M_PI_2 else 3 * m.M_PI_2)))
      let control_curr : K := 0
      extend_dubins_spheres_line m x_start y_start x_end y_end t_s1 direction_s1 t_inc_curr
        del_d distance fuel d_inc_curr (traj.push state_curr control_curr)
    else some traj

/-- The third `while` loop of `extend_dubins_spheres` (the arc on the second circle). -/
def extend_dubins_spheres_arc2 (m : Libm K) (x_s2 y_s2 t_s2 turning_radius : K)
    (direction_s2 : Int) (del_t t_increment_s2 : K) :
    Nat → K → dubins_trajectory_t K → Option (dubins_trajectory_t K)
  | 0, t_inc_curr, traj => if t_inc_curr < t_increment_s2 then none else some traj
  | fuel + 1, t_inc_curr, traj =>
    if t_inc_curr < t_increment_s2 then
      let t_inc_next := t_inc_curr + del_t
      let t_inc_curr := if t_inc_next > t_increment_s2 then t_increment_s2 else t_inc_next
      let state_curr : dubins_state_t K :=
        (x_s2 + turning_radius
           * m.cos ((direction_s2 : K) * (t_inc_curr - t_increment_s2) + t_s2),
         y_s2 + turning_radius
           * m.sin ((direction_s2 : K) * (t_inc_curr - t_increment_s2) + t_s2),
         modulo_mpi_pi m ((direction_s2 : K) * (t_inc_curr - t_increment_s2) + t_s2
           + (if direction_s2 = 1 then m.M_PI_2 else 3 * m.M_PI_2)))
      let control_curr : K := (direction_s2 : K) * turning_radius
      extend_dubins_spheres_arc2 m x_s2 y_s2 t_s2 turning_radius direction_s2 del_t
        t_increment_s2 fuel t_inc_curr (traj.push state_curr control_curr)
    else some traj

/-- The angles `t_start` and `t_end` that the two `switch` statements of
`extend_dubins_spheres` compute; `none` where they return `-1.0`. -/
def extend_dubins_spheres_angles (m : Libm K) (comb_no : Int)
    (turning_radius distance t_tr : K) : Option (K × K) :=
  if distance > 2 * turning_radius then
    let t_balls := m.acos (2 * turning_radius / distance)
    if comb_no = 1 then some (t_tr - t_balls, t_tr + m.M_PI - t_balls)
    else if comb_no = 2 then some (t_tr + t_balls, t_tr - m.M_PI + t_balls)
    else if comb_no = 3 then some (t_tr - m.M_PI_2, t_tr - m.M_PI_2)
    else if comb_no = 4 then some (t_tr + m.M_PI_2, t_tr + m.M_PI_2)
    else none
  else
    if comb_no = 1 ∨ comb_no = 2 then none
    else if comb_no = 3 then some (t_tr - m.M_PI_2, t_tr - m.M_PI_2)
    else if comb_no = 4 then some (t_tr + m.M_PI_2, t_tr + m.M_PI_2)
    else some (0, 0)

/-- The block `if (return_trajectory)` of `extend_dubins_spheres`: the trajectory it
leaves in `traj`, which it clears first; `none` when a loop exhausts the recursion
budget `fuel`. -/
def extend_dubins_spheres_trajectory (d : dubins_c K) (m : Libm K) (fuel : Nat)
    (x_s1 y_s1 t_s1 x_s2 y_s2 t_s2 turning_radius distance x_start y_start x_end y_end : K)
    (direction_s1 direction_s2 : Int) (t_increment_s1 t_increment_s2 total_cost : K) :
    Option (dubins_trajectory_t K) :=
  let traj : dubins_trajectory_t K :=
    { states := [], controls := [], total_variation := total_cost }
  let del_d := d.delta_distance
  let del_t := del_d / turning_radius
  match extend_dubins_spheres_arc1 m x_s1 y_s1 t_s1 turning_radius direction_s1 del_t
      t_increment_s1 fuel 0 traj with
  | none => none
  | some (t_inc_curr, traj) =>
    match extend_dubins_spheres_line m x_start y_start x_end y_end t_s1 direction_s1
        t_inc_curr del_d distance fuel 0 traj with
    | none => none
    | some traj =>
      extend_dubins_spheres_arc2 m x_s2 y_s2 t_s2 turning_radius direction_s2 del_t
        t_increment_s2 fuel 0 traj

/-- `dubins_c::extend_dubins_spheres`: the returned `float` and the output parameter
`traj`; `none` when a loop exhausts the recursion budget `fuel`. -/
def dubins_c.extend_dubins_spheres (d : dubins_c K) (m : Libm K) (fuel : Nat)
    (si sf : dubins_state_t K) (comb_no : Int) (turning_radius : K)
    (return_trajectory : Bool) (traj : dubins_trajectory_t K) :
    Option (K × dubins_trajectory_t K) :=
  let x_s1 := si.1
  let x_s2 := sf.1
  let y_s1 := si.2.1
  let y_s2 := sf.2.1
  let t_s1 := si.2.2
  let t_s2 := sf.2.2
  let x_tr := x_s2 - x_s1
  let y_tr := y_s2 - y_s1
  let t_tr := m.atan2 y_tr x_tr
  let distance := m.sqrt (x_tr * x_tr + y_tr * y_tr)
  match extend_dubins_spheres_angles m comb_no turning_radius distance t_tr with
  | none => some (-1, traj)
  | some (t_start, t_end) =>
    let x_start := x_s1 + turning_radius * m.cos t_start
    let y_start := y_s1 + turning_radius * m.sin t_start
    let x_end := x_s2 + turning_radius * m.cos t_end
    let y_end := y_s2 + turning_radius * m.sin t_end
    let direction_s1 : Int := if comb_no = 2 ∨ comb_no = 4 then -1 else 1
    let direction_s2 : Int := if comb_no = 1 ∨ comb_no = 4 then -1 else 1
    let t_increment_s1 := modulo_zero_2pi m ((direction_s1 : K) * (t_start - t_s1))
    let t_increment_s2 := modulo_zero_2pi m ((direction_s2 : K) * (t_s2 - t_end))
    if (t_increment_s1 > m.M_PI ∧ t_increment_s2 > m.M_PI)
        ∨ (t_increment_s1 > 3 * m.M_PI_2 ∨ t_increment_s2 > 3 * m.M_PI_2) then
      some (-1, traj)
    else
      let ts1c := modulo_mpi_pi m t_increment_s1
      let ts2c := modulo_mpi_pi m t_increment_s2
      let turning_cost := 0 * (|ts1c| + |ts2c|)
      let total_cost := ((|ts1c| + |ts2c|) * turning_radius + distance) + turning_cost
      if return_trajectory then
        match extend_dubins_spheres_trajectory d m fuel x_s1 y_s1 t_s1 x_s2 y_s2 t_s2
            turning_radius distance x_start y_start x_end y_end direction_s1 direction_s2
            t_increment_s1 t_increment_s2 total_cost with
        | none => none
        | some traj => some (total_cost, traj)
      else some (total_cost, traj)

/-- The selection loop of `extend_dubins_all` over `times[0..3]`: `min_time` and
`comb_min`. -/
def extend_dubins_all_select (m : Libm K) (times : List K) : K × Int :=
  (List.range 4).foldl
    (fun (acc : K × Int) i =>
      match times.get? i with
      | some ti => if ti ≥ 0 ∧ ti < acc.1 then (ti, (i : Int) + 1) else acc
      | none => acc)
    (m.FLT_MAX / 2, -1)

/-- `dubins_c::extend_dubins_all`: the returned `float` and the output parameter
`traj`. -/
def dubins_c.extend_dubins_all (d : dubins_c K) (m : Libm K) (fuel : Nat)
    (si sf : dubins_state_t K) (return_trajectory : Bool) (traj : dubins_trajectory_t K)
    (turning_radius : K) : Option (K × dubins_trajectory_t K) :=
  let ti := si.2.2
  let tf := sf.2.2
  let sin_ti := m.sin (-ti)
  let cos_ti := m.cos (-ti)
  let sin_tf := m.sin (-tf)
  let cos_tf := m.cos (-tf)
  let si_left : dubins_state_t K :=
    (si.1 + turning_radius * sin_ti, si.2.1 + turning_radius * cos_ti, ti + 3 * m.M_PI_2)
  let si_right : dubins_state_t K :=
    (si.1 - turning_radius * sin_ti, si.2.1 - turning_radius * cos_ti, ti + m.M_PI_2)
  let sf_left : dubins_state_t K :=
    (sf.1 + turning_radius * sin_tf, sf.2.1 + turning_radius * cos_tf, tf + 3 * m.M_PI_2)
  let sf_right : dubins_state_t K :=
    (sf.1 - turning_radius * sin_tf, sf.2.1 - turning_radius * cos_tf, tf + m.M_PI_2)
  match d.extend_dubins_spheres m fuel si_left sf_right 1 turning_radius return_trajectory
      traj with
  | none => none
  | some (times0, traj) =>
    match d.extend_dubins_spheres m fuel si_right sf_left 2 turning_radius return_trajectory
        traj with
    | none => none
    | some (times1, traj) =>
      match d.extend_dubins_spheres m fuel si_left sf_left 3 turning_radius
          return_trajectory traj with
      | none => none
      | some (times2, traj) =>
        match d.extend_dubins_spheres m fuel si_right sf_right 4 turning_radius
            return_trajectory traj with
        | none => none
        | some (times3, traj) =>
          let sel := extend_dubins_all_select m [times0, times1, times2, times3]
          if sel.2 = -1 then some (-1, traj) else some (sel.1, traj)

/-- The body of the loop of `dubins_c::evaluate_extend_cost` over the turning radii, for
the index `i`: `min_cost` and `best_turning_radius`. -/
def evaluate_extend_cost_step (d : dubins_c K) (m : Libm K) (fuel : Nat)
    (si sf : dubins_state_t K) (traj : dubins_trajectory_t K)
    (acc : Option (K × Int)) (i : Nat) : Option (K × Int) :=
  match acc with
  | none => none
  | some (min_cost, best_turning_radius) =>
    match d.turning_radii.get? i with
    | none => none
    | some tr =>
      match d.extend_dubins_all m fuel si sf false traj tr with
      | none => none
      | some (cost, _) =>
        if cost > 0 then
          if cost < min_cost then some (cost, (i : Int)) else some (min_cost, best_turning_radius)
        else some (min_cost, best_turning_radius)

/-- `dubins_c::evaluate_extend_cost`: the returned `float` and `opt_data`, which is
passed by reference. -/
def dubins_c.evaluate_extend_cost (d : dubins_c K) (m : Libm K) (fuel : Nat)
    (si sf : dubins_state_t K) (opt_data : dubins_optimization_data_c) :
    Option (K × dubins_optimization_data_c) :=
  let traj : dubins_trajectory_t K := Trajectory.empty
  if opt_data.turning_radius ≥ 0 then
    match d.turning_radii.get? opt_data.turning_radius.toNat with
    | none => none
    | some tr =>
      match d.extend_dubins_all m fuel si sf false traj tr with
      | none => none
      | some (cost, _) => some (cost, opt_data)
  else
    match (List.range d.turning_radii.length).reverse.foldl
        (evaluate_extend_cost_step d m fuel si sf traj) (some (m.FLT_MAX, -1)) with
    | none => none
    | some (min_cost, best_turning_radius) =>
      if min_cost < 0 ∨ min_cost > m.FLT_MAX / 2 then
        some (-1, { turning_radius := best_turning_radius })
      else some (min_cost, { turning_radius := best_turning_radius })

/-- The last two statements of `dubins_c::extend_to`: the call of `extend_dubins_all`
with the turning radius that `opt_data` selects, and `return 0`. -/
def dubins_c.extend_to_all (d : dubins_c K) (m : Libm K) (fuel : Nat)
    (si sf : dubins_state_t K) (traj : dubins_trajectory_t K)
    (opt_data : dubins_optimization_data_c) :
    Option (Int × dubins_trajectory_t K × dubins_optimization_data_c) :=
  let return_trajectory := true
  let best_turning_radius := opt_data.turning_radius
  if best_turning_radius < 0 then none
  else
    match d.turning_radii.get? best_turning_radius.toNat with
    | none => none
    | some tr =>
      match d.extend_dubins_all m fuel si sf return_trajectory traj tr with
      | none => none
      | some (_, traj1) => some (0, traj1, opt_data)

/-- `dubins_c::extend_to`: the return code, the output parameter `traj` and
`opt_data`; `none` for a read outside the array `turning_radii`. -/
def dubins_c.extend_to (d : dubins_c K) (m : Libm K) (fuel : Nat)
    (si sf : dubins_state_t K) (traj : dubins_trajectory_t K)
    (opt_data : dubins_optimization_data_c) :
    Option (Int × dubins_trajectory_t K × dubins_optimization_data_c) :=
  if opt_data.turning_radius < 0 then
    match d.evaluate_extend_cost m fuel si sf opt_data with
    | none => none
    | some (cost, opt_data1) =>
      if cost < 0 then some (1, traj, opt_data1)
      else d.extend_to_all m fuel si sf traj opt_data1
  else d.extend_to_all m fuel si sf traj opt_data

end Dubins

section DubinsNotions

variable {K : Type} [LinearOrderedField K] [FloorRing K]

/-- The facts about the math library that the evaluations of the Dubins model use; the
functions and constants of the real numbers satisfy them. -/
structure Libm.Sound (m : Libm K) : Prop where
  pi_pos : 0 < m.M_PI
  pi_le_four : m.M_PI ≤ 4
  cos_zero : m.cos 0 = 1
  sin_zero : m.sin 0 = 0
  cos_pi_div_two : m.cos (m.M_PI / 2) = 0
  sin_pi_div_two : m.sin (m.M_PI / 2) = 1
  sqrt_mul_self : ∀ x, 0 ≤ x → m.sqrt (x * x) = x
  sqrt_le_sqrt : ∀ x y, x ≤ y → m.sqrt x ≤ m.sqrt y
  atan2_zero : ∀ x, 0 < x → m.atan2 0 x = 0

end DubinsNotions

section DubinsParts

variable {K : Type} [LinearOrderedField K] [FloorRing K]

/-- The local arrays `si_left` and `sf_left` of `extend_dubins_all`, as a function of the
state `s` (`si` or `sf`): the centre of the left turning circle and the angle of `s` on
it. -/
def extend_dubins_all_left (m : Libm K) (s : dubins_state_t K) (turning_radius : K) :
    dubins_state_t K :=
  (s.1 + turning_radius * m.sin (-s.2.2), s.2.1 + turning_radius * m.cos (-s.2.2),
    s.2.2 + 3 * m.M_PI_2)

/-- The local arrays `si_right` and `sf_right` of `extend_dubins_all`. -/
def extend_dubins_all_right (m : Libm K) (s : dubins_state_t K) (turning_radius : K) :
    dubins_state_t K :=
  (s.1 - turning_radius * m.sin (-s.2.2), s.2.1 - turning_radius * m.cos (-s.2.2),
    s.2.2 + m.M_PI_2)

/-- The step "extend all four spheres" of `extend_dubins_all`: the array `times` and the
output parameter `traj` after the four calls of `extend_dubins_spheres`. -/
def extend_dubins_all_times (d : dubins_c K) (m : Libm K) (fuel : Nat)
    (si sf : dubins_state_t K) (return_trajectory : Bool) (traj : dubins_trajectory_t K)
    (turning_radius : K) : Option (List K × dubins_trajectory_t K) :=
  let si_left := extend_dubins_all_left m si turning_radius
  let si_right := extend_dubins_all_right m si turning_radius
  let sf_left := extend_dubins_all_left m sf turning_radius
  let sf_right := extend_dubins_all_right m sf turning_radius
  match d.extend_dubins_spheres m fuel si_left sf_right 1 turning_radius return_trajectory
      traj with
  | none => none
  | some (times0, traj) =>
    match d.extend_dubins_spheres m fuel si_right sf_left 2 turning_radius return_trajectory
        traj with
    | none => none
    | some (times1, traj) =>
      match d.extend_dubins_spheres m fuel si_left sf_left 3 turning_radius
          return_trajectory traj with
      | none => none
      | some (times2, traj) =>
        match d.extend_dubins_spheres m fuel si_right sf_right 4 turning_radius
            return_trajectory traj with
        | none => none
        | some (times3, traj) => some ([times0, times1, times2, times3], traj)

/-- The variable `distance` of `extend_dubins_spheres`: the distance of the two circle
centres. -/
def extend_dubins_spheres_distance (m : Libm K) (si sf : dubins_state_t K) : K :=
  m.sqrt ((sf.1 - si.1) * (sf.1 - si.1) + (sf.2.1 - si.2.1) * (sf.2.1 - si.2.1))

/-- The variables `t_increment_s1` and `t_increment_s2` of `extend_dubins_spheres` after
the two calls of `modulo_zero_2pi`; `none` where the `switch` statements return
`-1.0`. -/
def extend_dubins_spheres_increments (m : Libm K) (si sf : dubins_state_t K)
    (comb_no : Int) (turning_radius : K) : Option (K × K) :=
  let x_tr := sf.1 - si.1
  let y_tr := sf.2.1 - si.2.1
  let t_tr := m.atan2 y_tr x_tr
  let distance := m.sqrt (x_tr * x_tr + y_tr * y_tr)
  match extend_dubins_spheres_angles m comb_no turning_radius distance t_tr with
  | none => none
  | some (t_start, t_end) =>
    let direction_s1 : Int := if comb_no = 2 ∨ comb_no = 4 then -1 else 1
    let direction_s2 : Int := if comb_no = 1 ∨ comb_no = 4 then -1 else 1
    some (modulo_zero_2pi m ((direction_s1 : K) * (t_start - si.2.2)),
      modulo_zero_2pi m ((direction_s2 : K) * (sf.2.2 - t_end)))

/-- The test of `extend_dubins_spheres` on the two turn increments that makes it return
`-1.0`. -/
def extend_dubins_spheres_rejects (m : Libm K) (inc : K × K) : Prop :=
  (inc.1 > m.M_PI ∧ inc.2 > m.M_PI) ∨ (inc.1 > 3 * m.M_PI_2 ∨ inc.2 > 3 * m.M_PI_2)

instance extend_dubins_spheres_rejects_decidable (m : Libm K) (inc : K × K) :
    Decidable (extend_dubins_spheres_rejects m inc) := by
  unfold extend_dubins_spheres_rejects
  infer_instance

/-- The variable `total_cost` of `extend_dubins_spheres` for the turn increments `inc`
and the centre distance `distance`. -/
def extend_dubins_spheres_cost (m : Libm K) (inc : K × K) (turning_radius distance : K) :
    K :=
  let ts1c := modulo_mpi_pi m inc.1
  let ts2c := modulo_mpi_pi m inc.2
  let turning_cost := 0 * (|ts1c| + |ts2c|)
  ((|ts1c| + |ts2c|) * turning_radius + distance) + turning_cost

/-- Further facts about the math library, for the evaluation at the half turn:
`atan2` on the vertical axis and at the origin, the cosine and sine of `-π`, and the
lower bound `1E+37` that the C standard gives for `FLT_MAX`. -/
structure Libm.Exact (m : Libm K) : Prop where
  cos_neg_pi : m.cos (-m.M_PI) = -1
  sin_neg_pi : m.sin (-m.M_PI) = 0
  atan2_pos_zero : ∀ y, 0 < y → m.atan2 y 0 = m.M_PI / 2
  atan2_neg_zero : ∀ y, y < 0 → m.atan2 y 0 = -(m.M_PI / 2)
  atan2_zero_zero : m.atan2 0 0 = 0
  flt_max_ge : 10 ^ 37 ≤ m.FLT_MAX

end DubinsParts

section FindBestParentNotions

variable {S U C O R : Type}

/-- The variable `edge_cost` of step 1 of `find_best_parent` for the near vertex `v`:
the cost that `evaluate_extend_cost` gives for the edge from `v.state` to `si`, on a
default-constructed `opt_data`. -/
def find_best_parent_edge_cost (sys : System S U C O R) (si : S) (v : Vertex S C O) : C :=
  (sys.evaluate_extend_cost v.state si sys.opt_data_default).2.2

/-- The variable `v_cost` of step 1 of `find_best_parent` for the near vertex `v`. -/
def find_best_parent_v_cost [Add C] (sys : System S U C O R) (si : S) (v : Vertex S C O) :
    C :=
  v.cost_from_root + find_best_parent_edge_cost sys si v

/-- The near vertex `v` passes both calls of `find_best_parent`: `evaluate_extend_cost`
from `v.state` to `si` succeeds on a default-constructed `opt_data`, and the
obstacle-checked `extend_to` succeeds with the `opt_data` that `evaluate_extend_cost`
left. -/
def PassesBoth [Zero R] (sys : System S U C O R) (si : S) (v : Vertex S C O) : Prop :=
  (sys.evaluate_extend_cost v.state si sys.opt_data_default).1 = 0 ∧
  (sys.extend_to v.state si true Trajectory.empty
    (sys.evaluate_extend_cost v.state si sys.opt_data_default).2.1).1 = 0

instance passesBoth_decidable [Zero R] (sys : System S U C O R) (si : S) (v : Vertex S C O) :
    Decidable (PassesBoth sys si v) := by
  unfold PassesBoth
  infer_instance

/-- The parameter `traj` of `extend_to` is an output: the return code does not depend on
what the trajectory holds on entry. -/
def TrajectoryIsOutput (sys : System S U C O R) : Prop :=
  ∀ (a b : S) (c : Bool) (t1 t2 : Trajectory S U R) (o : O),
    (sys.extend_to a b c t1 o).1 = (sys.extend_to a b c t2 o).1

end FindBestParentNotions

section FindBestParentNotions2

variable {S U C O R : Type} [Add C]

/-- What step 1 of `find_best_parent` has recorded for a candidate pair: the vertex is
live, `evaluate_extend_cost` succeeded for it, the pair holds its `v_cost`, and the map
holds its `edge_cost`, its `v_cost` and the `opt_data` that `evaluate_extend_cost`
left. -/
def Recorded (sys : System S U C O R) (st : Rrts S C O) (si : S)
    (vmap : List (Nat × (C × C × O))) (p : Nat × C) : Prop :=
  ∃ v, st.heap p.1 = some v ∧
    (sys.evaluate_extend_cost v.state si sys.opt_data_default).1 = 0 ∧
    p.2 = find_best_parent_v_cost sys si v ∧
    vmap.lookup p.1 = some (find_best_parent_edge_cost sys si v, p.2,
      (sys.evaluate_extend_cost v.state si sys.opt_data_default).2.1)

end FindBestParentNotions2

section NearNotions

variable {S U C O R : Type}

/-- A handle from which following the parent links has no defined result: the walk
runs through vertices outside the vertex list into a deleted vertex. -/
inductive DeadChain (st : Rrts S C O) : Nat → Prop
  | dead (x : Nat) : x ∉ st.list_vertices → x < st.next → st.heap x = none → DeadChain st x
  | step (x p : Nat) (v : Vertex S C O) : x ∉ st.list_vertices → x < st.next →
      st.heap x = some v → v.parent = some p → DeadChain st p → DeadChain st x

/-- The recorded best vertex, if any, is a listed vertex or a handle left dangling (as
`switch_root` leaves it when it returns 5 or 6). -/
def BestSafe (st : Rrts S C O) : Prop :=
  ∀ b, st.lower_bound_vertex = some b → b ∈ st.list_vertices ∨ DeadChain st b

/-- The nearest-neighbour query of the draw succeeds when the index is not empty. -/
def NearestFound (st : Rrts S C O) (d : Draw S) : Prop :=
  match st.kdtree with
  | none => True
  | some kd => kd ≠ [] → d.kd_nearest.isSome = true

instance nearestFound_decidable (st : Rrts S C O) (d : Draw S) :
    Decidable (NearestFound st d) := by
  unfold NearestFound
  split <;> infer_instance

/-- What a planner operation changes outside the vertex list: the list and the handle
counter only grow, an unlisted handle below the counter stays unlisted and keeps what
the heap holds for it, and the best-vertex record is kept or names a listed vertex. -/
def Grown (st st' : Rrts S C O) : Prop :=
  (∀ h ∈ st.list_vertices, h ∈ st'.list_vertices) ∧ st.next ≤ st'.next ∧
  (∀ h, h ∉ st.list_vertices → h < st.next →
    h ∉ st'.list_vertices ∧ st'.heap h = st.heap h) ∧
  (st'.lower_bound_vertex = st.lower_bound_vertex ∨
    ∃ b, st'.lower_bound_vertex = some b ∧ b ∈ st'.list_vertices)

section

variable [Add C] [LT C] [DecidableRel (fun a b : C => a < b)] [Zero R] [Add R]
variable [LT R] [DecidableRel (fun a b : R => a < b)]

/-- The planner states reached from a call of `initialize` (on any planner object) by
finitely many calls of `iteration`, `check_tree` and `switch_root` that return, in any
order and with any return code, the draws of `iteration` being arbitrary draws whose
k-d tree answers come from the index. -/
inductive Operated (sys : System S U C O R) (dist : S → S → Bool → R) : Rrts S C O → Prop
  | init (st0 : Rrts S C O) (rs : S) (bnb : Bool) (st : Rrts S C O) :
      initialise sys st0 rs bnb = some (0, st) → Operated sys dist st
  | iter (st : Rrts S C O) (d : Draw S) (fuel : Nat) (code : Int) (st' : Rrts S C O) :
      Operated sys dist st → KdSound st d → iteration sys fuel d st = some (code, st') →
      Operated sys dist st'
  | check (st : Rrts S C O) (fuel : Nat) (code : Int) (st' : Rrts S C O) :
      Operated sys dist st → check_tree sys fuel st = some (code, st') → Operated sys dist st'
  | switch (st : Rrts S C O) (fuel : Nat) (distance : R) (cm cm' : Trajectory S U R)
      (code : Int) (st' : Rrts S C O) :
      Operated sys dist st →
      switch_root sys dist fuel distance cm st = some (code, cm', st') →
      Operated sys dist st'

end

end NearNotions

/-! ## Properties -/

set_option linter.unusedSectionVars false

section Heap

variable {S C O : Type}

@[simp] theorem setV_heap_same (st : Rrts S C O) (h : Nat) (vv : Vertex S C O) :
    (st.setV h vv).heap h = some vv := by
  simp [Rrts.setV]

theorem setV_heap_ne (st : Rrts S C O) (h k : Nat) (vv : Vertex S C O) (hk : k ≠ h) :
    (st.setV h vv).heap k = st.heap k := by
  simp [Rrts.setV, Function.update_noteq hk]

theorem setV_heap (st : Rrts S C O) (h k : Nat) (vv : Vertex S C O) :
    (st.setV h vv).heap k = if k = h then some vv else st.heap k := by
  by_cases hk : k = h
  · subst hk; simp
  · simp [hk, setV_heap_ne]

theorem modify_eq_some {st st' : Rrts S C O} {h : Nat} {f : Vertex S C O → Vertex S C O} :
    st.modify h f = some st' ↔ ∃ vv, st.heap h = some vv ∧ st' = st.setV h (f vv) := by
  unfold Rrts.modify
  cases hh : st.heap h with
  | none => simp
  | some vv => simp [eq_comm]

theorem Frame.frame_refl (st : Rrts S C O) : Frame st st :=
  ⟨rfl, rfl, rfl, rfl, rfl, rfl, fun _ => rfl⟩

theorem Frame.frame_trans {a b c : Rrts S C O} (h1 : Frame a b) (h2 : Frame b c) : Frame a c := by
  obtain ⟨a1, a2, a3, a4, a5, a6, a7⟩ := h1
  obtain ⟨b1, b2, b3, b4, b5, b6, b7⟩ := h2
  exact ⟨b1.trans a1, b2.trans a2, b3.trans a3, b4.trans a4, b5.trans a5, b6.trans a6,
    fun h => (b7 h).trans (a7 h)⟩

theorem Frame.of_modify {st st' : Rrts S C O} {h : Nat} {f : Vertex S C O → Vertex S C O}
    (hf : ∀ v, (f v).state = v.state) (hm : st.modify h f = some st') : Frame st st' := by
  obtain ⟨vv, hv, rfl⟩ := modify_eq_some.mp hm
  refine ⟨rfl, rfl, rfl, rfl, rfl, rfl, fun k => ?_⟩
  rw [setV_heap]
  split
  · next hk => subst hk; simp [hv, hf]
  · rfl

end Heap

section Basic

variable {S U C O R : Type} [Add C] [LT C] [DecidableRel (fun a b : C => a < b)]
variable [Zero R] [Add R]

theorem update_best_vertex_cases {sys : System S U C O R} {st st' : Rrts S C O} {v : Nat}
    (h : update_best_vertex sys st v = some st') :
    ∃ vv, st.heap v = some vv ∧
      ((st' = st) ∨
       (sys.is_in_goal vv.state = true ∧
        (st.lower_bound_vertex = none ∨ vv.cost_from_root < st.lower_bound_cost) ∧
        st' = { st with lower_bound_cost := vv.cost_from_root, lower_bound_vertex := some v })) := by
  unfold update_best_vertex at h
  cases hv : st.heap v with
  | none => simp [hv] at h
  | some vv =>
    refine ⟨vv, rfl, ?_⟩
    simp only [hv] at h
    split at h
    · split at h
      · right
        rename_i hg hc
        exact ⟨hg, hc, (Option.some.inj h).symm⟩
      · left; exact (Option.some.inj h).symm
    · left; exact (Option.some.inj h).symm

theorem update_best_vertex_heap {sys : System S U C O R} {st st' : Rrts S C O} {v : Nat}
    (h : update_best_vertex sys st v = some st') : st'.heap = st.heap := by
  obtain ⟨vv, _, h1 | ⟨_, _, h1⟩⟩ := update_best_vertex_cases h <;> subst h1 <;> rfl

theorem update_best_vertex_total (sys : System S U C O R) (st : Rrts S C O) (v : Nat)
    (vv : Vertex S C O) (hv : st.heap v = some vv) :
    ∃ st', update_best_vertex sys st v = some st' := by
  unfold update_best_vertex
  simp only [hv]
  split
  · split <;> exact ⟨_, rfl⟩
  · exact ⟨_, rfl⟩

theorem Frame.frame_of_update_best_vertex {sys : System S U C O R} {st st' : Rrts S C O} {v : Nat}
    (h : update_best_vertex sys st v = some st') : Frame st st' := by
  obtain ⟨vv, _, h1 | ⟨_, _, h1⟩⟩ := update_best_vertex_cases h <;> subst h1 <;>
    exact ⟨rfl, rfl, rfl, rfl, rfl, rfl, fun _ => rfl⟩

theorem insert_edge_into_spec {sys : System S U C O R} {st st' : Rrts S C O} {vs ve : Nat}
    {e : Edge S C O} (h : insert_edge_into sys st vs e ve = some st') :
    ∃ vvs vve st2, st.heap vs = some vvs ∧ st.heap ve = some vve ∧
      update_best_vertex sys (st.setV ve { vve with cost_from_parent := e.cost, cost_from_root := vvs.cost_from_root + e.cost }) ve = some st2 ∧
      st'.lower_bound_vertex = st2.lower_bound_vertex ∧
      st'.lower_bound_cost = st2.lower_bound_cost ∧
      st'.list_vertices = st.list_vertices ∧ st'.num_vertices = st.num_vertices ∧
      st'.next = st.next ∧ st'.kdtree = st.kdtree ∧ st'.root = st.root ∧
      st'.do_branch_and_bound = st.do_branch_and_bound ∧
      (vs ≠ ve → vve.parent ≠ some ve →
        st'.heap ve = some { vve with cost_from_parent := e.cost, cost_from_root := vvs.cost_from_root + e.cost, edge_from_parent := some e, parent := some vs } ∧
        st'.heap vs = some { vvs with children :=
          if ve ∈ (if vve.parent = some vs then vvs.children.erase ve else vvs.children)
          then (if vve.parent = some vs then vvs.children.erase ve else vvs.children)
          else (if vve.parent = some vs then vvs.children.erase ve else vvs.children) ++ [ve] } ∧
        (∀ p, vve.parent = some p → p ≠ vs →
          ∃ vp, st.heap p = some vp ∧
            st'.heap p = some { vp with children := vp.children.erase ve }) ∧
        (∀ k, k ≠ ve → k ≠ vs → vve.parent ≠ some k → st'.heap k = st.heap k)) := by
  unfold insert_edge_into at h
  cases hvs : st.heap vs with
  | none => simp [hvs] at h
  | some vvs =>
    simp only [hvs] at h
    cases h1 : st.modify ve (fun x => { x with cost_from_parent := e.cost, cost_from_root := vvs.cost_from_root + e.cost }) with
    | none => simp [h1] at h
    | some st1 =>
      simp only [h1] at h
      obtain ⟨vve, hve, rfl⟩ := modify_eq_some.mp h1
      cases h2 : update_best_vertex sys (st.setV ve { vve with cost_from_parent := e.cost, cost_from_root := vvs.cost_from_root + e.cost }) ve with
      | none => simp [h2] at h
      | some st2 =>
        simp only [h2] at h
        have hheap2 := update_best_vertex_heap h2
        have hfr := Frame.frame_of_update_best_vertex h2
        have hst2ve : st2.heap ve = some { vve with cost_from_parent := e.cost, cost_from_root := vvs.cost_from_root + e.cost } := by
          rw [hheap2]; simp
        simp only [Rrts.modify, hst2ve, setV_heap_same] at h
        refine ⟨vvs, vve, st2, rfl, hve, h2, ?_⟩
        obtain ⟨a1, a2, a3, a4, a5, a6, _⟩ := hfr
        have hk : ∀ k, k ≠ ve → st2.heap k = st.heap k := by
          intro k hk; rw [hheap2, setV_heap_ne _ _ _ _ hk]
        cases hp : vve.parent with
        | none =>
          simp only [hp, setV_heap_same] at h
          by_cases hne : vs = ve
          · subst hne
            simp only [setV_heap_same, Option.some.injEq] at h
            subst h
            exact ⟨rfl, rfl, a1, a2, a3, a4, a5, a6, fun hc => absurd rfl hc⟩
          · have hvs2 : st2.heap vs = some vvs := by rw [hk vs hne, hvs]
            simp only [setV_heap_ne _ _ _ _ hne, hvs2, Option.some.injEq] at h
            subst h
            refine ⟨rfl, rfl, a1, a2, a3, a4, a5, a6, fun _ _ => ⟨?_, ?_, ?_, ?_⟩⟩
            · simp [setV_heap, Ne.symm hne]
            · simp [setV_heap]
            · intro p hp'; exact absurd hp' (by simp)
            · intro k k1 k2 _
              simp [setV_heap, k1, k2, hk k k1]
        | some p =>
          simp only [hp, setV_heap_same] at h
          by_cases hpe : p = ve
          · subst hpe
            simp only [setV_heap_same] at h
            by_cases hne : vs = p
            · subst hne
              simp only [setV_heap_same, Option.some.injEq] at h
              subst h
              exact ⟨rfl, rfl, a1, a2, a3, a4, a5, a6, fun hc => absurd rfl hc⟩
            · have hvs2 : st2.heap vs = some vvs := by rw [hk vs hne, hvs]
              simp only [setV_heap_ne _ _ _ _ hne, hvs2, Option.some.injEq] at h
              subst h
              exact ⟨rfl, rfl, a1, a2, a3, a4, a5, a6, fun _ hc => absurd rfl hc⟩
          · simp only [setV_heap_ne _ _ _ _ hpe] at h
            cases hpl : st2.heap p with
            | none => simp [hpl] at h
            | some vp =>
              have hpl0 : st.heap p = some vp := by rw [← hk p hpe, hpl]
              simp only [hpl, setV_heap_ne _ _ _ _ (Ne.symm hpe), setV_heap_same] at h
              by_cases hne : vs = ve
              · subst hne
                simp only [setV_heap_same, Option.some.injEq] at h
                subst h
                exact ⟨rfl, rfl, a1, a2, a3, a4, a5, a6, fun hc => absurd rfl hc⟩
              · simp only [setV_heap_ne _ _ _ _ hne] at h
                by_cases hps : p = vs
                · subst hps
                  simp only [setV_heap_same, Option.some.injEq] at h
                  subst h
                  have hvp : vp = vvs := by rw [hvs] at hpl0; exact (Option.some.inj hpl0).symm
                  subst hvp
                  refine ⟨rfl, rfl, a1, a2, a3, a4, a5, a6, fun _ _ => ⟨?_, ?_, ?_, ?_⟩⟩
                  · simp [setV_heap, Ne.symm hne]
                  · simp [setV_heap]
                  · intro q hq hq2; exact absurd (Option.some.inj hq).symm hq2
                  · intro k k1 k2 _
                    simp [setV_heap, k1, k2, hk k k1]
                · have hvs2 : st2.heap vs = some vvs := by rw [hk vs hne, hvs]
                  simp only [setV_heap_ne _ _ _ _ (Ne.symm hps), setV_heap_ne _ _ _ _ hne, hvs2,
                    Option.some.injEq] at h
                  subst h
                  refine ⟨rfl, rfl, a1, a2, a3, a4, a5, a6, fun _ _ => ⟨?_, ?_, ?_, ?_⟩⟩
                  · simp [setV_heap, Ne.symm hne]
                  · simp [setV_heap, hps]
                  · intro q hq hq2
                    have : q = p := (Option.some.inj hq).symm
                    subst this
                    exact ⟨vp, hpl0, by simp [setV_heap, hps, hpe]⟩
                  · intro k k1 k2 k3
                    have k4 : k ≠ p := fun hc => k3 (by rw [hc])
                    simp [setV_heap, k1, k2, k4, hk k k1]

/-- The state left by `initialize`, field by field. -/
theorem initialise_spec (sys : System S U C O R) (st : Rrts S C O) (rs : S) (bnb : Bool) :
    ∃ st', initialise sys st rs bnb = some (0, st') ∧
      st'.list_vertices = [st.next] ∧ st'.root = some st.next ∧
      st'.heap st.next =
        some { parent := none, state := rs, children := [], mark := 0, edge_from_parent := none,
               cost_from_root := sys.get_zero_cost, cost_from_parent := sys.get_zero_cost } ∧
      st'.num_vertices = 1 ∧ st'.lower_bound_vertex = none ∧
      st'.lower_bound_cost = sys.get_inf_cost ∧ st'.do_branch_and_bound = bnb ∧
      st'.kdtree = some [st.next] ∧ st'.next = st.next + 1 ∧
      (∀ h ∈ st.list_vertices, h ≠ st.next → st'.heap h = none) ∧
      (∀ h, h ∉ st.list_vertices → h ≠ st.next → st'.heap h = st.heap h) := by
  simp only [initialise, set_root, new_vertex, Rrts.modify, Rrts.setV, insert_into_kdtree,
    Function.update_same, clear_list_vertices]
  refine ⟨_, rfl, rfl, rfl, ?_, rfl, rfl, rfl, rfl, rfl, rfl, ?_, ?_⟩
  · simp
  · intro h hl hn
    simp [Function.update_noteq hn, hl]
  · intro h hl hn
    simp [Function.update_noteq hn, hl]

end Basic

section T
variable {S U C O R : Type}

theorem SameLinks.links_refl (st : Rrts S C O) : SameLinks st st :=
  ⟨rfl, rfl, rfl, rfl, rfl, rfl, fun _ => rfl⟩

theorem SameLinks.links_trans {a b c : Rrts S C O} (h1 : SameLinks a b) (h2 : SameLinks b c) :
    SameLinks a c := by
  obtain ⟨a1, a2, a3, a4, a5, a6, a7⟩ := h1
  obtain ⟨b1, b2, b3, b4, b5, b6, b7⟩ := h2
  exact ⟨b1.trans a1, b2.trans a2, b3.trans a3, b4.trans a4, b5.trans a5, b6.trans a6,
    fun h => (b7 h).trans (a7 h)⟩

theorem SameLinks.symm {a b : Rrts S C O} (h1 : SameLinks a b) : SameLinks b a := by
  obtain ⟨a1, a2, a3, a4, a5, a6, a7⟩ := h1
  exact ⟨a1.symm, a2.symm, a3.symm, a4.symm, a5.symm, a6.symm, fun h => (a7 h).symm⟩

theorem SameLinks.links_heap_some {a b : Rrts S C O} (h : SameLinks a b) {k : Nat} {v : Vertex S C O}
    (hv : a.heap k = some v) : ∃ w, b.heap k = some w ∧ w.links = v.links := by
  have := h.2.2.2.2.2.2 k
  rw [hv] at this
  cases hb : b.heap k with
  | none => simp [hb] at this
  | some w => exact ⟨w, rfl, by simpa [hb] using this⟩

theorem SameLinks.par_eq {a b : Rrts S C O} (h : SameLinks a b) (k : Nat) : b.par k = a.par k := by
  have := h.2.2.2.2.2.2 k
  unfold Rrts.par
  cases ha : a.heap k <;> cases hb : b.heap k <;> simp [ha, hb, Vertex.links] at this ⊢
  exact this.1

theorem SameLinks.kids_eq {a b : Rrts S C O} (h : SameLinks a b) (k : Nat) :
    b.kids k = a.kids k := by
  have := h.2.2.2.2.2.2 k
  unfold Rrts.kids
  cases ha : a.heap k <;> cases hb : b.heap k <;> simp [ha, hb, Vertex.links] at this ⊢
  exact this.2.2.1

theorem SameLinks.has_edge_eq {a b : Rrts S C O} (h : SameLinks a b) (k : Nat) :
    b.has_edge k = a.has_edge k := by
  have := h.2.2.2.2.2.2 k
  unfold Rrts.has_edge
  cases ha : a.heap k <;> cases hb : b.heap k <;> simp [ha, hb, Vertex.links] at this ⊢
  rw [this.2.2.2.2.2]

theorem SameLinks.kids_fun {a b : Rrts S C O} (h : SameLinks a b) : b.kids = a.kids :=
  funext h.kids_eq

theorem SameLinks.treeInv {a b : Rrts S C O} (h : SameLinks a b) (t : TreeInv a) : TreeInv b := by
  obtain ⟨a1, a2, a3, a4, a5, a6, a7⟩ := h
  have h' : SameLinks a b := ⟨a1, a2, a3, a4, a5, a6, a7⟩
  refine ⟨?_, ?_, ?_, ?_, ?_, ?_, ?_, ?_, ?_, ?_⟩
  · rw [a1]; exact t.nodup
  · rw [a1, a2]; exact t.count
  · rw [a1, a4]; exact t.index
  · rw [a1, a3]; exact t.fresh
  · rw [a1]; intro k hk
    obtain ⟨vv, hv⟩ := t.live k hk
    obtain ⟨w, hw, _⟩ := h'.links_heap_some hv
    exact ⟨w, hw⟩
  · obtain ⟨r, r1, r2, r3⟩ := t.root_ok
    exact ⟨r, by rw [a5]; exact r1, by rw [a1]; exact r2, by rw [h'.par_eq]; exact r3⟩
  · rw [a1, a5]; intro k hk hp; rw [h'.par_eq] at hp; exact t.root_unique k hk hp
  · rw [a1]; intro k hk p hp; rw [h'.par_eq] at hp; rw [h'.kids_eq, h'.has_edge_eq]
    exact t.parent_ok k hk p hp
  · rw [a1]; intro u hu; rw [h'.kids_eq]
    refine ⟨(t.children_ok u hu).1, fun c hc => ?_⟩
    rw [h'.par_eq]; exact (t.children_ok u hu).2 c hc
  · obtain ⟨d, hd⟩ := t.depth
    refine ⟨d, ?_⟩
    rw [a1]; intro k hk p hp; rw [h'.par_eq] at hp; exact hd k hk p hp

theorem SameLinks.frame {a b : Rrts S C O} (h : SameLinks a b) : Frame a b := by
  obtain ⟨a1, a2, a3, a4, a5, a6, a7⟩ := h
  refine ⟨a1, a2, a3, a4, a5, a6, fun k => ?_⟩
  have := a7 k
  cases ha : a.heap k <;> cases hb : b.heap k <;> simp [ha, hb, Vertex.links] at this ⊢
  exact this.2.1

theorem SameLinks.setV_cost {st : Rrts S C O} {k : Nat} {vv : Vertex S C O} (c : C)
    (hv : st.heap k = some vv) : SameLinks st (st.setV k { vv with cost_from_root := c }) := by
  refine ⟨rfl, rfl, rfl, rfl, rfl, rfl, fun j => ?_⟩
  rw [setV_heap]
  split
  · next hk => subst hk; simp [hv, Vertex.links]
  · rfl

end T
section T2
variable {S U C O R : Type} [Add C] [LT C] [DecidableRel (fun a b : C => a < b)]
variable [Zero R] [Add R]

theorem SameLinks.links_of_update_best_vertex {sys : System S U C O R} {st st' : Rrts S C O} {v : Nat}
    (h : update_best_vertex sys st v = some st') : SameLinks st st' := by
  obtain ⟨vv, _, h1 | ⟨_, _, h1⟩⟩ := update_best_vertex_cases h <;> subst h1 <;>
    exact ⟨rfl, rfl, rfl, rfl, rfl, rfl, fun _ => rfl⟩

theorem below_mono {K : Nat → List Nat} : ∀ {n : Nat} {x : Nat}, Below K n x → Below K (n + 1) x
  | 0, _, h => absurd h (by simp [Below])
  | n + 1, x, h => by
    intro c hc
    exact below_mono (h c hc)

theorem foldlM_option_cons {α β : Type} (f : β → α → Option β) (s : β) (a : α) (l : List α) :
    List.foldlM f s (a :: l) = (f s a).bind (fun s' => List.foldlM f s' l) := by
  simp [List.foldlM_cons]

theorem update_branch_child_some {sys : System S U C O R}
    {recurse : Rrts S C O → Nat → Option (Rrts S C O)} {v pc : Nat} {s s' : Rrts S C O}
    (h : update_branch_child sys recurse v s pc = some s') :
    ∃ cur vc s2, s.heap v = some cur ∧ s.heap pc = some vc ∧
      update_best_vertex sys
        (s.setV pc { vc with cost_from_root := cur.cost_from_root + vc.cost_from_parent }) pc
        = some s2 ∧ recurse s2 pc = some s' := by
  unfold update_branch_child at h
  cases hv : s.heap v with
  | none => simp [hv] at h
  | some cur =>
    simp only [hv] at h
    cases hm : s.modify pc (fun child => { child with cost_from_root := cur.cost_from_root + child.cost_from_parent }) with
    | none => simp [hm] at h
    | some s1 =>
      simp only [hm] at h
      obtain ⟨vc, hvc, rfl⟩ := modify_eq_some.mp hm
      cases hu : update_best_vertex sys (s.setV pc { vc with cost_from_root := cur.cost_from_root + vc.cost_from_parent }) pc with
      | none => simp [hu] at h
      | some s2 =>
        simp only [hu] at h
        exact ⟨cur, vc, s2, rfl, hvc, hu, h⟩

theorem update_branch_cost_links (sys : System S U C O R) :
    ∀ (n : Nat) (st st' : Rrts S C O) (v : Nat),
      update_branch_cost sys n st v = some st' → SameLinks st st' ∧ Below st.kids n v
  | 0, st, st', v, h => by simp [update_branch_cost] at h
  | n + 1, st, st', v, h => by
    unfold update_branch_cost at h
    cases hv : st.heap v with
    | none => simp [hv] at h
    | some vv =>
      simp only [hv] at h
      have hkids : st.kids v = vv.children := by simp [Rrts.kids, hv]
      have key : ∀ (l : List Nat) (s : Rrts S C O), SameLinks st s →
          List.foldlM (update_branch_child sys (update_branch_cost sys n) v) s l = some st' →
          SameLinks st st' ∧ ∀ c ∈ l, Below st.kids n c := by
        intro l
        induction l with
        | nil =>
          intro s hs hf
          simp at hf
          subst hf
          exact ⟨hs, by simp⟩
        | cons c l ih =>
          intro s hs hf
          rw [foldlM_option_cons] at hf
          cases hb : update_branch_child sys (update_branch_cost sys n) v s c with
          | none => simp [hb] at hf
          | some s3 =>
            simp only [hb, Option.some_bind] at hf
            obtain ⟨cur, vc, s2, h1, h2, h3, h4⟩ := update_branch_child_some hb
            have hs1 := SameLinks.setV_cost (cur.cost_from_root + vc.cost_from_parent) h2
            have hs2 := SameLinks.links_of_update_best_vertex h3
            obtain ⟨hs3, hbel⟩ := update_branch_cost_links sys n _ _ _ h4
            have hs03 : SameLinks st s3 := hs.links_trans (hs1.links_trans (hs2.links_trans hs3))
            obtain ⟨r1, r2⟩ := ih s3 hs03 hf
            refine ⟨r1, ?_⟩
            intro x hx
            rcases List.mem_cons.mp hx with rfl | hx
            · have : s2.kids = st.kids := (hs.links_trans (hs1.links_trans hs2)).kids_fun
              rw [← this]; exact hbel
            · exact r2 x hx
      obtain ⟨r1, r2⟩ := key vv.children st (SameLinks.links_refl st) h
      refine ⟨r1, ?_⟩
      intro c hc
      rw [hkids] at hc
      exact r2 c hc

end T2

section T
variable {S U C O R : Type}

theorem below_of_reach {K : Nat → List Nat} {n x y : Nat} (hb : Below K n x)
    (hr : Relation.ReflTransGen (fun a b => b ∈ K a) x y) : Below K n y := by
  induction hr with
  | refl => exact hb
  | tail _ hbc ih =>
    cases n with
    | zero => exact absurd ih (by simp [Below])
    | succ m => exact below_mono (ih _ hbc)

theorem below_no_cycle {K : Nat → List Nat} :
    ∀ (n x : Nat), Below K n x → Relation.TransGen (fun a b => b ∈ K a) x x → False
  | 0, _, hb, _ => by simp [Below] at hb
  | n + 1, x, hb, hc => by
    obtain ⟨c, hxc, hcx⟩ := Relation.TransGen.head'_iff.mp hc
    exact below_no_cycle n x (below_of_reach (hb c hxc) hcx) hc

theorem mem_ins {a c : Nat} {l : List Nat} :
    c ∈ (if a ∈ l then l else l ++ [a]) ↔ c = a ∨ c ∈ l := by
  by_cases h : a ∈ l
  · simp only [h, if_true]
    constructor
    · exact Or.inr
    · rintro (rfl | h') <;> assumption
  · simp only [h, if_false, List.mem_append, List.mem_singleton]
    exact or_comm

theorem nodup_ins {a : Nat} {l : List Nat} (hl : l.Nodup) :
    (if a ∈ l then l else l ++ [a]).Nodup := by
  by_cases h : a ∈ l
  · simpa [h] using hl
  · simp only [h, if_false]
    exact List.Nodup.append hl (List.nodup_singleton a) (by simpa using h)

theorem par_eq_some {st : Rrts S C O} {k p : Nat} :
    st.par k = some p ↔ ∃ vv, st.heap k = some vv ∧ vv.parent = some p := by
  unfold Rrts.par
  cases st.heap k <;> simp

theorem par_of_heap {st : Rrts S C O} {k : Nat} {vv : Vertex S C O} (h : st.heap k = some vv) :
    st.par k = vv.parent := by
  simp [Rrts.par, h]

theorem kids_of_heap {st : Rrts S C O} {k : Nat} {vv : Vertex S C O} (h : st.heap k = some vv) :
    st.kids k = vv.children := by
  simp [Rrts.kids, h]

theorem has_edge_of_heap {st : Rrts S C O} {k : Nat} {vv : Vertex S C O}
    (h : st.heap k = some vv) : st.has_edge k = vv.edge_from_parent.isSome := by
  simp [Rrts.has_edge, h]

theorem TreeInv.par_ne_self {st : Rrts S C O} (t : TreeInv st) {k : Nat}
    (hk : k ∈ st.list_vertices) : st.par k ≠ some k := by
  obtain ⟨d, hd⟩ := t.depth
  intro h
  exact absurd (hd k hk k h) (lt_irrefl _)

theorem TreeInv.chain_root {st : Rrts S C O} (t : TreeInv st) {r : Nat} (hr : st.root = some r) :
    ∀ x ∈ st.list_vertices, Relation.ReflTransGen (fun a b => st.par a = some b) x r := by
  obtain ⟨d, hd⟩ := t.depth
  have key : ∀ n x, d x = n → x ∈ st.list_vertices →
      Relation.ReflTransGen (fun a b => st.par a = some b) x r := by
    intro n
    induction n using Nat.strong_induction_on with
    | _ n ih =>
      intro x hx hxl
      cases hp : st.par x with
      | none =>
        have := t.root_unique x hxl hp
        rw [hr] at this
        rw [Option.some.inj this]
      | some p =>
        have hpl := (t.parent_ok x hxl p hp).1
        have hlt := hd x hxl p hp
        exact Relation.ReflTransGen.head hp (ih (d p) (by omega) p rfl hpl)
  intro x hx
  exact key (d x) x rfl hx

end T

section T
variable {S U C O R : Type} [Add C] [LT C] [DecidableRel (fun a b : C => a < b)]
variable [Zero R] [Add R]

/-- The effect of re-parenting the listed vertex `vn` under the listed vertex `v`
on the link structure of a well-formed tree. -/
theorem rewire_insert_view {sys : System S U C O R} {st st1 : Rrts S C O} {v vn : Nat}
    {e : Edge S C O} (t : TreeInv st) (hv : v ∈ st.list_vertices)
    (hvn : vn ∈ st.list_vertices) (hne : v ≠ vn)
    (h : insert_edge_into sys st v e vn = some st1) :
    Frame st st1 ∧
    (∀ k, st1.par k = if k = vn then some v else st.par k) ∧
    (∀ u ∈ st.list_vertices, ∀ c, c ∈ st1.kids u ↔ (c = vn ∧ u = v) ∨ (c ≠ vn ∧ c ∈ st.kids u)) ∧
    (∀ u ∈ st.list_vertices, (st1.kids u).Nodup) ∧
    (∀ k, st1.has_edge k = if k = vn then true else st.has_edge k) ∧
    (∀ k, k ≠ vn → ∀ w, st1.heap k = some w → ∃ w0, st.heap k = some w0 ∧
      w.cost_from_root = w0.cost_from_root ∧ w.cost_from_parent = w0.cost_from_parent ∧
      w.parent = w0.parent) ∧
    (∃ vv vvn w, st.heap v = some vv ∧ st.heap vn = some vvn ∧ st1.heap vn = some w ∧
      w.cost_from_parent = e.cost ∧ w.cost_from_root = vv.cost_from_root + e.cost ∧
      w.parent = some v ∧ w.state = vvn.state ∧
      update_best_vertex sys (st.setV vn { vvn with cost_from_parent := e.cost, cost_from_root := vv.cost_from_root + e.cost }) vn
        = some { st.setV vn { vvn with cost_from_parent := e.cost, cost_from_root := vv.cost_from_root + e.cost } with
                 lower_bound_vertex := st1.lower_bound_vertex,
                 lower_bound_cost := st1.lower_bound_cost }) := by
  obtain ⟨vv, vvn, st2, h1, h2, h3, h4, h5, h6, h7, h8, h9, h10, h11, h12⟩ :=
    insert_edge_into_spec h
  have hpar : vvn.parent ≠ some vn := by
    have := t.par_ne_self hvn
    rwa [par_of_heap h2] at this
  obtain ⟨g1, g2, g3, g4⟩ := h12 hne hpar
  have hlive : ∀ k, (st1.heap k).isSome = (st.heap k).isSome := by
    intro k
    by_cases k1 : k = vn
    · subst k1; simp [g1, h2]
    · by_cases k2 : k = v
      · subst k2; simp [g2, h1]
      · by_cases k3 : vvn.parent = some k
        · obtain ⟨vp, q1, q2⟩ := g3 k k3 k2
          simp [q1, q2]
        · rw [g4 k k1 k2 k3]
  have hstate : ∀ k, (st1.heap k).map (fun x => x.state) = (st.heap k).map (fun x => x.state) := by
    intro k
    by_cases k1 : k = vn
    · subst k1; simp [g1, h2]
    · by_cases k2 : k = v
      · subst k2; simp [g2, h1]
      · by_cases k3 : vvn.parent = some k
        · obtain ⟨vp, q1, q2⟩ := g3 k k3 k2
          simp [q1, q2]
        · rw [g4 k k1 k2 k3]
  have hparv : ∀ k, st1.par k = if k = vn then some v else st.par k := by
    intro k
    by_cases k1 : k = vn
    · subst k1; simp [par_of_heap g1]
    · simp only [k1, if_false]
      by_cases k2 : k = v
      · subst k2; simp [par_of_heap g2, par_of_heap h1]
      · by_cases k3 : vvn.parent = some k
        · obtain ⟨vp, q1, q2⟩ := g3 k k3 k2
          simp [par_of_heap q1, par_of_heap q2]
        · simp [Rrts.par, g4 k k1 k2 k3]
  have hkidsv : st1.kids v = (if vn ∈ (if vvn.parent = some v then vv.children.erase vn else vv.children)
          then (if vvn.parent = some v then vv.children.erase vn else vv.children)
          else (if vvn.parent = some v then vv.children.erase vn else vv.children) ++ [vn]) := by
    rw [kids_of_heap g2]
  have hkv0 : st.kids v = vv.children := kids_of_heap h1
  have hvnv : vn ∈ st.kids v → vvn.parent = some v := by
    intro hm
    have := ((t.children_ok v hv).2 vn hm).2
    rwa [par_of_heap h2] at this
  have hnodv := (t.children_ok v hv).1
  refine ⟨⟨h6, h7, h8, h9, h10, h11, hstate⟩, hparv, ?_, ?_, ?_, ?_, ?_⟩
  · intro u hu c
    by_cases u2 : u = v
    · subst u2
      rw [hkidsv, mem_ins]
      by_cases hpv : vvn.parent = some u
      · simp only [hpv, if_true]
        rw [← hkv0, List.Nodup.mem_erase_iff hnodv]
        simp
      · simp only [hpv, if_false]
        rw [← hkv0]
        constructor
        · rintro (rfl | hc)
          · exact Or.inl ⟨rfl, trivial⟩
          · exact Or.inr ⟨fun hcv => hpv (hvnv (hcv ▸ hc)), hc⟩
        · rintro (⟨rfl, _⟩ | ⟨_, hc⟩)
          · exact Or.inl rfl
          · exact Or.inr hc
    · by_cases u1 : u = vn
      · subst u1
        rw [kids_of_heap g1, kids_of_heap h2]
        simp only [u2, and_false, false_or]
        constructor
        · intro hc
          refine ⟨fun hcu => ?_, hc⟩
          subst hcu
          have := ((t.children_ok c hvn).2 c (by rw [kids_of_heap h2]; exact hc)).2
          exact t.par_ne_self hvn this
        · exact fun hc => hc.2
      · by_cases u3 : vvn.parent = some u
        · obtain ⟨vp, q1, q2⟩ := g3 u u3 u2
          rw [kids_of_heap q2, kids_of_heap q1]
          have hnodu := (t.children_ok u hu).1
          rw [kids_of_heap q1] at hnodu
          simp only [List.Nodup.mem_erase_iff hnodu]
          simp [u2]
        · have hsame : st1.kids u = st.kids u := by simp [Rrts.kids, g4 u u1 u2 u3]
          rw [hsame]
          simp only [u2, and_false, false_or]
          constructor
          · intro hc
            refine ⟨fun hcv => ?_, hc⟩
            subst hcv
            have := ((t.children_ok u hu).2 c hc).2
            rw [par_of_heap h2] at this
            exact u3 this
          · exact fun hc => hc.2
  · intro u hu
    by_cases u2 : u = v
    · subst u2
      rw [hkidsv]
      apply nodup_ins
      rw [← hkv0]
      split
      · exact hnodv.erase vn
      · exact hnodv
    · by_cases u1 : u = vn
      · subst u1
        rw [kids_of_heap g1]
        have := (t.children_ok u hvn).1
        rwa [kids_of_heap h2] at this
      · by_cases u3 : vvn.parent = some u
        · obtain ⟨vp, q1, q2⟩ := g3 u u3 u2
          rw [kids_of_heap q2]
          have hnodu := (t.children_ok u hu).1
          rw [kids_of_heap q1] at hnodu
          exact hnodu.erase vn
        · have hsame : st1.kids u = st.kids u := by simp [Rrts.kids, g4 u u1 u2 u3]
          rw [hsame]; exact (t.children_ok u hu).1
  · intro k
    by_cases k1 : k = vn
    · subst k1; simp [has_edge_of_heap g1]
    · simp only [k1, if_false]
      by_cases k2 : k = v
      · subst k2; simp [has_edge_of_heap g2, has_edge_of_heap h1]
      · by_cases k3 : vvn.parent = some k
        · obtain ⟨vp, q1, q2⟩ := g3 k k3 k2
          simp [has_edge_of_heap q1, has_edge_of_heap q2]
        · simp [Rrts.has_edge, g4 k k1 k2 k3]
  · intro k k1 w hw
    by_cases k2 : k = v
    · subst k2
      rw [g2] at hw
      exact ⟨vv, h1, by rw [← Option.some.inj hw], by rw [← Option.some.inj hw],
        by rw [← Option.some.inj hw]⟩
    · by_cases k3 : vvn.parent = some k
      · obtain ⟨vp, q1, q2⟩ := g3 k k3 k2
        rw [q2] at hw
        exact ⟨vp, q1, by rw [← Option.some.inj hw], by rw [← Option.some.inj hw],
          by rw [← Option.some.inj hw]⟩
      · rw [g4 k k1 k2 k3] at hw
        exact ⟨w, hw, rfl, rfl, rfl⟩
  · refine ⟨vv, vvn, _, h1, h2, g1, rfl, rfl, rfl, rfl, ?_⟩
    rw [h3, h4, h5]
    obtain ⟨x, _, c1 | ⟨_, _, c1⟩⟩ := update_best_vertex_cases h3 <;> subst c1 <;> rfl

end T

section T
variable {S U C O R : Type} [Add C] [LT C] [DecidableRel (fun a b : C => a < b)]
variable [Zero R] [Add R]

/-- If the cost propagation below `vn` can terminate after `vn` was re-parented
under `v`, then `vn` was not an ancestor of `v`. -/
theorem rewire_insert_nochain {sys : System S U C O R} {st st1 : Rrts S C O} {v vn n : Nat}
    {e : Edge S C O} (t : TreeInv st) (hv : v ∈ st.list_vertices)
    (hvn : vn ∈ st.list_vertices) (hne : v ≠ vn)
    (h : insert_edge_into sys st v e vn = some st1) (hb : Below st1.kids n vn) :
    ¬ Relation.ReflTransGen (fun a b => st.par a = some b) v vn := by
  obtain ⟨⟨f1, f2, f3, f4, f5, f6, f7⟩, vpar, vkids, vnod, vedge, vcost, vvn⟩ :=
    rewire_insert_view t hv hvn hne h
  have hup : ∀ x, Relation.ReflTransGen (fun a b => st.par a = some b) x vn →
      x ∈ st.list_vertices → Relation.ReflTransGen (fun a b => b ∈ st1.kids a) vn x := by
    intro x hx
    induction hx using Relation.ReflTransGen.head_induction_on with
    | refl => intro _; exact Relation.ReflTransGen.refl
    | @head a c hxy _ ih =>
      intro ha
      by_cases hav : a = vn
      · rw [hav]
      · obtain ⟨hcl, hac, _⟩ := t.parent_ok a ha c hxy
        exact Relation.ReflTransGen.tail (ih hcl) ((vkids c hcl a).mpr (Or.inr ⟨hav, hac⟩))
  have hnochain : ¬ Relation.ReflTransGen (fun a b => st.par a = some b) v vn := by
    intro hc
    have h1 := hup v hc hv
    have h2 : vn ∈ st1.kids v := (vkids v hv vn).mpr (Or.inl ⟨rfl, rfl⟩)
    exact below_no_cycle n vn hb (Relation.TransGen.tail' h1 h2)
  exact hnochain

/-- Re-parenting `vn` under `v` keeps the tree invariants when `vn` is not an ancestor
of `v`. -/
theorem rewire_insert_tree_of_nochain {sys : System S U C O R} {st st1 : Rrts S C O}
    {v vn : Nat} {e : Edge S C O} (t : TreeInv st) (hv : v ∈ st.list_vertices)
    (hvn : vn ∈ st.list_vertices) (hne : v ≠ vn)
    (h : insert_edge_into sys st v e vn = some st1)
    (hnochain : ¬ Relation.ReflTransGen (fun a b => st.par a = some b) v vn) :
    TreeInv st1 := by
  classical
  obtain ⟨⟨f1, f2, f3, f4, f5, f6, f7⟩, vpar, vkids, vnod, vedge, vcost, vvn⟩ :=
    rewire_insert_view t hv hvn hne h
  obtain ⟨r, hr1, hr2, hr3⟩ := t.root_ok
  have hrvn : r ≠ vn := by
    intro hc
    apply hnochain
    rw [← hc]
    exact t.chain_root hr1 v hv
  obtain ⟨d, hd⟩ := t.depth
  refine ⟨?_, ?_, ?_, ?_, ?_, ?_, ?_, ?_, ?_, ?_⟩
  · rw [f1]; exact t.nodup
  · rw [f1, f2]; exact t.count
  · rw [f1, f4]; exact t.index
  · rw [f1, f3]; exact t.fresh
  · rw [f1]; intro k hk
    obtain ⟨vv, hvv⟩ := t.live k hk
    have := f7 k
    rw [hvv] at this
    cases hk1 : st1.heap k with
    | none => simp [hk1] at this
    | some w => exact ⟨w, rfl⟩
  · exact ⟨r, by rw [f5]; exact hr1, by rw [f1]; exact hr2, by rw [vpar, if_neg hrvn]; exact hr3⟩
  · rw [f1, f5]; intro k hk hp
    rw [vpar] at hp
    by_cases hkv : k = vn
    · simp [hkv] at hp
    · rw [if_neg hkv] at hp; exact t.root_unique k hk hp
  · rw [f1]; intro k hk p hp
    rw [vpar] at hp
    rw [vedge]
    by_cases hkv : k = vn
    · rw [if_pos hkv] at hp
      have : p = v := (Option.some.inj hp).symm
      subst this
      exact ⟨hv, (vkids p hv k).mpr (Or.inl ⟨hkv, rfl⟩), by simp [hkv]⟩
    · rw [if_neg hkv] at hp
      obtain ⟨q1, q2, q3⟩ := t.parent_ok k hk p hp
      exact ⟨q1, (vkids p q1 k).mpr (Or.inr ⟨hkv, q2⟩), by simp [hkv, q3]⟩
  · rw [f1]; intro u hu
    refine ⟨vnod u hu, fun c hc => ?_⟩
    rw [vpar]
    rcases (vkids u hu c).mp hc with ⟨rfl, rfl⟩ | ⟨hcv, hcu⟩
    · exact ⟨hvn, by simp⟩
    · rw [if_neg hcv]; exact (t.children_ok u hu).2 c hcu
  · refine ⟨fun x => if Relation.ReflTransGen (fun a b => st.par a = some b) x vn
        then d x + d v + 1 else d x, ?_⟩
    rw [f1]; intro k hk p hp
    beta_reduce
    rw [vpar] at hp
    by_cases hkv : k = vn
    · rw [if_pos hkv] at hp
      have : p = v := (Option.some.inj hp).symm
      subst this
      subst hkv
      simp only [hnochain, if_false]
      rw [if_pos Relation.ReflTransGen.refl]
      omega
    · rw [if_neg hkv] at hp
      have hlt := hd k hk p hp
      by_cases hkc : Relation.ReflTransGen (fun a b => st.par a = some b) k vn
      · have hpc : Relation.ReflTransGen (fun a b => st.par a = some b) p vn := by
          rcases Relation.ReflTransGen.cases_head hkc with hc | ⟨c, hc1, hc2⟩
          · exact absurd hc hkv
          · have hc1' : st.par k = some c := hc1
            rw [hp] at hc1'
            rw [Option.some.inj hc1']; exact hc2
        rw [if_pos hkc, if_pos hpc]; omega
      · have hpc : ¬ Relation.ReflTransGen (fun a b => st.par a = some b) p vn :=
          fun hc => hkc (Relation.ReflTransGen.head hp hc)
        rw [if_neg hkc, if_neg hpc]; exact hlt

end T

section T
variable {S U C O R : Type} [Add C] [LT C] [DecidableRel (fun a b : C => a < b)]
variable [Zero R] [Add R]

/-- If the cost propagation below `vn` can terminate after `vn` was re-parented
under `v`, then `vn` was not an ancestor of `v`, and the links form a tree again. -/
theorem rewire_insert_tree {sys : System S U C O R} {st st1 : Rrts S C O} {v vn n : Nat}
    {e : Edge S C O} (t : TreeInv st) (hv : v ∈ st.list_vertices)
    (hvn : vn ∈ st.list_vertices) (hne : v ≠ vn)
    (h : insert_edge_into sys st v e vn = some st1) (hb : Below st1.kids n vn) :
    TreeInv st1 ∧ ¬ Relation.ReflTransGen (fun a b => st.par a = some b) v vn :=
  ⟨rewire_insert_tree_of_nochain t hv hvn hne h (rewire_insert_nochain t hv hvn hne h hb),
    rewire_insert_nochain t hv hvn hne h hb⟩

end T

section T
variable {S U C O R : Type} [Add C] [LT C] [DecidableRel (fun a b : C => a < b)]
variable [Zero R] [Add R]

/-- Cost propagation repairs I2 below `v`: if I2 holds everywhere except at the
children of `v` (and at an exempt set), it holds everywhere afterwards. -/
theorem update_branch_cost_costs (sys : System S U C O R) :
    ∀ (n : Nat) (st st' : Rrts S C O) (v : Nat) (E : Nat → Prop),
      TreeInv st → v ∈ st.list_vertices → update_branch_cost sys n st v = some st' →
      (∀ x ∈ st.list_vertices, CostAt st x ∨ E x ∨ st.par x = some v) →
      ∀ x ∈ st.list_vertices, CostAt st' x ∨ E x
  | 0, st, st', v, E, _, _, h, _ => by simp [update_branch_cost] at h
  | n + 1, st, st', v, E, t, hv, h, hpre => by
    unfold update_branch_cost at h
    cases hvv : st.heap v with
    | none => simp [hvv] at h
    | some vv =>
      simp only [hvv] at h
      have hkids : st.kids v = vv.children := kids_of_heap hvv
      have key : ∀ (l : List Nat) (s : Rrts S C O), SameLinks st s →
          (∀ c ∈ l, c ∈ st.kids v) →
          (∀ x ∈ st.list_vertices, CostAt s x ∨ E x ∨ x ∈ l) →
          List.foldlM (update_branch_child sys (update_branch_cost sys n) v) s l = some st' →
          ∀ x ∈ st.list_vertices, CostAt st' x ∨ E x := by
        intro l
        induction l with
        | nil =>
          intro s _ _ hJ hf
          simp at hf
          subst hf
          intro x hx
          rcases hJ x hx with h1 | h1 | h1
          · exact Or.inl h1
          · exact Or.inr h1
          · simp at h1
        | cons c l ih =>
          intro s hs hl hJ hf
          rw [foldlM_option_cons] at hf
          cases hb : update_branch_child sys (update_branch_cost sys n) v s c with
          | none => simp [hb] at hf
          | some s3 =>
            simp only [hb, Option.some_bind] at hf
            obtain ⟨cur, vc, s2, h1, h2, h3, h4⟩ := update_branch_child_some hb
            have hs1 := SameLinks.setV_cost (cur.cost_from_root + vc.cost_from_parent) h2
            have hs2 := SameLinks.links_of_update_best_vertex h3
            have hheap2 := update_best_vertex_heap h3
            obtain ⟨hs3, _⟩ := update_branch_cost_links sys n _ _ _ h4
            have hs02 : SameLinks st s2 := hs.links_trans (hs1.links_trans hs2)
            have hs03 : SameLinks st s3 := hs02.links_trans hs3
            have t2 : TreeInv s2 := hs02.treeInv t
            have hcv : c ∈ st.kids v := hl c (List.mem_cons_self c l)
            obtain ⟨hcl, hcpar⟩ := (t.children_ok v hv).2 c hcv
            have hcne : c ≠ v := by
              intro hc
              rw [hc] at hcpar
              exact t.par_ne_self hv hcpar
            have hl2 : s2.list_vertices = st.list_vertices := hs02.1
            have hpre2 : ∀ x ∈ s2.list_vertices,
                CostAt s2 x ∨ (E x ∨ x ∈ l) ∨ s2.par x = some c := by
              intro x hx
              rw [hl2] at hx
              by_cases hxc : s2.par x = some c
              · exact Or.inr (Or.inr hxc)
              · rcases hJ x hx with g | g | g
                · by_cases hxe : x = c
                  · subst hxe
                    left
                    intro w p wp e1 e2 e3
                    rw [hheap2, setV_heap_same] at e1
                    have e1' := Option.some.inj e1
                    subst e1'
                    have : s.par x = some v := by rw [hs.par_eq]; exact hcpar
                    rw [par_of_heap h2] at this
                    simp only at e2
                    rw [this] at e2
                    have : p = v := (Option.some.inj e2).symm
                    subst this
                    rw [hheap2, setV_heap_ne _ _ _ _ (Ne.symm hcne), h1] at e3
                    rw [← Option.some.inj e3]
                  · left
                    intro w p wp e1 e2 e3
                    rw [hheap2, setV_heap_ne _ _ _ _ hxe] at e1
                    have hpc : p ≠ c := by
                      intro hpc
                      apply hxc
                      rw [hs02.par_eq, ← hs.par_eq, par_of_heap e1, e2, hpc]
                    rw [hheap2, setV_heap_ne _ _ _ _ hpc] at e3
                    exact g w p wp e1 e2 e3
                · exact Or.inr (Or.inl (Or.inl g))
                · rcases List.mem_cons.mp g with g | g
                  · subst g
                    left
                    intro w p wp e1 e2 e3
                    rw [hheap2, setV_heap_same] at e1
                    have e1' := Option.some.inj e1
                    subst e1'
                    have : s.par x = some v := by rw [hs.par_eq]; exact hcpar
                    rw [par_of_heap h2] at this
                    simp only at e2
                    rw [this] at e2
                    have : p = v := (Option.some.inj e2).symm
                    subst this
                    rw [hheap2, setV_heap_ne _ _ _ _ (Ne.symm hcne), h1] at e3
                    rw [← Option.some.inj e3]
                  · exact Or.inr (Or.inl (Or.inr g))
            have hrec := update_branch_cost_costs sys n s2 s3 c (fun x => E x ∨ x ∈ l) t2
              (by rw [hl2]; exact hcl) h4 hpre2
            refine ih s3 hs03 (fun c' hc' => hl c' (List.mem_cons_of_mem c hc')) ?_ hf
            intro x hx
            rcases hrec x (by rw [hl2]; exact hx) with g | g | g
            · exact Or.inl g
            · exact Or.inr (Or.inl g)
            · exact Or.inr (Or.inr g)
      refine key vv.children st (SameLinks.links_refl st) (fun c hc => by rw [hkids]; exact hc) ?_ h
      intro x hx
      rcases hpre x hx with g | g | g
      · exact Or.inl g
      · exact Or.inr (Or.inl g)
      · right; right
        rw [← hkids]
        exact (t.parent_ok x hx v g).2.1

end T

section T
variable {S U C O R : Type} [Add C] [LT C] [DecidableRel (fun a b : C => a < b)]
variable [Zero R] [Add R]

theorem update_best_vertex_bestListed {sys : System S U C O R} {st st' : Rrts S C O} {v : Nat}
    (h : update_best_vertex sys st v = some st') (hv : v ∈ st.list_vertices)
    (hb : BestListed st) : BestListed st' := by
  obtain ⟨vv, _, h1 | ⟨_, _, h1⟩⟩ := update_best_vertex_cases h <;> subst h1
  · exact hb
  · intro b hb'
    simp only at hb'
    rw [← Option.some.inj hb']
    exact hv

theorem update_branch_cost_bestListed (sys : System S U C O R) :
    ∀ (n : Nat) (st st' : Rrts S C O) (v : Nat),
      TreeInv st → v ∈ st.list_vertices → BestListed st →
      update_branch_cost sys n st v = some st' → BestListed st'
  | 0, st, st', v, _, _, _, h => by simp [update_branch_cost] at h
  | n + 1, st, st', v, t, hv, hbl, h => by
    unfold update_branch_cost at h
    cases hvv : st.heap v with
    | none => simp [hvv] at h
    | some vv =>
      simp only [hvv] at h
      have hkids : st.kids v = vv.children := kids_of_heap hvv
      have key : ∀ (l : List Nat) (s : Rrts S C O), SameLinks st s →
          (∀ c ∈ l, c ∈ st.kids v) → BestListed s →
          List.foldlM (update_branch_child sys (update_branch_cost sys n) v) s l = some st' →
          BestListed st' := by
        intro l
        induction l with
        | nil =>
          intro s _ _ hJ hf
          simp at hf
          subst hf
          exact hJ
        | cons c l ih =>
          intro s hs hl hJ hf
          rw [foldlM_option_cons] at hf
          cases hb : update_branch_child sys (update_branch_cost sys n) v s c with
          | none => simp [hb] at hf
          | some s3 =>
            simp only [hb, Option.some_bind] at hf
            obtain ⟨cur, vc, s2, h1, h2, h3, h4⟩ := update_branch_child_some hb
            have hs1 := SameLinks.setV_cost (cur.cost_from_root + vc.cost_from_parent) h2
            have hs2 := SameLinks.links_of_update_best_vertex h3
            obtain ⟨hs3, _⟩ := update_branch_cost_links sys n _ _ _ h4
            have hs02 : SameLinks st s2 := hs.links_trans (hs1.links_trans hs2)
            have hs03 : SameLinks st s3 := hs02.links_trans hs3
            have t2 : TreeInv s2 := hs02.treeInv t
            have hcv : c ∈ st.kids v := hl c (List.mem_cons_self c l)
            obtain ⟨hcl, _⟩ := (t.children_ok v hv).2 c hcv
            have hJ1 : BestListed (s.setV c { vc with cost_from_root := cur.cost_from_root + vc.cost_from_parent }) := hJ
            have hJ2 : BestListed s2 :=
              update_best_vertex_bestListed h3 (by
                show c ∈ s.list_vertices
                rw [hs.1]; exact hcl) hJ1
            have hJ3 := update_branch_cost_bestListed sys n s2 s3 c t2
              (by rw [hs02.1]; exact hcl) hJ2 h4
            exact ih s3 hs03 (fun c' hc' => hl c' (List.mem_cons_of_mem c hc')) hJ3 hf
      exact key vv.children st (SameLinks.links_refl st) (fun c hc => by rw [hkids]; exact hc) hbl h

/-- One step of the rewiring loop preserves the tree invariants, I2 and the
membership of the best vertex in the vertex list. -/
theorem rewire_vertex_inv {sys : System S U C O R} {st st' : Rrts S C O} {v pvn fuel : Nat}
    (t : TreeInv st) (hc : CostInv st) (hbl : BestListed st) (hv : v ∈ st.list_vertices)
    (hvn : pvn ∈ st.list_vertices) (hne : v ≠ pvn)
    (h : rewire_vertex sys fuel v st pvn = some st') :
    TreeInv st' ∧ CostInv st' ∧ BestListed st' ∧ Frame st st' := by
  unfold rewire_vertex at h
  split at h
  · rename_i vv vn hvv hvnn
    simp only at h
    split at h
    · rw [← Option.some.inj h]; exact ⟨t, hc, hbl, Frame.frame_refl st⟩
    · split at h
      · split at h
        · rw [← Option.some.inj h]; exact ⟨t, hc, hbl, Frame.frame_refl st⟩
        · split at h
          · exact absurd h (by simp)
          · rename_i st1 hins
            obtain ⟨hs, hbelow⟩ := update_branch_cost_links sys fuel _ _ _ h
            obtain ⟨t1, _⟩ := rewire_insert_tree t hv hvn hne hins hbelow
            obtain ⟨fr, vpar, vkids, vnod, vedge, vcost, w0, w1, w, q1, q2, q3, q4, q5, q6, q7, q8⟩ :=
              rewire_insert_view t hv hvn hne hins
            have hl1 : st1.list_vertices = st.list_vertices := fr.1
            have hbl1 : BestListed st1 := by
              intro b hb
              rw [hl1]
              obtain ⟨x, _, c1 | ⟨_, _, c1⟩⟩ := update_best_vertex_cases q8
              · have := congrArg Rrts.lower_bound_vertex c1
                simp only at this
                rw [this] at hb
                exact hbl b hb
              · have := congrArg Rrts.lower_bound_vertex c1
                simp only at this
                rw [this] at hb
                rw [← Option.some.inj hb]; exact hvn
            refine ⟨hs.treeInv t1, ?_, ?_, fr.frame_trans hs.frame⟩
            · have := update_branch_cost_costs sys fuel st1 st' pvn (fun _ => False) t1
                (by rw [hl1]; exact hvn) h ?_
              · intro x hx
                rw [hs.1] at hx
                rcases this x hx with g | g
                · exact g
                · exact absurd g id
              · intro x hx
                rw [hl1] at hx
                by_cases hxp : st1.par x = some pvn
                · exact Or.inr (Or.inr hxp)
                · left
                  by_cases hxe : x = pvn
                  · subst hxe
                    intro a p ap e1 e2 e3
                    rw [q3] at e1
                    have e1' := Option.some.inj e1
                    subst e1'
                    rw [q6] at e2
                    have : p = v := (Option.some.inj e2).symm
                    subst this
                    obtain ⟨z, z1, z2, _, _⟩ := vcost p hne ap e3
                    rw [q1] at z1
                    rw [q5, q4, z2, ← Option.some.inj z1]
                  · intro a p ap e1 e2 e3
                    obtain ⟨z, z1, z2, z3, z4⟩ := vcost x hxe a e1
                    have hpp : p ≠ pvn := by
                      intro hpp
                      apply hxp
                      rw [par_of_heap e1, e2, hpp]
                    obtain ⟨y, y1, y2, _, _⟩ := vcost p hpp ap e3
                    rw [z2, z3, y2]
                    exact hc x hx z p y z1 (by rw [← z4]; exact e2) y1
            · exact update_branch_cost_bestListed sys fuel st1 st' pvn t1
                (by rw [hl1]; exact hvn) hbl1 h
      · rw [← Option.some.inj h]; exact ⟨t, hc, hbl, Frame.frame_refl st⟩
  · exact absurd h (by simp)

end T

section T
variable {S U C O R : Type} [Add C] [LT C] [DecidableRel (fun a b : C => a < b)]
variable [Zero R] [Add R]

theorem insert_edge_cases {sys : System S U C O R} {st st' : Rrts S C O} {vs : Nat}
    {e : Edge S C O} {r : Option Nat} (h : insert_edge sys st vs e = some (r, st')) :
    ∃ vvs, st.heap vs = some vvs ∧
      ((r = none ∧ st' = st ∧ st.do_branch_and_bound = true ∧
          st.lower_bound_cost < vvs.cost_from_root + e.cost) ∨
       (r = some st.next ∧
          ¬ (st.do_branch_and_bound = true ∧ st.lower_bound_cost < vvs.cost_from_root + e.cost) ∧
          ∃ kd, st.kdtree = some kd ∧
            insert_edge_into sys
              { (new_vertex sys st e.end_state).2 with
                kdtree := some (kd ++ [st.next]),
                list_vertices := st.list_vertices ++ [st.next],
                num_vertices := st.num_vertices + 1 } vs e st.next = some st')) := by
  unfold insert_edge at h
  cases hvs : st.heap vs with
  | none => simp [hvs] at h
  | some vvs =>
    refine ⟨vvs, rfl, ?_⟩
    simp only [hvs] at h
    split at h
    · rename_i hc
      simp only [Option.some.injEq, Prod.mk.injEq] at h
      exact Or.inl ⟨h.1.symm, h.2.symm, hc.1, hc.2⟩
    · rename_i hc
      right
      cases hkd : st.kdtree with
      | none => simp [insert_into_kdtree, new_vertex, hkd] at h
      | some kd =>
        simp only [insert_into_kdtree, new_vertex, hkd, Function.update_same] at h
        split at h
        · exact absurd h (by simp)
        · rename_i st3 hins
          simp only [Option.some.injEq, Prod.mk.injEq] at h
          refine ⟨h.1.symm, hc, kd, rfl, ?_⟩
          rw [← h.2]
          exact hins

end T

section T
variable {S U C O R : Type} [Add C] [LT C] [DecidableRel (fun a b : C => a < b)]
variable [Zero R] [Add R]

/-- Inserting a new vertex below a listed vertex preserves the invariants. -/
theorem insert_edge_inv {sys : System S U C O R} {st st' : Rrts S C O} {vs nv : Nat}
    {e : Edge S C O} (t : TreeInv st) (hc : CostInv st) (hbl : BestListed st)
    (hvs : vs ∈ st.list_vertices) (h : insert_edge sys st vs e = some (some nv, st')) :
    nv = st.next ∧ st'.list_vertices = st.list_vertices ++ [nv] ∧
    st'.num_vertices = st.num_vertices + 1 ∧
    st'.do_branch_and_bound = st.do_branch_and_bound ∧ st'.root = st.root ∧
    (∃ w, st'.heap nv = some w ∧ w.state = e.end_state) ∧
    (∀ k, k ≠ nv → (st'.heap k).map (fun x => x.state) = (st.heap k).map (fun x => x.state)) ∧
    TreeInv st' ∧ CostInv st' ∧ BestListed st' := by
  obtain ⟨vvs, h1, ⟨hr, _⟩ | ⟨hr, _, kd, hkd, hins⟩⟩ := insert_edge_cases h
  · exact absurd hr (by simp)
  have hnv : nv = st.next := Option.some.inj hr
  subst hnv
  have hfresh : st.next ∉ st.list_vertices := fun hm => absurd (t.fresh _ hm) (lt_irrefl _)
  have hnn : ∀ k ∈ st.list_vertices, k ≠ st.next := fun k hk hc' => hfresh (hc' ▸ hk)
  have hne : vs ≠ st.next := hnn _ hvs
  obtain ⟨vvs', vve, st2, g1, g2, g3, g4, g5, g6, g7, g8, g9, g10, g11, g12⟩ :=
    insert_edge_into_spec hins
  simp only [new_vertex, Function.update_same, Function.update_noteq hne] at g1 g2
  rw [h1] at g1
  have := Option.some.inj g1
  subst this
  have := Option.some.inj g2
  subst this
  obtain ⟨k1, k2, _, k4⟩ := g12 hne (by simp)
  simp only [new_vertex, if_false, reduceCtorEq] at k1 k2 k4 g6 g7 g8 g9 g10 g11
  have hold : ∀ k, k ≠ st.next → k ≠ vs → st'.heap k = st.heap k := by
    intro k q1 q2
    rw [k4 k q1 q2 (by simp)]
    exact Function.update_noteq q1 _ _
  have hparv : ∀ k, st'.par k = if k = st.next then some vs else st.par k := by
    intro k
    by_cases q1 : k = st.next
    · subst q1; simp [par_of_heap k1]
    · rw [if_neg q1]
      by_cases q2 : k = vs
      · subst q2; simp [par_of_heap k2, par_of_heap h1]
      · simp [Rrts.par, hold k q1 q2]
  have hkidsv : ∀ u, st'.kids u = if u = st.next then [] else if u = vs then
      (if st.next ∈ st.kids vs then st.kids vs else st.kids vs ++ [st.next]) else st.kids u := by
    intro u
    by_cases q1 : u = st.next
    · subst q1; simp [kids_of_heap k1]
    · rw [if_neg q1]
      by_cases q2 : u = vs
      · subst q2; simp [kids_of_heap k2, kids_of_heap h1]
      · simp [Rrts.kids, hold u q1 q2, q2]
  have hedgev : ∀ k, st'.has_edge k = if k = st.next then true else st.has_edge k := by
    intro k
    by_cases q1 : k = st.next
    · subst q1; simp [has_edge_of_heap k1]
    · rw [if_neg q1]
      by_cases q2 : k = vs
      · subst q2; simp [has_edge_of_heap k2, has_edge_of_heap h1]
      · simp [Rrts.has_edge, hold k q1 q2]
  have hcostv : ∀ k, k ≠ st.next → ∀ w, st'.heap k = some w → ∃ w0, st.heap k = some w0 ∧
      w.cost_from_root = w0.cost_from_root ∧ w.cost_from_parent = w0.cost_from_parent ∧
      w.parent = w0.parent ∧ w.state = w0.state := by
    intro k q1 w hw
    by_cases q2 : k = vs
    · subst q2
      rw [k2] at hw
      exact ⟨vvs, h1, by rw [← Option.some.inj hw], by rw [← Option.some.inj hw],
        by rw [← Option.some.inj hw], by rw [← Option.some.inj hw]⟩
    · rw [hold k q1 q2] at hw
      exact ⟨w, hw, rfl, rfl, rfl, rfl⟩
  have hmem : ∀ k, k ∈ st'.list_vertices ↔ k ∈ st.list_vertices ∨ k = st.next := by
    intro k; rw [g6]; simp
  obtain ⟨d, hd⟩ := t.depth
  refine ⟨rfl, g6, g7, g11, g10, ⟨_, k1, rfl⟩, ?_, ⟨?_, ?_, ?_, ?_, ?_, ?_, ?_, ?_, ?_, ?_⟩, ?_, ?_⟩
  · intro k q1
    by_cases q2 : k = vs
    · subst q2; simp [k2, h1]
    · rw [hold k q1 q2]
  · rw [g6]
    exact List.Nodup.append t.nodup (List.nodup_singleton _) (by simpa using hfresh)
  · rw [g6, g7, t.count]; simp
  · rw [g6, g9]
    have := t.index
    rw [hkd] at this
    rw [Option.some.inj this]
  · intro k hk
    rw [g8]
    rcases (hmem k).mp hk with q | q
    · have := t.fresh k q; omega
    · omega
  · intro k hk
    rcases (hmem k).mp hk with q | q
    · by_cases q2 : k = vs
      · subst q2; exact ⟨_, k2⟩
      · rw [hold k (hnn _ q) q2]; exact t.live k q
    · subst q; exact ⟨_, k1⟩
  · obtain ⟨r, r1, r2, r3⟩ := t.root_ok
    refine ⟨r, by rw [g10]; exact r1, (hmem r).mpr (Or.inl r2), ?_⟩
    rw [hparv, if_neg (hnn _ r2)]; exact r3
  · intro k hk hp
    rw [hparv] at hp
    rw [g10]
    rcases (hmem k).mp hk with q | q
    · rw [if_neg (hnn _ q)] at hp
      exact t.root_unique k q hp
    · simp [q] at hp
  · intro k hk p hp
    rw [hparv] at hp
    rw [hedgev, hkidsv, hmem]
    rcases (hmem k).mp hk with q | q
    · have q1 : k ≠ st.next := hnn _ q
      rw [if_neg q1] at hp
      obtain ⟨z1, z2, z3⟩ := t.parent_ok k q p hp
      have q3 : p ≠ st.next := hnn _ z1
      refine ⟨Or.inl z1, ?_, by rw [if_neg q1]; exact z3⟩
      rw [if_neg q3]
      by_cases q4 : p = vs
      · subst q4; rw [if_pos rfl]; exact mem_ins.mpr (Or.inr z2)
      · rw [if_neg q4]; exact z2
    · subst q
      rw [if_pos rfl] at hp
      have : p = vs := (Option.some.inj hp).symm
      subst this
      refine ⟨Or.inl hvs, ?_, by simp⟩
      rw [if_neg hne, if_pos rfl]
      exact mem_ins.mpr (Or.inl rfl)
  · intro u hu
    rw [hkidsv]
    rcases (hmem u).mp hu with q | q
    · have q1 : u ≠ st.next := hnn _ q
      rw [if_neg q1]
      by_cases q4 : u = vs
      · subst q4
        rw [if_pos rfl]
        refine ⟨nodup_ins (t.children_ok u q).1, fun c hcm => ?_⟩
        rw [hparv, hmem]
        rcases mem_ins.mp hcm with z | z
        · subst z; exact ⟨Or.inr rfl, by simp⟩
        · obtain ⟨z1, z2⟩ := (t.children_ok u q).2 c z
          exact ⟨Or.inl z1, by rw [if_neg (hnn _ z1)]; exact z2⟩
      · rw [if_neg q4]
        refine ⟨(t.children_ok u q).1, fun c hcm => ?_⟩
        rw [hparv, hmem]
        obtain ⟨z1, z2⟩ := (t.children_ok u q).2 c hcm
        exact ⟨Or.inl z1, by rw [if_neg (hnn _ z1)]; exact z2⟩
    · subst q
      rw [if_pos rfl]
      exact ⟨List.nodup_nil, fun c hcm => absurd hcm (by simp)⟩
  · refine ⟨fun x => if x = st.next then d vs + 1 else d x, ?_⟩
    intro k hk p hp
    beta_reduce
    rw [hparv] at hp
    rcases (hmem k).mp hk with q | q
    · have q1 : k ≠ st.next := hnn _ q
      rw [if_neg q1] at hp
      obtain ⟨z1, _, _⟩ := t.parent_ok k q p hp
      rw [if_neg q1, if_neg (hnn _ z1)]
      exact hd k q p hp
    · subst q
      rw [if_pos rfl] at hp
      have : p = vs := (Option.some.inj hp).symm
      subst this
      rw [if_pos rfl, if_neg hne]; omega
  · intro x hx a p ap e1 e2 e3
    rcases (hmem x).mp hx with q | q
    · have q1 : x ≠ st.next := hnn _ q
      obtain ⟨z, z1, z2, z3, z4, _⟩ := hcostv x q1 a e1
      rw [z4] at e2
      have hp0 : st.par x = some p := by rw [par_of_heap z1]; exact e2
      obtain ⟨y1, _, _⟩ := t.parent_ok x q p hp0
      obtain ⟨y, y2, y3, _, _, _⟩ := hcostv p (hnn _ y1) ap e3
      rw [z2, z3, y3]
      exact hc x q z p y z1 e2 y2
    · subst q
      rw [k1] at e1
      have := Option.some.inj e1
      subst this
      simp only at e2
      have : p = vs := (Option.some.inj e2).symm
      subst this
      rw [k2] at e3
      rw [← Option.some.inj e3]
  · intro b hb
    rw [hmem]
    rw [g4] at hb
    obtain ⟨x, _, c1 | ⟨_, _, c1⟩⟩ := update_best_vertex_cases g3
    · rw [c1] at hb
      exact Or.inl (hbl b hb)
    · rw [c1] at hb
      simp only at hb
      exact Or.inr (Option.some.inj hb).symm

end T

section T
variable {S U C O R : Type} [Add C] [LT C] [DecidableRel (fun a b : C => a < b)]
variable [Zero R] [Add R]

theorem find_best_parent_pairs_mem (sys : System S U C O R) (st : Rrts S C O) (si : S) :
    ∀ (near : List Nat) (pairs : List (Nat × C)) (vmap : List (Nat × (C × C × O)))
      (pairs' : List (Nat × C)) (vmap' : List (Nat × (C × C × O))),
      find_best_parent_pairs sys st si near pairs vmap = some (pairs', vmap') →
      ∀ p ∈ pairs', p ∈ pairs ∨ p.1 ∈ near
  | [], pairs, vmap, pairs', vmap', h, p, hp => by
    simp only [find_best_parent_pairs, Option.some.injEq, Prod.mk.injEq] at h
    rw [← h.1] at hp
    exact Or.inl hp
  | pv :: rest, pairs, vmap, pairs', vmap', h, p, hp => by
    unfold find_best_parent_pairs at h
    cases hv : st.heap pv with
    | none => simp [hv] at h
    | some v =>
      simp only [hv] at h
      split at h
      · rcases find_best_parent_pairs_mem sys st si rest _ _ _ _ h p hp with g | g
        · exact Or.inl g
        · exact Or.inr (List.mem_cons_of_mem _ g)
      · rcases find_best_parent_pairs_mem sys st si rest _ _ _ _ h p hp with g | g
        · rcases List.mem_append.mp g with g | g
          · exact Or.inl g
          · right
            rw [List.mem_singleton.mp g]
            exact List.mem_cons_self _ _
        · exact Or.inr (List.mem_cons_of_mem _ g)

theorem find_best_parent_scan_cases (sys : System S U C O R) (st : Rrts S C O) (si : S) :
    ∀ (ps : List (Nat × C)) (traj : Trajectory S U R) (vmap : List (Nat × (C × C × O)))
      (ret : Int) (bp : Option Nat) (be : Option (Edge S C O)),
      find_best_parent_scan sys st si ps traj vmap = some (ret, bp, be) →
      (ret = 1 ∧ bp = none ∧ be = none) ∨
      (ret = 0 ∧ ∃ b ed, bp = some b ∧ be = some ed ∧ (∃ p ∈ ps, p.1 = b) ∧ ed.end_state = si)
  | [], traj, vmap, ret, bp, be, h => by
    simp only [find_best_parent_scan, Option.some.injEq, Prod.mk.injEq] at h
    exact Or.inl ⟨h.1.symm, h.2.1.symm, h.2.2.symm⟩
  | p :: ps, traj, vmap, ret, bp, be, h => by
    unfold find_best_parent_scan at h
    cases hv : st.heap p.1 with
    | none => simp [hv] at h
    | some v =>
      simp only [hv] at h
      split at h
      · simp only [Option.some.injEq, Prod.mk.injEq] at h
        right
        exact ⟨h.1.symm, p.1, _, h.2.1.symm, h.2.2.symm, ⟨p, List.mem_cons_self _ _, rfl⟩, rfl⟩
      · rcases find_best_parent_scan_cases sys st si ps _ _ ret bp be h with g | ⟨g1, b, ed, g2, g3, ⟨q, q1, q2⟩, g5⟩
        · exact Or.inl g
        · exact Or.inr ⟨g1, b, ed, g2, g3, ⟨q, List.mem_cons_of_mem _ q1, q2⟩, g5⟩

theorem find_best_parent_cases {sys : System S U C O R} {st : Rrts S C O} {si : S}
    {near : List Nat} {ret : Int} {bp : Option Nat} {be : Option (Edge S C O)}
    (h : find_best_parent sys st si near = some (ret, bp, be)) :
    (ret = 1 ∧ bp = none ∧ be = none) ∨
    (ret = 0 ∧ ∃ b ed, bp = some b ∧ be = some ed ∧ b ∈ near ∧ ed.end_state = si) := by
  unfold find_best_parent at h
  cases hp : find_best_parent_pairs sys st si near [] [] with
  | none => simp [hp] at h
  | some r =>
    obtain ⟨pairs, vmap⟩ := r
    simp only [hp] at h
    rcases find_best_parent_scan_cases sys st si _ _ _ ret bp be h with g | ⟨g1, b, ed, g2, g3, ⟨q, q1, q2⟩, g5⟩
    · exact Or.inl g
    · refine Or.inr ⟨g1, b, ed, g2, g3, ?_, g5⟩
      have hq : q ∈ pairs := by
        unfold sort_vertex_cost_pairs at q1
        exact (List.perm_insertionSort _ pairs).mem_iff.mp q1
      rcases find_best_parent_pairs_mem sys st si near [] [] pairs vmap hp q hq with g | g
      · simp at g
      · rw [← q2]; exact g

theorem get_near_vertices_cases {st : Rrts S C O} {d : Draw S} {ret : Int} {near : List Nat}
    (h : get_near_vertices st d [] = some (ret, near)) :
    ∃ kd, st.kdtree = some kd ∧
      ((ret = 1 ∧ near = [] ∧ d.kd_nearest_range = [] ∧ d.kd_nearest = none) ∨
       (ret = 0 ∧ d.kd_nearest_range = [] ∧ ∃ vc, d.kd_nearest = some vc ∧ near = [vc]) ∨
       (ret = 0 ∧ d.kd_nearest_range ≠ [] ∧ near = d.kd_nearest_range)) := by
  unfold get_near_vertices at h
  cases hk : st.kdtree with
  | none => simp [hk] at h
  | some kd =>
    refine ⟨kd, rfl, ?_⟩
    simp only [hk] at h
    split at h
    · rename_i hl
      have hl' : d.kd_nearest_range = [] := List.length_eq_zero.mp hl
      cases hn : d.kd_nearest with
      | none =>
        simp only [hn, Option.some.injEq, Prod.mk.injEq] at h
        exact Or.inl ⟨h.1.symm, h.2.symm, hl', rfl⟩
      | some vc =>
        simp only [hn, Option.some.injEq, Prod.mk.injEq, List.nil_append] at h
        exact Or.inr (Or.inl ⟨h.1.symm, hl', vc, rfl, h.2.symm⟩)
    · rename_i hl
      simp only [Option.some.injEq, Prod.mk.injEq, List.nil_append] at h
      exact Or.inr (Or.inr ⟨h.1.symm, fun hc => hl (by simp [hc]), h.2.symm⟩)

theorem rewire_vertices_inv {sys : System S U C O R} {fuel v : Nat} :
    ∀ (near : List Nat) (st st' : Rrts S C O), TreeInv st → CostInv st → BestListed st →
      v ∈ st.list_vertices → (∀ x ∈ near, x ∈ st.list_vertices ∧ x ≠ v) →
      rewire_vertices sys fuel st v near = some st' →
      TreeInv st' ∧ CostInv st' ∧ BestListed st' ∧ Frame st st'
  | [], st, st', t, hc, hbl, _, _, h => by
    simp [rewire_vertices] at h
    subst h
    exact ⟨t, hc, hbl, Frame.frame_refl _⟩
  | x :: near, st, st', t, hc, hbl, hv, hn, h => by
    unfold rewire_vertices at h
    rw [foldlM_option_cons] at h
    cases hb : rewire_vertex sys fuel v st x with
    | none => simp [hb] at h
    | some s1 =>
      simp only [hb, Option.some_bind] at h
      obtain ⟨hx1, hx2⟩ := hn x (List.mem_cons_self _ _)
      obtain ⟨t1, c1, b1, f1⟩ := rewire_vertex_inv t hc hbl hv hx1 (Ne.symm hx2) hb
      have hl : s1.list_vertices = st.list_vertices := f1.1
      obtain ⟨t2, c2, b2, f2⟩ := rewire_vertices_inv near s1 st' t1 c1 b1 (by rw [hl]; exact hv)
        (fun y hy => by rw [hl]; exact hn y (List.mem_cons_of_mem _ hy)) h
      exact ⟨t2, c2, b2, f1.frame_trans f2⟩

end T

section T
variable {S U C O R : Type} [Add C] [LT C] [DecidableRel (fun a b : C => a < b)]
variable [Zero R] [Add R]

/-- The sampled state of a draw: the result of whichever sampler is called. -/
theorem iteration_cases {sys : System S U C O R} {fuel : Nat} {d : Draw S} {st st' : Rrts S C O}
    {code : Int} (h : iteration sys fuel d st = some (code, st')) :
    (code = 1 ∧ st' = st ∧
      (if d.p_lt_goal_sample_freq then d.sample_in_goal else d.sample_state).1 ≠ 0) ∨
    ((if d.p_lt_goal_sample_freq then d.sample_in_goal else d.sample_state).1 = 0 ∧
      ∃ ret near, get_near_vertices st d [] = some (ret, near) ∧
        ((code = 2 ∧ st' = st ∧ ret ≠ 0) ∨
         (ret = 0 ∧ ∃ ret3 bp be,
            find_best_parent sys st
              (if d.p_lt_goal_sample_freq then d.sample_in_goal else d.sample_state).2 near
              = some (ret3, bp, be) ∧
            ((code = 3 ∧ st' = st ∧ ret3 ≠ 0) ∨
             (ret3 = 0 ∧ ∃ b e, bp = some b ∧ be = some e ∧
                ((code = 4 ∧ st' = st ∧ insert_edge sys st b e = some (none, st)) ∨
                 (code = 0 ∧ ∃ nv st1, insert_edge sys st b e = some (some nv, st1) ∧
                    near ≠ [] ∧ rewire_vertices sys fuel st1 nv near = some st'))))))) := by
  unfold iteration at h
  simp only at h
  generalize (if d.p_lt_goal_sample_freq = true then d.sample_in_goal else d.sample_state) = smp
    at h ⊢
  split at h
  · rename_i hs
    simp only [Option.some.injEq, Prod.mk.injEq] at h
    exact Or.inl ⟨h.1.symm, h.2.symm, hs⟩
  · rename_i hs
    right
    refine ⟨not_not.mp hs, ?_⟩
    cases hn : get_near_vertices st d [] with
    | none => simp [hn] at h
    | some r =>
      obtain ⟨ret, near⟩ := r
      refine ⟨ret, near, rfl, ?_⟩
      simp only [hn] at h
      split at h
      · rename_i hr
        simp only [Option.some.injEq, Prod.mk.injEq] at h
        exact Or.inl ⟨h.1.symm, h.2.symm, hr⟩
      · rename_i hr
        right
        refine ⟨not_not.mp hr, ?_⟩
        cases hf : find_best_parent sys st smp.2 near with
        | none => simp [hf] at h
        | some r3 =>
          obtain ⟨ret3, bp, be⟩ := r3
          refine ⟨ret3, bp, be, rfl, ?_⟩
          simp only [hf] at h
          split at h
          · rename_i hr3
            simp only [Option.some.injEq, Prod.mk.injEq] at h
            exact Or.inl ⟨h.1.symm, h.2.symm, hr3⟩
          · rename_i hr3
            right
            refine ⟨not_not.mp hr3, ?_⟩
            split at h
            · rename_i b e
              refine ⟨b, e, rfl, rfl, ?_⟩
              split at h
              · exact absurd h (by simp)
              · rename_i st1 hi
                simp only [Option.some.injEq, Prod.mk.injEq] at h
                obtain ⟨_, _, ⟨_, q, _⟩ | ⟨q, _⟩⟩ := insert_edge_cases hi
                · left
                  refine ⟨h.1.symm, by rw [← h.2, q], by rw [hi, q]⟩
                · exact absurd q (by simp)
              · rename_i nv st1 hi
                right
                split at h
                · rename_i hl
                  split at h
                  · exact absurd h (by simp)
                  · rename_i st2 hrw
                    simp only [Option.some.injEq, Prod.mk.injEq] at h
                    refine ⟨h.1.symm, nv, st1, hi, fun hc => hl (by simp [hc]), ?_⟩
                    rw [← h.2]; exact hrw
                · rename_i hl
                  have hnear : near = [] := List.length_eq_zero.mp (not_not.mp hl)
                  obtain ⟨kd, _, g | g | g⟩ := get_near_vertices_cases hn
                  · exact absurd g.1 (by rw [not_not.mp hr]; simp)
                  · obtain ⟨_, _, vc, _, g4⟩ := g
                    rw [hnear] at g4; simp at g4
                  · exact absurd (hnear ▸ g.2.2).symm g.2.1
            · exact absurd h (by simp)

end T

set_option linter.unusedSectionVars false
section T
variable {S U C O R : Type} [Add C] [LT C] [DecidableRel (fun a b : C => a < b)]
variable [Zero R] [Add R]

theorem KdSound.elim {st : Rrts S C O} {d : Draw S} (h : KdSound st d) {kd : List Nat}
    (hkd : st.kdtree = some kd) :
    (∀ x ∈ d.kd_nearest_range, x ∈ kd) ∧ (∀ x, d.kd_nearest = some x → x ∈ kd) := by
  unfold KdSound at h
  rw [hkd] at h
  exact ⟨h.1, fun x hx => h.2 x (by simp [hx])⟩

theorem initialise_inv {sys : System S U C O R} {st0 st : Rrts S C O} {rs : S} {bnb : Bool}
    {code : Int} (h : initialise sys st0 rs bnb = some (code, st)) :
    TreeInv st ∧ CostInv st ∧ BestListed st ∧ st.lower_bound_vertex = none ∧
      st.lower_bound_cost = sys.get_inf_cost := by
  obtain ⟨st', h1, h2, h3, h4, h5, h6, h7, h8, h9, h10, h11, h12⟩ := initialise_spec sys st0 rs bnb
  rw [h1] at h
  simp only [Option.some.injEq, Prod.mk.injEq] at h
  obtain ⟨_, rfl⟩ := h
  have hpar : st'.par st0.next = none := by simp [par_of_heap h4]
  have hkids : st'.kids st0.next = [] := by simp [kids_of_heap h4]
  refine ⟨⟨?_, ?_, ?_, ?_, ?_, ?_, ?_, ?_, ?_, ?_⟩, ?_, ?_, h6, h7⟩
  · rw [h2]; exact List.nodup_singleton _
  · rw [h2, h5]; simp
  · rw [h2, h9]
  · rw [h2, h10]; intro k hk; rw [List.mem_singleton.mp hk]; omega
  · rw [h2]; intro k hk; rw [List.mem_singleton.mp hk]; exact ⟨_, h4⟩
  · exact ⟨st0.next, h3, by rw [h2]; simp, hpar⟩
  · rw [h2, h3]; intro k hk _; rw [List.mem_singleton.mp hk]
  · rw [h2]; intro k hk p hp
    rw [List.mem_singleton.mp hk, hpar] at hp
    exact absurd hp (by simp)
  · rw [h2]; intro u hu
    rw [List.mem_singleton.mp hu, hkids]
    exact ⟨List.nodup_nil, fun c hc => absurd hc (by simp)⟩
  · refine ⟨fun _ => 0, ?_⟩
    rw [h2]; intro k hk p hp
    rw [List.mem_singleton.mp hk, hpar] at hp
    exact absurd hp (by simp)
  · rw [CostInv, h2]; intro x hx a p ap e1 e2 _
    rw [List.mem_singleton.mp hx, h4] at e1
    rw [← Option.some.inj e1] at e2
    exact absurd e2 (by simp)
  · intro b hb; rw [h6] at hb; exact absurd hb (by simp)

theorem iteration_inv {sys : System S U C O R} {fuel : Nat} {d : Draw S} {st st' : Rrts S C O}
    {code : Int} (t : TreeInv st) (hc : CostInv st) (hbl : BestListed st) (hk : KdSound st d)
    (h : iteration sys fuel d st = some (code, st')) :
    TreeInv st' ∧ CostInv st' ∧ BestListed st' := by
  rcases iteration_cases h with ⟨_, rfl, _⟩ | ⟨_, ret, near, hn, ⟨_, rfl, _⟩ | ⟨_, ret3, bp, be, hf,
    ⟨_, rfl, _⟩ | ⟨_, b, e, rfl, rfl, ⟨_, rfl, _⟩ | ⟨_, nv, st1, hi, _, hrw⟩⟩⟩⟩
  · exact ⟨t, hc, hbl⟩
  · exact ⟨t, hc, hbl⟩
  · exact ⟨t, hc, hbl⟩
  · exact ⟨t, hc, hbl⟩
  · have hnear : ∀ x ∈ near, x ∈ st.list_vertices := by
      obtain ⟨kd, hkd, g⟩ := get_near_vertices_cases hn
      obtain ⟨k1, k2⟩ := hk.elim hkd
      have hkl : kd = st.list_vertices := by
        have := t.index; rw [hkd] at this; exact Option.some.inj this
      rw [hkl] at k1 k2
      rcases g with ⟨_, g, _⟩ | ⟨_, _, vc, g1, g2⟩ | ⟨_, _, g⟩
      · rw [g]; simp
      · rw [g2]; intro x hx; rw [List.mem_singleton.mp hx]; exact k2 vc g1
      · rw [g]; exact k1
    rcases find_best_parent_cases hf with ⟨_, g, _⟩ | ⟨_, b', ed, g1, g2, g3, _⟩
    · exact absurd g (by simp)
    · have : b' = b := (Option.some.inj g1).symm
      subst this
      obtain ⟨q1, q2, _, _, _, _, _, t1, c1, b1⟩ := insert_edge_inv t hc hbl (hnear _ g3) hi
      have hfresh : ∀ x ∈ st.list_vertices, x ≠ nv := by
        intro x hx hxe
        have := t.fresh x hx
        rw [hxe, q1] at this
        exact absurd this (lt_irrefl _)
      obtain ⟨t2, c2, b2, _⟩ := rewire_vertices_inv near st1 st' t1 c1 b1
        (by rw [q2]; simp)
        (fun x hx => ⟨by rw [q2]; exact List.mem_append_left _ (hnear x hx), hfresh x (hnear x hx)⟩)
        hrw
      exact ⟨t2, c2, b2⟩

/-- Every reachable planner state satisfies the tree invariants, I2, and has its
best vertex (if any) in the vertex list. -/
theorem reachable_inv {sys : System S U C O R} {st : Rrts S C O} (h : Reachable sys st) :
    TreeInv st ∧ CostInv st ∧ BestListed st := by
  induction h with
  | init st0 rs bnb st hi =>
    obtain ⟨t, c, b, _⟩ := initialise_inv hi
    exact ⟨t, c, b⟩
  | iter st d fuel code st' _ hk hit ih =>
    exact iteration_inv ih.1 ih.2.1 ih.2.2 hk hit

end T

set_option linter.unusedSectionVars false
section T
variable {S U C O R : Type} [Add C] [LT C] [DecidableRel (fun a b : C => a < b)]
variable [Zero R] [Add R]

theorem modify_total {st : Rrts S C O} {k : Nat} {vv : Vertex S C O}
    (f : Vertex S C O → Vertex S C O) (h : st.heap k = some vv) :
    st.modify k f = some (st.setV k (f vv)) := by
  simp [Rrts.modify, h]

theorem setV_live (st : Rrts S C O) (k : Nat) (vv : Vertex S C O) {j : Nat}
    (h : (st.heap j).isSome = true) : ((st.setV k vv).heap j).isSome = true := by
  rw [setV_heap]; split
  · rfl
  · exact h

theorem isSome_elim {α : Type} {o : Option α} (h : o.isSome = true) : ∃ a, o = some a :=
  Option.isSome_iff_exists.mp h

theorem insert_edge_into_total (sys : System S U C O R) (st : Rrts S C O) (vs ve : Nat)
    (e : Edge S C O) (hvs : (st.heap vs).isSome = true) (vve : Vertex S C O)
    (hve : st.heap ve = some vve)
    (hp : ∀ p, vve.parent = some p → (st.heap p).isSome = true) :
    ∃ st', insert_edge_into sys st vs e ve = some st' := by
  obtain ⟨vvs, hvs'⟩ := isSome_elim hvs
  unfold insert_edge_into
  simp only [hvs', modify_total _ hve]
  obtain ⟨st2, h2⟩ := update_best_vertex_total sys
    (st.setV ve { vve with cost_from_parent := e.cost, cost_from_root := vvs.cost_from_root + e.cost })
    ve _ (setV_heap_same _ _ _)
  have hheap := update_best_vertex_heap h2
  simp only [h2]
  have l2 : ∀ j, (st.heap j).isSome = true → (st2.heap j).isSome = true := by
    intro j hj; rw [hheap]; exact setV_live _ _ _ hj
  have hve2 : st2.heap ve = some { vve with cost_from_parent := e.cost, cost_from_root := vvs.cost_from_root + e.cost } := by
    rw [hheap]; simp
  simp only [modify_total _ hve2, setV_heap_same]
  cases hpar : vve.parent with
  | none =>
    simp only [modify_total _ (setV_heap_same _ _ _)]
    obtain ⟨x, hx⟩ := isSome_elim (setV_live _ ve (({ vve with cost_from_parent := e.cost, cost_from_root := vvs.cost_from_root + e.cost, edge_from_parent := some e, parent := some vs } : Vertex S C O)) (setV_live _ ve (({ vve with cost_from_parent := e.cost, cost_from_root := vvs.cost_from_root + e.cost, edge_from_parent := some e } : Vertex S C O)) (l2 vs hvs)))
    simp only [hpar] at hx
    exact ⟨_, modify_total _ hx⟩
  | some p =>
    simp only
    obtain ⟨y, hy⟩ := isSome_elim (setV_live _ ve (({ vve with cost_from_parent := e.cost, cost_from_root := vvs.cost_from_root + e.cost, edge_from_parent := some e } : Vertex S C O)) (l2 p (hp p hpar)))
    simp only [hpar] at hy
    simp only [modify_total _ hy]
    have hz : ((st2.setV ve ({ vve with cost_from_parent := e.cost, cost_from_root := vvs.cost_from_root + e.cost, edge_from_parent := some e } : Vertex S C O)).setV p { y with children := y.children.erase ve }).heap ve ≠ none := by
      rw [setV_heap]; split
      · simp
      · simp
    cases hz' : ((st2.setV ve ({ vve with cost_from_parent := e.cost, cost_from_root := vvs.cost_from_root + e.cost, edge_from_parent := some e } : Vertex S C O)).setV p { y with children := y.children.erase ve }).heap ve with
    | none => exact absurd hz' hz
    | some z =>
      simp only [hpar] at hz'
      simp only [modify_total _ hz']
      obtain ⟨x, hx⟩ := isSome_elim (setV_live _ ve (({ z with parent := some vs } : Vertex S C O)) (setV_live _ p (({ y with children := y.children.erase ve } : Vertex S C O)) (setV_live _ ve (({ vve with cost_from_parent := e.cost, cost_from_root := vvs.cost_from_root + e.cost, edge_from_parent := some e } : Vertex S C O)) (l2 vs hvs))))
      simp only [hpar] at hx
      exact ⟨_, modify_total _ hx⟩

end T

set_option linter.unusedSectionVars false
section T
variable {S U C O R : Type} [Add C] [LT C] [DecidableRel (fun a b : C => a < b)]
variable [Zero R] [Add R]

theorem insert_edge_total (sys : System S U C O R) (st : Rrts S C O) (vs : Nat) (e : Edge S C O)
    {vvs : Vertex S C O} {kd : List Nat} (hvs : st.heap vs = some vvs)
    (hkd : st.kdtree = some kd) :
    ∃ r st', insert_edge sys st vs e = some (r, st') ∧
      (r = none ↔
        (st.do_branch_and_bound = true ∧ st.lower_bound_cost < vvs.cost_from_root + e.cost)) := by
  unfold insert_edge
  simp only [hvs]
  split
  · rename_i hc
    exact ⟨none, st, rfl, by simp [hc]⟩
  · rename_i hc
    simp only [new_vertex, insert_into_kdtree, Function.update_same, hkd]
    have hlive : (Function.update st.heap st.next (some ({ parent := none, state := e.end_state, children := [], mark := 0, cost_from_root := sys.cost_default, cost_from_parent := sys.cost_default, edge_from_parent := none } : Vertex S C O)) vs).isSome = true := by
      by_cases hq : vs = st.next
      · rw [hq]; simp
      · rw [Function.update_noteq hq, hvs]; rfl
    obtain ⟨st3, h3⟩ := insert_edge_into_total sys
      ({ heap := Function.update st.heap st.next (some ({ parent := none, state := e.end_state, children := [], mark := 0, cost_from_root := sys.cost_default, cost_from_parent := sys.cost_default, edge_from_parent := none } : Vertex S C O)),
         next := st.next + 1, num_vertices := st.num_vertices + 1,
         list_vertices := st.list_vertices ++ [st.next],
         do_branch_and_bound := st.do_branch_and_bound, root := st.root,
         lower_bound_cost := st.lower_bound_cost, lower_bound_vertex := st.lower_bound_vertex,
         kdtree := some (kd ++ [st.next]) } : Rrts S C O) vs st.next e hlive
      { parent := none, state := e.end_state, children := [], mark := 0, cost_from_root := sys.cost_default, cost_from_parent := sys.cost_default, edge_from_parent := none }
      (by simp) (by simp)
    rw [h3]
    exact ⟨some st.next, st3, rfl, by simp [hc]⟩

end T

section Claims
variable {S U C O R : Type} [Add C] [LT C] [DecidableRel (fun a b : C => a < b)]
variable [Zero R] [Add R]

/-- **C1** (I2, cost consistency).  In every planner state reached from `initialize` by
calls of `iteration`, whatever the system answers, every listed vertex other than
the root has a live parent and its `cost_from_root` is the parent's `cost_from_root`
plus its own `cost_from_parent`.  In particular this holds right after the
`rewire_vertices` call of a further iteration (for the re-parented vertices and all
their descendants, like for every other vertex). -/
theorem cost_consistency (sys : System S U C O R) (st : Rrts S C O) (h : Reachable sys st) :
    (∀ x ∈ st.list_vertices, st.root ≠ some x →
      ∃ vv p vp, st.heap x = some vv ∧ vv.parent = some p ∧ st.heap p = some vp ∧
        vv.cost_from_root = vp.cost_from_root + vv.cost_from_parent) ∧
    (∀ (fuel b nv : Nat) (e : Edge S C O) (near : List Nat) (st1 st2 : Rrts S C O),
      b ∈ st.list_vertices → (∀ x ∈ near, x ∈ st.list_vertices) →
      insert_edge sys st b e = some (some nv, st1) →
      rewire_vertices sys fuel st1 nv near = some st2 →
      ∀ x ∈ st2.list_vertices, ∀ vv p vp, st2.heap x = some vv → vv.parent = some p →
        st2.heap p = some vp → vv.cost_from_root = vp.cost_from_root + vv.cost_from_parent) := by
  obtain ⟨t, hc, hbl⟩ := reachable_inv h
  constructor
  · intro x hx hroot
    obtain ⟨vv, hvv⟩ := t.live x hx
    cases hp : vv.parent with
    | none =>
      exact absurd (t.root_unique x hx (by rw [par_of_heap hvv, hp])) hroot
    | some p =>
      obtain ⟨hpl, _, _⟩ := t.parent_ok x hx p (by rw [par_of_heap hvv, hp])
      obtain ⟨vp, hvp⟩ := t.live p hpl
      exact ⟨vv, p, vp, hvv, hp, hvp, hc x hx vv p vp hvv hp hvp⟩
  · intro fuel b nv e near st1 st2 hb hnear hi hrw
    obtain ⟨q1, q2, _, _, _, _, _, t1, c1, b1⟩ := insert_edge_inv t hc hbl hb hi
    have hfresh : ∀ x ∈ st.list_vertices, x ≠ nv := by
      intro x hx hxe
      have := t.fresh x hx
      rw [hxe, q1] at this
      exact absurd this (lt_irrefl _)
    obtain ⟨_, c2, _, _⟩ := rewire_vertices_inv near st1 st2 t1 c1 b1
      (by rw [q2]; simp)
      (fun x hx => ⟨by rw [q2]; exact List.mem_append_left _ (hnear x hx), hfresh x (hnear x hx)⟩)
      hrw
    exact c2

/-- **C6** (I4, child/parent bijection).  In every reachable planner state, for listed
vertices `u` and `v`, `v` is in the child set of `u` exactly when the parent of `v` is
`u`; child sets hold listed vertices only and have no duplicates, so the number of
children of `u` is the number of listed vertices whose parent is `u`.  Re-parenting a
vertex `vn` of a well-formed tree with `insert_edge(v, e, vn)` puts `vn` into the child
set of `v` and removes it from the child set of its old parent. -/
theorem child_parent_bijection (sys : System S U C O R) (st : Rrts S C O)
    (h : Reachable sys st) :
    (∀ u ∈ st.list_vertices, ∀ v ∈ st.list_vertices, (v ∈ st.kids u ↔ st.par v = some u)) ∧
    (∀ u ∈ st.list_vertices, ∀ v ∈ st.kids u, v ∈ st.list_vertices) ∧
    (∀ u ∈ st.list_vertices,
      (st.kids u).length
        = (st.list_vertices.filter (fun v => decide (st.par v = some u))).length) ∧
    (∀ (s s1 : Rrts S C O) (v vn : Nat) (e : Edge S C O), TreeInv s →
      v ∈ s.list_vertices → vn ∈ s.list_vertices → v ≠ vn →
      insert_edge_into sys s v e vn = some s1 →
      vn ∈ s1.kids v ∧ s1.par vn = some v ∧
        ∀ p, s.par vn = some p → p ≠ v → vn ∈ s.kids p ∧ vn ∉ s1.kids p) := by
  obtain ⟨t, _, _⟩ := reachable_inv h
  have h1 : ∀ u ∈ st.list_vertices, ∀ v ∈ st.list_vertices,
      (v ∈ st.kids u ↔ st.par v = some u) := by
    intro u hu v hv
    exact ⟨fun hm => ((t.children_ok u hu).2 v hm).2, fun hp => (t.parent_ok v hv u hp).2.1⟩
  refine ⟨h1, fun u hu v hv => ((t.children_ok u hu).2 v hv).1, ?_, ?_⟩
  · intro u hu
    apply List.Perm.length_eq
    rw [List.perm_ext_iff_of_nodup (t.children_ok u hu).1 (t.nodup.filter _)]
    intro v
    rw [List.mem_filter]
    constructor
    · intro hm
      obtain ⟨q1, q2⟩ := (t.children_ok u hu).2 v hm
      exact ⟨q1, by simpa using q2⟩
    · rintro ⟨q1, q2⟩
      exact (h1 u hu v q1).mpr (by simpa using q2)
  · intro s s1 v vn e ts hv hvn hne hins
    obtain ⟨_, vpar, vkids, _, _, _, _⟩ := rewire_insert_view ts hv hvn hne hins
    refine ⟨(vkids v hv vn).mpr (Or.inl ⟨rfl, rfl⟩), by rw [vpar]; simp, ?_⟩
    intro p hp hpv
    obtain ⟨q1, q2, _⟩ := ts.parent_ok vn hvn p hp
    refine ⟨q2, fun hm => ?_⟩
    rcases (vkids p q1 vn).mp hm with ⟨_, g⟩ | ⟨g, _⟩
    · exact hpv g
    · exact g rfl

end Claims

set_option linter.unusedSectionVars false
section Claims
variable {S U C O R : Type} [Add C] [LT C] [DecidableRel (fun a b : C => a < b)]
variable [Zero R] [Add R]

/-- **C4** (iteration atomicity).  A call of `iteration` that returns, returns one of
the codes 0 to 4.  With a nonzero code the planner is left exactly as it was.  With
code 0, from a reachable state, the sampler succeeded, `num_vertices` grew by one, the
vertex list grew by exactly the fresh vertex, whose state is the sampled state, and
every other vertex kept its state. -/
theorem iteration_atomicity (sys : System S U C O R) (fuel : Nat) (d : Draw S)
    (st st' : Rrts S C O) (code : Int) (h : iteration sys fuel d st = some (code, st')) :
    (code = 0 ∨ code = 1 ∨ code = 2 ∨ code = 3 ∨ code = 4) ∧
    (code ≠ 0 → st' = st) ∧
    (code = 0 → Reachable sys st → KdSound st d →
      (if d.p_lt_goal_sample_freq then d.sample_in_goal else d.sample_state).1 = 0 ∧
      st'.num_vertices = st.num_vertices + 1 ∧
      st'.list_vertices = st.list_vertices ++ [st.next] ∧
      (∃ w, st'.heap st.next = some w ∧
        w.state = (if d.p_lt_goal_sample_freq then d.sample_in_goal else d.sample_state).2) ∧
      ∀ k, k ≠ st.next →
        (st'.heap k).map (fun v => v.state) = (st.heap k).map (fun v => v.state)) := by
  rcases iteration_cases h with ⟨rfl, rfl, _⟩ | ⟨hs, ret, near, hn, ⟨rfl, rfl, _⟩ |
    ⟨_, ret3, bp, be, hf, ⟨rfl, rfl, _⟩ | ⟨_, b, e, rfl, rfl, ⟨rfl, rfl, _⟩ |
      ⟨rfl, nv, st1, hi, _, hrw⟩⟩⟩⟩
  · exact ⟨by simp, fun _ => rfl, fun hc => absurd hc (by simp)⟩
  · exact ⟨by simp, fun _ => rfl, fun hc => absurd hc (by simp)⟩
  · exact ⟨by simp, fun _ => rfl, fun hc => absurd hc (by simp)⟩
  · exact ⟨by simp, fun _ => rfl, fun hc => absurd hc (by simp)⟩
  · refine ⟨by simp, fun hc => absurd rfl hc, fun _ hr hk => ?_⟩
    obtain ⟨t, hc, hbl⟩ := reachable_inv hr
    have hnear : ∀ x ∈ near, x ∈ st.list_vertices := by
      obtain ⟨kd, hkd, g⟩ := get_near_vertices_cases hn
      obtain ⟨k1, k2⟩ := hk.elim hkd
      have hkl : kd = st.list_vertices := by
        have := t.index; rw [hkd] at this; exact Option.some.inj this
      rw [hkl] at k1 k2
      rcases g with ⟨_, g, _⟩ | ⟨_, _, vc, g1, g2⟩ | ⟨_, _, g⟩
      · rw [g]; simp
      · rw [g2]; intro x hx; rw [List.mem_singleton.mp hx]; exact k2 vc g1
      · rw [g]; exact k1
    rcases find_best_parent_cases hf with ⟨_, g, _⟩ | ⟨_, b', ed, g1, g2, g3, g4⟩
    · exact absurd g (by simp)
    · have : b' = b := (Option.some.inj g1).symm
      subst this
      have : ed = e := (Option.some.inj g2).symm
      subst this
      obtain ⟨q1, q2, q3, _, _, ⟨w, q6, q6'⟩, q7, t1, c1, b1⟩ := insert_edge_inv t hc hbl (hnear _ g3) hi
      have hfresh : ∀ x ∈ st.list_vertices, x ≠ nv := by
        intro x hx hxe
        have := t.fresh x hx
        rw [hxe, q1] at this
        exact absurd this (lt_irrefl _)
      obtain ⟨_, _, _, f1, f2, _, _, _, _, f7⟩ := rewire_vertices_inv near st1 st' t1 c1 b1
        (by rw [q2]; simp)
        (fun x hx => ⟨by rw [q2]; exact List.mem_append_left _ (hnear x hx), hfresh x (hnear x hx)⟩)
        hrw
      subst q1
      refine ⟨hs, by rw [f2, q3], by rw [f1, q2], ?_, fun k hk' => by rw [f7 k, q7 k hk']⟩
      have := f7 st.next
      rw [q6] at this
      cases hw : st'.heap st.next with
      | none => simp [hw] at this
      | some w' =>
        refine ⟨w', rfl, ?_⟩
        simp only [hw, Option.map_some', Option.some.injEq] at this
        rw [this, q6', g4]

/-- **C7** (branch and bound).  On a live parent (and with an index), the two-argument
`insert_edge` returns, and it returns no vertex exactly when `do_branch_and_bound` is
set and the parent's cost plus the edge cost is strictly greater than
`lower_bound_cost`; in that case the planner is unchanged, otherwise the returned
vertex is the fresh one.  Hence, `<` being irreflexive, a candidate whose cost equals
`lower_bound_cost` is inserted; and `iteration` returns 4 only with
`do_branch_and_bound` set, after such a refusal. -/
theorem branch_and_bound (sys : System S U C O R) (st : Rrts S C O) (vs : Nat)
    (e : Edge S C O) (vvs : Vertex S C O) (kd : List Nat) (hvs : st.heap vs = some vvs)
    (hkd : st.kdtree = some kd) :
    (∃ r st', insert_edge sys st vs e = some (r, st') ∧
      (r = none ↔
        (st.do_branch_and_bound = true ∧ st.lower_bound_cost < vvs.cost_from_root + e.cost)) ∧
      (r = none → st' = st) ∧ (r ≠ none → r = some st.next) ∧
      ((∀ c : C, ¬ c < c) → vvs.cost_from_root + e.cost = st.lower_bound_cost →
        r = some st.next)) ∧
    (∀ (fuel : Nat) (d : Draw S) (code : Int) (st' : Rrts S C O),
      iteration sys fuel d st = some (code, st') → code = 4 →
      st.do_branch_and_bound = true ∧ st' = st ∧
      ∃ b vb ed, st.heap b = some vb ∧ insert_edge sys st b ed = some (none, st) ∧
        st.lower_bound_cost < vb.cost_from_root + ed.cost) := by
  constructor
  · obtain ⟨r, st', h1, h2⟩ := insert_edge_total sys st vs e hvs hkd
    obtain ⟨vvs', g0, g⟩ := insert_edge_cases h1
    have hrn : r ≠ none → r = some st.next := by
      intro hr
      rcases g with ⟨g1, _⟩ | ⟨g1, _⟩
      · exact absurd g1 hr
      · exact g1
    refine ⟨r, st', h1, h2, ?_, hrn, ?_⟩
    · intro hr
      rcases g with ⟨_, g2, _⟩ | ⟨g1, _⟩
      · exact g2
      · rw [hr] at g1; exact absurd g1 (by simp)
    · intro hirr heq
      apply hrn
      intro hr
      have := (h2.mp hr).2
      rw [heq] at this
      exact hirr _ this
  · intro fuel d code st' h hcode
    rcases iteration_cases h with ⟨g, _⟩ | ⟨hs, ret, near, hn, ⟨g, _⟩ |
      ⟨_, ret3, bp, be, hf, ⟨g, _⟩ | ⟨_, b, e', _, _, ⟨_, g2, g3⟩ | ⟨g, _⟩⟩⟩⟩
    · rw [g] at hcode; exact absurd hcode (by simp)
    · rw [g] at hcode; exact absurd hcode (by simp)
    · rw [g] at hcode; exact absurd hcode (by simp)
    · obtain ⟨vb, q0, ⟨_, _, q3, q4⟩ | ⟨q1, _⟩⟩ := insert_edge_cases g3
      · exact ⟨q3, g2, b, vb, e', q0, g3, q4⟩
      · exact absurd q1 (by simp)
    · rw [g] at hcode; exact absurd hcode (by simp)

end Claims

set_option linter.unusedSectionVars false
section Mono
variable {S U C O R : Type} [Add C] [Preorder C] [DecidableRel (fun a b : C => a < b)]
variable [Zero R] [Add R]

theorem LowerBoundStep.step_refl (sys : System S U C O R) (st : Rrts S C O) :
    LowerBoundStep sys st st := fun h => ⟨h, le_refl _⟩

theorem LowerBoundStep.step_trans {sys : System S U C O R} {a b c : Rrts S C O}
    (h1 : LowerBoundStep sys a b) (h2 : LowerBoundStep sys b c) : LowerBoundStep sys a c := by
  intro h
  obtain ⟨g1, g2⟩ := h1 h
  obtain ⟨k1, k2⟩ := h2 g1
  exact ⟨k1, le_trans k2 g2⟩

theorem LowerBoundStep.of_eq {sys : System S U C O R} {a b : Rrts S C O}
    (h1 : b.lower_bound_vertex = a.lower_bound_vertex)
    (h2 : b.lower_bound_cost = a.lower_bound_cost) : LowerBoundStep sys a b := by
  intro h
  refine ⟨fun hb => ?_, by rw [h2]⟩
  rw [h2]; exact h (by rw [← h1]; exact hb)

theorem LowerBoundStep.step_of_update_best_vertex {sys : System S U C O R}
    (htop : ∀ c : C, c ≤ sys.get_inf_cost) {st st' : Rrts S C O} {v : Nat}
    (h : update_best_vertex sys st v = some st') : LowerBoundStep sys st st' := by
  obtain ⟨vv, _, h1 | ⟨_, h2, h1⟩⟩ := update_best_vertex_cases h <;> rw [h1]
  · exact LowerBoundStep.step_refl sys st
  · intro hn
    refine ⟨fun hb => absurd hb (by simp), ?_⟩
    rcases h2 with h2 | h2
    · show vv.cost_from_root ≤ st.lower_bound_cost
      rw [hn h2]; exact htop _
    · exact le_of_lt h2

theorem LowerBoundStep.of_update_branch_cost {sys : System S U C O R}
    (htop : ∀ c : C, c ≤ sys.get_inf_cost) :
    ∀ (n : Nat) (st st' : Rrts S C O) (v : Nat),
      update_branch_cost sys n st v = some st' → LowerBoundStep sys st st'
  | 0, st, st', v, h => by simp [update_branch_cost] at h
  | n + 1, st, st', v, h => by
    unfold update_branch_cost at h
    cases hvv : st.heap v with
    | none => simp [hvv] at h
    | some vv =>
      simp only [hvv] at h
      have key : ∀ (l : List Nat) (s : Rrts S C O),
          List.foldlM (update_branch_child sys (update_branch_cost sys n) v) s l = some st' →
          LowerBoundStep sys s st' := by
        intro l
        induction l with
        | nil =>
          intro s hf
          simp at hf
          subst hf
          exact LowerBoundStep.step_refl sys _
        | cons c l ih =>
          intro s hf
          rw [foldlM_option_cons] at hf
          cases hb : update_branch_child sys (update_branch_cost sys n) v s c with
          | none => simp [hb] at hf
          | some s3 =>
            simp only [hb, Option.some_bind] at hf
            obtain ⟨cur, vc, s2, h1, h2, h3, h4⟩ := update_branch_child_some hb
            have m1 : LowerBoundStep sys s
                (s.setV c { vc with cost_from_root := cur.cost_from_root + vc.cost_from_parent }) :=
              LowerBoundStep.of_eq rfl rfl
            have m2 := LowerBoundStep.step_of_update_best_vertex htop h3
            have m3 := LowerBoundStep.of_update_branch_cost htop n _ _ _ h4
            exact (m1.step_trans (m2.step_trans m3)).step_trans (ih s3 hf)
      exact key vv.children st h

theorem LowerBoundStep.of_insert_edge_into {sys : System S U C O R}
    (htop : ∀ c : C, c ≤ sys.get_inf_cost) {st st' : Rrts S C O} {vs ve : Nat}
    {e : Edge S C O} (h : insert_edge_into sys st vs e ve = some st') :
    LowerBoundStep sys st st' := by
  obtain ⟨vvs, vve, st2, _, _, h3, h4, h5, _⟩ := insert_edge_into_spec h
  have m1 : LowerBoundStep sys st
      (st.setV ve { vve with cost_from_parent := e.cost, cost_from_root := vvs.cost_from_root + e.cost }) :=
    LowerBoundStep.of_eq rfl rfl
  exact (m1.step_trans (LowerBoundStep.step_of_update_best_vertex htop h3)).step_trans
    (LowerBoundStep.of_eq h4 h5)

theorem LowerBoundStep.of_rewire_vertex {sys : System S U C O R}
    (htop : ∀ c : C, c ≤ sys.get_inf_cost) {st st' : Rrts S C O} {v pvn fuel : Nat}
    (h : rewire_vertex sys fuel v st pvn = some st') : LowerBoundStep sys st st' := by
  unfold rewire_vertex at h
  split at h
  · simp only at h
    split at h
    · rw [← Option.some.inj h]; exact LowerBoundStep.step_refl sys st
    · split at h
      · split at h
        · rw [← Option.some.inj h]; exact LowerBoundStep.step_refl sys st
        · split at h
          · exact absurd h (by simp)
          · rename_i st1 hins
            exact (LowerBoundStep.of_insert_edge_into htop hins).step_trans
              (LowerBoundStep.of_update_branch_cost htop _ _ _ _ h)
      · rw [← Option.some.inj h]; exact LowerBoundStep.step_refl sys st
  · exact absurd h (by simp)

theorem LowerBoundStep.of_rewire_vertices {sys : System S U C O R}
    (htop : ∀ c : C, c ≤ sys.get_inf_cost) {fuel v : Nat} :
    ∀ (near : List Nat) (st st' : Rrts S C O),
      rewire_vertices sys fuel st v near = some st' → LowerBoundStep sys st st'
  | [], st, st', h => by
    simp [rewire_vertices] at h
    subst h
    exact LowerBoundStep.step_refl sys _
  | x :: near, st, st', h => by
    unfold rewire_vertices at h
    rw [foldlM_option_cons] at h
    cases hb : rewire_vertex sys fuel v st x with
    | none => simp [hb] at h
    | some s1 =>
      simp only [hb, Option.some_bind] at h
      exact (LowerBoundStep.of_rewire_vertex htop hb).step_trans
        (LowerBoundStep.of_rewire_vertices htop near s1 st' h)

theorem LowerBoundStep.of_iteration {sys : System S U C O R}
    (htop : ∀ c : C, c ≤ sys.get_inf_cost) {fuel : Nat} {d : Draw S} {st st' : Rrts S C O}
    {code : Int} (h : iteration sys fuel d st = some (code, st')) :
    LowerBoundStep sys st st' := by
  rcases iteration_cases h with ⟨_, rfl, _⟩ | ⟨_, ret, near, hn, ⟨_, rfl, _⟩ | ⟨_, ret3, bp, be, hf,
    ⟨_, rfl, _⟩ | ⟨_, b, e, rfl, rfl, ⟨_, rfl, _⟩ | ⟨_, nv, st1, hi, _, hrw⟩⟩⟩⟩
  · exact LowerBoundStep.step_refl sys _
  · exact LowerBoundStep.step_refl sys _
  · exact LowerBoundStep.step_refl sys _
  · exact LowerBoundStep.step_refl sys _
  · obtain ⟨vvs, _, ⟨q, _⟩ | ⟨_, _, kd, _, hins⟩⟩ := insert_edge_cases hi
    · exact absurd q (by simp)
    · have m1 : LowerBoundStep sys st
          { (new_vertex sys st e.end_state).2 with
            kdtree := some (kd ++ [st.next]),
            list_vertices := st.list_vertices ++ [st.next],
            num_vertices := st.num_vertices + 1 } := LowerBoundStep.of_eq rfl rfl
      exact (m1.step_trans (LowerBoundStep.of_insert_edge_into htop hins)).step_trans
        (LowerBoundStep.of_rewire_vertices htop near st1 st' hrw)

theorem reachable_noBestInf {sys : System S U C O R} (htop : ∀ c : C, c ≤ sys.get_inf_cost)
    {st : Rrts S C O} (h : Reachable sys st) : NoBestInf sys st := by
  induction h with
  | init st0 rs bnb st hi =>
    obtain ⟨_, _, _, _, h2⟩ := initialise_inv hi
    exact fun _ => h2
  | iter st d fuel code st' _ hk hit ih =>
    exact (LowerBoundStep.of_iteration htop hit ih).1

/-- **C3** (`lower_bound_cost` is monotone non-increasing).  For a cost order in which
the infinite cost is the greatest cost: an `iteration` call on a reachable state,
whatever it returns, leaves a `lower_bound_cost` that is at most the previous one;
and `update_best_vertex(v)` changes the best-vertex record only when `v` is in the
goal and either no best vertex is recorded or the cost of `v` is strictly smaller
than `lower_bound_cost`, the new record being `v` with its cost. -/
theorem lower_bound_cost_monotone (sys : System S U C O R)
    (htop : ∀ c : C, c ≤ sys.get_inf_cost) (st st' : Rrts S C O) (fuel : Nat) (d : Draw S)
    (code : Int) (hr : Reachable sys st) (h : iteration sys fuel d st = some (code, st')) :
    st'.lower_bound_cost ≤ st.lower_bound_cost ∧
    (∀ (s s' : Rrts S C O) (v : Nat), update_best_vertex sys s v = some s' →
      s' = s ∨
      (∃ vv, s.heap v = some vv ∧ sys.is_in_goal vv.state = true ∧
        (s.lower_bound_vertex = none ∨ vv.cost_from_root < s.lower_bound_cost) ∧
        s'.lower_bound_vertex = some v ∧ s'.lower_bound_cost = vv.cost_from_root ∧
        s'.heap = s.heap)) := by
  refine ⟨(LowerBoundStep.of_iteration htop h (reachable_noBestInf htop hr)).2, ?_⟩
  intro s s' v hu
  obtain ⟨vv, hv, h1 | ⟨h1, h2, h3⟩⟩ := update_best_vertex_cases hu
  · exact Or.inl h1
  · right
    subst h3
    exact ⟨vv, hv, h1, h2, rfl, rfl, rfl⟩

end Mono

set_option linter.unusedSectionVars false
section Best
variable {S U C O R : Type} [LinearOrderedAddCommMonoid C]
variable [Zero R] [Add R]

theorem SameCosts.costs_heap_some {a b : Rrts S C O} (h : SameCosts a b) {k : Nat} {w : Vertex S C O}
    (hw : b.heap k = some w) :
    ∃ w0, a.heap k = some w0 ∧ w0.state = w.state ∧ w0.cost_from_root = w.cost_from_root := by
  have := h.2.2.2.2 k
  rw [hw] at this
  cases ha : a.heap k with
  | none => simp [ha] at this
  | some w0 =>
    simp only [ha, Option.map_some', Option.some.injEq, Prod.mk.injEq] at this
    exact ⟨w0, rfl, this.1.symm, this.2.symm⟩

theorem SameCosts.costs_heap_some' {a b : Rrts S C O} (h : SameCosts a b) {k : Nat} {w0 : Vertex S C O}
    (hw : a.heap k = some w0) :
    ∃ w, b.heap k = some w ∧ w0.state = w.state ∧ w0.cost_from_root = w.cost_from_root := by
  have := h.2.2.2.2 k
  rw [hw] at this
  cases hb : b.heap k with
  | none => simp [hb] at this
  | some w =>
    simp only [hb, Option.map_some', Option.some.injEq, Prod.mk.injEq] at this
    exact ⟨w, rfl, this.1.symm, this.2.symm⟩

theorem SameCosts.bestInv {sys : System S U C O R} {a b : Rrts S C O} (h : SameCosts a b)
    (hb : BestInv sys a) : BestInv sys b := by
  obtain ⟨h1, h2, h3, h4, h5⟩ := h
  have h' : SameCosts a b := ⟨h1, h2, h3, h4, h5⟩
  constructor
  · intro x hx
    rw [h3] at hx
    obtain ⟨q1, q2, vb, q3, q4, q5⟩ := hb.1 x hx
    obtain ⟨w, w1, w2, w3⟩ := h'.costs_heap_some' q3
    exact ⟨by rw [h1]; exact q1, by rw [h2]; exact q2, w, w1, by rw [← w2]; exact q4,
      by rw [h4, q5, w3]⟩
  · intro g hg vg hvg hr hgoal
    rw [h1] at hg
    rw [h2] at hr
    obtain ⟨w0, w1, w2, w3⟩ := h'.costs_heap_some hvg
    obtain ⟨q1, q2⟩ := hb.2 g hg w0 w1 hr (by rw [w2]; exact hgoal)
    exact ⟨by rw [h3]; exact q1, by rw [h4, ← w3]; exact q2⟩

/-- The best-vertex invariant survives a cost write at `c` that does not raise the cost
of an existing vertex, followed by `update_best_vertex(c)`. -/
theorem bestInv_update {sys : System S U C O R} {s s2 : Rrts S C O} {c : Nat}
    (s1 : Rrts S C O) (hb : BestInv sys s)
    (hlbv : s1.lower_bound_vertex = s.lower_bound_vertex)
    (hlbc : s1.lower_bound_cost = s.lower_bound_cost)
    (hroot : s1.root = s.root)
    (hcl : c ∈ s1.list_vertices) (hcr : s1.root ≠ some c)
    (hmem : ∀ g, g ≠ c → (g ∈ s1.list_vertices ↔ g ∈ s.list_vertices))
    (hheap : ∀ g, g ≠ c → s1.heap g = s.heap g)
    (hc : c ∈ s.list_vertices → ∀ vc vc1, s.heap c = some vc → s1.heap c = some vc1 →
      vc1.state = vc.state ∧ vc1.cost_from_root ≤ vc.cost_from_root)
    (hu : update_best_vertex sys s1 c = some s2) : BestInv sys s2 := by
  obtain ⟨vc1, hvc1, hcase⟩ := update_best_vertex_cases hu
  rcases hcase with h1 | ⟨hgoal, hcond, h1⟩
  · -- record unchanged
    have hunch : ¬ (sys.is_in_goal vc1.state = true ∧
        (s1.lower_bound_vertex = none ∨ vc1.cost_from_root < s1.lower_bound_cost)) := by
      intro hcnd
      have hu' := hu
      unfold update_best_vertex at hu'
      simp only [hvc1, hcnd.1, if_true, hcnd.2] at hu'
      rw [h1] at hu'
      have h3 := congrArg Rrts.lower_bound_vertex (Option.some.inj hu')
      have h4 := congrArg Rrts.lower_bound_cost (Option.some.inj hu')
      simp only at h3 h4
      rcases hcnd.2 with q | q
      · rw [q] at h3; exact absurd h3 (by simp)
      · rw [← h4] at q; exact lt_irrefl _ q
    rw [h1]
    constructor
    · intro b hbv
      rw [hlbv] at hbv
      obtain ⟨q1, q2, vb, q3, q4, q5⟩ := hb.1 b hbv
      by_cases hbc : b = c
      · subst hbc
        obtain ⟨z1, z2⟩ := hc q1 vb vc1 q3 hvc1
        refine ⟨hcl, hcr, vc1, hvc1, by rw [z1]; exact q4, ?_⟩
        rw [hlbc, q5]
        have hg : sys.is_in_goal vc1.state = true := by rw [z1]; exact q4
        have : ¬ vc1.cost_from_root < s1.lower_bound_cost := fun hlt =>
          hunch ⟨hg, Or.inr hlt⟩
        rw [hlbc, q5] at this
        exact le_antisymm (not_lt.mp this) z2
      · exact ⟨(hmem b hbc).mpr q1, by rw [hroot]; exact q2, vb, by rw [hheap b hbc]; exact q3,
          q4, by rw [hlbc]; exact q5⟩
    · intro g hg vg hvg hr hgoal
      by_cases hgc : g = c
      · subst hgc
        rw [hvc1] at hvg
        have := Option.some.inj hvg
        subst this
        have hne : s1.lower_bound_vertex ≠ none := fun hn => hunch ⟨hgoal, Or.inl hn⟩
        have : ¬ vc1.cost_from_root < s1.lower_bound_cost := fun hlt =>
          hunch ⟨hgoal, Or.inr hlt⟩
        exact ⟨hne, not_lt.mp this⟩
      · rw [hheap g hgc] at hvg
        rw [hroot] at hr
        obtain ⟨q1, q2⟩ := hb.2 g ((hmem g hgc).mp hg) vg hvg hr hgoal
        exact ⟨by rw [hlbv]; exact q1, by rw [hlbc]; exact q2⟩
  · -- record replaced by `c`
    rw [h1]
    constructor
    · intro b hbv
      simp only at hbv
      have : b = c := (Option.some.inj hbv).symm
      subst this
      exact ⟨hcl, hcr, vc1, hvc1, hgoal, rfl⟩
    · intro g hg vg hvg hr hgl
      refine ⟨by simp, ?_⟩
      show vc1.cost_from_root ≤ vg.cost_from_root
      by_cases hgc : g = c
      · subst hgc
        have hvg' : s1.heap g = some vg := hvg
        rw [hvc1] at hvg'
        rw [Option.some.inj hvg']
      · have hvg' : s1.heap g = some vg := hvg
        rw [hheap g hgc] at hvg'
        have hr' : s.root ≠ some g := by rw [← hroot]; exact hr
        obtain ⟨q1, q2⟩ := hb.2 g ((hmem g hgc).mp hg) vg hvg' hr' hgl
        rcases hcond with q | q
        · rw [hlbv] at q; exact absurd q q1
        · rw [hlbc] at q; exact le_trans (le_of_lt q) q2

end Best

set_option linter.unusedSectionVars false
section Best
variable {S U C O R : Type} [LinearOrderedAddCommMonoid C]
variable [Zero R] [Add R]

theorem insert_edge_into_sameCosts {sys : System S U C O R} {st st' : Rrts S C O} {vs ve : Nat}
    {e : Edge S C O} (h : insert_edge_into sys st vs e ve = some st') (hne : vs ≠ ve)
    (hpar : ∀ vve, st.heap ve = some vve → vve.parent ≠ some ve) :
    ∃ vvs vve st2, st.heap vs = some vvs ∧ st.heap ve = some vve ∧
      update_best_vertex sys (st.setV ve { vve with cost_from_parent := e.cost, cost_from_root := vvs.cost_from_root + e.cost }) ve = some st2 ∧
      SameCosts st2 st' := by
  obtain ⟨vvs, vve, st2, h1, h2, h3, h4, h5, h6, h7, h8, h9, h10, h11, h12⟩ :=
    insert_edge_into_spec h
  obtain ⟨g1, g2, g3, g4⟩ := h12 hne (hpar vve h2)
  have hheap := update_best_vertex_heap h3
  obtain ⟨f1, _, _, _, f5, _, _⟩ := Frame.frame_of_update_best_vertex h3
  refine ⟨vvs, vve, st2, h1, h2, h3, ?_, ?_, h4, h5, ?_⟩
  · rw [h6, f1]; rfl
  · rw [h10, f5]; rfl
  · intro k
    rw [hheap, setV_heap]
    by_cases k1 : k = ve
    · subst k1; simp [g1]
    · rw [if_neg k1]
      by_cases k2 : k = vs
      · subst k2; simp [g2, h1]
      · by_cases k3 : vve.parent = some k
        · obtain ⟨vp, q1, q2⟩ := g3 k k3 k2
          simp [q1, q2]
        · rw [g4 k k1 k2 k3]

/-- Re-parenting `vn` under `v` at a cost that is not above its old cost keeps the
best-vertex invariant and the one-sided cost invariant. -/
theorem rewire_insert_best {sys : System S U C O R} {st st1 : Rrts S C O} {v vn : Nat}
    {e : Edge S C O} {vv vvn : Vertex S C O} (t : TreeInv st) (hv : v ∈ st.list_vertices)
    (hvn : vn ∈ st.list_vertices) (hne : v ≠ vn) (hb : BestInv sys st) (hc : CostLe st)
    (hvv : st.heap v = some vv) (hvvn : st.heap vn = some vvn)
    (hroot : st.root ≠ some vn)
    (hle : vv.cost_from_root + e.cost ≤ vvn.cost_from_root)
    (h : insert_edge_into sys st v e vn = some st1) :
    BestInv sys st1 ∧ CostLe st1 := by
  have hpar : ∀ x, st.heap vn = some x → x.parent ≠ some vn := by
    intro x hx
    have := t.par_ne_self hvn
    rwa [par_of_heap hx] at this
  obtain ⟨vv', vvn', st2, h1, h2, h3, hsc⟩ := insert_edge_into_sameCosts h hne hpar
  rw [hvv] at h1; rw [hvvn] at h2
  have := Option.some.inj h1; subst this
  have := Option.some.inj h2; subst this
  constructor
  · apply hsc.bestInv
    refine bestInv_update (s := st) (c := vn)
      (st.setV vn { vvn with cost_from_parent := e.cost, cost_from_root := vv.cost_from_root + e.cost })
      hb rfl rfl rfl hvn hroot (fun g _ => Iff.rfl)
      (fun g hg => setV_heap_ne _ _ _ _ hg) ?_ h3
    intro _ vc vc1 e1 e2
    rw [hvvn] at e1
    rw [setV_heap_same] at e2
    rw [← Option.some.inj e1, ← Option.some.inj e2]
    exact ⟨rfl, hle⟩
  · obtain ⟨fr, vpar, _, _, _, vcost, w0, w1, w, q1, q2, q3, q4, q5, q6, _, _⟩ :=
      rewire_insert_view t hv hvn hne h
    rw [hvv] at q1; rw [hvvn] at q2
    have := Option.some.inj q1; subst this
    have := Option.some.inj q2; subst this
    intro x hx a p ap e1 e2 e3
    rw [fr.1] at hx
    by_cases hxe : x = vn
    · subst hxe
      rw [q3] at e1
      have e1' := Option.some.inj e1
      subst e1'
      rw [q6] at e2
      have : p = v := (Option.some.inj e2).symm
      subst this
      obtain ⟨z, z1, z2, _, _⟩ := vcost p hne ap e3
      rw [hvv] at z1
      rw [q5, q4, z2, ← Option.some.inj z1]
    · obtain ⟨z, z1, z2, z3, z4⟩ := vcost x hxe a e1
      rw [z4] at e2
      by_cases hpp : p = vn
      · subst hpp
        rw [q3] at e3
        have := Option.some.inj e3
        subst this
        obtain ⟨y, hy⟩ := t.live p hvn
        have hold := hc x hx z p y z1 e2 hy
        rw [hvvn] at hy
        have := Option.some.inj hy
        subst this
        rw [q5, z2, z3]
        exact le_trans (add_le_add_right hle _) hold
      · obtain ⟨y, y1, y2, _, _⟩ := vcost p hpp ap e3
        rw [z2, z3, y2]
        exact hc x hx z p y z1 e2 y1

end Best

set_option linter.unusedSectionVars false
section Best
variable {S U C O R : Type} [LinearOrderedAddCommMonoid C]
variable [Zero R] [Add R]

theorem TreeInv.root_ne_of_par {st : Rrts S C O} (t : TreeInv st) {c p : Nat}
    (h : st.par c = some p) : st.root ≠ some c := by
  obtain ⟨r, r1, _, r3⟩ := t.root_ok
  intro hc
  rw [r1] at hc
  rw [Option.some.inj hc, h] at r3
  exact absurd r3 (by simp)

/-- Cost propagation keeps the best-vertex invariant and the one-sided cost invariant. -/
theorem update_branch_cost_best (sys : System S U C O R) :
    ∀ (n : Nat) (st st' : Rrts S C O) (v : Nat),
      TreeInv st → v ∈ st.list_vertices → BestInv sys st → CostLe st →
      update_branch_cost sys n st v = some st' → BestInv sys st' ∧ CostLe st'
  | 0, st, st', v, _, _, _, _, h => by simp [update_branch_cost] at h
  | n + 1, st, st', v, t, hv, hbi, hcl, h => by
    unfold update_branch_cost at h
    cases hvv : st.heap v with
    | none => simp [hvv] at h
    | some vv =>
      simp only [hvv] at h
      have hkids : st.kids v = vv.children := kids_of_heap hvv
      have key : ∀ (l : List Nat) (s : Rrts S C O), SameLinks st s →
          (∀ c ∈ l, c ∈ st.kids v) → BestInv sys s → CostLe s →
          List.foldlM (update_branch_child sys (update_branch_cost sys n) v) s l = some st' →
          BestInv sys st' ∧ CostLe st' := by
        intro l
        induction l with
        | nil =>
          intro s _ _ hB hC hf
          simp at hf
          subst hf
          exact ⟨hB, hC⟩
        | cons c l ih =>
          intro s hs hl hB hC hf
          rw [foldlM_option_cons] at hf
          cases hb : update_branch_child sys (update_branch_cost sys n) v s c with
          | none => simp [hb] at hf
          | some s3 =>
            simp only [hb, Option.some_bind] at hf
            obtain ⟨cur, vc, s2, h1, h2, h3, h4⟩ := update_branch_child_some hb
            have hs1 := SameLinks.setV_cost (cur.cost_from_root + vc.cost_from_parent) h2
            have hs2 := SameLinks.links_of_update_best_vertex h3
            have hheap2 := update_best_vertex_heap h3
            obtain ⟨hs3, _⟩ := update_branch_cost_links sys n _ _ _ h4
            have hs02 : SameLinks st s2 := hs.links_trans (hs1.links_trans hs2)
            have hs03 : SameLinks st s3 := hs02.links_trans hs3
            have t2 : TreeInv s2 := hs02.treeInv t
            have ts : TreeInv s := hs.treeInv t
            have hcv : c ∈ st.kids v := hl c (List.mem_cons_self c l)
            obtain ⟨hcl', hcpar⟩ := (t.children_ok v hv).2 c hcv
            have hcne : c ≠ v := by
              intro hc
              rw [hc] at hcpar
              exact t.par_ne_self hv hcpar
            have hsl : s.list_vertices = st.list_vertices := hs.1
            have hcs : c ∈ s.list_vertices := by rw [hsl]; exact hcl'
            have hspar : s.par c = some v := by rw [hs.par_eq]; exact hcpar
            have hvcp : vc.parent = some v := by rw [← par_of_heap h2]; exact hspar
            have hle : cur.cost_from_root + vc.cost_from_parent ≤ vc.cost_from_root :=
              hC c hcs vc v cur h2 hvcp h1
            have hB2 : BestInv sys s2 := by
              refine bestInv_update (s := s) (c := c)
                (s.setV c { vc with cost_from_root := cur.cost_from_root + vc.cost_from_parent })
                hB rfl rfl rfl hcs (ts.root_ne_of_par hspar) (fun g _ => Iff.rfl)
                (fun g hg => setV_heap_ne _ _ _ _ hg) ?_ h3
              intro _ x x1 e1 e2
              rw [h2] at e1
              rw [setV_heap_same] at e2
              rw [← Option.some.inj e1, ← Option.some.inj e2]
              exact ⟨rfl, hle⟩
            have hC2 : CostLe s2 := by
              intro x hx a p ap e1 e2 e3
              have hx' : x ∈ s.list_vertices := by rw [hsl, ← hs02.1]; exact hx
              rw [hheap2] at e1 e3
              by_cases hxc : x = c
              · subst hxc
                rw [setV_heap_same] at e1
                have := Option.some.inj e1
                subst this
                simp only at e2
                rw [hvcp] at e2
                have : p = v := (Option.some.inj e2).symm
                subst this
                rw [setV_heap_ne _ _ _ _ (Ne.symm hcne), h1] at e3
                rw [← Option.some.inj e3]
              · rw [setV_heap_ne _ _ _ _ hxc] at e1
                by_cases hpc : p = c
                · subst hpc
                  rw [setV_heap_same] at e3
                  rw [← Option.some.inj e3]
                  exact le_trans (add_le_add_right hle _) (hC x hx' a p vc e1 e2 h2)
                · rw [setV_heap_ne _ _ _ _ hpc] at e3
                  exact hC x hx' a p ap e1 e2 e3
            obtain ⟨hB3, hC3⟩ := update_branch_cost_best sys n s2 s3 c t2
              (by rw [hs02.1]; exact hcl') hB2 hC2 h4
            exact ih s3 hs03 (fun c' hc' => hl c' (List.mem_cons_of_mem c hc')) hB3 hC3 hf
      exact key vv.children st (SameLinks.links_refl st) (fun c hc => by rw [hkids]; exact hc) hbi hcl h

theorem CostInv.costLe {st : Rrts S C O} (h : CostInv st) : CostLe st := by
  intro x hx a p ap e1 e2 e3
  exact le_of_eq (h x hx a p ap e1 e2 e3).symm

theorem BestInv.bestListed {sys : System S U C O R} {st : Rrts S C O} (h : BestInv sys st) :
    BestListed st := fun b hb => (h.1 b hb).1

theorem rewire_vertex_best {sys : System S U C O R} {st st' : Rrts S C O} {v pvn fuel : Nat}
    (t : TreeInv st) (hc : CostInv st) (hb : BestInv sys st) (hv : v ∈ st.list_vertices)
    (hvn : pvn ∈ st.list_vertices) (hne : v ≠ pvn)
    (h : rewire_vertex sys fuel v st pvn = some st') : BestInv sys st' := by
  have h0 := h
  unfold rewire_vertex at h
  split at h
  · rename_i vv vn hvv hvnn
    simp only at h
    split at h
    · rw [← Option.some.inj h]; exact hb
    · split at h
      · rename_i hlt
        split at h
        · rw [← Option.some.inj h]; exact hb
        · split at h
          · exact absurd h (by simp)
          · rename_i st1 hins
            obtain ⟨hs, hbelow⟩ := update_branch_cost_links sys fuel _ _ _ h
            obtain ⟨t1, hnc⟩ := rewire_insert_tree t hv hvn hne hins hbelow
            have hroot : st.root ≠ some pvn := by
              obtain ⟨r, r1, _, _⟩ := t.root_ok
              intro hcr
              apply hnc
              have := t.chain_root r1 v hv
              rw [r1] at hcr
              rwa [Option.some.inj hcr] at this
            obtain ⟨hB1, hC1⟩ := rewire_insert_best t hv hvn hne hb hc.costLe hvv hvnn hroot
              (le_of_lt hlt) hins
            have hl1 : st1.list_vertices = st.list_vertices :=
              (rewire_insert_view t hv hvn hne hins).1.1
            exact (update_branch_cost_best sys fuel st1 st' pvn t1 (by rw [hl1]; exact hvn)
              hB1 hC1 h).1
      · rw [← Option.some.inj h]; exact hb
  · exact absurd h (by simp)

theorem rewire_vertices_best {sys : System S U C O R} {fuel v : Nat} :
    ∀ (near : List Nat) (st st' : Rrts S C O), TreeInv st → CostInv st → BestInv sys st →
      v ∈ st.list_vertices → (∀ x ∈ near, x ∈ st.list_vertices ∧ x ≠ v) →
      rewire_vertices sys fuel st v near = some st' → BestInv sys st'
  | [], st, st', _, _, hb, _, _, h => by
    simp [rewire_vertices] at h
    subst h
    exact hb
  | x :: near, st, st', t, hc, hb, hv, hn, h => by
    unfold rewire_vertices at h
    rw [foldlM_option_cons] at h
    cases hq : rewire_vertex sys fuel v st x with
    | none => simp [hq] at h
    | some s1 =>
      simp only [hq, Option.some_bind] at h
      obtain ⟨hx1, hx2⟩ := hn x (List.mem_cons_self _ _)
      obtain ⟨t1, c1, _, f1⟩ := rewire_vertex_inv t hc hb.bestListed hv hx1 (Ne.symm hx2) hq
      have b1 := rewire_vertex_best t hc hb hv hx1 (Ne.symm hx2) hq
      have hl : s1.list_vertices = st.list_vertices := f1.1
      exact rewire_vertices_best near s1 st' t1 c1 b1 (by rw [hl]; exact hv)
        (fun y hy => by rw [hl]; exact hn y (List.mem_cons_of_mem _ hy)) h

end Best

set_option linter.unusedSectionVars false
section Best
variable {S U C O R : Type} [LinearOrderedAddCommMonoid C]
variable [Zero R] [Add R]

theorem insert_edge_best {sys : System S U C O R} {st st1 : Rrts S C O} {b nv : Nat}
    {e : Edge S C O} (t : TreeInv st) (hb : BestInv sys st) (hbl : b ∈ st.list_vertices)
    (h : insert_edge sys st b e = some (some nv, st1)) : BestInv sys st1 := by
  obtain ⟨vvs, h1, ⟨hr, _⟩ | ⟨hr, _, kd, hkd, hins⟩⟩ := insert_edge_cases h
  · exact absurd hr (by simp)
  have hfresh : st.next ∉ st.list_vertices := fun hm => absurd (t.fresh _ hm) (lt_irrefl _)
  have hne : b ≠ st.next := fun hc' => hfresh (hc' ▸ hbl)
  obtain ⟨vvs', vve, st2, g1, g2, g3, hsc⟩ := insert_edge_into_sameCosts hins hne (by
    intro x hx
    simp only [new_vertex, Function.update_same] at hx
    rw [← Option.some.inj hx]
    simp)
  apply hsc.bestInv
  refine bestInv_update (s := st) (c := st.next) _ hb ?_ ?_ ?_ ?_ ?_ ?_ ?_ ?_ g3
  · rfl
  · rfl
  · rfl
  · show st.next ∈ st.list_vertices ++ [st.next]
    simp
  · show st.root ≠ some st.next
    obtain ⟨r, r1, r2, _⟩ := t.root_ok
    rw [r1]
    intro hc
    exact hfresh (Option.some.inj hc ▸ r2)
  · intro g hg
    show g ∈ st.list_vertices ++ [st.next] ↔ g ∈ st.list_vertices
    simp [hg]
  · intro g hg
    rw [setV_heap_ne _ _ _ _ hg]
    show Function.update st.heap st.next _ g = st.heap g
    exact Function.update_noteq hg _ _
  · intro hc
    exact absurd hc hfresh

theorem iteration_best {sys : System S U C O R} {fuel : Nat} {d : Draw S} {st st' : Rrts S C O}
    {code : Int} (t : TreeInv st) (hc : CostInv st) (hb : BestInv sys st) (hk : KdSound st d)
    (h : iteration sys fuel d st = some (code, st')) : BestInv sys st' := by
  rcases iteration_cases h with ⟨_, rfl, _⟩ | ⟨_, ret, near, hn, ⟨_, rfl, _⟩ | ⟨_, ret3, bp, be, hf,
    ⟨_, rfl, _⟩ | ⟨_, b, e, rfl, rfl, ⟨_, rfl, _⟩ | ⟨_, nv, st1, hi, _, hrw⟩⟩⟩⟩
  · exact hb
  · exact hb
  · exact hb
  · exact hb
  · have hnear : ∀ x ∈ near, x ∈ st.list_vertices := by
      obtain ⟨kd, hkd, g⟩ := get_near_vertices_cases hn
      obtain ⟨k1, k2⟩ := hk.elim hkd
      have hkl : kd = st.list_vertices := by
        have := t.index; rw [hkd] at this; exact Option.some.inj this
      rw [hkl] at k1 k2
      rcases g with ⟨_, g, _⟩ | ⟨_, _, vc, g1, g2⟩ | ⟨_, _, g⟩
      · rw [g]; simp
      · rw [g2]; intro x hx; rw [List.mem_singleton.mp hx]; exact k2 vc g1
      · rw [g]; exact k1
    rcases find_best_parent_cases hf with ⟨_, g, _⟩ | ⟨_, b', ed, g1, g2, g3, _⟩
    · exact absurd g (by simp)
    · have : b' = b := (Option.some.inj g1).symm
      subst this
      obtain ⟨q1, q2, _, _, _, _, _, t1, c1, _⟩ :=
        insert_edge_inv t hc hb.bestListed (hnear _ g3) hi
      have hb1 := insert_edge_best t hb (hnear _ g3) hi
      have hfresh : ∀ x ∈ st.list_vertices, x ≠ nv := by
        intro x hx hxe
        have := t.fresh x hx
        rw [hxe, q1] at this
        exact absurd this (lt_irrefl _)
      exact rewire_vertices_best near st1 st' t1 c1 hb1 (by rw [q2]; simp)
        (fun x hx => ⟨by rw [q2]; exact List.mem_append_left _ (hnear x hx), hfresh x (hnear x hx)⟩)
        hrw

theorem reachable_best {sys : System S U C O R} {st : Rrts S C O} (h : Reachable sys st) :
    BestInv sys st := by
  induction h with
  | init st0 rs bnb st hi =>
    obtain ⟨sx, h1, h2, h3, h4, h5, h6, _⟩ := initialise_spec sys st0 rs bnb
    rw [h1] at hi
    simp only [Option.some.injEq, Prod.mk.injEq, true_and] at hi
    subst hi
    constructor
    · intro b hb; rw [h6] at hb; exact absurd hb (by simp)
    · intro g hg vg _ hr
      rw [h2] at hg
      rw [h3, List.mem_singleton.mp hg] at hr
      exact absurd rfl hr
  | iter st d fuel code st' hr hk hit ih =>
    obtain ⟨t, c, _⟩ := reachable_inv hr
    exact iteration_best t c ih hk hit

/-- **C2, as amended** (I6 without the root).  For a totally ordered cost monoid, in
every reachable planner state: if `lower_bound_vertex` is set, it is a listed vertex
other than the root, it is in the goal, `lower_bound_cost` equals its `cost_from_root`,
and that cost is at most the `cost_from_root` of every listed goal vertex other than
the root. -/
theorem best_vertex_invariant (sys : System S U C O R) (st : Rrts S C O)
    (h : Reachable sys st) (b : Nat) (hb : st.lower_bound_vertex = some b) :
    b ∈ st.list_vertices ∧ st.root ≠ some b ∧
    ∃ vb, st.heap b = some vb ∧ sys.is_in_goal vb.state = true ∧
      st.lower_bound_cost = vb.cost_from_root ∧
      ∀ g ∈ st.list_vertices, ∀ vg, st.heap g = some vg → st.root ≠ some g →
        sys.is_in_goal vg.state = true → vb.cost_from_root ≤ vg.cost_from_root := by
  have hB := reachable_best h
  obtain ⟨q1, q2, vb, q3, q4, q5⟩ := hB.1 b hb
  refine ⟨q1, q2, vb, q3, q4, q5, ?_⟩
  intro g hg vg hvg hr hgoal
  rw [← q5]
  exact (hB.2 g hg vg hvg hr hgoal).2

end Best

section Witnesses

theorem line_s0_reachable : Reachable line_system line_s0 :=
  Reachable.init (rrts_c line_system) 0 true _ rfl

theorem line_s1_reachable : Reachable line_system line_s1 :=
  Reachable.iter line_s0 (line_draw 10 [0]) 4 0 _ line_s0_reachable (by decide) rfl

theorem line_s2_reachable : Reachable line_system line_s2 :=
  Reachable.iter line_s1 (line_draw 5 [0, 1]) 4 0 _ line_s1_reachable (by decide) rfl

theorem root_goal_s1_reachable : Reachable root_goal_system root_goal_s1 :=
  Reachable.iter root_goal_s0 (line_draw 10 [0]) 4 0 _
    (Reachable.init (rrts_c root_goal_system) 0 true _ rfl) (by decide) rfl

theorem line_s2_iteration :
    iteration line_system 4 (line_draw 5 [0, 1]) line_s1 = some (0, line_s2) := rfl

/-- Witness of **C1** on the line example, where vertex 1 was rewired below vertex 2. -/
theorem cost_consistency_witness :
    Reachable line_system line_s2 ∧
    ∀ x ∈ line_s2.list_vertices, line_s2.root ≠ some x →
      ∃ vv p vp, line_s2.heap x = some vv ∧ vv.parent = some p ∧ line_s2.heap p = some vp ∧
        vv.cost_from_root = vp.cost_from_root + vv.cost_from_parent :=
  ⟨line_s2_reachable, (cost_consistency line_system line_s2 line_s2_reachable).1⟩

/-- Counterexample to **C2** as stated: with the root in the goal, after one iteration
the best vertex is vertex 1 of cost 100, while the root is a listed goal vertex of cost 0;
so the best vertex does not have the minimum cost among all goal vertices. -/
theorem best_vertex_root_counterexample :
    Reachable root_goal_system root_goal_s1 ∧
    root_goal_s1.lower_bound_vertex = some 1 ∧
    root_goal_s1.root = some 0 ∧
    ¬ (∀ g ∈ root_goal_s1.list_vertices, ∀ vg vb, root_goal_s1.heap g = some vg →
        root_goal_s1.heap 1 = some vb → root_goal_system.is_in_goal vg.state = true →
        vb.cost_from_root ≤ vg.cost_from_root) := by
  refine ⟨root_goal_s1_reachable, rfl, rfl, fun h => ?_⟩
  have := h 0 (by decide) _ _ rfl rfl rfl
  revert this
  decide

/-- Witness of **C2, as amended** on the line example: the best vertex is vertex 1. -/
theorem best_vertex_invariant_witness :
    Reachable line_system line_s2 ∧ line_s2.lower_bound_vertex = some 1 ∧
    (1 ∈ line_s2.list_vertices ∧ line_s2.root ≠ some 1 ∧
      ∃ vb, line_s2.heap 1 = some vb ∧ line_system.is_in_goal vb.state = true ∧
        line_s2.lower_bound_cost = vb.cost_from_root ∧
        ∀ g ∈ line_s2.list_vertices, ∀ vg, line_s2.heap g = some vg → line_s2.root ≠ some g →
          line_system.is_in_goal vg.state = true → vb.cost_from_root ≤ vg.cost_from_root) :=
  ⟨line_s2_reachable, rfl, best_vertex_invariant line_system line_s2 line_s2_reachable 1 rfl⟩

/-- Witness of **C3**: the iteration that rewires vertex 1 lowers the bound from 100 to 50. -/
theorem lower_bound_cost_monotone_witness :
    (∀ c : WithTop Nat, c ≤ line_system.get_inf_cost) ∧ Reachable line_system line_s1 ∧
    iteration line_system 4 (line_draw 5 [0, 1]) line_s1 = some (0, line_s2) ∧
    line_s2.lower_bound_cost ≤ line_s1.lower_bound_cost ∧
    line_s1.lower_bound_cost = 100 ∧ line_s2.lower_bound_cost = 50 :=
  ⟨fun _ => le_top, line_s1_reachable, rfl,
    (lower_bound_cost_monotone line_system (fun _ => le_top) line_s1 line_s2 4
      (line_draw 5 [0, 1]) 0 line_s1_reachable rfl).1, rfl, rfl⟩

/-- Witness of **C6** on the line example. -/
theorem child_parent_bijection_witness :
    Reachable line_system line_s2 ∧
    (∀ u ∈ line_s2.list_vertices, ∀ v ∈ line_s2.list_vertices,
      (v ∈ line_s2.kids u ↔ line_s2.par v = some u)) ∧
    line_s2.kids 0 = [2] ∧ line_s2.kids 2 = [1] ∧ line_s2.par 1 = some 2 :=
  ⟨line_s2_reachable, (child_parent_bijection line_system line_s2 line_s2_reachable).1,
    rfl, rfl, rfl⟩

/-- Witness of **C4**: the second iteration of the line example returns 0 and adds vertex 2. -/
theorem iteration_atomicity_witness :
    iteration line_system 4 (line_draw 5 [0, 1]) line_s1 = some (0, line_s2) ∧
    line_s2.num_vertices = line_s1.num_vertices + 1 ∧
    line_s2.list_vertices = line_s1.list_vertices ++ [line_s1.next] ∧
    ∃ w, line_s2.heap line_s1.next = some w ∧ w.state = 5 :=
  ⟨rfl,
    ((iteration_atomicity line_system 4 (line_draw 5 [0, 1]) line_s1 line_s2 0 line_s2_iteration).2.2 rfl
      line_s1_reachable (by decide)).2.1,
    ((iteration_atomicity line_system 4 (line_draw 5 [0, 1]) line_s1 line_s2 0 line_s2_iteration).2.2 rfl
      line_s1_reachable (by decide)).2.2.1,
    ((iteration_atomicity line_system 4 (line_draw 5 [0, 1]) line_s1 line_s2 0 line_s2_iteration).2.2 rfl
      line_s1_reachable (by decide)).2.2.2.1⟩

end Witnesses

set_option linter.unusedSectionVars false
section Claims2
variable {S U C O R : Type} [Add C] [LT C] [DecidableRel (fun a b : C => a < b)]
variable [Zero R] [Add R]

/-- **C9.** `initialize(root_state, bnb)` returns 0 and leaves exactly one vertex, the
root at the fresh handle, with state `root_state`, no parent, no children, no edge,
both cost fields equal to the zero cost, `num_vertices = 1`, no best vertex, the
infinite cost as `lower_bound_cost`, the given branch-and-bound flag and an index
holding the root only; every vertex listed before the call is destroyed, whatever
the planner held before. -/
theorem initialize_fresh_root (sys : System S U C O R) (st : Rrts S C O) (rs : S) (bnb : Bool) :
    ∃ st', initialise sys st rs bnb = some (0, st') ∧
      st'.list_vertices = [st.next] ∧ st'.root = some st.next ∧
      st'.heap st.next =
        some { parent := none, state := rs, children := [], mark := 0, edge_from_parent := none,
               cost_from_root := sys.get_zero_cost, cost_from_parent := sys.get_zero_cost } ∧
      st'.num_vertices = 1 ∧ st'.lower_bound_vertex = none ∧
      st'.lower_bound_cost = sys.get_inf_cost ∧ st'.do_branch_and_bound = bnb ∧
      st'.kdtree = some [st.next] ∧ st'.next = st.next + 1 ∧
      (∀ h ∈ st.list_vertices, h ≠ st.next → st'.heap h = none) ∧
      (∀ h, h ∉ st.list_vertices → h ≠ st.next → st'.heap h = st.heap h) :=
  initialise_spec sys st rs bnb

end Claims2

section Witnesses2

/-- Witness of **C7**: in the line example with best cost 100, an edge of cost 400 from
the root is refused. -/
theorem branch_and_bound_witness :
    ∃ vvs, line_s1.heap 0 = some vvs ∧ line_s1.kdtree = some [0, 1] ∧
      ∃ r st', insert_edge line_system line_s1 0
          { start_state := 0, end_state := 20, cost := 400, opt_data := 0 } = some (r, st') ∧
        (r = none ↔ (line_s1.do_branch_and_bound = true ∧
          line_s1.lower_bound_cost < vvs.cost_from_root + 400)) ∧ r = none := by
  refine ⟨_, rfl, rfl, ?_⟩
  obtain ⟨r, st', h1, h2, _⟩ := (branch_and_bound line_system line_s1 0
    { start_state := 0, end_state := 20, cost := 400, opt_data := 0 } _ [0, 1] rfl rfl).1
  refine ⟨r, st', h1, h2, h2.mpr ?_⟩
  decide

end Witnesses2

set_option linter.unusedSectionVars false
section T
variable {S U C O R : Type} [Add C] [LT C] [DecidableRel (fun a b : C => a < b)]
variable [Zero R] [Add R]

theorem rewire_vertex_cases {sys : System S U C O R} {st st' : Rrts S C O} {v pvn fuel : Nat}
    (h : rewire_vertex sys fuel v st pvn = some st') :
    ∃ vv vn, st.heap v = some vv ∧ st.heap pvn = some vn ∧
      ((¬ ((sys.evaluate_extend_cost vv.state vn.state sys.opt_data_default).1 = 0 ∧
            vv.cost_from_root
              + (sys.evaluate_extend_cost vv.state vn.state sys.opt_data_default).2.2
              < vn.cost_from_root ∧
            (sys.extend_to vv.state vn.state true Trajectory.empty
              (sys.evaluate_extend_cost vv.state vn.state sys.opt_data_default).2.1).1 = 0) ∧
          st' = st) ∨
       ((sys.evaluate_extend_cost vv.state vn.state sys.opt_data_default).1 = 0 ∧
          vv.cost_from_root
            + (sys.evaluate_extend_cost vv.state vn.state sys.opt_data_default).2.2
            < vn.cost_from_root ∧
          (sys.extend_to vv.state vn.state true Trajectory.empty
            (sys.evaluate_extend_cost vv.state vn.state sys.opt_data_default).2.1).1 = 0 ∧
          ∃ st1, insert_edge_into sys st v
              { start_state := vv.state, end_state := vn.state,
                cost := (sys.evaluate_extend_cost vv.state vn.state sys.opt_data_default).2.2,
                opt_data := (sys.extend_to vv.state vn.state true Trajectory.empty
                  (sys.evaluate_extend_cost vv.state vn.state sys.opt_data_default).2.1).2.2 }
              pvn = some st1 ∧
            update_branch_cost sys fuel st1 pvn = some st')) := by
  unfold rewire_vertex at h
  split at h
  · rename_i vv vn hvv hvnn
    refine ⟨vv, vn, hvv, hvnn, ?_⟩
    simp only at h
    split at h
    · rename_i h1
      exact Or.inl ⟨fun hc => h1 hc.1, (Option.some.inj h).symm⟩
    · rename_i h1
      split at h
      · rename_i h2
        split at h
        · rename_i h3
          exact Or.inl ⟨fun hc => h3 hc.2.2, (Option.some.inj h).symm⟩
        · rename_i h3
          split at h
          · exact absurd h (by simp)
          · rename_i st1 hins
            exact Or.inr ⟨not_not.mp h1, h2, not_not.mp h3, st1, hins, h⟩
      · rename_i h2
        exact Or.inl ⟨fun hc => h2 hc.2.1, (Option.some.inj h).symm⟩
  · exact absurd h (by simp)

/-- What one step of the rewiring loop does to the links and edge costs: nothing
unless the step re-parents `pvn`, and then only `pvn` gets a new parent and a new
edge cost, the cost that `evaluate_extend_cost` returned. -/
theorem rewire_vertex_links {sys : System S U C O R} {st st' : Rrts S C O} {v pvn fuel : Nat}
    (t : TreeInv st) (hv : v ∈ st.list_vertices) (hvn : pvn ∈ st.list_vertices)
    (hne : v ≠ pvn) (h : rewire_vertex sys fuel v st pvn = some st') :
    (∀ k, k ≠ pvn → st'.par k = st.par k) ∧
    (st'.par pvn = st.par pvn ∨ st'.par pvn = some v) ∧
    (∀ k, k ≠ pvn → (st'.heap k).map (fun x => x.cost_from_parent)
        = (st.heap k).map (fun x => x.cost_from_parent)) := by
  obtain ⟨vv, vn, hvv, hvnn, ⟨_, rfl⟩ | ⟨_, _, _, st1, hins, hubc⟩⟩ := rewire_vertex_cases h
  · exact ⟨fun _ _ => rfl, Or.inl rfl, fun _ _ => rfl⟩
  · obtain ⟨hs, _⟩ := update_branch_cost_links sys fuel _ _ _ hubc
    obtain ⟨fr, vpar, _, _, _, vcost, _⟩ := rewire_insert_view t hv hvn hne hins
    refine ⟨fun k hk => by rw [hs.par_eq, vpar, if_neg hk],
      Or.inr (by rw [hs.par_eq, vpar, if_pos rfl]), fun k hk => ?_⟩
    have e1 : (st'.heap k).map (fun x => x.cost_from_parent)
        = (st1.heap k).map (fun x => x.cost_from_parent) := by
      have := hs.2.2.2.2.2.2 k
      cases ha : st1.heap k <;> cases hb : st'.heap k <;>
        simp [ha, hb, Vertex.links] at this ⊢
      exact this.2.2.2.2.1
    rw [e1]
    cases ha : st1.heap k with
    | none =>
      have := fr.2.2.2.2.2.2 k
      rw [ha] at this
      cases hb : st.heap k with
      | none => rfl
      | some y => simp [hb] at this
    | some w =>
      obtain ⟨w0, z1, _, z3, _⟩ := vcost k hk w ha
      simp [z1, z3]

end T

set_option linter.unusedSectionVars false
section T
variable {S U C O R : Type} [Add C] [LT C] [DecidableRel (fun a b : C => a < b)]
variable [Zero R] [Add R]

theorem SameLinks.cfp_eq {a b : Rrts S C O} (h : SameLinks a b) (k : Nat) :
    (b.heap k).map (fun x => x.cost_from_parent) = (a.heap k).map (fun x => x.cost_from_parent) := by
  have := h.2.2.2.2.2.2 k
  cases ha : a.heap k <;> cases hb : b.heap k <;> simp [ha, hb, Vertex.links] at this ⊢
  exact this.2.2.2.2.1

theorem Frame.state_eq {a b : Rrts S C O} (h : Frame a b) {k : Nat} {x y : Vertex S C O}
    (hx : a.heap k = some x) (hy : b.heap k = some y) : y.state = x.state := by
  have := h.2.2.2.2.2.2 k
  rw [hx, hy] at this
  simpa using this

/-- A step of the rewiring loop that re-parents `pvn` leaves it with the evaluated
edge cost as `cost_from_parent`. -/
theorem rewire_vertex_cfp {sys : System S U C O R} {st st' : Rrts S C O} {v pvn fuel : Nat}
    {vv vn : Vertex S C O} (t : TreeInv st) (hv : v ∈ st.list_vertices)
    (hvn : pvn ∈ st.list_vertices) (hne : v ≠ pvn) (hvv : st.heap v = some vv)
    (hvnn : st.heap pvn = some vn) (h : rewire_vertex sys fuel v st pvn = some st') :
    st' = st ∨
    (st'.heap pvn).map (fun x => x.cost_from_parent)
      = some (sys.evaluate_extend_cost vv.state vn.state sys.opt_data_default).2.2 := by
  obtain ⟨vv', vn', hvv', hvnn', ⟨_, g⟩ | ⟨_, _, _, st1, hins, hubc⟩⟩ := rewire_vertex_cases h
  · exact Or.inl g
  · right
    rw [hvv] at hvv'; rw [hvnn] at hvnn'
    have := Option.some.inj hvv'; subst this
    have := Option.some.inj hvnn'; subst this
    obtain ⟨hs, _⟩ := update_branch_cost_links sys fuel _ _ _ hubc
    obtain ⟨_, _, _, _, _, _, w0, w1, w, _, _, q3, q4, _⟩ := rewire_insert_view t hv hvn hne hins
    rw [hs.cfp_eq, q3]
    simp [q4]

/-- Once a vertex `w` hangs below `v` with the evaluated edge cost, the rest of the
rewiring loop keeps both. -/
theorem rewire_vertices_keep {sys : System S U C O R} {fuel v w : Nat} {sv sw : S} :
    ∀ (near : List Nat) (st st' : Rrts S C O), TreeInv st → CostInv st → BestListed st →
      v ∈ st.list_vertices → (∀ x ∈ near, x ∈ st.list_vertices ∧ x ≠ v) →
      (st.heap v).map (fun x => x.state) = some sv →
      (st.heap w).map (fun x => x.state) = some sw →
      st.par w = some v →
      (st.heap w).map (fun x => x.cost_from_parent)
        = some (sys.evaluate_extend_cost sv sw sys.opt_data_default).2.2 →
      rewire_vertices sys fuel st v near = some st' →
      st'.par w = some v ∧
      (st'.heap w).map (fun x => x.cost_from_parent)
        = some (sys.evaluate_extend_cost sv sw sys.opt_data_default).2.2
  | [], st, st', _, _, _, _, _, _, _, hp, hcf, h => by
    simp [rewire_vertices] at h
    subst h
    exact ⟨hp, hcf⟩
  | x :: near, st, st', t, hc, hbl, hv, hn, hsv, hsw, hp, hcf, h => by
    unfold rewire_vertices at h
    rw [foldlM_option_cons] at h
    cases hb : rewire_vertex sys fuel v st x with
    | none => simp [hb] at h
    | some s1 =>
      simp only [hb, Option.some_bind] at h
      obtain ⟨hx1, hx2⟩ := hn x (List.mem_cons_self _ _)
      obtain ⟨t1, c1, b1, f1⟩ := rewire_vertex_inv t hc hbl hv hx1 (Ne.symm hx2) hb
      obtain ⟨l1, l2, l3⟩ := rewire_vertex_links t hv hx1 (Ne.symm hx2) hb
      have hl : s1.list_vertices = st.list_vertices := f1.1
      have hsv1 : (s1.heap v).map (fun x => x.state) = some sv := by
        rw [f1.2.2.2.2.2.2 v]; exact hsv
      have hsw1 : (s1.heap w).map (fun x => x.state) = some sw := by
        rw [f1.2.2.2.2.2.2 w]; exact hsw
      have hp1 : s1.par w = some v := by
        by_cases hwx : w = x
        · subst hwx
          rcases l2 with g | g
          · rw [g]; exact hp
          · exact g
        · rw [l1 w hwx]; exact hp
      have hcf1 : (s1.heap w).map (fun x => x.cost_from_parent)
          = some (sys.evaluate_extend_cost sv sw sys.opt_data_default).2.2 := by
        by_cases hwx : w = x
        · subst hwx
          obtain ⟨vv, hvv⟩ := t.live v hv
          obtain ⟨vn, hvn⟩ := t.live w hx1
          rcases rewire_vertex_cfp t hv hx1 (Ne.symm hx2) hvv hvn hb with g | g
          · rw [g]; exact hcf
          · rw [g]
            rw [hvv] at hsv; rw [hvn] at hsw
            simp only [Option.map_some', Option.some.injEq] at hsv hsw
            rw [hsv, hsw]
        · rw [l3 w hwx]; exact hcf
      exact rewire_vertices_keep near s1 st' t1 c1 b1 (by rw [hl]; exact hv)
        (fun y hy => by rw [hl]; exact hn y (List.mem_cons_of_mem _ hy)) hsv1 hsw1 hp1 hcf1 h

end T

set_option linter.unusedSectionVars false
section T
variable {S U C O R : Type} [Add C] [LT C] [DecidableRel (fun a b : C => a < b)]
variable [Zero R] [Add R]

theorem rewire_vertices_cons {sys : System S U C O R} {fuel v x : Nat} {near : List Nat}
    {st s1 : Rrts S C O} (h : rewire_vertex sys fuel v st x = some s1) :
    rewire_vertices sys fuel st v (x :: near) = rewire_vertices sys fuel s1 v near := by
  unfold rewire_vertices
  rw [foldlM_option_cons, h]
  rfl

/-- Every vertex that the rewiring loop moves below `v` passed the three checks in the
state in which its turn came, and ends with the evaluated edge cost and a consistent
cost from the root. -/
theorem rewire_vertices_changed {sys : System S U C O R} {fuel v : Nat} :
    ∀ (near : List Nat) (st st' : Rrts S C O), TreeInv st → CostInv st → BestListed st →
      v ∈ st.list_vertices → (∀ x ∈ near, x ∈ st.list_vertices ∧ x ≠ v) →
      rewire_vertices sys fuel st v near = some st' →
      ∀ w, st'.par w = some v → st.par w ≠ some v →
        ∃ pre post s sv sw, near = pre ++ w :: post ∧
          rewire_vertices sys fuel st v pre = some s ∧
          s.heap v = some sv ∧ s.heap w = some sw ∧ s.par w ≠ some v ∧
          (sys.evaluate_extend_cost sv.state sw.state sys.opt_data_default).1 = 0 ∧
          sv.cost_from_root + (sys.evaluate_extend_cost sv.state sw.state sys.opt_data_default).2.2
            < sw.cost_from_root ∧
          (sys.extend_to sv.state sw.state true Trajectory.empty
            (sys.evaluate_extend_cost sv.state sw.state sys.opt_data_default).2.1).1 = 0 ∧
          ∃ w' v', st'.heap w = some w' ∧ st'.heap v = some v' ∧
            w'.cost_from_parent
              = (sys.evaluate_extend_cost sv.state sw.state sys.opt_data_default).2.2 ∧
            w'.cost_from_root = v'.cost_from_root
              + (sys.evaluate_extend_cost sv.state sw.state sys.opt_data_default).2.2
  | [], st, st', _, _, _, _, _, h, w, hp, hp0 => by
    simp [rewire_vertices] at h
    subst h
    exact absurd hp hp0
  | x :: near, st, st', t, hc, hbl, hv, hn, h, w, hp, hp0 => by
    have h0 := h
    unfold rewire_vertices at h
    rw [foldlM_option_cons] at h
    cases hb : rewire_vertex sys fuel v st x with
    | none => simp [hb] at h
    | some s1 =>
      simp only [hb, Option.some_bind] at h
      obtain ⟨hx1, hx2⟩ := hn x (List.mem_cons_self _ _)
      obtain ⟨t1, c1, b1, f1⟩ := rewire_vertex_inv t hc hbl hv hx1 (Ne.symm hx2) hb
      obtain ⟨l1, l2, l3⟩ := rewire_vertex_links t hv hx1 (Ne.symm hx2) hb
      have hl : s1.list_vertices = st.list_vertices := f1.1
      have hv1 : v ∈ s1.list_vertices := by rw [hl]; exact hv
      have hn1 : ∀ y ∈ near, y ∈ s1.list_vertices ∧ y ≠ v :=
        fun y hy => by rw [hl]; exact hn y (List.mem_cons_of_mem _ hy)
      by_cases hp1 : s1.par w = some v
      · -- re-parented by this step
        have hwx : w = x := by
          by_contra hwx
          rw [l1 w hwx] at hp1
          exact hp0 hp1
        subst hwx
        obtain ⟨vv, vn, hvv, hvnn, ⟨_, g⟩ | ⟨g1, g2, g3, _⟩⟩ := rewire_vertex_cases hb
        · rw [g] at hp1; exact absurd hp1 hp0
        · have hcf1 : (s1.heap w).map (fun x => x.cost_from_parent)
              = some (sys.evaluate_extend_cost vv.state vn.state sys.opt_data_default).2.2 := by
            rcases rewire_vertex_cfp t hv hx1 (Ne.symm hx2) hvv hvnn hb with g | g
            · rw [g] at hp1; exact absurd hp1 hp0
            · exact g
          obtain ⟨k1, k2⟩ := rewire_vertices_keep near s1 st' t1 c1 b1 hv1 hn1
            (by rw [f1.2.2.2.2.2.2 v, hvv]; rfl) (by rw [f1.2.2.2.2.2.2 w, hvnn]; rfl) hp1 hcf1 h
          obtain ⟨t2, c2, _, f2⟩ := rewire_vertices_inv near s1 st' t1 c1 b1 hv1 hn1 h
          have hl2 : st'.list_vertices = st.list_vertices := f2.1.trans hl
          obtain ⟨w', hw'⟩ := t2.live w (by rw [hl2]; exact hx1)
          obtain ⟨v', hv'⟩ := t2.live v (by rw [hl2]; exact hv)
          have hcfp : w'.cost_from_parent
              = (sys.evaluate_extend_cost vv.state vn.state sys.opt_data_default).2.2 := by
            rw [hw'] at k2; simpa using k2
          have hwp : w'.parent = some v := by rw [← par_of_heap hw']; exact k1
          refine ⟨[], near, st, vv, vn, rfl, by simp [rewire_vertices], hvv, hvnn, hp0, g1, g2, g3,
            w', v', hw', hv', hcfp, ?_⟩
          rw [c2 w (by rw [hl2]; exact hx1) w' v v' hw' hwp hv', hcfp]
      · obtain ⟨pre, post, s, sv, sw, e1, e2, e3⟩ :=
          rewire_vertices_changed near s1 st' t1 c1 b1 hv1 hn1 h w hp hp1
        exact ⟨x :: pre, post, s, sv, sw, by rw [e1]; rfl, by rw [rewire_vertices_cons hb]; exact e2,
          e3⟩

/-- A vertex that fails one of the three checks whenever its turn comes keeps its
parent and its `cost_from_parent` through the whole rewiring loop. -/
theorem rewire_vertices_kept {sys : System S U C O R} {fuel v : Nat} :
    ∀ (near : List Nat) (st st' : Rrts S C O), TreeInv st → CostInv st → BestListed st →
      v ∈ st.list_vertices → (∀ x ∈ near, x ∈ st.list_vertices ∧ x ≠ v) →
      rewire_vertices sys fuel st v near = some st' →
      ∀ w, (∀ pre post s sv sw, near = pre ++ w :: post →
          rewire_vertices sys fuel st v pre = some s →
          s.heap v = some sv → s.heap w = some sw →
          ¬ ((sys.evaluate_extend_cost sv.state sw.state sys.opt_data_default).1 = 0 ∧
            sv.cost_from_root
              + (sys.evaluate_extend_cost sv.state sw.state sys.opt_data_default).2.2
              < sw.cost_from_root ∧
            (sys.extend_to sv.state sw.state true Trajectory.empty
              (sys.evaluate_extend_cost sv.state sw.state sys.opt_data_default).2.1).1 = 0)) →
        st'.par w = st.par w ∧
        (st'.heap w).map (fun x => x.cost_from_parent)
          = (st.heap w).map (fun x => x.cost_from_parent)
  | [], st, st', _, _, _, _, _, h, w, _ => by
    simp [rewire_vertices] at h
    subst h
    exact ⟨rfl, rfl⟩
  | x :: near, st, st', t, hc, hbl, hv, hn, h, w, hfail => by
    cases hb : rewire_vertex sys fuel v st x with
    | none =>
      unfold rewire_vertices at h
      rw [foldlM_option_cons, hb] at h
      simp at h
    | some s1 =>
      rw [rewire_vertices_cons hb] at h
      obtain ⟨hx1, hx2⟩ := hn x (List.mem_cons_self _ _)
      obtain ⟨t1, c1, b1, f1⟩ := rewire_vertex_inv t hc hbl hv hx1 (Ne.symm hx2) hb
      obtain ⟨l1, _, l3⟩ := rewire_vertex_links t hv hx1 (Ne.symm hx2) hb
      have hl : s1.list_vertices = st.list_vertices := f1.1
      have step : s1.par w = st.par w ∧
          (s1.heap w).map (fun x => x.cost_from_parent)
            = (st.heap w).map (fun x => x.cost_from_parent) := by
        by_cases hwx : w = x
        · subst hwx
          obtain ⟨vv, vn, hvv, hvnn, ⟨_, g⟩ | ⟨g1, g2, g3, _⟩⟩ := rewire_vertex_cases hb
          · rw [g]; exact ⟨rfl, rfl⟩
          · exact absurd ⟨g1, g2, g3⟩
              (hfail [] near st vv vn rfl (by simp [rewire_vertices]) hvv hvnn)
        · exact ⟨l1 w hwx, l3 w hwx⟩
      have ih := rewire_vertices_kept near s1 st' t1 c1 b1 (by rw [hl]; exact hv)
        (fun y hy => by rw [hl]; exact hn y (List.mem_cons_of_mem _ hy)) h w
        (fun pre post s sv sw e1 e2 => hfail (x :: pre) post s sv sw (by rw [e1]; rfl)
          (by rw [rewire_vertices_cons hb]; exact e2))
      exact ⟨ih.1.trans step.1, ih.2.trans step.2⟩

end T

set_option linter.unusedSectionVars false
section Claims3
variable {S U C O R : Type} [Add C] [LT C] [DecidableRel (fun a b : C => a < b)]
variable [Zero R] [Add R]

/-- **C8** (rewire safety).  Let `rewire_vertices(v, near)` run right after the new
vertex `v` was inserted in a reachable state.  Every vertex `w` whose parent it
changes to `v` is a near vertex which, in the state in which its turn came, passed
`evaluate_extend_cost(v.state, w.state)` with some cost `c`, had
`v.cost_from_root + c < w.cost_from_root`, and passed the obstacle-checked
`extend_to(v.state, w.state)`; at the end `w.cost_from_parent = c` and
`w.cost_from_root = v.cost_from_root + c`.  The loop body for a near vertex that
fails one of the three checks returns the planner unchanged, and a vertex that fails
one of them whenever its turn comes has at the end of the loop the parent and the
`cost_from_parent` it had at the start. -/
theorem rewire_safety (sys : System S U C O R) (st0 st st' : Rrts S C O) (fuel b v : Nat)
    (e : Edge S C O) (near : List Nat) (hr : Reachable sys st0)
    (hb : b ∈ st0.list_vertices) (hnear : ∀ x ∈ near, x ∈ st0.list_vertices)
    (hi : insert_edge sys st0 b e = some (some v, st))
    (h : rewire_vertices sys fuel st v near = some st') :
    (∀ w, st'.par w = some v → st.par w ≠ some v →
      ∃ pre post s sv sw, near = pre ++ w :: post ∧
        rewire_vertices sys fuel st v pre = some s ∧
        s.heap v = some sv ∧ s.heap w = some sw ∧ s.par w ≠ some v ∧
        (sys.evaluate_extend_cost sv.state sw.state sys.opt_data_default).1 = 0 ∧
        sv.cost_from_root + (sys.evaluate_extend_cost sv.state sw.state sys.opt_data_default).2.2
          < sw.cost_from_root ∧
        (sys.extend_to sv.state sw.state true Trajectory.empty
          (sys.evaluate_extend_cost sv.state sw.state sys.opt_data_default).2.1).1 = 0 ∧
        ∃ w' v', st'.heap w = some w' ∧ st'.heap v = some v' ∧
          w'.cost_from_parent
            = (sys.evaluate_extend_cost sv.state sw.state sys.opt_data_default).2.2 ∧
          w'.cost_from_root = v'.cost_from_root
            + (sys.evaluate_extend_cost sv.state sw.state sys.opt_data_default).2.2) ∧
    (∀ (s s' : Rrts S C O) (pvn : Nat) (sv sw : Vertex S C O),
      s.heap v = some sv → s.heap pvn = some sw →
      rewire_vertex sys fuel v s pvn = some s' →
      ¬ ((sys.evaluate_extend_cost sv.state sw.state sys.opt_data_default).1 = 0 ∧
          sv.cost_from_root
            + (sys.evaluate_extend_cost sv.state sw.state sys.opt_data_default).2.2
            < sw.cost_from_root ∧
          (sys.extend_to sv.state sw.state true Trajectory.empty
            (sys.evaluate_extend_cost sv.state sw.state sys.opt_data_default).2.1).1 = 0) →
      s' = s) ∧
    (∀ w, (∀ pre post s sv sw, near = pre ++ w :: post →
        rewire_vertices sys fuel st v pre = some s →
        s.heap v = some sv → s.heap w = some sw →
        ¬ ((sys.evaluate_extend_cost sv.state sw.state sys.opt_data_default).1 = 0 ∧
          sv.cost_from_root
            + (sys.evaluate_extend_cost sv.state sw.state sys.opt_data_default).2.2
            < sw.cost_from_root ∧
          (sys.extend_to sv.state sw.state true Trajectory.empty
            (sys.evaluate_extend_cost sv.state sw.state sys.opt_data_default).2.1).1 = 0)) →
      st'.par w = st.par w ∧
      (st'.heap w).map (fun x => x.cost_from_parent)
        = (st.heap w).map (fun x => x.cost_from_parent)) := by
  obtain ⟨t, hc, hbl⟩ := reachable_inv hr
  obtain ⟨q1, q2, _, _, _, _, _, t1, c1, b1⟩ := insert_edge_inv t hc hbl hb hi
  have hfresh : ∀ x ∈ st0.list_vertices, x ≠ v := by
    intro x hx hxe
    have := t.fresh x hx
    rw [hxe, q1] at this
    exact absurd this (lt_irrefl _)
  have hv1 : v ∈ st.list_vertices := by rw [q2]; simp
  have hn1 : ∀ x ∈ near, x ∈ st.list_vertices ∧ x ≠ v :=
    fun x hx => ⟨by rw [q2]; exact List.mem_append_left _ (hnear x hx), hfresh x (hnear x hx)⟩
  refine ⟨rewire_vertices_changed near st st' t1 c1 b1 hv1 hn1 h, ?_,
    rewire_vertices_kept near st st' t1 c1 b1 hv1 hn1 h⟩
  · intro s s' pvn sv sw hsv hsw hstep hcond
    obtain ⟨vv, vn, hvv, hvnn, ⟨_, g⟩ | ⟨g1, g2, g3, _⟩⟩ := rewire_vertex_cases hstep
    · exact g
    · rw [hsv] at hvv; rw [hsw] at hvnn
      have := Option.some.inj hvv; subst this
      have := Option.some.inj hvnn; subst this
      exact absurd ⟨g1, g2, g3⟩ hcond

end Claims3

section Witnesses3

theorem line_s1_insert :
    insert_edge line_system line_s1 0
      { start_state := 0, end_state := 5, cost := 25, opt_data := 0 }
      = some (some 2, line_s1_inserted) := rfl

theorem line_s1_rewire :
    rewire_vertices line_system 4 line_s1_inserted 2 [0, 1] = some line_s2 := rfl

/-- Witness of **C8**: in the line example vertex 1 (cost 100) is moved below the new
vertex 2 (cost 25) at edge cost 25. -/
theorem rewire_safety_witness :
    Reachable line_system line_s1 ∧ 0 ∈ line_s1.list_vertices ∧
    (∀ x ∈ [0, 1], x ∈ line_s1.list_vertices) ∧
    line_s2.par 1 = some 2 ∧ line_s1_inserted.par 1 ≠ some 2 ∧
    ∃ pre post s sv sw, [0, 1] = pre ++ 1 :: post ∧
      rewire_vertices line_system 4 line_s1_inserted 2 pre = some s ∧
      s.heap 2 = some sv ∧ s.heap 1 = some sw ∧ s.par 1 ≠ some 2 ∧
      (line_system.evaluate_extend_cost sv.state sw.state line_system.opt_data_default).1 = 0 ∧
      sv.cost_from_root
        + (line_system.evaluate_extend_cost sv.state sw.state line_system.opt_data_default).2.2
        < sw.cost_from_root ∧
      (line_system.extend_to sv.state sw.state true Trajectory.empty
        (line_system.evaluate_extend_cost sv.state sw.state
          line_system.opt_data_default).2.1).1 = 0 ∧
      ∃ w' v', line_s2.heap 1 = some w' ∧ line_s2.heap 2 = some v' ∧
        w'.cost_from_parent
          = (line_system.evaluate_extend_cost sv.state sw.state
              line_system.opt_data_default).2.2 ∧
        w'.cost_from_root = v'.cost_from_root
          + (line_system.evaluate_extend_cost sv.state sw.state
              line_system.opt_data_default).2.2 :=
  ⟨line_s1_reachable, by decide, by decide, by decide, by decide,
    (rewire_safety line_system line_s1 line_s1_inserted line_s2 4 0 2
      { start_state := 0, end_state := 5, cost := 25, opt_data := 0 } [0, 1]
      line_s1_reachable (by decide) (by decide) line_s1_insert line_s1_rewire).1 1
      (by decide) (by decide)⟩

theorem chain_s2_reachable : Reachable line_system chain_s2 :=
  Reachable.iter chain_s1 (line_draw 12 [1]) 4 0 _
    (Reachable.iter line_s0 (line_draw 8 [0]) 4 0 _ line_s0_reachable (by decide) rfl)
    (by decide) rfl

/-- Counterexample to **C8** as stated: in the chain example the rewiring around the
new vertex 3 (state 4, cost 16) takes the near vertices 0, 1, 2 in turn.  Vertex 2
(state 12, edge cost 64 from vertex 3) fails the cost check, both against its cost 80
before the loop and against its cost 48 when its turn comes, and keeps its parent and
its `cost_from_parent`; but its `cost_from_root` is 80 before the loop and 48 after it,
lowered by the cost propagation that followed the re-parenting of its parent,
vertex 1. -/
theorem rewire_cost_counterexample :
    Reachable line_system chain_s2 ∧
    insert_edge line_system chain_s2 0
      { start_state := 0, end_state := 4, cost := 16, opt_data := 0 }
      = some (some 3, chain_s2_inserted) ∧
    rewire_vertices line_system 4 chain_s2_inserted 3 [0, 1, 2] = some chain_s3 ∧
    rewire_vertices line_system 4 chain_s2_inserted 3 [0, 1] = some chain_s3 ∧
    rewire_vertex line_system 4 3 chain_s3 2 = some chain_s3 ∧
    (chain_s2_inserted.heap 3).map (fun x => (x.state, x.cost_from_root)) = some (4, 16) ∧
    (chain_s3.heap 3).map (fun x => (x.state, x.cost_from_root)) = some (4, 16) ∧
    line_system.evaluate_extend_cost 4 12 line_system.opt_data_default = (0, 0, 64) ∧
    (chain_s2_inserted.heap 2).map (fun x => (x.state, x.cost_from_root)) = some (12, 80) ∧
    (chain_s3.heap 2).map (fun x => (x.state, x.cost_from_root)) = some (12, 48) ∧
    ¬ ((16 : WithTop Nat) + 64 < 80) ∧ ¬ ((16 : WithTop Nat) + 64 < 48) ∧
    chain_s3.par 2 = chain_s2_inserted.par 2 ∧
    (chain_s3.heap 2).map (fun x => x.cost_from_root)
      ≠ (chain_s2_inserted.heap 2).map (fun x => x.cost_from_root) :=
  ⟨chain_s2_reachable, rfl, rfl, rfl, rfl, by decide, by decide, by decide, by decide,
    by decide, by decide, by decide, by decide, by decide⟩

end Witnesses3

set_option linter.unusedSectionVars false
section T
variable {S U C O R : Type} [Add C] [LT C] [DecidableRel (fun a b : C => a < b)]
variable [Zero R] [Add R]

theorem append_fold_states (l : List (Trajectory S U R)) :
    ∀ bt : Trajectory S U R,
      (l.foldl (fun acc x => acc.append x.reverse) bt).states
        = bt.states ++ (l.map (fun x => x.states.reverse)).flatten ∧
      (l.foldl (fun acc x => acc.append x.reverse) bt).controls
        = bt.controls ++ (l.map (fun x => x.controls.reverse)).flatten := by
  induction l with
  | nil => intro bt; simp
  | cons a l ih =>
    intro bt
    simp only [List.foldl_cons, List.map_cons, List.flatten_cons]
    obtain ⟨h1, h2⟩ := ih (bt.append a.reverse)
    rw [h1, h2]
    simp [Trajectory.append, Trajectory.reverse, List.append_assoc]

theorem reverse_path (l : List (List S)) :
    ((l.map List.reverse).flatten).reverse = l.reverse.flatten := by
  rw [List.reverse_flatten, List.map_map]
  simp

/-- The loop of `get_best_trajectory` appends the reversed trajectories of the edges
of the walk, in the order of the walk. -/
theorem get_best_trajectory_walk_eq (sys : System S U C O R) :
    ∀ (fuel : Nat) (st : Rrts S C O) (vc : Option Nat) (bt : Trajectory S U R),
      get_best_trajectory_walk sys fuel st vc bt
        = (best_path_trajectories sys fuel st vc).map
            (fun r => (r.1.foldl (fun acc x => acc.append x.reverse) bt, r.2))
  | 0, st, none, bt => by simp [get_best_trajectory_walk, best_path_trajectories]
  | 0, st, some vc, bt => by simp [get_best_trajectory_walk, best_path_trajectories]
  | fuel + 1, st, none, bt => by simp [get_best_trajectory_walk, best_path_trajectories]
  | fuel + 1, st, some vc, bt => by
    unfold get_best_trajectory_walk best_path_trajectories
    cases hv : st.heap vc with
    | none => simp
    | some vvc =>
      simp only
      cases hp : vvc.parent with
      | none =>
        simp only [Option.map_some', List.foldl_nil]
        cases fuel <;> simp [get_best_trajectory_walk]
      | some p =>
        simp only
        cases hpp : st.heap p with
        | none => simp
        | some vvp =>
          cases he : vvc.edge_from_parent with
          | none => simp
          | some e =>
            simp only
            rw [get_best_trajectory_walk_eq sys fuel]
            split
            · rename_i hq; rw [hq]; rfl
            · rename_i l s hq; rw [hq]; rfl

end T

set_option linter.unusedSectionVars false
section T
variable {S U C O R : Type} [Add C] [LT C] [DecidableRel (fun a b : C => a < b)]
variable [Zero R] [Add R]

theorem reverse_path_map {α β : Type} (f : α → List β) (l : List α) :
    ((l.map (fun x => (f x).reverse)).flatten).reverse = (l.reverse.map f).flatten := by
  have h : l.map (fun x => (f x).reverse) = (l.map f).map List.reverse := by
    simp [List.map_map]
  rw [h, reverse_path, List.map_reverse]

/-- In a well-formed tree the walk from a listed vertex to the root ends: with more
fuel than the depth of the vertex it returns. -/
theorem best_path_trajectories_total (sys : System S U C O R) {st0 : Rrts S C O}
    (t : TreeInv st0) :
    ∃ d : Nat → Nat, ∀ (n : Nat) (st : Rrts S C O) (x : Nat),
      (∀ h, st.par h = st0.par h) → (∀ h, st.has_edge h = st0.has_edge h) →
      (∀ h, (st.heap h).isSome = (st0.heap h).isSome) →
      x ∈ st0.list_vertices → d x < n →
      ∃ r, best_path_trajectories sys n st (some x) = some r := by
  obtain ⟨d, hd⟩ := t.depth
  refine ⟨d, ?_⟩
  intro n
  induction n with
  | zero => intro st x _ _ _ _ hlt; exact absurd hlt (Nat.not_lt_zero _)
  | succ n ih =>
    intro st x hpar hedge hlive hx hlt
    obtain ⟨v0, hv0⟩ := t.live x hx
    have hl := hlive x
    rw [hv0] at hl
    obtain ⟨vvc, hvvc⟩ := isSome_elim hl
    unfold best_path_trajectories
    simp only [hvvc]
    cases hp : vvc.parent with
    | none => exact ⟨_, rfl⟩
    | some p =>
      simp only
      have hp0 : st0.par x = some p := by rw [← hpar, par_of_heap hvvc, hp]
      obtain ⟨hpl, _, hed⟩ := t.parent_ok x hx p hp0
      have hlt' := hd x hx p hp0
      obtain ⟨vp0, hvp0⟩ := t.live p hpl
      have hl2 := hlive p
      rw [hvp0] at hl2
      obtain ⟨vvp, hvvp⟩ := isSome_elim hl2
      have he : st.has_edge x = true := by rw [hedge]; exact hed
      rw [has_edge_of_heap hvvc] at he
      obtain ⟨e, he'⟩ := isSome_elim he
      simp only [hvvp, he']
      obtain ⟨r, hr⟩ := ih
        (st.setV x { vvc with edge_from_parent := some { e with opt_data := (sys.extend_to vvp.state vvc.state false Trajectory.empty e.opt_data).2.2 } })
        p
        (fun h => by
          rw [← hpar h]
          unfold Rrts.par
          by_cases hh : h = x
          · subst hh; simp [hvvc]
          · rw [setV_heap_ne _ _ _ _ hh])
        (fun h => by
          rw [← hedge h]
          unfold Rrts.has_edge
          by_cases hh : h = x
          · subst hh; simp [hvvc, he']
          · rw [setV_heap_ne _ _ _ _ hh])
        (fun h => by
          rw [← hlive h]
          by_cases hh : h = x
          · subst hh; simp [hvvc]
          · rw [setV_heap_ne _ _ _ _ hh])
        hpl (by omega)
      simp only [hp] at hr
      rw [hr]
      exact ⟨_, rfl⟩

end T

section Claims4
variable {S U C O R : Type} [Add C] [LT C] [DecidableRel (fun a b : C => a < b)]
variable [Zero R] [Add R]

/-- **C10.** `get_best_trajectory` returns 1, with the output and the planner untouched,
when no best vertex is recorded, and only then.  With a best vertex `b` recorded, a call
that returns gives 0, and the states (and controls) of the output are the concatenation,
in root-to-goal order, of the trajectories that `extend_to` produces without obstacle
check for the edges of the path from the root to `b`, each in its forward order.  From
a reachable state the call does return, given enough recursion budget. -/
theorem best_trajectory_concatenation (sys : System S U C O R) (st : Rrts S C O)
    (bt : Trajectory S U R) :
    (∀ fuel, st.lower_bound_vertex = none →
      get_best_trajectory sys fuel st bt = some (1, bt, st)) ∧
    (∀ fuel r, get_best_trajectory sys fuel st bt = some r →
      (r.1 = 1 ↔ st.lower_bound_vertex = none)) ∧
    (∀ fuel b r, st.lower_bound_vertex = some b →
      get_best_trajectory sys fuel st bt = some r →
      r.1 = 0 ∧ ∃ l, best_path_trajectories sys fuel st (some b) = some (l, r.2.2) ∧
        r.2.1.states = (l.reverse.map (fun x => x.states)).flatten ∧
        r.2.1.controls = (l.reverse.map (fun x => x.controls)).flatten) ∧
    (Reachable sys st → ∀ b, st.lower_bound_vertex = some b →
      ∃ fuel r, get_best_trajectory sys fuel st bt = some r ∧ r.1 = 0) := by
  have hsome : ∀ fuel b r, st.lower_bound_vertex = some b →
      get_best_trajectory sys fuel st bt = some r →
      r.1 = 0 ∧ ∃ l, best_path_trajectories sys fuel st (some b) = some (l, r.2.2) ∧
        r.2.1.states = (l.reverse.map (fun x => x.states)).flatten ∧
        r.2.1.controls = (l.reverse.map (fun x => x.controls)).flatten := by
    intro fuel b r hb h
    unfold get_best_trajectory at h
    simp only [hb, get_best_trajectory_walk_eq] at h
    cases hq : best_path_trajectories sys fuel st (some b) with
    | none => simp [hq] at h
    | some q =>
      obtain ⟨l, s⟩ := q
      simp only [hq, Option.map_some', Option.some.injEq] at h
      subst h
      refine ⟨rfl, l, rfl, ?_, ?_⟩
      · show ((l.foldl (fun acc x => acc.append x.reverse) bt.clear).reverse).states = _
        rw [Trajectory.reverse, (append_fold_states l bt.clear).1]
        simp only [Trajectory.clear, Trajectory.empty, List.nil_append]
        exact reverse_path_map _ l
      · show ((l.foldl (fun acc x => acc.append x.reverse) bt.clear).reverse).controls = _
        rw [Trajectory.reverse, (append_fold_states l bt.clear).2]
        simp only [Trajectory.clear, Trajectory.empty, List.nil_append]
        exact reverse_path_map _ l
  refine ⟨?_, ?_, hsome, ?_⟩
  · intro fuel hn
    simp [get_best_trajectory, hn]
  · intro fuel r h
    constructor
    · intro h1
      cases hb : st.lower_bound_vertex with
      | none => rfl
      | some b =>
        have := (hsome fuel b r hb h).1
        rw [h1] at this
        exact absurd this (by simp)
    · intro hn
      simp only [get_best_trajectory, hn, Option.some.injEq] at h
      rw [← h]
  · intro hr b hb
    obtain ⟨t, _, hbl⟩ := reachable_inv hr
    obtain ⟨d, hd⟩ := best_path_trajectories_total sys t
    obtain ⟨q, hq⟩ := hd (d b + 1) st b (fun _ => rfl) (fun _ => rfl) (fun _ => rfl)
      (hbl b hb) (Nat.lt_succ_self _)
    have hg : get_best_trajectory sys (d b + 1) st bt
        = some (0, (q.1.foldl (fun acc x => acc.append x.reverse) bt.clear).reverse, q.2) := by
      unfold get_best_trajectory
      simp only [hb, get_best_trajectory_walk_eq, hq, Option.map_some']
    exact ⟨d b + 1, _, hg, rfl⟩

end Claims4

section Witnesses4

/-- Witness of **C10**: in the line example the best trajectory runs over the edges
`0 → 5` and `5 → 10`. -/
theorem best_trajectory_concatenation_witness :
    Reachable line_system line_s2 ∧ line_s2.lower_bound_vertex = some 1 ∧
    (∃ r, get_best_trajectory line_system 3 line_s2 Trajectory.empty = some r ∧
      r.1 = 0 ∧ r.2.1.states = [0, 5, 5, 10] ∧
      ∃ l, best_path_trajectories line_system 3 line_s2 (some 1) = some (l, r.2.2) ∧
        r.2.1.states = (l.reverse.map (fun x => x.states)).flatten ∧
        r.2.1.controls = (l.reverse.map (fun x => x.controls)).flatten) ∧
    ∃ fuel r, get_best_trajectory line_system fuel line_s2 Trajectory.empty = some r ∧
      r.1 = 0 :=
  ⟨line_s2_reachable, rfl,
    ⟨_, rfl, rfl, rfl,
      ((best_trajectory_concatenation line_system line_s2 Trajectory.empty).2.2.1 3 1 _ rfl
        rfl).2⟩,
    (best_trajectory_concatenation line_system line_s2 Trajectory.empty).2.2.2
      line_s2_reachable 1 rfl⟩

end Witnesses4

set_option linter.unusedSectionVars false
section T
variable {S U C O R : Type} [Add C] [LT C] [DecidableRel (fun a b : C => a < b)]
variable [Zero R] [Add R]

theorem below_mono_le {K : Nat → List Nat} {n m x : Nat} (h : n ≤ m) (hb : Below K n x) :
    Below K m x := by
  induction h with
  | refl => exact hb
  | step _ ih => exact below_mono ih

/-- In a well-formed tree no chain of child links from a listed vertex has more
vertices than the vertex list. -/
theorem TreeInv.below {st : Rrts S C O} (t : TreeInv st) :
    ∀ x ∈ st.list_vertices, Below st.kids st.list_vertices.length x := by
  classical
  obtain ⟨d, hd⟩ := t.depth
  have key : ∀ n x, x ∈ st.list_vertices →
      (st.list_vertices.toFinset.filter (fun y => d x ≤ d y)).card = n → Below st.kids n x := by
    intro n
    induction n using Nat.strong_induction_on with
    | _ n ih =>
      intro x hx hcard
      have hxin : x ∈ st.list_vertices.toFinset.filter (fun y => d x ≤ d y) := by
        simp [hx]
      cases n with
      | zero =>
        rw [Finset.card_eq_zero] at hcard
        rw [hcard] at hxin
        exact absurd hxin (Finset.not_mem_empty _)
      | succ m =>
        intro c hc
        obtain ⟨hcl, hcp⟩ := (t.children_ok x hx).2 c hc
        have hlt := hd c hcl x hcp
        have hsub : st.list_vertices.toFinset.filter (fun y => d c ≤ d y)
            ⊂ st.list_vertices.toFinset.filter (fun y => d x ≤ d y) := by
          rw [Finset.ssubset_iff_of_subset]
          · exact ⟨x, hxin, by simp; intro _; omega⟩
          · intro y hy
            simp only [Finset.mem_filter, List.mem_toFinset] at hy ⊢
            exact ⟨hy.1, by omega⟩
        have hcl' := Finset.card_lt_card hsub
        rw [hcard] at hcl'
        exact below_mono_le (by omega) (ih _ (by omega) c hcl rfl)
  intro x hx
  refine below_mono_le ?_ (key _ x hx rfl)
  exact le_trans (Finset.card_filter_le _ _) (List.toFinset_card_le _)

/-- Cost propagation returns when the recursion budget covers the height of the
subtree. -/
theorem update_branch_cost_total (sys : System S U C O R) :
    ∀ (n : Nat) (st : Rrts S C O) (v : Nat), TreeInv st → v ∈ st.list_vertices →
      Below st.kids n v → ∃ st', update_branch_cost sys n st v = some st'
  | 0, st, v, _, _, hb => by simp [Below] at hb
  | n + 1, st, v, t, hv, hb => by
    obtain ⟨vv, hvv⟩ := t.live v hv
    unfold update_branch_cost
    simp only [hvv]
    have hkids : st.kids v = vv.children := kids_of_heap hvv
    have key : ∀ (l : List Nat) (s : Rrts S C O), SameLinks st s →
        (∀ c ∈ l, c ∈ st.kids v) →
        ∃ st', List.foldlM (update_branch_child sys (update_branch_cost sys n) v) s l
          = some st' := by
      intro l
      induction l with
      | nil => intro s _ _; exact ⟨s, by simp⟩
      | cons c l ih =>
        intro s hs hl
        have ts : TreeInv s := hs.treeInv t
        have hcv : c ∈ st.kids v := hl c (List.mem_cons_self c l)
        obtain ⟨hcl, _⟩ := (t.children_ok v hv).2 c hcv
        obtain ⟨cur, hcur⟩ := ts.live v (by rw [hs.1]; exact hv)
        obtain ⟨vc, hvc⟩ := ts.live c (by rw [hs.1]; exact hcl)
        obtain ⟨s2, hs2⟩ := update_best_vertex_total sys
          (s.setV c { vc with cost_from_root := cur.cost_from_root + vc.cost_from_parent })
          c _ (setV_heap_same _ _ _)
        have hl1 := SameLinks.setV_cost (cur.cost_from_root + vc.cost_from_parent) hvc
        have hl2 := SameLinks.links_of_update_best_vertex hs2
        have hs02 : SameLinks st s2 := hs.links_trans (hl1.links_trans hl2)
        have hbc : Below s2.kids n c := by
          rw [hs02.kids_fun]; exact hb c hcv
        obtain ⟨s3, hs3⟩ := update_branch_cost_total sys n s2 c (hs02.treeInv t)
          (by rw [hs02.1]; exact hcl) hbc
        obtain ⟨hl3, _⟩ := update_branch_cost_links sys n _ _ _ hs3
        obtain ⟨st', hst'⟩ := ih s3 (hs02.links_trans hl3)
          (fun c' hc' => hl c' (List.mem_cons_of_mem c hc'))
        refine ⟨st', ?_⟩
        rw [foldlM_option_cons]
        have : update_branch_child sys (update_branch_cost sys n) v s c = some s3 := by
          unfold update_branch_child
          simp only [hcur, modify_total _ hvc, hs2, hs3]
        rw [this]
        exact hst'
    exact key vv.children st (SameLinks.links_refl st) (fun c hc => by rw [hkids]; exact hc)

end T

set_option linter.unusedSectionVars false
section T
variable {S U C O R : Type} [LinearOrderedAddCommMonoid C]
variable [Zero R] [Add R]

theorem lookup_append_singleton {β : Type} (l : List (Nat × β)) (a k : Nat) (x : β) :
    (l ++ [(a, x)]).lookup k
      = match l.lookup k with
        | some y => some y
        | none => if k = a then some x else none := by
  induction l with
  | nil =>
    by_cases h : k = a
    · subst h; simp [List.lookup]
    · have : (k == a) = false := by simpa using h
      simp [List.lookup, this, h]
  | cons hd tl ih =>
    obtain ⟨b, y⟩ := hd
    by_cases h : k = b
    · subst h; simp [List.lookup]
    · have : (k == b) = false := by simpa using h
      simp only [List.cons_append, List.lookup, this]
      exact ih

theorem lookup_map_entry {β : Type} (l : List (Nat × β)) (k : Nat) (g : Nat → β → β) :
    (l.map (fun kv => (kv.1, g kv.1 kv.2))).lookup k = (l.lookup k).map (g k) := by
  induction l with
  | nil => simp [List.lookup]
  | cons hd tl ih =>
    obtain ⟨b, y⟩ := hd
    by_cases h : k = b
    · subst h; simp [List.lookup]
    · have : (k == b) = false := by simpa using h
      simp only [List.map_cons, List.lookup, this]
      exact ih

/-- The candidate list and the map built by step 1 of `find_best_parent`: every
candidate has an entry, and every entry holds a successfully evaluated edge cost. -/
theorem find_best_parent_pairs_entries (sys : System S U C O R) (hnn : NonnegCosts sys)
    (st : Rrts S C O) (si : S) :
    ∀ (near : List Nat) (pairs : List (Nat × C)) (vmap : List (Nat × (C × C × O)))
      (pairs' : List (Nat × C)) (vmap' : List (Nat × (C × C × O))),
      (∀ p ∈ pairs, (vmap.lookup p.1).isSome = true) →
      (∀ k en, vmap.lookup k = some en → sys.get_zero_cost ≤ en.1) →
      find_best_parent_pairs sys st si near pairs vmap = some (pairs', vmap') →
      (∀ p ∈ pairs', (vmap'.lookup p.1).isSome = true) ∧
      (∀ k en, vmap'.lookup k = some en → sys.get_zero_cost ≤ en.1)
  | [], pairs, vmap, pairs', vmap', h1, h2, h => by
    simp only [find_best_parent_pairs, Option.some.injEq, Prod.mk.injEq] at h
    rw [← h.1, ← h.2]
    exact ⟨h1, h2⟩
  | pv :: rest, pairs, vmap, pairs', vmap', h1, h2, h => by
    unfold find_best_parent_pairs at h
    cases hv : st.heap pv with
    | none => simp [hv] at h
    | some v =>
      simp only [hv] at h
      split at h
      · exact find_best_parent_pairs_entries sys hnn st si rest _ _ _ _ h1 h2 h
      · rename_i hr
        have hr0 : (sys.evaluate_extend_cost v.state si sys.opt_data_default).1 = 0 :=
          not_not.mp hr
        refine find_best_parent_pairs_entries sys hnn st si rest _ _ _ _ ?_ ?_ h
        · intro p hp
          by_cases hl : (vmap.lookup pv).isSome = true
          · rw [if_pos hl]
            rcases List.mem_append.mp hp with g | g
            · exact h1 p g
            · rw [List.mem_singleton.mp g]; exact hl
          · rw [if_neg hl, lookup_append_singleton]
            rcases List.mem_append.mp hp with g | g
            · have := h1 p g
              obtain ⟨y, hy⟩ := isSome_elim this
              simp [hy]
            · rw [List.mem_singleton.mp g]
              cases hq : vmap.lookup pv with
              | none => simp
              | some y => simp
        · intro k en hk
          by_cases hl : (vmap.lookup pv).isSome = true
          · rw [if_pos hl] at hk; exact h2 k en hk
          · rw [if_neg hl, lookup_append_singleton] at hk
            cases hq : vmap.lookup k with
            | some y =>
              rw [hq] at hk
              simp only [Option.some.injEq] at hk
              rw [← hk]; exact h2 k y hq
            | none =>
              rw [hq] at hk
              simp only at hk
              split at hk
              · simp only [Option.some.injEq] at hk
                rw [← hk]
                exact hnn _ _ _ hr0
              · exact absurd hk (by simp)

theorem find_best_parent_scan_cost (sys : System S U C O R) (st : Rrts S C O) (si : S) :
    ∀ (ps : List (Nat × C)) (traj : Trajectory S U R) (vmap : List (Nat × (C × C × O)))
      (ret : Int) (bp : Option Nat) (be : Option (Edge S C O)),
      (∀ p ∈ ps, (vmap.lookup p.1).isSome = true) →
      (∀ k en, vmap.lookup k = some en → sys.get_zero_cost ≤ en.1) →
      find_best_parent_scan sys st si ps traj vmap = some (ret, bp, be) →
      ∀ ed, be = some ed → sys.get_zero_cost ≤ ed.cost
  | [], traj, vmap, ret, bp, be, _, _, h, ed, hed => by
    simp only [find_best_parent_scan, Option.some.injEq, Prod.mk.injEq] at h
    rw [← h.2.2] at hed
    exact absurd hed (by simp)
  | p :: ps, traj, vmap, ret, bp, be, h1, h2, h, ed, hed => by
    unfold find_best_parent_scan at h
    cases hv : st.heap p.1 with
    | none => simp [hv] at h
    | some v =>
      simp only [hv] at h
      obtain ⟨en, hen⟩ := isSome_elim (h1 p (List.mem_cons_self _ _))
      split at h
      · simp only [Option.some.injEq, Prod.mk.injEq] at h
        rw [← h.2.2] at hed
        rw [← Option.some.inj hed]
        simp only [hen, Option.getD_some]
        exact h2 _ _ hen
      · refine find_best_parent_scan_cost sys st si ps _ _ ret bp be ?_ ?_ h ed hed
        · intro q hq
          have := lookup_map_entry vmap q.1
            (fun k y => if k = p.1 then (y.1, y.2.1, (sys.extend_to v.state si true traj ((vmap.lookup p.1).getD (sys.cost_default, sys.cost_default, sys.opt_data_default)).2.2).2.2) else y)
          have hm : (vmap.map (fun kv => if kv.1 = p.1 then (kv.1, (kv.2.1, kv.2.2.1, (sys.extend_to v.state si true traj ((vmap.lookup p.1).getD (sys.cost_default, sys.cost_default, sys.opt_data_default)).2.2).2.2)) else kv))
              = vmap.map (fun kv => (kv.1, (fun k y => if k = p.1 then (y.1, y.2.1, (sys.extend_to v.state si true traj ((vmap.lookup p.1).getD (sys.cost_default, sys.cost_default, sys.opt_data_default)).2.2).2.2) else y) kv.1 kv.2)) := by
            apply List.map_congr_left
            intro kv _
            by_cases hk : kv.1 = p.1 <;> simp [hk]
          rw [hm, this]
          obtain ⟨y, hy⟩ := isSome_elim (h1 q (List.mem_cons_of_mem _ hq))
          simp [hy]
        · intro k en' hk
          have := lookup_map_entry vmap k
            (fun k y => if k = p.1 then (y.1, y.2.1, (sys.extend_to v.state si true traj ((vmap.lookup p.1).getD (sys.cost_default, sys.cost_default, sys.opt_data_default)).2.2).2.2) else y)
          have hm : (vmap.map (fun kv => if kv.1 = p.1 then (kv.1, (kv.2.1, kv.2.2.1, (sys.extend_to v.state si true traj ((vmap.lookup p.1).getD (sys.cost_default, sys.cost_default, sys.opt_data_default)).2.2).2.2)) else kv))
              = vmap.map (fun kv => (kv.1, (fun k y => if k = p.1 then (y.1, y.2.1, (sys.extend_to v.state si true traj ((vmap.lookup p.1).getD (sys.cost_default, sys.cost_default, sys.opt_data_default)).2.2).2.2) else y) kv.1 kv.2)) := by
            apply List.map_congr_left
            intro kv _
            by_cases hk : kv.1 = p.1 <;> simp [hk]
          rw [hm, this] at hk
          cases hq : vmap.lookup k with
          | none => rw [hq] at hk; simp at hk
          | some y =>
            rw [hq] at hk
            simp only [Option.map_some', Option.some.injEq] at hk
            have hy := h2 k y hq
            rw [← hk]
            by_cases hkp : k = p.1
            · simp only [hkp, if_true]
              rw [hkp] at hq
              exact h2 _ _ hq
            · simp only [hkp, if_false]
              exact hy

theorem find_best_parent_cost {sys : System S U C O R} (hnn : NonnegCosts sys)
    {st : Rrts S C O} {si : S} {near : List Nat} {ret : Int} {bp : Option Nat}
    {ed : Edge S C O} (h : find_best_parent sys st si near = some (ret, bp, some ed)) :
    sys.get_zero_cost ≤ ed.cost := by
  unfold find_best_parent at h
  cases hp : find_best_parent_pairs sys st si near [] [] with
  | none => simp [hp] at h
  | some r =>
    obtain ⟨pairs, vmap⟩ := r
    simp only [hp] at h
    obtain ⟨k1, k2⟩ := find_best_parent_pairs_entries sys hnn st si near [] [] pairs vmap
      (by simp) (by simp [List.lookup]) hp
    refine find_best_parent_scan_cost sys st si _ _ _ ret bp (some ed) ?_ k2 h ed rfl
    intro p hp'
    unfold sort_vertex_cost_pairs at hp'
    exact k1 p ((List.perm_insertionSort _ pairs).mem_iff.mp hp')

end T

set_option linter.unusedSectionVars false
section T
variable {S U C O R : Type} [Add C] [LT C] [DecidableRel (fun a b : C => a < b)]
variable [Zero R] [Add R]

theorem find_best_parent_pairs_total (sys : System S U C O R) (st : Rrts S C O) (si : S) :
    ∀ (near : List Nat) (pairs : List (Nat × C)) (vmap : List (Nat × (C × C × O))),
      (∀ x ∈ near, (st.heap x).isSome = true) →
      ∃ r, find_best_parent_pairs sys st si near pairs vmap = some r
  | [], pairs, vmap, _ => ⟨_, rfl⟩
  | pv :: rest, pairs, vmap, h => by
    obtain ⟨v, hv⟩ := isSome_elim (h pv (List.mem_cons_self _ _))
    unfold find_best_parent_pairs
    simp only [hv]
    split
    · exact find_best_parent_pairs_total sys st si rest _ _
        (fun x hx => h x (List.mem_cons_of_mem _ hx))
    · exact find_best_parent_pairs_total sys st si rest _ _
        (fun x hx => h x (List.mem_cons_of_mem _ hx))

theorem find_best_parent_scan_total (sys : System S U C O R) (st : Rrts S C O) (si : S) :
    ∀ (ps : List (Nat × C)) (traj : Trajectory S U R) (vmap : List (Nat × (C × C × O))),
      (∀ p ∈ ps, (st.heap p.1).isSome = true) →
      ∃ r, find_best_parent_scan sys st si ps traj vmap = some r
  | [], traj, vmap, _ => ⟨_, rfl⟩
  | p :: ps, traj, vmap, h => by
    obtain ⟨v, hv⟩ := isSome_elim (h p (List.mem_cons_self _ _))
    unfold find_best_parent_scan
    simp only [hv]
    split
    · exact ⟨_, rfl⟩
    · exact find_best_parent_scan_total sys st si ps _ _
        (fun x hx => h x (List.mem_cons_of_mem _ hx))

theorem find_best_parent_total (sys : System S U C O R) (st : Rrts S C O) (si : S)
    (near : List Nat) (h : ∀ x ∈ near, (st.heap x).isSome = true) :
    ∃ r, find_best_parent sys st si near = some r := by
  obtain ⟨⟨pairs, vmap⟩, hp⟩ := find_best_parent_pairs_total sys st si near [] [] h
  unfold find_best_parent
  simp only [hp]
  apply find_best_parent_scan_total
  intro p hp'
  unfold sort_vertex_cost_pairs at hp'
  have hq := (List.perm_insertionSort _ pairs).mem_iff.mp hp'
  rcases find_best_parent_pairs_mem sys st si near [] [] pairs vmap hp p hq with g | g
  · simp at g
  · exact h _ g

end T

section N
variable {S U C O R : Type} [LinearOrderedAddCommMonoid C]
variable [Zero R] [Add R]

/-- With edge costs that are not below the neutral zero cost, the cost from the root
does not decrease along a path away from the root. -/
theorem ancestor_cost_le {sys : System S U C O R} {st : Rrts S C O} (t : TreeInv st)
    (hc : CostInv st) (hz : sys.get_zero_cost = 0) (hen : EdgeNonneg sys st) {x a : Nat}
    (hch : Relation.ReflTransGen (fun u w => st.par u = some w) x a) :
    x ∈ st.list_vertices → ∀ vx va, st.heap x = some vx → st.heap a = some va →
      va.cost_from_root ≤ vx.cost_from_root := by
  induction hch using Relation.ReflTransGen.head_induction_on with
  | refl =>
    intro _ vx va h1 h2
    rw [h1] at h2
    rw [Option.some.inj h2]
  | @head u p hup _ ih =>
    intro hu vx va h1 h2
    obtain ⟨hpl, _, _⟩ := t.parent_ok u hu p hup
    obtain ⟨vp, hvp⟩ := t.live p hpl
    have hpar : vx.parent = some p := by rw [← par_of_heap h1]; exact hup
    rw [hc u hu vx p vp h1 hpar hvp]
    have h0 := hen u hu vx h1
    rw [hz] at h0
    exact le_trans (ih hpl vp va hvp h2) (le_add_of_nonneg_right h0)

theorem SameLinks.edgeNonneg {sys : System S U C O R} {a b : Rrts S C O} (h : SameLinks a b)
    (hen : EdgeNonneg sys a) : EdgeNonneg sys b := by
  intro x hx vv hvv
  rw [h.1] at hx
  have := h.cfp_eq x
  rw [hvv] at this
  cases ha : a.heap x with
  | none => simp [ha] at this
  | some w =>
    simp only [ha, Option.map_some', Option.some.injEq] at this
    rw [this]
    exact hen x hx w ha

theorem rewire_vertex_nonneg {sys : System S U C O R} (hnn : NonnegCosts sys)
    {st st' : Rrts S C O} {v pvn fuel : Nat} (t : TreeInv st) (hv : v ∈ st.list_vertices)
    (hvn : pvn ∈ st.list_vertices) (hne : v ≠ pvn) (hen : EdgeNonneg sys st)
    (h : rewire_vertex sys fuel v st pvn = some st') : EdgeNonneg sys st' := by
  obtain ⟨vv, vn, hvv, hvnn, ⟨_, g⟩ | ⟨g1, _, _, st1, hins, hubc⟩⟩ := rewire_vertex_cases h
  · rw [g]; exact hen
  · obtain ⟨_, _, l3⟩ := rewire_vertex_links t hv hvn hne h
    obtain ⟨hs, _⟩ := update_branch_cost_links sys fuel _ _ _ hubc
    have hl : st'.list_vertices = st.list_vertices :=
      hs.1.trans (rewire_insert_view t hv hvn hne hins).1.1
    intro x hx w hw
    rw [hl] at hx
    by_cases hxe : x = pvn
    · subst hxe
      rcases rewire_vertex_cfp t hv hvn hne hvv hvnn h with g | g
      · rw [g] at hw; exact hen x hx w hw
      · rw [hw] at g
        simp only [Option.map_some', Option.some.injEq] at g
        rw [g]; exact hnn _ _ _ g1
    · have := l3 x hxe
      rw [hw] at this
      cases ha : st.heap x with
      | none => simp [ha] at this
      | some w0 =>
        simp only [ha, Option.map_some', Option.some.injEq] at this
        rw [this]; exact hen x hx w0 ha

/-- With non-negative edge costs, a step of the rewiring loop on an ancestor of the
new vertex `v` (its parent, the root, or any vertex between) changes nothing. -/
theorem rewire_vertex_ancestor {sys : System S U C O R} (hnn : NonnegCosts sys)
    (hz : sys.get_zero_cost = 0) {st st' : Rrts S C O} {v pvn fuel : Nat} (t : TreeInv st)
    (hc : CostInv st) (hen : EdgeNonneg sys st) (hv : v ∈ st.list_vertices)
    (hch : Relation.ReflTransGen (fun u w => st.par u = some w) v pvn)
    (h : rewire_vertex sys fuel v st pvn = some st') : st' = st := by
  obtain ⟨vv, vn, hvv, hvnn, ⟨_, g⟩ | ⟨g1, g2, _, _⟩⟩ := rewire_vertex_cases h
  · exact g
  · have h1 := ancestor_cost_le t hc hz hen hch hv vv vn hvv hvnn
    have h0 := hnn _ _ _ g1
    rw [hz] at h0
    exact absurd (lt_of_lt_of_le g2 h1) (not_lt.mpr (le_add_of_nonneg_right h0))

/-- With non-negative edge costs a step of the rewiring loop returns, provided the
recursion budget is at least the number of vertices. -/
theorem rewire_vertex_total {sys : System S U C O R} (hnn : NonnegCosts sys)
    (hz : sys.get_zero_cost = 0) {st : Rrts S C O} {v pvn fuel : Nat} (t : TreeInv st)
    (hc : CostInv st) (hen : EdgeNonneg sys st) (hv : v ∈ st.list_vertices)
    (hvn : pvn ∈ st.list_vertices) (hne : v ≠ pvn) (hf : st.list_vertices.length ≤ fuel) :
    ∃ st', rewire_vertex sys fuel v st pvn = some st' := by
  obtain ⟨vv, hvv⟩ := t.live v hv
  obtain ⟨vn, hvnn⟩ := t.live pvn hvn
  unfold rewire_vertex
  simp only [hvv, hvnn]
  split
  · exact ⟨_, rfl⟩
  · rename_i g1
    split
    · rename_i g2
      split
      · exact ⟨_, rfl⟩
      · have hpl : ∀ p, vn.parent = some p → (st.heap p).isSome = true := by
          intro p hp
          obtain ⟨hpl, _, _⟩ := t.parent_ok pvn hvn p (by rw [par_of_heap hvnn]; exact hp)
          obtain ⟨vp, hvp⟩ := t.live p hpl
          rw [hvp]; rfl
        obtain ⟨st1, hins⟩ := insert_edge_into_total sys st v pvn
          { start_state := vv.state, end_state := vn.state,
            cost := (sys.evaluate_extend_cost vv.state vn.state sys.opt_data_default).2.2,
            opt_data := (sys.extend_to vv.state vn.state true Trajectory.empty
              (sys.evaluate_extend_cost vv.state vn.state sys.opt_data_default).2.1).2.2 }
          (by rw [hvv]; rfl) vn hvnn hpl
        rw [hins]
        have hnc : ¬ Relation.ReflTransGen (fun u w => st.par u = some w) v pvn := by
          intro hch
          have h1 := ancestor_cost_le t hc hz hen hch hv vv vn hvv hvnn
          have h0 := hnn _ _ _ (not_not.mp g1)
          rw [hz] at h0
          exact absurd (lt_of_lt_of_le g2 h1) (not_lt.mpr (le_add_of_nonneg_right h0))
        have t1 := rewire_insert_tree_of_nochain t hv hvn hne hins hnc
        have hl1 : st1.list_vertices = st.list_vertices :=
          (rewire_insert_view t hv hvn hne hins).1.1
        have hb := t1.below pvn (by rw [hl1]; exact hvn)
        rw [hl1] at hb
        exact update_branch_cost_total sys fuel st1 pvn t1 (by rw [hl1]; exact hvn)
          (below_mono_le hf hb)
    · exact ⟨_, rfl⟩

theorem rewire_vertices_total {sys : System S U C O R} (hnn : NonnegCosts sys)
    (hz : sys.get_zero_cost = 0) (fuel v : Nat) :
    ∀ (near : List Nat) (st : Rrts S C O), TreeInv st → CostInv st → BestListed st →
      EdgeNonneg sys st → v ∈ st.list_vertices →
      (∀ x ∈ near, x ∈ st.list_vertices ∧ x ≠ v) → st.list_vertices.length ≤ fuel →
      ∃ st', rewire_vertices sys fuel st v near = some st' ∧ EdgeNonneg sys st'
  | [], st, _, _, _, hen, _, _, _ => ⟨st, by simp [rewire_vertices], hen⟩
  | x :: near, st, t, hc, hbl, hen, hv, hn, hf => by
    obtain ⟨hx1, hx2⟩ := hn x (List.mem_cons_self _ _)
    obtain ⟨s1, hs1⟩ := rewire_vertex_total hnn hz t hc hen hv hx1 (Ne.symm hx2) hf
    obtain ⟨t1, c1, b1, f1⟩ := rewire_vertex_inv t hc hbl hv hx1 (Ne.symm hx2) hs1
    have e1 := rewire_vertex_nonneg hnn t hv hx1 (Ne.symm hx2) hen hs1
    have hl : s1.list_vertices = st.list_vertices := f1.1
    obtain ⟨st', h1, h2⟩ := rewire_vertices_total hnn hz fuel v near s1 t1 c1 b1 e1
      (by rw [hl]; exact hv) (fun y hy => by rw [hl]; exact hn y (List.mem_cons_of_mem _ hy))
      (by rw [hl]; exact hf)
    exact ⟨st', by rw [rewire_vertices_cons hs1]; exact h1, h2⟩

end N

set_option linter.unusedSectionVars false
section N
variable {S U C O R : Type} [LinearOrderedAddCommMonoid C]
variable [Zero R] [Add R]

theorem insert_edge_nonneg {sys : System S U C O R} {st st1 : Rrts S C O} {b nv : Nat}
    {e : Edge S C O} (t : TreeInv st) (hen : EdgeNonneg sys st) (hbl : b ∈ st.list_vertices)
    (he : sys.get_zero_cost ≤ e.cost) (h : insert_edge sys st b e = some (some nv, st1)) :
    EdgeNonneg sys st1 := by
  obtain ⟨vvs, h1, ⟨hr, _⟩ | ⟨hr, _, kd, hkd, hins⟩⟩ := insert_edge_cases h
  · exact absurd hr (by simp)
  have hfresh : st.next ∉ st.list_vertices := fun hm => absurd (t.fresh _ hm) (lt_irrefl _)
  have hne : b ≠ st.next := fun hc' => hfresh (hc' ▸ hbl)
  obtain ⟨vvs', vve, st2, g1, g2, g3, g4, g5, g6, g7, g8, g9, g10, g11, g12⟩ :=
    insert_edge_into_spec hins
  simp only [new_vertex, Function.update_same, Function.update_noteq hne] at g1 g2
  rw [h1] at g1
  have := Option.some.inj g1
  subst this
  have := Option.some.inj g2
  subst this
  obtain ⟨k1, k2, _, k4⟩ := g12 hne (by simp)
  simp only [new_vertex, if_false, reduceCtorEq] at k1 k2 k4 g6
  intro x hx w hw
  rw [g6] at hx
  by_cases q1 : x = st.next
  · subst q1
    rw [k1] at hw
    rw [← Option.some.inj hw]
    exact he
  · have hxl : x ∈ st.list_vertices := by
      rcases List.mem_append.mp hx with g | g
      · exact g
      · exact absurd (List.mem_singleton.mp g) q1
    by_cases q2 : x = b
    · subst q2
      rw [k2] at hw
      rw [← Option.some.inj hw]
      exact hen x hxl vvs h1
    · rw [k4 x q1 q2 (by simp)] at hw
      have hw' : st.heap x = some w := by
        rw [← hw]; exact (Function.update_noteq q1 _ _).symm
      exact hen x hxl w hw'

theorem near_listed {st : Rrts S C O} {d : Draw S} {ret : Int} {near : List Nat}
    (t : TreeInv st) (hk : KdSound st d) (hn : get_near_vertices st d [] = some (ret, near)) :
    ∀ x ∈ near, x ∈ st.list_vertices := by
  obtain ⟨kd, hkd, g⟩ := get_near_vertices_cases hn
  obtain ⟨k1, k2⟩ := hk.elim hkd
  have hkl : kd = st.list_vertices := by
    have := t.index; rw [hkd] at this; exact Option.some.inj this
  rw [hkl] at k1 k2
  rcases g with ⟨_, g, _⟩ | ⟨_, _, vc, g1, g2⟩ | ⟨_, _, g⟩
  · rw [g]; simp
  · rw [g2]; intro x hx; rw [List.mem_singleton.mp hx]; exact k2 vc g1
  · rw [g]; exact k1

theorem iteration_nonneg {sys : System S U C O R} (hnn : NonnegCosts sys) {fuel : Nat}
    {d : Draw S} {st st' : Rrts S C O} {code : Int} (t : TreeInv st) (hc : CostInv st)
    (hbl : BestListed st) (hen : EdgeNonneg sys st) (hk : KdSound st d)
    (h : iteration sys fuel d st = some (code, st')) : EdgeNonneg sys st' := by
  rcases iteration_cases h with ⟨_, rfl, _⟩ | ⟨_, ret, near, hn, ⟨_, rfl, _⟩ | ⟨_, ret3, bp, be, hf,
    ⟨_, rfl, _⟩ | ⟨_, b, e, rfl, rfl, ⟨_, rfl, _⟩ | ⟨_, nv, st1, hi, _, hrw⟩⟩⟩⟩
  · exact hen
  · exact hen
  · exact hen
  · exact hen
  · have hnear := near_listed t hk hn
    rcases find_best_parent_cases hf with ⟨_, g, _⟩ | ⟨_, b', ed, g1, g2, g3, _⟩
    · exact absurd g (by simp)
    · have : b' = b := (Option.some.inj g1).symm
      subst this
      obtain ⟨q1, q2, _, _, _, _, _, t1, c1, b1⟩ := insert_edge_inv t hc hbl (hnear _ g3) hi
      have e1 := insert_edge_nonneg t hen (hnear _ g3) (find_best_parent_cost hnn hf) hi
      have hfresh : ∀ x ∈ st.list_vertices, x ≠ nv := by
        intro x hx hxe
        have := t.fresh x hx
        rw [hxe, q1] at this
        exact absurd this (lt_irrefl _)
      have key : ∀ (l : List Nat) (s s' : Rrts S C O), TreeInv s → CostInv s → BestListed s →
          EdgeNonneg sys s → nv ∈ s.list_vertices → (∀ x ∈ l, x ∈ s.list_vertices ∧ x ≠ nv) →
          rewire_vertices sys fuel s nv l = some s' → EdgeNonneg sys s' := by
        intro l
        induction l with
        | nil =>
          intro s s' _ _ _ he _ _ hr
          simp [rewire_vertices] at hr
          rw [← hr]; exact he
        | cons x l ih =>
          intro s s' ts cs bs he hv hl hr
          cases hb : rewire_vertex sys fuel nv s x with
          | none =>
            unfold rewire_vertices at hr
            rw [foldlM_option_cons, hb] at hr
            simp at hr
          | some s1 =>
            rw [rewire_vertices_cons hb] at hr
            obtain ⟨hx1, hx2⟩ := hl x (List.mem_cons_self _ _)
            obtain ⟨t1', c1', b1', f1⟩ := rewire_vertex_inv ts cs bs hv hx1 (Ne.symm hx2) hb
            have e1' := rewire_vertex_nonneg hnn ts hv hx1 (Ne.symm hx2) he hb
            have hl' : s1.list_vertices = s.list_vertices := f1.1
            exact ih s1 s' t1' c1' b1' e1' (by rw [hl']; exact hv)
              (fun y hy => by rw [hl']; exact hl y (List.mem_cons_of_mem _ hy)) hr
      exact key near st1 st' t1 c1 b1 e1 (by rw [q2]; simp)
        (fun x hx => ⟨by rw [q2]; exact List.mem_append_left _ (hnear x hx), hfresh x (hnear x hx)⟩)
        hrw

theorem reachable_nonneg {sys : System S U C O R} (hnn : NonnegCosts sys) {st : Rrts S C O}
    (h : Reachable sys st) : EdgeNonneg sys st := by
  induction h with
  | init st0 rs bnb st hi =>
    obtain ⟨sx, h1, h2, h3, h4, _⟩ := initialise_spec sys st0 rs bnb
    rw [h1] at hi
    simp only [Option.some.injEq, Prod.mk.injEq, true_and] at hi
    subst hi
    intro x hx w hw
    rw [h2] at hx
    rw [List.mem_singleton.mp hx, h4] at hw
    rw [← Option.some.inj hw]
  | iter st d fuel code st' hr hk hit ih =>
    obtain ⟨t, c, b⟩ := reachable_inv hr
    exact iteration_nonneg hnn t c b ih hk hit

/-- With non-negative edge costs `iteration` returns from every reachable state,
provided the recursion budget exceeds the number of vertices. -/
theorem iteration_total {sys : System S U C O R} (hnn : NonnegCosts sys)
    (hz : sys.get_zero_cost = 0) {fuel : Nat} {d : Draw S} {st : Rrts S C O}
    (hr : Reachable sys st) (hk : KdSound st d) (hf : st.list_vertices.length < fuel) :
    ∃ code st', iteration sys fuel d st = some (code, st') := by
  obtain ⟨t, hc, hbl⟩ := reachable_inv hr
  have hen := reachable_nonneg hnn hr
  unfold iteration
  simp only
  generalize (if d.p_lt_goal_sample_freq = true then d.sample_in_goal else d.sample_state) = smp
  split
  · exact ⟨_, _, rfl⟩
  · have hkd := t.index
    cases hn : get_near_vertices st d [] with
    | none =>
      exfalso
      unfold get_near_vertices at hn
      simp only [hkd] at hn
      split at hn
      · cases hq : d.kd_nearest with
        | none => simp [hq] at hn
        | some vc => simp [hq] at hn
      · simp at hn
    | some rn =>
      obtain ⟨ret, near⟩ := rn
      simp only
      split
      · exact ⟨_, _, rfl⟩
      · have hnear := near_listed t hk hn
        obtain ⟨⟨ret3, bp, be⟩, hfb⟩ := find_best_parent_total sys st smp.2 near
          (fun x hx => by obtain ⟨w, hw⟩ := t.live x (hnear x hx); rw [hw]; rfl)
        simp only [hfb]
        split
        · exact ⟨_, _, rfl⟩
        · rename_i hr3
          rcases find_best_parent_cases hfb with ⟨g, _⟩ | ⟨_, b, ed, g1, g2, g3, _⟩
          · exact absurd (by rw [g]; decide : ret3 ≠ 0) hr3
          · subst g1 g2
            simp only
            obtain ⟨vb, hvb⟩ := t.live b (hnear b g3)
            obtain ⟨r, st1, hi, _⟩ := insert_edge_total sys st b ed hvb hkd
            rw [hi]
            cases r with
            | none => exact ⟨_, _, rfl⟩
            | some nv =>
              simp only
              split
              · obtain ⟨q1, q2, _, _, _, _, _, t1, c1, b1⟩ :=
                  insert_edge_inv t hc hbl (hnear _ g3) hi
                have e1 := insert_edge_nonneg t hen (hnear _ g3) (find_best_parent_cost hnn hfb) hi
                have hfresh : ∀ x ∈ st.list_vertices, x ≠ nv := by
                  intro x hx hxe
                  have := t.fresh x hx
                  rw [hxe, q1] at this
                  exact absurd this (lt_irrefl _)
                obtain ⟨st2, h2, _⟩ := rewire_vertices_total hnn hz fuel nv near st1 t1 c1 b1 e1
                  (by rw [q2]; simp)
                  (fun x hx => ⟨by rw [q2]; exact List.mem_append_left _ (hnear x hx),
                    hfresh x (hnear x hx)⟩)
                  (by rw [q2]; simp; omega)
                rw [h2]
                exact ⟨_, _, rfl⟩
              · exact ⟨_, _, rfl⟩

end N

set_option linter.unusedSectionVars false
section N2
variable {S U C O R : Type} [LinearOrderedAddCommMonoid C]
variable [Zero R] [Add R]

/-- With non-negative edge costs the rewiring loop leaves the parent link of every
ancestor of the new vertex `v` as it was, and the chain of parent links from `v` to
that ancestor is still there afterwards. -/
theorem rewire_vertices_ancestors {sys : System S U C O R} (hnn : NonnegCosts sys)
    (hz : sys.get_zero_cost = 0) (fuel v : Nat) :
    ∀ (near : List Nat) (st st' : Rrts S C O), TreeInv st → CostInv st → BestListed st →
      EdgeNonneg sys st → v ∈ st.list_vertices →
      (∀ x ∈ near, x ∈ st.list_vertices ∧ x ≠ v) →
      rewire_vertices sys fuel st v near = some st' →
      ∀ a, Relation.ReflTransGen (fun u w => st.par u = some w) v a →
        st'.par a = st.par a ∧ Relation.ReflTransGen (fun u w => st'.par u = some w) v a
  | [], st, st', _, _, _, _, _, _, hr => by
    simp [rewire_vertices] at hr
    subst hr
    exact fun a ha => ⟨rfl, ha⟩
  | x :: near, st, st', t, hc, hbl, hen, hv, hn, hr => by
    obtain ⟨hx1, hx2⟩ := hn x (List.mem_cons_self _ _)
    cases hb : rewire_vertex sys fuel v st x with
    | none =>
      unfold rewire_vertices at hr
      rw [foldlM_option_cons, hb] at hr
      simp at hr
    | some s1 =>
      rw [rewire_vertices_cons hb] at hr
      obtain ⟨t1, c1, b1, f1⟩ := rewire_vertex_inv t hc hbl hv hx1 (Ne.symm hx2) hb
      have e1 := rewire_vertex_nonneg hnn t hv hx1 (Ne.symm hx2) hen hb
      have hl : s1.list_vertices = st.list_vertices := f1.1
      have ih := rewire_vertices_ancestors hnn hz fuel v near s1 st' t1 c1 b1 e1
        (by rw [hl]; exact hv) (fun y hy => by rw [hl]; exact hn y (List.mem_cons_of_mem _ hy)) hr
      have step : ∀ a, Relation.ReflTransGen (fun u w => st.par u = some w) v a →
          s1.par a = st.par a ∧ Relation.ReflTransGen (fun u w => s1.par u = some w) v a := by
        by_cases hanc : Relation.ReflTransGen (fun u w => st.par u = some w) v x
        · have := rewire_vertex_ancestor hnn hz t hc hen hv hanc hb
          subst this
          exact fun a ha => ⟨rfl, ha⟩
        · obtain ⟨k1, _, _⟩ := rewire_vertex_links t hv hx1 (Ne.symm hx2) hb
          have hne : ∀ a, Relation.ReflTransGen (fun u w => st.par u = some w) v a → a ≠ x :=
            fun a ha hax => hanc (hax ▸ ha)
          intro a ha
          refine ⟨k1 a (hne a ha), ?_⟩
          induction ha with
          | refl => exact Relation.ReflTransGen.refl
          | tail hab hbc ih2 =>
            rename_i b c
            refine Relation.ReflTransGen.tail ih2 ?_
            show s1.par b = some c
            rw [k1 b (hne b hab)]
            exact hbc
      intro a ha
      obtain ⟨p1, p2⟩ := step a ha
      obtain ⟨p3, p4⟩ := ih a p2
      exact ⟨p3.trans p1, p4⟩

theorem insert_edge_par {sys : System S U C O R} {st st1 : Rrts S C O} {b nv : Nat}
    {e : Edge S C O} (t : TreeInv st) (hbl : b ∈ st.list_vertices)
    (h : insert_edge sys st b e = some (some nv, st1)) : st1.par nv = some b := by
  obtain ⟨vvs, h1, ⟨hr, _⟩ | ⟨hr, _, kd, hkd, hins⟩⟩ := insert_edge_cases h
  · exact absurd hr (by simp)
  have hfresh : st.next ∉ st.list_vertices := fun hm => absurd (t.fresh _ hm) (lt_irrefl _)
  have hne : b ≠ st.next := fun hc' => hfresh (hc' ▸ hbl)
  obtain ⟨vvs', vve, st2, g1, g2, g3, g4, g5, g6, g7, g8, g9, g10, g11, g12⟩ :=
    insert_edge_into_spec hins
  simp only [new_vertex, Function.update_same, Function.update_noteq hne] at g1 g2
  have := Option.some.inj g2
  subst this
  obtain ⟨k1, _⟩ := g12 hne (by simp)
  have hnv : nv = st.next := Option.some.inj hr
  rw [hnv]
  exact par_of_heap k1

/-- **C5** (tree invariant under rewiring).  For a system whose edge costs are never
below the zero cost (the identity of the cost addition), in every planner state reached
from `initialize` by a finite sequence of `iteration` calls: exactly one listed vertex,
the root, has no parent, and every listed vertex reaches the root by following parent
links; a further call of `iteration` returns (so the cost propagation
`update_branch_cost` started by every rewiring terminates), given a recursion budget
above the number of vertices; and in that call, after the new vertex `v` is attached,
the loop `rewire_vertices` leaves the parent link of the parent of `v` and of every other
ancestor `a` of `v` as it was, the chain of parent links from `v` to `a` staying in
place, so that no ancestor of `v` is put below `v`. -/
theorem tree_invariant_under_rewiring (sys : System S U C O R) (hnn : NonnegCosts sys)
    (hz : sys.get_zero_cost = 0) (st : Rrts S C O) (hr : Reachable sys st) :
    (∃ r, st.root = some r ∧ r ∈ st.list_vertices ∧ st.par r = none ∧
      (∀ x ∈ st.list_vertices, st.par x = none → x = r) ∧
      ∀ x ∈ st.list_vertices, Relation.ReflTransGen (fun u w => st.par u = some w) x r) ∧
    (∀ (fuel : Nat) (d : Draw S), KdSound st d → st.list_vertices.length < fuel →
      ∃ code st', iteration sys fuel d st = some (code, st')) ∧
    (∀ (fuel : Nat) (d : Draw S) (sr : S) (ret ret3 : Int) (near : List Nat) (b v : Nat)
      (e : Edge S C O) (st1 st' : Rrts S C O), KdSound st d →
      get_near_vertices st d [] = some (ret, near) →
      find_best_parent sys st sr near = some (ret3, some b, some e) →
      insert_edge sys st b e = some (some v, st1) →
      rewire_vertices sys fuel st1 v near = some st' →
      st1.par v = some b ∧
      ∀ a, Relation.ReflTransGen (fun u w => st1.par u = some w) v a →
        st'.par a = st1.par a ∧
        Relation.ReflTransGen (fun u w => st'.par u = some w) v a) := by
  obtain ⟨t, hc, hbl⟩ := reachable_inv hr
  have hen := reachable_nonneg hnn hr
  refine ⟨?_, fun fuel d hk hf => iteration_total hnn hz hr hk hf, ?_⟩
  · obtain ⟨r, h1, h2, h3⟩ := t.root_ok
    refine ⟨r, h1, h2, h3, ?_, t.chain_root h1⟩
    intro x hx hp
    have := t.root_unique x hx hp
    rw [h1] at this
    exact (Option.some.inj this).symm
  · intro fuel d sr ret ret3 near b v e st1 st' hk hn hfb hi hrw
    have hnear := near_listed t hk hn
    rcases find_best_parent_cases hfb with ⟨_, g, _⟩ | ⟨_, b', ed, g1, g2, g3, _⟩
    · exact absurd g (by simp)
    have : b' = b := (Option.some.inj g1).symm
    subst this
    obtain ⟨q1, q2, _, _, _, _, _, t1, c1, b1⟩ := insert_edge_inv t hc hbl (hnear _ g3) hi
    have e1 := insert_edge_nonneg t hen (hnear _ g3) (find_best_parent_cost hnn hfb) hi
    have hfresh : ∀ x ∈ st.list_vertices, x ≠ v := by
      intro x hx hxe
      have := t.fresh x hx
      rw [hxe, q1] at this
      exact absurd this (lt_irrefl _)
    refine ⟨?_, rewire_vertices_ancestors hnn hz fuel v near st1 st' t1 c1 b1 e1
      (by rw [q2]; simp)
      (fun x hx => ⟨by rw [q2]; exact List.mem_append_left _ (hnear x hx),
        hfresh x (hnear x hx)⟩) hrw⟩
    exact insert_edge_par t (hnear _ g3) hi

end N2

section Witnesses5

theorem line_system_nonneg : NonnegCosts line_system := fun _ _ _ _ => bot_le

theorem line_s1_near :
    get_near_vertices line_s1 (line_draw 5 [0, 1]) [] = some (0, [0, 1]) := rfl

theorem line_s1_best_parent :
    find_best_parent line_system line_s1 5 [0, 1]
      = some (0, some 0, some { start_state := 0, end_state := 5, cost := 25, opt_data := 0 }) :=
  rfl

/-- Witness of **C5** on the line example: the state `line_s1` has root 0; the next
call of `iteration` returns; and the rewiring around the new vertex 2 leaves the parent
link of its parent, the root 0, alone. -/
theorem tree_invariant_under_rewiring_witness :
    NonnegCosts line_system ∧ line_system.get_zero_cost = 0 ∧
    Reachable line_system line_s1 ∧
    (∃ r, line_s1.root = some r ∧ r ∈ line_s1.list_vertices ∧ line_s1.par r = none ∧
      (∀ x ∈ line_s1.list_vertices, line_s1.par x = none → x = r) ∧
      ∀ x ∈ line_s1.list_vertices,
        Relation.ReflTransGen (fun u w => line_s1.par u = some w) x r) ∧
    (∃ code st', iteration line_system 4 (line_draw 5 [0, 1]) line_s1 = some (code, st')) ∧
    (line_s2.par 0 = line_s1_inserted.par 0 ∧
      Relation.ReflTransGen (fun u w => line_s2.par u = some w) 2 0) :=
  ⟨line_system_nonneg, rfl, line_s1_reachable,
    (tree_invariant_under_rewiring line_system line_system_nonneg rfl line_s1
      line_s1_reachable).1,
    (tree_invariant_under_rewiring line_system line_system_nonneg rfl line_s1
      line_s1_reachable).2.1 4 (line_draw 5 [0, 1]) (by decide) (by decide),
    ((tree_invariant_under_rewiring line_system line_system_nonneg rfl line_s1
      line_s1_reachable).2.2 4 (line_draw 5 [0, 1]) 5 0 0 [0, 1] 0 2
      { start_state := 0, end_state := 5, cost := 25, opt_data := 0 } line_s1_inserted line_s2
      (by decide) line_s1_near line_s1_best_parent line_s1_insert line_s1_rewire).2 0
      (Relation.ReflTransGen.single (by decide))⟩

end Witnesses5

set_option linter.unusedSectionVars false
section Shape
variable {S U C O R : Type}

theorem SameTree.tree_refl (st : Rrts S C O) : SameTree st st :=
  ⟨rfl, rfl, rfl, rfl, rfl, fun _ => rfl⟩

theorem SameTree.tree_trans {a b c : Rrts S C O} (h1 : SameTree a b) (h2 : SameTree b c) :
    SameTree a c :=
  ⟨h2.1.trans h1.1, h2.2.1.trans h1.2.1, h2.2.2.1.trans h1.2.2.1,
    h2.2.2.2.1.trans h1.2.2.2.1, h2.2.2.2.2.1.trans h1.2.2.2.2.1,
    fun k => (h2.2.2.2.2.2 k).trans (h1.2.2.2.2.2 k)⟩

theorem SameTree.tree_heap_some {a b : Rrts S C O} (h : SameTree a b) {k : Nat}
    {v : Vertex S C O} (hv : a.heap k = some v) :
    ∃ w, b.heap k = some w ∧ w.tree = v.tree := by
  have := h.2.2.2.2.2 k
  rw [hv] at this
  cases hb : b.heap k with
  | none => simp [hb] at this
  | some w => exact ⟨w, rfl, by simpa [hb] using this⟩

theorem SameTree.tree_par_eq {a b : Rrts S C O} (h : SameTree a b) (k : Nat) :
    b.par k = a.par k := by
  have := h.2.2.2.2.2 k
  unfold Rrts.par
  cases ha : a.heap k <;> cases hb : b.heap k <;> simp [ha, hb, Vertex.tree] at this ⊢
  exact this.1

theorem SameTree.tree_kids_eq {a b : Rrts S C O} (h : SameTree a b) (k : Nat) :
    b.kids k = a.kids k := by
  have := h.2.2.2.2.2 k
  unfold Rrts.kids
  cases ha : a.heap k <;> cases hb : b.heap k <;> simp [ha, hb, Vertex.tree] at this ⊢
  exact this.2.1

theorem SameTree.tree_has_edge_eq {a b : Rrts S C O} (h : SameTree a b) (k : Nat) :
    b.has_edge k = a.has_edge k := by
  have := h.2.2.2.2.2 k
  unfold Rrts.has_edge
  cases ha : a.heap k <;> cases hb : b.heap k <;> simp [ha, hb, Vertex.tree] at this ⊢
  exact this.2.2

theorem SameTree.par_fun {a b : Rrts S C O} (h : SameTree a b) : b.par = a.par :=
  funext h.tree_par_eq

theorem SameTree.tree_treeInv {a b : Rrts S C O} (h : SameTree a b) (t : TreeInv a) :
    TreeInv b := by
  obtain ⟨a1, a2, a3, a4, a5, a7⟩ := h
  have h' : SameTree a b := ⟨a1, a2, a3, a4, a5, a7⟩
  refine ⟨?_, ?_, ?_, ?_, ?_, ?_, ?_, ?_, ?_, ?_⟩
  · rw [a1]; exact t.nodup
  · rw [a1, a2]; exact t.count
  · rw [a1, a4]; exact t.index
  · rw [a1, a3]; exact t.fresh
  · rw [a1]; intro k hk
    obtain ⟨vv, hv⟩ := t.live k hk
    obtain ⟨w, hw, _⟩ := h'.tree_heap_some hv
    exact ⟨w, hw⟩
  · obtain ⟨r, r1, r2, r3⟩ := t.root_ok
    exact ⟨r, by rw [a5]; exact r1, by rw [a1]; exact r2, by rw [h'.tree_par_eq]; exact r3⟩
  · rw [a1, a5]; intro k hk hp; rw [h'.tree_par_eq] at hp; exact t.root_unique k hk hp
  · rw [a1]; intro k hk p hp; rw [h'.tree_par_eq] at hp
    rw [h'.tree_kids_eq, h'.tree_has_edge_eq]
    exact t.parent_ok k hk p hp
  · rw [a1]; intro u hu; rw [h'.tree_kids_eq]
    refine ⟨(t.children_ok u hu).1, fun c hc => ?_⟩
    rw [h'.tree_par_eq]; exact (t.children_ok u hu).2 c hc
  · obtain ⟨d, hd⟩ := t.depth
    refine ⟨d, ?_⟩
    rw [a1]; intro k hk p hp; rw [h'.tree_par_eq] at hp; exact hd k hk p hp

theorem SameShape.shape_refl (st : Rrts S C O) : SameShape st st :=
  ⟨rfl, rfl, rfl, rfl, rfl, rfl, rfl, rfl, fun _ => rfl⟩

theorem SameShape.shape_trans {a b c : Rrts S C O} (h1 : SameShape a b) (h2 : SameShape b c) :
    SameShape a c := by
  obtain ⟨a1, a2, a3, a4, a5, a6, a7, a8, a9⟩ := h1
  obtain ⟨b1, b2, b3, b4, b5, b6, b7, b8, b9⟩ := h2
  exact ⟨b1.trans a1, b2.trans a2, b3.trans a3, b4.trans a4, b5.trans a5, b6.trans a6,
    b7.trans a7, b8.trans a8, fun h => (b9 h).trans (a9 h)⟩

theorem SameShape.shape_heap_some {a b : Rrts S C O} (h : SameShape a b) {k : Nat}
    {v : Vertex S C O} (hv : a.heap k = some v) :
    ∃ w, b.heap k = some w ∧ w.shape = v.shape := by
  have := h.2.2.2.2.2.2.2.2 k
  rw [hv] at this
  cases hb : b.heap k with
  | none => simp [hb] at this
  | some w => exact ⟨w, rfl, by simpa [hb] using this⟩

theorem SameShape.shape_heap_some' {a b : Rrts S C O} (h : SameShape a b) {k : Nat}
    {w : Vertex S C O} (hw : b.heap k = some w) :
    ∃ v, a.heap k = some v ∧ w.shape = v.shape := by
  have := h.2.2.2.2.2.2.2.2 k
  rw [hw] at this
  cases ha : a.heap k with
  | none => simp [ha] at this
  | some v => exact ⟨v, rfl, by simpa [ha] using this⟩

theorem SameShape.shape_sameTree {a b : Rrts S C O} (h : SameShape a b) : SameTree a b := by
  obtain ⟨a1, a2, a3, a4, a5, _, _, _, a9⟩ := h
  refine ⟨a1, a2, a3, a4, a5, fun k => ?_⟩
  have := a9 k
  cases ha : a.heap k <;> cases hb : b.heap k <;>
    simp [ha, hb, Vertex.shape, Vertex.tree] at this ⊢
  exact ⟨this.1, this.2.2.1, this.2.2.2.2.2.2⟩

/-- Writing back the `opt_data` of an existing edge keeps the shape. -/
theorem SameShape.setV_edge {st : Rrts S C O} {k : Nat} {vv : Vertex S C O} {e e' : Edge S C O}
    (hv : st.heap k = some vv) (he : vv.edge_from_parent = some e) :
    SameShape st (st.setV k { vv with edge_from_parent := some e' }) := by
  refine ⟨rfl, rfl, rfl, rfl, rfl, rfl, rfl, rfl, fun j => ?_⟩
  rw [setV_heap]
  split
  · next hk => subst hk; simp [hv, Vertex.shape, he]
  · rfl

theorem SameShape.shape_marksClear {a b : Rrts S C O} (h : SameShape a b) (m : MarksClear a) :
    MarksClear b := by
  intro x hx w hw
  obtain ⟨v, hv, hs⟩ := h.shape_heap_some' hw
  have := m x (by rw [← h.1]; exact hx) v hv
  simp only [Vertex.shape, Prod.mk.injEq] at hs
  rw [hs.2.2.2.1]; exact this

theorem SameShape.costInv [Add C] {a b : Rrts S C O} (h : SameShape a b) (m : CostInv a) :
    CostInv b := by
  intro x hx w p wp e1 e2 e3
  obtain ⟨v, hv, hs⟩ := h.shape_heap_some' e1
  obtain ⟨vp, hvp, hsp⟩ := h.shape_heap_some' e3
  simp only [Vertex.shape, Prod.mk.injEq] at hs hsp
  have := m x (by rw [← h.1]; exact hx) v p vp hv (by rw [← hs.1]; exact e2) hvp
  rw [hs.2.2.2.2.1, hs.2.2.2.2.2.1, hsp.2.2.2.2.1]
  exact this

theorem SameShape.shape_bestInv [LE C] {sys : System S U C O R} {a b : Rrts S C O}
    (h : SameShape a b) (m : BestInv sys a) : BestInv sys b := by
  obtain ⟨a1, a2, a3, a4, a5, a6, a7, a8, a9⟩ := h
  have h' : SameShape a b := ⟨a1, a2, a3, a4, a5, a6, a7, a8, a9⟩
  constructor
  · intro x hx
    rw [a7] at hx
    obtain ⟨q1, q2, vb, q3, q4, q5⟩ := m.1 x hx
    obtain ⟨w, hw, hs⟩ := h'.shape_heap_some q3
    simp only [Vertex.shape, Prod.mk.injEq] at hs
    exact ⟨by rw [a1]; exact q1, by rw [a5]; exact q2, w, hw, by rw [hs.2.1]; exact q4,
      by rw [a8, q5, hs.2.2.2.2.1]⟩
  · intro g hg vg hvg hr hgoal
    rw [a1] at hg
    rw [a5] at hr
    obtain ⟨v, hv, hs⟩ := h'.shape_heap_some' hvg
    simp only [Vertex.shape, Prod.mk.injEq] at hs
    obtain ⟨q1, q2⟩ := m.2 g hg v hv hr (by rw [← hs.2.1]; exact hgoal)
    exact ⟨by rw [a7]; exact q1, by rw [a8, hs.2.2.2.2.1]; exact q2⟩

end Shape

section Walk
variable {S U C O R : Type} [Add C] [LT C] [DecidableRel (fun a b : C => a < b)]
variable [Zero R] [Add R] [LT R] [DecidableRel (fun a b : R => a < b)]

/-- The walk of `switch_root` changes at most the cached `opt_data` of edges. -/
theorem switch_root_walk_shape (sys : System S U C O R) (dist : S → S → Bool → R)
    (distance : R) :
    ∀ (path : List Nat) (st : Rrts S C O) (length : R) (cm : Trajectory S U R)
      (res : Int × Option (S × Nat) × R × Trajectory S U R × Rrts S C O),
      switch_root_walk sys dist distance path st length cm = some res →
      SameShape st res.2.2.2.2
  | [], st, length, cm, res, h => by
    simp only [switch_root_walk, Option.some.injEq] at h
    subst h
    exact SameShape.shape_refl st
  | pv :: rest, st, length, cm, res, h => by
    unfold switch_root_walk at h
    cases hv : st.heap pv with
    | none => simp [hv] at h
    | some vc =>
      simp only [hv] at h
      cases hp : vc.parent with
      | none =>
        simp only [hp] at h
        exact switch_root_walk_shape sys dist distance rest st length cm res h
      | some p =>
        simp only [hp] at h
        cases hvp : st.heap p with
        | none => simp [hvp] at h
        | some vp =>
          cases he : vc.edge_from_parent with
          | none => simp [hvp, he] at h
          | some e =>
            simp only [hvp, he] at h
            have hs1 : SameShape st (st.setV pv { vc with edge_from_parent := some { e with
                opt_data := (sys.extend_to vp.state vc.state false Trajectory.empty
                  e.opt_data).2.2 } }) := SameShape.setV_edge hv he
            simp only [hp] at hs1
            split at h
            · split at h
              · exact hs1.shape_trans (switch_root_walk_shape sys dist distance rest _ _ _ res h)
              · split at h
                · simp at h
                · split at h
                  · simp at h
                  · simp only [Option.some.injEq] at h
                    subst h
                    exact hs1
                  · exact hs1.shape_trans
                      (switch_root_walk_shape sys dist distance rest _ _ _ res h)
            · simp only [Option.some.injEq] at h
              subst h
              exact hs1

end Walk

set_option linter.unusedSectionVars false
section Claims5
variable {S U C O R : Type} [Add C] [LT C] [DecidableRel (fun a b : C => a < b)]
variable [Zero R] [Add R] [LT R] [DecidableRel (fun a b : R => a < b)]

/-- **C20** (early exits of `switch_root`).  When no best vertex is recorded,
`switch_root` returns 1, whatever the root is; when a best vertex is recorded and the
state of the root is in the goal, it returns 0.  In both cases the planner (tree and
best-vertex fields) and the committed trajectory are handed back unchanged. -/
theorem switch_root_early_exits (sys : System S U C O R) (dist : S → S → Bool → R)
    (fuel : Nat) (distance : R) (cm : Trajectory S U R) (st : Rrts S C O) :
    (st.lower_bound_vertex = none →
      switch_root sys dist fuel distance cm st = some (1, cm, st)) ∧
    (∀ b r vr, st.lower_bound_vertex = some b → st.root = some r → st.heap r = some vr →
      sys.is_in_goal vr.state = true →
      switch_root sys dist fuel distance cm st = some (0, cm, st)) := by
  constructor
  · intro h
    simp [switch_root, h]
  · intro b r vr hb hr hvr hg
    simp [switch_root, hb, hr, hvr, hg]

/-- **C13** (`check_tree` and a root in collision).  If the state of the root is in
collision, `check_tree` returns 1 and hands back the planner unchanged.  Whenever
`check_tree` returns, the code is 0 or 1, it is 1 exactly when the root is in
collision, and with code 1 the planner is unchanged.  With a root that is not in
collision and has no children it returns 0. -/
theorem check_tree_root_collision (sys : System S U C O R) (fuel : Nat) (st : Rrts S C O) :
    (∀ r vr, st.root = some r → st.heap r = some vr → sys.is_in_collision vr.state = true →
      check_tree sys fuel st = some (1, st)) ∧
    (∀ code st', check_tree sys fuel st = some (code, st') →
      (code = 1 ∨ code = 0) ∧
      (code = 1 ↔ ∃ r vr, st.root = some r ∧ st.heap r = some vr ∧
        sys.is_in_collision vr.state = true) ∧
      (code = 1 → st' = st)) ∧
    (∀ r vr, st.root = some r → st.heap r = some vr → sys.is_in_collision vr.state = false →
      vr.children = [] → check_tree sys fuel st = some (0, st)) := by
  refine ⟨?_, ?_, ?_⟩
  · intro r vr hr hvr hc
    simp [check_tree, hr, hvr, hc]
  · intro code st' h
    unfold check_tree at h
    cases hr : st.root with
    | none => simp [hr] at h
    | some r =>
      cases hvr : st.heap r with
      | none => simp [hr, hvr] at h
      | some vr =>
        simp only [hr, hvr] at h
        by_cases hc : sys.is_in_collision vr.state = true
        · simp only [hc, if_true, Option.some.injEq, Prod.mk.injEq] at h
          obtain ⟨rfl, rfl⟩ := h
          exact ⟨Or.inl rfl, ⟨fun _ => ⟨r, vr, rfl, hvr, hc⟩, fun _ => rfl⟩, fun _ => rfl⟩
        · have hne : ¬ ∃ r' vr', some r = some r' ∧ st.heap r' = some vr' ∧
              sys.is_in_collision vr'.state = true := by
            rintro ⟨r', vr', e1, e2, e3⟩
            have := Option.some.inj e1
            subst this
            rw [hvr] at e2
            have := Option.some.inj e2
            subst this
            exact hc e3
          have h0 : code = 0 := by
            rw [if_neg hc] at h
            split at h
            · split at h
              · simp at h
              · split at h
                · simp at h
                · split at h
                  · simp at h
                  · split at h
                    · simp at h
                    · simp only [Option.some.injEq, Prod.mk.injEq] at h
                      exact h.1.symm
            · simp only [Option.some.injEq, Prod.mk.injEq] at h
              exact h.1.symm
          subst h0
          exact ⟨Or.inr rfl, ⟨fun h1 => absurd h1 (by decide), fun h1 => absurd h1 hne⟩,
            fun h1 => absurd h1 (by decide)⟩
  · intro r vr hr hvr hc hk
    simp [check_tree, hr, hvr, hc, hk]

end Claims5

section Witnesses5b

/-- Witness of **C20**: without a best vertex (`line_s0`) the call returns 1; with the
root in the goal and a best vertex (`root_goal_s1`) it returns 0. -/
theorem switch_root_early_exits_witness :
    line_s0.lower_bound_vertex = none ∧
    switch_root line_system line_dist 5 3 Trajectory.empty line_s0
      = some (1, Trajectory.empty, line_s0) ∧
    root_goal_s1.lower_bound_vertex = some 1 ∧
    switch_root root_goal_system line_dist 5 3 Trajectory.empty root_goal_s1
      = some (0, Trajectory.empty, root_goal_s1) :=
  ⟨rfl,
    (switch_root_early_exits line_system line_dist 5 3 Trajectory.empty line_s0).1 rfl,
    rfl,
    (switch_root_early_exits root_goal_system line_dist 5 3 Trajectory.empty root_goal_s1).2
      1 0 _ rfl rfl rfl rfl⟩

/-- Witness of **C13**: with the point 0 in collision `check_tree` returns 1 on
`line_s2` and leaves it as it is; in the line system it returns 0. -/
theorem check_tree_root_collision_witness :
    check_tree collision_system 5 line_s2 = some (1, line_s2) ∧
    (∃ st', check_tree line_system 5 line_s2 = some (0, st')) ∧
    ¬ (∃ r vr, line_s2.root = some r ∧ line_s2.heap r = some vr ∧
      line_system.is_in_collision vr.state = true) :=
  ⟨(check_tree_root_collision collision_system 5 line_s2).1 0 _ rfl rfl rfl,
    ⟨_, rfl⟩,
    fun h => absurd
      (((check_tree_root_collision line_system 5 line_s2).2.1 0 _ rfl).2.1.mpr h)
      (by decide)⟩

end Witnesses5b

set_option linter.unusedSectionVars false
section Goal
variable {S U C O R : Type} [Add C] [LT C] [DecidableRel (fun a b : C => a < b)]
variable [Zero R] [Add R] [LT R] [DecidableRel (fun a b : R => a < b)]

/-- The goal-reached branch of `switch_root` leaves a planner that holds a fresh root
and nothing else. -/
theorem switch_root_goal_spec (sys : System S U C O R) (n : Nat) (st : Rrts S C O) (rs : S) :
    ∃ st', switch_root_goal sys (n + 1) st rs = some (0, st') ∧
      st'.list_vertices = [st.next] ∧ st'.root = some st.next ∧
      st'.heap st.next =
        some { parent := none, state := rs, children := [], mark := 0, edge_from_parent := none,
               cost_from_root := sys.get_zero_cost, cost_from_parent := sys.get_zero_cost } ∧
      st'.num_vertices = 1 ∧ st'.lower_bound_vertex = none ∧
      st'.lower_bound_cost = sys.get_inf_cost ∧
      st'.do_branch_and_bound = st.do_branch_and_bound ∧
      st'.kdtree = some [st.next] ∧ st'.next = st.next + 1 ∧
      (∀ h ∈ st.list_vertices, h ≠ st.next → st'.heap h = none) ∧
      (∀ h, h ∉ st.list_vertices → h ≠ st.next → st'.heap h = st.heap h) := by
  simp only [switch_root_goal, set_root, new_vertex, Rrts.modify, Rrts.setV, insert_into_kdtree,
    Function.update_same, clear_list_vertices, update_all_costs, update_branch_cost,
    List.foldlM_nil, pure]
  refine ⟨_, rfl, rfl, rfl, ?_, rfl, rfl, rfl, rfl, rfl, rfl, ?_, ?_⟩
  · simp
  · intro h hl hn
    simp [Function.update_noteq hn, hl]
  · intro h hl hn
    simp [Function.update_noteq hn, hl]

theorem get_best_trajectory_vertices_fuel {st : Rrts S C O} {fuel : Nat} {b : Nat}
    {r : Int × List Nat} (hb : st.lower_bound_vertex = some b)
    (h : get_best_trajectory_vertices fuel st [] = some r) : ∃ n, fuel = n + 1 := by
  cases fuel with
  | zero => simp [get_best_trajectory_vertices, hb, get_best_trajectory_vertices_walk] at h
  | succ n => exact ⟨n, rfl⟩

/-- What `switch_root` does once the walk has ended without a cut. -/
theorem switch_root_goal_reached_aux (sys : System S U C O R) (dist : S → S → Bool → R)
    (fuel : Nat) (distance : R) (cm : Trajectory S U R) (st : Rrts S C O) (b r : Nat)
    (vr vb : Vertex S C O) (code : Int) (path : List Nat) (len : R) (cm1 : Trajectory S U R)
    (st1 : Rrts S C O) (hb : st.lower_bound_vertex = some b) (hr : st.root = some r)
    (hvr : st.heap r = some vr) (hg : sys.is_in_goal vr.state = false)
    (hvb : st.heap b = some vb)
    (hp : get_best_trajectory_vertices fuel st [] = some (code, path))
    (hw : switch_root_walk sys dist distance path st 0 cm = some (0, none, len, cm1, st1)) :
    ∃ st', switch_root sys dist fuel distance cm st = some (0, cm1, st') ∧
      st'.list_vertices = [st.next] ∧ st'.num_vertices = 1 ∧ st'.root = some st.next ∧
      st'.heap st.next =
        some { parent := none, state := vb.state, children := [], mark := 0,
               edge_from_parent := none, cost_from_root := sys.get_zero_cost,
               cost_from_parent := sys.get_zero_cost } ∧
      (∀ h ∈ st.list_vertices, h ≠ st.next → st'.heap h = none) ∧
      st'.lower_bound_vertex = none ∧ st'.lower_bound_cost = sys.get_inf_cost ∧
      ∀ (d2 : R) (cm2 : Trajectory S U R),
        switch_root sys dist fuel d2 cm2 st' = some (1, cm2, st') := by
  obtain ⟨n, rfl⟩ := get_best_trajectory_vertices_fuel hb hp
  have hsh := switch_root_walk_shape sys dist distance path st 0 cm _ hw
  simp only at hsh
  obtain ⟨wb, hwb, hs⟩ := hsh.shape_heap_some hvb
  simp only [Vertex.shape, Prod.mk.injEq] at hs
  obtain ⟨st', h1, h2, h3, h4, h5, h6, h7, h8, h9, h10, h11, h12⟩ :=
    switch_root_goal_spec sys n st1 wb.state
  have hgn : ¬ sys.is_in_goal vr.state = true := by rw [hg]; simp
  refine ⟨st', ?_, by rw [h2, hsh.2.2.1], h5, by rw [h3, hsh.2.2.1], ?_, ?_, h6, h7, ?_⟩
  · unfold switch_root
    simp only [hb, hr, hvr, if_neg hgn, hp, hw, hwb, h1]
    simp
  · rw [← hsh.2.2.1, h4, hs.2.1]
  · intro h hh hn
    exact h11 h (by rw [hsh.1]; exact hh) (by rw [hsh.2.2.1]; exact hn)
  · intro d2 cm2
    simp [switch_root, h6]

theorem switch_root_cases {sys : System S U C O R} {dist : S → S → Bool → R} {fuel : Nat}
    {distance : R} {cm cm' : Trajectory S U R} {st st' : Rrts S C O} {code : Int}
    (h : switch_root sys dist fuel distance cm st = some (code, cm', st')) :
    (st.lower_bound_vertex = none ∧ code = 1 ∧ cm' = cm ∧ st' = st) ∨
    ∃ b r vr, st.lower_bound_vertex = some b ∧ st.root = some r ∧ st.heap r = some vr ∧
      ((sys.is_in_goal vr.state = true ∧ code = 0 ∧ cm' = cm ∧ st' = st) ∨
       (sys.is_in_goal vr.state = false ∧
        ∃ pc path wcode found len st1,
          get_best_trajectory_vertices fuel st [] = some (pc, path) ∧
          switch_root_walk sys dist distance path st 0 cm
            = some (wcode, found, len, cm', st1) ∧
          ((wcode ≠ 0 ∧ code = 2 ∧ st' = st1) ∨
           (wcode = 0 ∧ found = none ∧ ∃ vb, st1.heap b = some vb ∧
              switch_root_goal sys fuel st1 vb.state = some (code, st')) ∨
           (wcode = 0 ∧ ∃ nrs c, found = some (nrs, c) ∧
              switch_root_prune sys fuel st1 nrs c = some (code, st'))))) := by
  unfold switch_root at h
  cases hb : st.lower_bound_vertex with
  | none =>
    simp only [hb, Option.some.injEq, Prod.mk.injEq] at h
    obtain ⟨rfl, rfl, rfl⟩ := h
    exact Or.inl ⟨rfl, rfl, rfl, rfl⟩
  | some b =>
    right
    simp only [hb] at h
    cases hr : st.root with
    | none => simp [hr] at h
    | some r =>
      cases hvr : st.heap r with
      | none => simp [hr, hvr] at h
      | some vr =>
        simp only [hr, hvr] at h
        refine ⟨b, r, vr, rfl, rfl, hvr, ?_⟩
        by_cases hg : sys.is_in_goal vr.state = true
        · rw [if_pos hg] at h
          simp only [Option.some.injEq, Prod.mk.injEq] at h
          obtain ⟨rfl, rfl, rfl⟩ := h
          exact Or.inl ⟨hg, rfl, rfl, rfl⟩
        · rw [if_neg hg] at h
          right
          refine ⟨by simpa using hg, ?_⟩
          cases hp : get_best_trajectory_vertices fuel st [] with
          | none => simp [hp] at h
          | some pp =>
            obtain ⟨pc, path⟩ := pp
            simp only [hp] at h
            cases hw : switch_root_walk sys dist distance path st 0 cm with
            | none => simp [hw] at h
            | some w =>
              obtain ⟨wcode, found, len, cm1, st1⟩ := w
              simp only [hw] at h
              by_cases hc : wcode = 0
              · subst hc
                simp only [ne_eq, not_true_eq_false, if_false] at h
                cases found with
                | none =>
                  simp only at h
                  cases hvb : st1.heap b with
                  | none => simp [hvb] at h
                  | some vb =>
                    simp only [hvb] at h
                    cases hgo : switch_root_goal sys fuel st1 vb.state with
                    | none => simp [hgo] at h
                    | some g =>
                      simp only [hgo, Option.some.injEq, Prod.mk.injEq] at h
                      obtain ⟨rfl, rfl, rfl⟩ := h
                      exact ⟨pc, path, 0, none, len, st1, rfl, hw,
                        Or.inr (Or.inl ⟨rfl, rfl, vb, hvb, hgo⟩)⟩
                | some f =>
                  obtain ⟨nrs, c⟩ := f
                  simp only at h
                  cases hpr : switch_root_prune sys fuel st1 nrs c with
                  | none => simp [hpr] at h
                  | some g =>
                    simp only [hpr, Option.some.injEq, Prod.mk.injEq] at h
                    obtain ⟨rfl, rfl, rfl⟩ := h
                    exact ⟨pc, path, 0, some (nrs, c), len, st1, rfl, hw,
                      Or.inr (Or.inr ⟨rfl, nrs, c, rfl, hpr⟩)⟩
              · rw [if_pos hc] at h
                simp only [Option.some.injEq, Prod.mk.injEq] at h
                obtain ⟨rfl, rfl, rfl⟩ := h
                exact ⟨pc, path, wcode, found, len, st1, rfl, hw, Or.inl ⟨hc, rfl, rfl⟩⟩

end Goal

section Length
variable {S U C O R : Type} [Add C] [LT C] [DecidableRel (fun a b : C => a < b)]
variable [LinearOrderedAddCommMonoid R]

theorem switch_root_cut_length (dist : S → S → Bool → R) (distance : R) :
    ∀ (states : List S) (cc : List U) (sp : S) (len : R) (cm : Trajectory S U R)
      (res : R × Trajectory S U R × Option S),
      cm.total_variation = len → len ≤ distance →
      switch_root_cut dist distance states cc sp len cm = some res →
      res.2.1.total_variation = res.1 ∧ res.1 ≤ distance
  | [], cc, sp, len, cm, res, h1, h2, h => by
    simp only [switch_root_cut, Option.some.injEq] at h
    subst h
    exact ⟨h1, h2⟩
  | ps :: rest, cc, sp, len, cm, res, h1, h2, h => by
    unfold switch_root_cut at h
    simp only at h
    split at h
    · next hlt =>
      cases cc with
      | nil => simp at h
      | cons c cc1 =>
        simp only at h
        refine switch_root_cut_length dist distance rest cc1 ps _ _ res ?_ ?_ h
        · simp only [h1]
        · rw [add_comm] at hlt
          exact le_of_lt hlt
    · simp only [Option.some.injEq] at h
      subst h
      exact ⟨h1, h2⟩

/-- Throughout the walk of `switch_root` the total variation of the committed
trajectory is the running length, which stays within the distance. -/
theorem switch_root_walk_length (sys : System S U C O R) (dist : S → S → Bool → R)
    (distance : R) :
    ∀ (path : List Nat) (st : Rrts S C O) (len : R) (cm : Trajectory S U R)
      (res : Int × Option (S × Nat) × R × Trajectory S U R × Rrts S C O),
      cm.total_variation = len → len ≤ distance →
      switch_root_walk sys dist distance path st len cm = some res →
      res.2.2.2.1.total_variation = res.2.2.1 ∧ res.2.2.1 ≤ distance
  | [], st, len, cm, res, h1, h2, h => by
    simp only [switch_root_walk, Option.some.injEq] at h
    subst h
    exact ⟨h1, h2⟩
  | pv :: rest, st, len, cm, res, h1, h2, h => by
    unfold switch_root_walk at h
    cases hv : st.heap pv with
    | none => simp [hv] at h
    | some vc =>
      simp only [hv] at h
      cases hp : vc.parent with
      | none =>
        simp only [hp] at h
        exact switch_root_walk_length sys dist distance rest st len cm res h1 h2 h
      | some p =>
        simp only [hp] at h
        cases hvp : st.heap p with
        | none => simp [hvp] at h
        | some vp =>
          cases he : vc.edge_from_parent with
          | none => simp [hvp, he] at h
          | some e =>
            simp only [hvp, he] at h
            split at h
            · split at h
              · next hlt =>
                refine switch_root_walk_length sys dist distance rest _ _ _ res ?_
                  (le_of_lt hlt) h
                simp only [Trajectory.append, h1]
              · split at h
                · simp at h
                · split at h
                  · simp at h
                  · next hcut =>
                    simp only [Option.some.injEq] at h
                    subst h
                    exact switch_root_cut_length dist distance _ _ _ _ _ _ h1 h2 hcut
                  · next hcut =>
                    obtain ⟨q1, q2⟩ :=
                      switch_root_cut_length dist distance _ _ _ _ _ _ h1 h2 hcut
                    exact switch_root_walk_length sys dist distance rest _ _ _ res q1 q2 h
            · simp only [Option.some.injEq] at h
              subst h
              exact ⟨h1, h2⟩

/-- **C16** (commit length).  For a distance `d ≥ 0` and a committed trajectory whose
total variation is 0 on entry, whatever `switch_root(d, committed)` returns, the total
variation of the committed trajectory is at most `d` afterwards; and throughout the walk
along the best path the total variation of the committed trajectory equals the running
length (from any point at which the two agree). -/
theorem commit_length (sys : System S U C O R) (dist : S → S → Bool → R) (fuel : Nat)
    (d : R) (cm : Trajectory S U R) (st : Rrts S C O) (h0 : cm.total_variation = 0)
    (hd : 0 ≤ d) :
    (∀ code cm' st', switch_root sys dist fuel d cm st = some (code, cm', st') →
      cm'.total_variation ≤ d) ∧
    (∀ path s len c res, c.total_variation = len → len ≤ d →
      switch_root_walk sys dist d path s len c = some res →
      res.2.2.2.1.total_variation = res.2.2.1 ∧ res.2.2.1 ≤ d) := by
  refine ⟨?_, fun path s len c res => switch_root_walk_length sys dist d path s len c res⟩
  intro code cm' st' h
  rcases switch_root_cases h with ⟨_, _, rfl, _⟩ | ⟨b, r, vr, _, _, _, ⟨_, _, rfl, _⟩ |
    ⟨_, pc, path, wcode, found, len, st1, _, hw, _⟩⟩
  · rw [h0]; exact hd
  · rw [h0]; exact hd
  · obtain ⟨q1, q2⟩ := switch_root_walk_length sys dist d path st 0 cm _ h0 hd hw
    simp only at q1 q2
    rw [q1]; exact q2

end Length

section Claims6
variable {S U C O R : Type} [Add C] [LT C] [DecidableRel (fun a b : C => a < b)]
variable [Zero R] [Add R] [LT R] [DecidableRel (fun a b : R => a < b)]

/-- **C19** (goal reached on commit).  Let a best vertex `b` be recorded and the root not
be in the goal.  When the walk along the root-to-best path ends without a cut,
`switch_root` returns 0 and the planner afterwards holds exactly one vertex: a fresh
root with the state of `b`, zero costs, no parent and no children, every vertex that was
listed being deleted; `num_vertices = 1`, no best vertex is recorded and
`lower_bound_cost` is the infinite cost, so that a following `switch_root` returns 1. -/
theorem switch_root_goal_reached (sys : System S U C O R) (dist : S → S → Bool → R)
    (fuel : Nat) (distance : R) (cm : Trajectory S U R) (st : Rrts S C O) (b r : Nat)
    (vr vb : Vertex S C O) (code : Int) (path : List Nat) (len : R) (cm1 : Trajectory S U R)
    (st1 : Rrts S C O) (hb : st.lower_bound_vertex = some b) (hr : st.root = some r)
    (hvr : st.heap r = some vr) (hg : sys.is_in_goal vr.state = false)
    (hvb : st.heap b = some vb)
    (hp : get_best_trajectory_vertices fuel st [] = some (code, path))
    (hw : switch_root_walk sys dist distance path st 0 cm = some (0, none, len, cm1, st1)) :
    ∃ st', switch_root sys dist fuel distance cm st = some (0, cm1, st') ∧
      st'.list_vertices = [st.next] ∧ st'.num_vertices = 1 ∧ st'.root = some st.next ∧
      st'.heap st.next =
        some { parent := none, state := vb.state, children := [], mark := 0,
               edge_from_parent := none, cost_from_root := sys.get_zero_cost,
               cost_from_parent := sys.get_zero_cost } ∧
      (∀ h ∈ st.list_vertices, h ≠ st.next → st'.heap h = none) ∧
      st'.lower_bound_vertex = none ∧ st'.lower_bound_cost = sys.get_inf_cost ∧
      ∀ (d2 : R) (cm2 : Trajectory S U R),
        switch_root sys dist fuel d2 cm2 st' = some (1, cm2, st') :=
  switch_root_goal_reached_aux sys dist fuel distance cm st b r vr vb code path len cm1 st1
    hb hr hvr hg hvb hp hw

end Claims6

section Witnesses6

theorem line_s2_path : get_best_trajectory_vertices 5 line_s2 [] = some (0, [0, 2, 1]) := rfl

/-- Witness of **C19**: in the line example a switch of the root by 20, which is beyond
the best vertex, leaves the single fresh root 3 at the point 10. -/
theorem switch_root_goal_reached_witness :
    ∃ st', switch_root line_system line_dist 5 20 Trajectory.empty line_s2
        = some (0, { states := [0, 5, 5, 10], controls := [0, 0], total_variation := 10 }, st') ∧
      st'.list_vertices = [3] ∧ st'.num_vertices = 1 ∧ st'.root = some 3 ∧
      st'.heap 3 =
        some { parent := none, state := 10, children := [], mark := 0,
               edge_from_parent := none, cost_from_root := 0, cost_from_parent := 0 } ∧
      (∀ h ∈ [0, 1, 2], h ≠ 3 → st'.heap h = none) ∧
      st'.lower_bound_vertex = none ∧ st'.lower_bound_cost = ⊤ ∧
      ∀ (d2 : Nat) (cm2 : Trajectory Nat Nat Nat),
        switch_root line_system line_dist 5 d2 cm2 st' = some (1, cm2, st') :=
  switch_root_goal_reached line_system line_dist 5 20 Trajectory.empty line_s2 1 0 _ _ 0
    [0, 2, 1] 10 _ _ rfl rfl rfl rfl rfl line_s2_path rfl

/-- Witness of **C16**: in the line example a switch of the root by 7 commits a
trajectory of total variation 5. -/
theorem commit_length_witness :
    (Trajectory.empty : Trajectory Nat Nat Nat).total_variation = 0 ∧ (0 : Nat) ≤ 7 ∧
    ∃ cm' st', switch_root line_system line_dist 5 7 Trajectory.empty line_s2
        = some (0, cm', st') ∧ cm'.total_variation = 5 ∧ cm'.total_variation ≤ 7 :=
  ⟨rfl, by decide, _, _, rfl, rfl,
    (commit_length line_system line_dist 5 7 Trajectory.empty line_s2 rfl (by decide)).1
      0 _ _ rfl⟩

end Witnesses6

set_option linter.unusedSectionVars false
section Mark
variable {S U C O R : Type}

theorem MarkedBy.marked_sameTree {a b : Rrts S C O} {P : Nat → Prop} (h : MarkedBy a b P) :
    SameTree a b := by
  classical
  obtain ⟨a1, a2, a3, a4, a5, _, _, _, a9⟩ := h
  refine ⟨a1, a2, a3, a4, a5, fun k => ?_⟩
  by_cases hp : P k
  · rw [(a9 k).1 hp]
    cases a.heap k <;> simp [Vertex.tree]
  · rw [(a9 k).2 hp]

theorem MarkedBy.marked_refl (st : Rrts S C O) : MarkedBy st st (fun _ => False) :=
  ⟨rfl, rfl, rfl, rfl, rfl, rfl, rfl, rfl, fun _ => ⟨fun h => absurd h id, fun _ => rfl⟩⟩

theorem MarkedBy.marked_trans {a b c : Rrts S C O} {P Q : Nat → Prop} (h1 : MarkedBy a b P)
    (h2 : MarkedBy b c Q) : MarkedBy a c (fun h => P h ∨ Q h) := by
  classical
  obtain ⟨a1, a2, a3, a4, a5, a6, a7, a8, a9⟩ := h1
  obtain ⟨b1, b2, b3, b4, b5, b6, b7, b8, b9⟩ := h2
  refine ⟨b1.trans a1, b2.trans a2, b3.trans a3, b4.trans a4, b5.trans a5, b6.trans a6,
    b7.trans a7, b8.trans a8, fun h => ⟨?_, ?_⟩⟩
  · intro hpq
    by_cases hq : Q h
    · rw [(b9 h).1 hq]
      by_cases hp : P h
      · rw [(a9 h).1 hp]
        cases a.heap h <;> simp
      · rw [(a9 h).2 hp]
    · rw [(b9 h).2 hq]
      exact (a9 h).1 (hpq.resolve_right hq)
  · intro hpq
    rw [(b9 h).2 (fun hq => hpq (Or.inr hq)), (a9 h).2 (fun hp => hpq (Or.inl hp))]

theorem MarkedBy.marked_congr {a b : Rrts S C O} {P Q : Nat → Prop} (h : MarkedBy a b P)
    (hpq : ∀ x, P x ↔ Q x) : MarkedBy a b Q := by
  obtain ⟨a1, a2, a3, a4, a5, a6, a7, a8, a9⟩ := h
  exact ⟨a1, a2, a3, a4, a5, a6, a7, a8,
    fun k => ⟨fun hq => (a9 k).1 ((hpq k).mpr hq), fun hq => (a9 k).2 (fun hp => hq ((hpq k).mp hp))⟩⟩

theorem MarkedBy.setV_mark {st : Rrts S C O} {v : Nat} {vv : Vertex S C O}
    (hv : st.heap v = some vv) :
    MarkedBy st (st.setV v { vv with mark := 1 }) (fun h => h = v) := by
  refine ⟨rfl, rfl, rfl, rfl, rfl, rfl, rfl, rfl, fun k => ⟨?_, ?_⟩⟩
  · intro hk
    subst hk
    rw [setV_heap_same, hv]
    rfl
  · intro hk
    exact setV_heap_ne _ _ _ _ hk

/-- A vertex met on a chain of parent links from a listed vertex is listed. -/
theorem TreeInv.chain_listed {st : Rrts S C O} (t : TreeInv st) {x c : Nat}
    (hx : x ∈ st.list_vertices)
    (h : Relation.ReflTransGen (fun a b => st.par a = some b) x c) :
    c ∈ st.list_vertices := by
  induction h with
  | refl => exact hx
  | tail _ hbc ih => exact (t.parent_ok _ ih _ hbc).1

theorem Desc.of_sameTree {a b : Rrts S C O} (h : SameTree a b) (c x : Nat) :
    Desc b c x ↔ Desc a c x := by
  unfold Desc
  rw [h.1, h.par_fun]

/-- The subtree of `v` is `v` with the subtrees of its children. -/
theorem TreeInv.desc_iff {st : Rrts S C O} (t : TreeInv st) {v : Nat}
    (hv : v ∈ st.list_vertices) (x : Nat) :
    Desc st v x ↔ x = v ∨ ∃ c ∈ st.kids v, Desc st c x := by
  constructor
  · rintro ⟨hx, hch⟩
    rcases Relation.ReflTransGen.cases_tail hch with h | ⟨c, hxc, hcv⟩
    · exact Or.inl h.symm
    · have hc := t.chain_listed hx hxc
      exact Or.inr ⟨c, (t.parent_ok c hc v hcv).2.1, hx, hxc⟩
  · rintro (h | ⟨c, hc, hx, hxc⟩)
    · subst h
      exact ⟨hv, Relation.ReflTransGen.refl⟩
    · exact ⟨hx, Relation.ReflTransGen.tail hxc ((t.children_ok v hv).2 c hc).2⟩

/-- `mark_descendent_vertices(v)` sets the mark on the subtree of `v` and changes
nothing else. -/
theorem mark_descendent_vertices_spec :
    ∀ (n : Nat) (st st' : Rrts S C O) (v : Nat), TreeInv st → v ∈ st.list_vertices →
      mark_descendent_vertices n st v = some st' → MarkedBy st st' (Desc st v)
  | 0, st, st', v, _, _, h => by simp [mark_descendent_vertices] at h
  | n + 1, st, st', v, t, hv, h => by
    unfold mark_descendent_vertices at h
    cases hvv : st.heap v with
    | none => simp [hvv] at h
    | some vv =>
      simp only [hvv] at h
      have hkids : st.kids v = vv.children := kids_of_heap hvv
      have key : ∀ (l : List Nat) (s : Rrts S C O) (P : Nat → Prop), MarkedBy st s P →
          (∀ c ∈ l, c ∈ st.kids v) →
          List.foldlM (mark_descendent_vertices n) s l = some st' →
          MarkedBy st st' (fun h => P h ∨ ∃ c ∈ l, Desc st c h) := by
        intro l
        induction l with
        | nil =>
          intro s P hs _ hf
          simp at hf
          subst hf
          exact hs.marked_congr (fun x => by simp)
        | cons c l ih =>
          intro s P hs hl hf
          rw [foldlM_option_cons] at hf
          cases hb : mark_descendent_vertices n s c with
          | none => simp [hb] at hf
          | some s3 =>
            simp only [hb, Option.some_bind] at hf
            have hcv : c ∈ st.kids v := hl c (List.mem_cons_self c l)
            have hcl : c ∈ st.list_vertices := ((t.children_ok v hv).2 c hcv).1
            have ts : TreeInv s := hs.marked_sameTree.tree_treeInv t
            have h3 := mark_descendent_vertices_spec n s s3 c ts (by rw [hs.1]; exact hcl) hb
            have h3' : MarkedBy s s3 (Desc st c) :=
              h3.marked_congr (fun x => Desc.of_sameTree hs.marked_sameTree c x)
            have := ih s3 (fun h => P h ∨ Desc st c h) (hs.marked_trans h3')
              (fun c' hc' => hl c' (List.mem_cons_of_mem c hc')) hf
            refine this.marked_congr (fun x => ?_)
            constructor
            · rintro ((h1 | h1) | ⟨c', hc', h1⟩)
              · exact Or.inl h1
              · exact Or.inr ⟨c, List.mem_cons_self c l, h1⟩
              · exact Or.inr ⟨c', List.mem_cons_of_mem c hc', h1⟩
            · rintro (h1 | ⟨c', hc', h1⟩)
              · exact Or.inl (Or.inl h1)
              · rcases List.mem_cons.mp hc' with rfl | hc'
                · exact Or.inl (Or.inr h1)
                · exact Or.inr ⟨c', hc', h1⟩
      have := key vv.children _ _ (MarkedBy.setV_mark hvv)
        (fun c hc => by rw [hkids]; exact hc) h
      refine this.marked_congr (fun x => ?_)
      rw [t.desc_iff hv x, hkids]

end Mark

set_option linter.unusedSectionVars false
section Sweep
variable {S U C O R : Type}

theorem marked_of_heap_eq {a b : Rrts S C O} {h : Nat} (e : b.heap h = a.heap h) :
    b.marked h = a.marked h := by
  unfold Rrts.marked
  rw [e]

/-- The loop of `delete_unmarked_vertices` over a duplicate-free list. -/
theorem delete_unmarked_fold :
    ∀ (l : List Nat) (acc res : List Nat × Rrts S C O), l.Nodup →
      List.foldlM delete_unmarked_vertex acc l = some res →
      res.1 = acc.1 ++ l.filter acc.2.marked ∧
      (res.2.list_vertices = acc.2.list_vertices ∧ res.2.num_vertices = acc.2.num_vertices ∧
        res.2.next = acc.2.next ∧ res.2.kdtree = acc.2.kdtree ∧ res.2.root = acc.2.root ∧
        res.2.do_branch_and_bound = acc.2.do_branch_and_bound ∧
        res.2.lower_bound_vertex = acc.2.lower_bound_vertex ∧
        res.2.lower_bound_cost = acc.2.lower_bound_cost) ∧
      (∀ h, h ∉ l → res.2.heap h = acc.2.heap h) ∧
      (∀ h ∈ l, (acc.2.marked h = true →
          res.2.heap h = (acc.2.heap h).map (fun v => { v with mark := 0 })) ∧
        (acc.2.marked h = false → res.2.heap h = none))
  | [], acc, res, _, h => by
    simp only [List.foldlM_nil, pure, Option.some.injEq] at h
    subst h
    simp
  | pv :: l, acc, res, hnd, h => by
    rw [foldlM_option_cons] at h
    cases hs : delete_unmarked_vertex acc pv with
    | none => simp [hs] at h
    | some acc1 =>
      simp only [hs, Option.some_bind] at h
      obtain ⟨hpv, hnd'⟩ := List.nodup_cons.mp hnd
      obtain ⟨r1, r2, r3, r4⟩ := delete_unmarked_fold l acc1 res hnd' h
      unfold delete_unmarked_vertex at hs
      cases hv : acc.2.heap pv with
      | none => simp [hv] at hs
      | some vv =>
        simp only [hv] at hs
        have hne : ∀ h ∈ l, h ≠ pv := fun h hh e => hpv (e ▸ hh)
        by_cases hm : vv.mark = 1
        · rw [if_pos hm] at hs
          have hacc := Option.some.inj hs
          subst hacc
          have hmk : acc.2.marked pv = true := by simp [Rrts.marked, hv, hm]
          have hsame : ∀ h ∈ l, (acc.2.setV pv { vv with mark := 0 }).marked h
              = acc.2.marked h :=
            fun h hh => marked_of_heap_eq (setV_heap_ne _ _ _ _ (hne h hh))
          refine ⟨?_, r2, ?_, ?_⟩
          · rw [r1]
            simp only [List.filter_cons, hmk, if_true, List.append_assoc, List.singleton_append]
            congr 2
            exact List.filter_congr (fun h hh => hsame h hh)
          · intro h hh
            rw [List.mem_cons, not_or] at hh
            rw [r3 h hh.2]
            exact setV_heap_ne _ _ _ _ hh.1
          · intro k hh
            rcases List.mem_cons.mp hh with rfl | hh
            · refine ⟨fun _ => ?_, fun hf => ?_⟩
              · rw [r3 k hpv, hv]
                simp only [Rrts.setV, Function.update_same, Option.map_some']
              · rw [hmk] at hf; exact absurd hf (by simp)
            · have := r4 k hh
              rw [hsame k hh] at this
              simp only [Rrts.setV, Function.update_noteq (hne k hh)] at this
              exact this
        · rw [if_neg hm] at hs
          have hacc := Option.some.inj hs
          subst hacc
          have hmk : acc.2.marked pv = false := by simp [Rrts.marked, hv, hm]
          have hheap : ∀ h ∈ l, Function.update acc.2.heap pv none h = acc.2.heap h :=
            fun h hh => Function.update_noteq (hne h hh) _ _
          have hsame : ∀ h ∈ l,
              Rrts.marked { acc.2 with heap := Function.update acc.2.heap pv none } h
              = acc.2.marked h :=
            fun h hh => marked_of_heap_eq (hheap h hh)
          refine ⟨?_, r2, ?_, ?_⟩
          · rw [r1]
            simp only [List.filter_cons, hmk]
            simp only [Bool.false_eq_true, if_false]
            congr 1
            exact List.filter_congr (fun h hh => hsame h hh)
          · intro h hh
            rw [List.mem_cons, not_or] at hh
            rw [r3 h hh.2]
            exact Function.update_noteq hh.1 _ _
          · intro k hh
            rcases List.mem_cons.mp hh with rfl | hh
            · refine ⟨fun hf => ?_, fun _ => ?_⟩
              · rw [hmk] at hf; exact absurd hf (by simp)
              · rw [r3 k hpv]
                simp only [Function.update_same]
            · have := r4 k hh
              rw [hsame k hh] at this
              simp only [hheap k hh] at this
              exact this

/-- Marking the subtree of `c` and deleting the unmarked vertices keeps exactly the
subtree of `c`, as it was. -/
theorem prune_sweep {st st1 st2 : Rrts S C O} {c fuel : Nat} {surv : List Nat}
    (t : TreeInv st) (m : MarksClear st) (hc : c ∈ st.list_vertices)
    (h1 : mark_descendent_vertices fuel st c = some st1)
    (h2 : delete_unmarked_vertices st1 = some (surv, st2)) :
    (∀ x, x ∈ surv ↔ Desc st c x) ∧ surv.Nodup ∧
    (st2.list_vertices = st.list_vertices ∧ st2.num_vertices = st.num_vertices ∧
      st2.next = st.next ∧ st2.kdtree = st.kdtree ∧ st2.root = st.root ∧
      st2.do_branch_and_bound = st.do_branch_and_bound ∧
      st2.lower_bound_vertex = st.lower_bound_vertex ∧
      st2.lower_bound_cost = st.lower_bound_cost) ∧
    (∀ x, Desc st c x → st2.heap x = st.heap x) ∧
    (∀ x ∈ st.list_vertices, ¬ Desc st c x → st2.heap x = none) ∧
    (∀ x, x ∉ st.list_vertices → st2.heap x = st.heap x) := by
  have hm := mark_descendent_vertices_spec fuel st st1 c t hc h1
  obtain ⟨a1, a2, a3, a4, a5, a6, a7, a8, a9⟩ := hm
  unfold delete_unmarked_vertices at h2
  rw [a1] at h2
  obtain ⟨r1, ⟨b1, b2, b3, b4, b5, b6, b7, b8⟩, r3, r4⟩ :=
    delete_unmarked_fold st.list_vertices ([], st1) (surv, st2) t.nodup h2
  simp only [List.nil_append] at r1 b1 b2 b3 b4 b5 b6 b7 b8 r3 r4
  have hmark : ∀ x ∈ st.list_vertices, (st1.marked x = true ↔ Desc st c x) := by
    intro x hx
    obtain ⟨vv, hvv⟩ := t.live x hx
    have hm0 := m x hx vv hvv
    constructor
    · intro hmk
      by_contra hd
      rw [Rrts.marked, (a9 x).2 hd, hvv] at hmk
      simp [hm0] at hmk
    · intro hd
      rw [Rrts.marked, (a9 x).1 hd, hvv]
      simp
  refine ⟨?_, ?_, ⟨b1.trans a1, b2.trans a2, b3.trans a3, b4.trans a4, b5.trans a5,
    b6.trans a6, b7.trans a7, b8.trans a8⟩, ?_, ?_, ?_⟩
  · intro x
    rw [r1, List.mem_filter]
    constructor
    · rintro ⟨hx, hmk⟩
      exact (hmark x hx).mp hmk
    · intro hd
      exact ⟨hd.1, (hmark x hd.1).mpr hd⟩
  · rw [r1]
    exact t.nodup.filter _
  · intro x hd
    obtain ⟨vv, hvv⟩ := t.live x hd.1
    rw [(r4 x hd.1).1 ((hmark x hd.1).mpr hd), (a9 x).1 hd, hvv]
    have hm0 := m x hd.1 vv hvv
    simp only [Option.map_some', Option.some.injEq]
    cases vv
    simp only at hm0
    subst hm0
    rfl
  · intro x hx hd
    have : st1.marked x = false := by
      cases hq : st1.marked x with
      | false => rfl
      | true => exact absurd ((hmark x hx).mp hq) hd
    exact (r4 x hx).2 this
  · intro x hx
    rw [r3 x hx]
    exact (a9 x).2 (fun hd => hx hd.1)

end Sweep

set_option linter.unusedSectionVars false
section Prune
variable {S U C O R : Type} [Add C] [LT C] [DecidableRel (fun a b : C => a < b)]
variable [Zero R] [Add R]

/-- Inserting a list of vertices into the index appends them to the vertex list. -/
theorem insert_all_spec :
    ∀ (l : List Nat) (s s' : Rrts S C O), List.foldlM insert_into_kdtree s l = some s' →
      s'.kdtree = s.kdtree.map (fun kd => kd ++ l) ∧
      s'.list_vertices = s.list_vertices ++ l ∧
      s'.num_vertices = s.num_vertices + (l.length : Int) ∧
      s'.heap = s.heap ∧ s'.next = s.next ∧ s'.root = s.root ∧
      s'.do_branch_and_bound = s.do_branch_and_bound ∧
      s'.lower_bound_vertex = s.lower_bound_vertex ∧
      s'.lower_bound_cost = s.lower_bound_cost
  | [], s, s', h => by
    simp only [List.foldlM_nil, pure, Option.some.injEq] at h
    subst h
    cases s.kdtree <;> simp
  | v :: l, s, s', h => by
    rw [foldlM_option_cons] at h
    cases hi : insert_into_kdtree s v with
    | none => simp [hi] at h
    | some s1 =>
      simp only [hi, Option.some_bind] at h
      obtain ⟨r1, r2, r3, r4, r5, r6, r7, r8, r9⟩ := insert_all_spec l s1 s' h
      unfold insert_into_kdtree at hi
      cases hv : s.heap v with
      | none => simp [hv] at hi
      | some vv =>
        cases hk : s.kdtree with
        | none => simp [hv, hk] at hi
        | some kd =>
          simp only [hv, hk, Option.some.injEq] at hi
          subst hi
          simp only at r1 r2 r3 r4 r5 r6 r7 r8 r9
          refine ⟨?_, ?_, ?_, r4, r5, r6, r7, r8, r9⟩
          · rw [r1]; simp
          · rw [r2]; simp
          · rw [r3, List.length_cons]; push_cast; ring

theorem set_root_spec (sys : System S U C O R) (st : Rrts S C O) (rs : S) (kd : List Nat)
    (hk : st.kdtree = some kd) :
    ∃ s3, set_root sys st rs = some (0, s3) ∧
      s3.heap = Function.update st.heap st.next (some { parent := none, state := rs, children := [], mark := 0, cost_from_root := sys.get_zero_cost, cost_from_parent := sys.get_zero_cost, edge_from_parent := none }) ∧
      s3.next = st.next + 1 ∧ s3.num_vertices = st.num_vertices + 1 ∧
      s3.list_vertices = st.list_vertices ++ [st.next] ∧
      s3.do_branch_and_bound = st.do_branch_and_bound ∧ s3.root = some st.next ∧
      s3.lower_bound_cost = st.lower_bound_cost ∧
      s3.lower_bound_vertex = st.lower_bound_vertex ∧
      s3.kdtree = some (kd ++ [st.next]) := by
  simp only [set_root, new_vertex, Rrts.modify, Rrts.setV, insert_into_kdtree,
    Function.update_same, hk]
  exact ⟨_, rfl, by simp, rfl, rfl, rfl, rfl, rfl, rfl, rfl, rfl⟩

theorem switch_root_prune_cases {sys : System S U C O R} {fuel : Nat} {st st' : Rrts S C O}
    {nrs : S} {c : Nat} {code : Int} (t : TreeInv st) (m : MarksClear st)
    (hc : c ∈ st.list_vertices)
    (h : switch_root_prune sys fuel st nrs c = some (code, st')) :
    ∃ vc, st.heap c = some vc ∧
      ((code = 5 ∧
          (sys.extend_to nrs vc.state false Trajectory.empty sys.opt_data_default).1 ≠ 0 ∧
          st'.list_vertices = [st.next] ∧ st'.lower_bound_vertex = st.lower_bound_vertex) ∨
       (code = 6 ∧
          (sys.extend_to nrs vc.state false Trajectory.empty sys.opt_data_default).1 = 0 ∧
          (sys.evaluate_extend_cost nrs vc.state
            (sys.extend_to nrs vc.state false Trajectory.empty sys.opt_data_default).2.2).1 ≠ 0 ∧
          st'.list_vertices = [st.next] ∧ st'.lower_bound_vertex = st.lower_bound_vertex) ∨
       (code = 0 ∧
          (sys.extend_to nrs vc.state false Trajectory.empty sys.opt_data_default).1 = 0 ∧
          (sys.evaluate_extend_cost nrs vc.state
            (sys.extend_to nrs vc.state false Trajectory.empty sys.opt_data_default).2.2).1 = 0 ∧
          ∃ st7, Rerooted sys st st7 nrs c
              { start_state := nrs, end_state := vc.state,
                cost := (sys.evaluate_extend_cost nrs vc.state
                  (sys.extend_to nrs vc.state false Trajectory.empty
                    sys.opt_data_default).2.2).2.2,
                opt_data := (sys.evaluate_extend_cost nrs vc.state
                  (sys.extend_to nrs vc.state false Trajectory.empty
                    sys.opt_data_default).2.2).2.1 } ∧
            update_all_costs sys fuel st7 = some st')) := by
  unfold switch_root_prune at h
  cases h1 : mark_descendent_vertices fuel st c with
  | none => simp [h1] at h
  | some st1 =>
    simp only [h1] at h
    cases h2 : delete_unmarked_vertices st1 with
    | none => simp [h2] at h
    | some ds =>
      obtain ⟨surv, st2⟩ := ds
      simp only [h2] at h
      obtain ⟨p1, p2, ⟨b1, b2, b3, b4, b5, b6, b7, b8⟩, p4, p5, p6⟩ := prune_sweep t m hc h1 h2
      have hcn : c ≠ st.next := fun e => absurd (t.fresh c hc) (by rw [e]; exact lt_irrefl _)
      have hcd : Desc st c c := ⟨hc, Relation.ReflTransGen.refl⟩
      obtain ⟨vc, hvc⟩ := t.live c hc
      have hvc2 : st2.heap c = some vc := by rw [p4 c hcd]; exact hvc
      refine ⟨vc, hvc, ?_⟩
      obtain ⟨s3, hs3, q1, q2, q3, q4, q5, q6, q7, q8, q9⟩ := set_root_spec sys
        { st2 with list_vertices := [], num_vertices := 0, kdtree := some [] } nrs [] rfl
      simp only [b3, List.nil_append, zero_add] at q1 q2 q3 q4 q5 q6 q7 q8 q9
      simp only [hs3] at h
      have h3c : s3.heap c = some vc := by
        rw [q1, Function.update_noteq hcn]; exact hvc2
      simp only [h3c] at h
      by_cases hx : (sys.extend_to nrs vc.state false Trajectory.empty sys.opt_data_default).1 = 0
      · rw [if_neg (not_not.mpr hx)] at h
        by_cases hy : (sys.evaluate_extend_cost nrs vc.state
            (sys.extend_to nrs vc.state false Trajectory.empty sys.opt_data_default).2.2).1 = 0
        · rw [if_neg (not_not.mpr hy)] at h
          right; right
          simp only [Rrts.setV, q6] at h
          have hr5 : Function.update (Function.update s3.heap c (some { vc with edge_from_parent := none })) c (some { vc with edge_from_parent := some { start_state := nrs, end_state := vc.state, cost := (sys.evaluate_extend_cost nrs vc.state (sys.extend_to nrs vc.state false Trajectory.empty sys.opt_data_default).2.2).2.2, opt_data := (sys.evaluate_extend_cost nrs vc.state (sys.extend_to nrs vc.state false Trajectory.empty sys.opt_data_default).2.2).2.1 }, parent := some st.next, cost_from_parent := (sys.evaluate_extend_cost nrs vc.state (sys.extend_to nrs vc.state false Trajectory.empty sys.opt_data_default).2.2).2.2 }) st.next
              = some { parent := none, state := nrs, children := [], mark := 0, cost_from_root := sys.get_zero_cost, cost_from_parent := sys.get_zero_cost, edge_from_parent := none } := by
            rw [Function.update_noteq (Ne.symm hcn), Function.update_noteq (Ne.symm hcn), q1,
              Function.update_same]
          simp only [Rrts.modify, hr5, Rrts.setV, List.not_mem_nil, if_false, List.nil_append] at h
          split at h
          · simp at h
          · next st7 hf =>
            split at h
            · simp at h
            · next st8 hu =>
              simp only [Option.some.injEq, Prod.mk.injEq] at h
              obtain ⟨rfl, rfl⟩ := h
              refine ⟨rfl, hx, hy, st7, ?_, hu⟩
              obtain ⟨r1, r2, r3, r4, r5, r6, r7, r8, r9⟩ := insert_all_spec surv _ st7 hf
              simp only [q9, q4, q3, q2, q6, q5, q7, q8, Option.map_some', List.singleton_append]
                at r1 r2 r3 r4 r5 r6 r7 r8 r9
              refine ⟨r6, r5, r7.trans b6, r8.trans b7, r9.trans b8,
                ⟨surv, r2, r1, by rw [r3]; ring, p2, p1⟩, ?_, ⟨vc, hvc, ?_⟩, ?_, ?_⟩
              · rw [r4, Function.update_same]
              · rw [r4, Function.update_noteq hcn, Function.update_same]
              · intro x hd hxc
                have hxn : x ≠ st.next :=
                  fun e => absurd (t.fresh x hd.1) (by rw [e]; exact lt_irrefl _)
                rw [r4, Function.update_noteq hxn, Function.update_noteq hxc,
                  Function.update_noteq hxc, q1, Function.update_noteq hxn]
                exact p4 x hd
              · intro x hxl hd
                have hxn : x ≠ st.next :=
                  fun e => absurd (t.fresh x hxl) (by rw [e]; exact lt_irrefl _)
                have hxc : x ≠ c := fun e => hd (e ▸ hcd)
                rw [r4, Function.update_noteq hxn, Function.update_noteq hxc,
                  Function.update_noteq hxc, q1, Function.update_noteq hxn]
                exact p5 x hxl hd
        · rw [if_pos hy] at h
          simp only [Option.some.injEq, Prod.mk.injEq] at h
          obtain ⟨rfl, rfl⟩ := h
          exact Or.inr (Or.inl ⟨rfl, hx, hy, q4, q8.trans b7⟩)
      · rw [if_pos hx] at h
        simp only [Option.some.injEq, Prod.mk.injEq] at h
        obtain ⟨rfl, rfl⟩ := h
        exact Or.inl ⟨rfl, hx, q4, q8.trans b7⟩

end Prune

set_option linter.unusedSectionVars false
section Reroot
variable {S U C O R : Type}

/-- Along a non-empty chain of parent links from a listed vertex the depth function
decreases. -/
theorem TreeInv.depth_chain {st : Rrts S C O} (t : TreeInv st) {d : Nat → Nat}
    (hd : ∀ h ∈ st.list_vertices, ∀ p, st.par h = some p → d p < d h) {x y : Nat}
    (hx : x ∈ st.list_vertices)
    (h : Relation.TransGen (fun a b => st.par a = some b) x y) :
    d y < d x ∧ y ∈ st.list_vertices := by
  induction h with
  | single hxy => exact ⟨hd _ hx _ hxy, (t.parent_ok _ hx _ hxy).1⟩
  | tail _ hbc ih => exact ⟨lt_trans (hd _ ih.2 _ hbc) ih.1, (t.parent_ok _ ih.2 _ hbc).1⟩

theorem TreeInv.no_cycle {st : Rrts S C O} (t : TreeInv st) {x : Nat}
    (hx : x ∈ st.list_vertices)
    (h : Relation.TransGen (fun a b => st.par a = some b) x x) : False := by
  obtain ⟨d, hd⟩ := t.depth
  exact lt_irrefl _ (t.depth_chain hd hx h).1

/-- The parent of a vertex of the subtree of `c` other than `c` is in the subtree. -/
theorem Desc.parent {st : Rrts S C O} (t : TreeInv st) {c x p : Nat} (h : Desc st c x)
    (hxc : x ≠ c) (hp : st.par x = some p) : Desc st c p := by
  obtain ⟨hx, hch⟩ := h
  rcases Relation.ReflTransGen.cases_head hch with e | ⟨q, hq, hqc⟩
  · exact absurd e hxc
  · have hq' : st.par x = some q := hq
    rw [hp] at hq'
    have := Option.some.inj hq'
    subst this
    exact ⟨(t.parent_ok x hx p hp).1, hqc⟩

theorem Desc.par_ne_none {st : Rrts S C O} {c x : Nat} (h : Desc st c x) (hxc : x ≠ c) :
    st.par x ≠ none := by
  rcases Relation.ReflTransGen.cases_head h.2 with e | ⟨q, hq, _⟩
  · exact absurd e hxc
  · have hq' : st.par x = some q := hq
    rw [hq']; simp

theorem Desc.child {st : Rrts S C O} (t : TreeInv st) {c u k : Nat} (h : Desc st c u)
    (hk : k ∈ st.kids u) : Desc st c k := by
  obtain ⟨hkl, hkp⟩ := (t.children_ok u h.1).2 k hk
  exact ⟨hkl, Relation.ReflTransGen.head hkp h.2⟩

theorem Desc.child_ne {st : Rrts S C O} (t : TreeInv st) {c u k : Nat} (h : Desc st c u)
    (hk : k ∈ st.kids u) : k ≠ c := by
  obtain ⟨hkl, hkp⟩ := (t.children_ok u h.1).2 k hk
  intro e
  subst e
  exact t.no_cycle hkl (Relation.TransGen.head' hkp h.2)

theorem Rerooted.rerooted_treeInv {sys : System S U C O R} {st st7 : Rrts S C O} {nrs : S} {c : Nat}
    {e : Edge S C O} (t : TreeInv st) (hc : c ∈ st.list_vertices)
    (h : Rerooted sys st st7 nrs c e) : TreeInv st7 := by
  obtain ⟨g1, g2, g3, g4, g5, ⟨surv, s1, s2, s3, s4, s5⟩, g7, ⟨vc, hvc, g8⟩, g9, g10⟩ := h
  have hcd : Desc st c c := ⟨hc, Relation.ReflTransGen.refl⟩
  have hfr : ∀ x, Desc st c x → x ≠ st.next :=
    fun x hx e => absurd (t.fresh x hx.1) (by rw [e]; exact lt_irrefl _)
  have hcn : c ≠ st.next := hfr c hcd
  have hparN : st7.par st.next = none := by simp [par_of_heap g7]
  have hparC : st7.par c = some st.next := by simp [par_of_heap g8]
  have hpar : ∀ x, Desc st c x → x ≠ c → st7.par x = st.par x := by
    intro x hx hxc
    unfold Rrts.par
    rw [g9 x hx hxc]
  have hkidsN : st7.kids st.next = [c] := by simp [kids_of_heap g7]
  have hkids : ∀ x, Desc st c x → st7.kids x = st.kids x := by
    intro x hx
    by_cases hxc : x = c
    · subst hxc
      rw [kids_of_heap g8, kids_of_heap hvc]
    · unfold Rrts.kids
      rw [g9 x hx hxc]
  have hedge : ∀ x, Desc st c x → x ≠ c → st7.has_edge x = st.has_edge x := by
    intro x hx hxc
    unfold Rrts.has_edge
    rw [g9 x hx hxc]
  have hmem : ∀ x, x ∈ st7.list_vertices ↔ x = st.next ∨ Desc st c x := by
    intro x
    rw [s1, List.mem_cons, s5]
  refine ⟨?_, ?_, ?_, ?_, ?_, ?_, ?_, ?_, ?_, ?_⟩
  · rw [s1]
    refine List.nodup_cons.mpr ⟨fun hm => hfr _ ((s5 _).mp hm) rfl, s4⟩
  · rw [s3, s1]; simp
  · rw [s2, s1]
  · intro x hx
    rw [g2]
    rcases (hmem x).mp hx with e1 | hd
    · rw [e1]; exact Nat.lt_succ_self _
    · exact Nat.lt_succ_of_lt (t.fresh x hd.1)
  · intro x hx
    rcases (hmem x).mp hx with e1 | hd
    · rw [e1]; exact ⟨_, g7⟩
    · by_cases hxc : x = c
      · rw [hxc]; exact ⟨_, g8⟩
      · rw [g9 x hd hxc]; exact t.live x hd.1
  · exact ⟨st.next, g1, (hmem _).mpr (Or.inl rfl), hparN⟩
  · intro x hx hp
    rcases (hmem x).mp hx with e1 | hd
    · rw [e1]; exact g1
    · by_cases hxc : x = c
      · rw [hxc, hparC] at hp; exact absurd hp (by simp)
      · rw [hpar x hd hxc] at hp
        exact absurd hp (hd.par_ne_none hxc)
  · intro x hx p hp
    rcases (hmem x).mp hx with e1 | hd
    · rw [e1, hparN] at hp; exact absurd hp (by simp)
    · by_cases hxc : x = c
      · subst hxc
        rw [hparC] at hp
        have := Option.some.inj hp
        subst this
        refine ⟨(hmem _).mpr (Or.inl rfl), by rw [hkidsN]; simp, ?_⟩
        simp [has_edge_of_heap g8]
      · rw [hpar x hd hxc] at hp
        have hpd := hd.parent t hxc hp
        obtain ⟨_, q2, q3⟩ := t.parent_ok x hd.1 p hp
        exact ⟨(hmem p).mpr (Or.inr hpd), by rw [hkids p hpd]; exact q2,
          by rw [hedge x hd hxc]; exact q3⟩
  · intro u hu
    rcases (hmem u).mp hu with e1 | hd
    · rw [e1, hkidsN]
      refine ⟨List.nodup_singleton _, fun k hk => ?_⟩
      rw [List.mem_singleton.mp hk]
      exact ⟨(hmem c).mpr (Or.inr hcd), hparC⟩
    · rw [hkids u hd]
      refine ⟨(t.children_ok u hd.1).1, fun k hk => ?_⟩
      have hkd := hd.child t hk
      have hkc := hd.child_ne t hk
      exact ⟨(hmem k).mpr (Or.inr hkd), by rw [hpar k hkd hkc]; exact ((t.children_ok u hd.1).2 k hk).2⟩
  · obtain ⟨d, hd⟩ := t.depth
    refine ⟨fun x => if x = st.next then 0 else d x + 1, ?_⟩
    intro x hx p hp
    rcases (hmem x).mp hx with e1 | hdx
    · rw [e1, hparN] at hp; exact absurd hp (by simp)
    · have hxn := hfr x hdx
      by_cases hxc : x = c
      · subst hxc
        rw [hparC] at hp
        have := Option.some.inj hp
        subst this
        simp [hxn]
      · rw [hpar x hdx hxc] at hp
        have hpd := hdx.parent t hxc hp
        simp only [hxn, hfr p hpd, if_false]
        exact Nat.succ_lt_succ (hd x hdx.1 p hp)

end Reroot

set_option linter.unusedSectionVars false
section Frame2
variable {S U C O R : Type} [Add C] [LT C] [DecidableRel (fun a b : C => a < b)]
variable [Zero R] [Add R]

theorem update_best_vertex_sharp {sys : System S U C O R} {st st' : Rrts S C O} {v : Nat}
    (h : update_best_vertex sys st v = some st') :
    ∃ vv, st.heap v = some vv ∧
      ((¬ (sys.is_in_goal vv.state = true ∧
          (st.lower_bound_vertex = none ∨ vv.cost_from_root < st.lower_bound_cost)) ∧ st' = st) ∨
       (sys.is_in_goal vv.state = true ∧
        (st.lower_bound_vertex = none ∨ vv.cost_from_root < st.lower_bound_cost) ∧
        st' = { st with lower_bound_cost := vv.cost_from_root, lower_bound_vertex := some v })) := by
  unfold update_best_vertex at h
  cases hv : st.heap v with
  | none => simp [hv] at h
  | some vv =>
    refine ⟨vv, rfl, ?_⟩
    simp only [hv] at h
    by_cases hg : sys.is_in_goal vv.state = true
    · rw [if_pos hg] at h
      by_cases hc : st.lower_bound_vertex = none ∨ vv.cost_from_root < st.lower_bound_cost
      · rw [if_pos hc] at h
        exact Or.inr ⟨hg, hc, (Option.some.inj h).symm⟩
      · rw [if_neg hc] at h
        exact Or.inl ⟨fun q => hc q.2, (Option.some.inj h).symm⟩
    · rw [if_neg hg] at h
      exact Or.inl ⟨fun q => hg q.1, (Option.some.inj h).symm⟩

/-- Cost propagation from `v` touches only the listed vertices strictly below `v`. -/
theorem update_branch_cost_frame (sys : System S U C O R) :
    ∀ (n : Nat) (st st' : Rrts S C O) (v : Nat), TreeInv st → v ∈ st.list_vertices →
      update_branch_cost sys n st v = some st' →
      ∀ x, ¬ (x ∈ st.list_vertices ∧ Relation.TransGen (fun a b => st.par a = some b) x v) →
        st'.heap x = st.heap x
  | 0, st, st', v, _, _, h => by simp [update_branch_cost] at h
  | n + 1, st, st', v, t, hv, h => by
    unfold update_branch_cost at h
    cases hvv : st.heap v with
    | none => simp [hvv] at h
    | some vv =>
      simp only [hvv] at h
      have hkids : st.kids v = vv.children := kids_of_heap hvv
      have key : ∀ (l : List Nat) (s : Rrts S C O), SameLinks st s →
          (∀ c ∈ l, c ∈ st.kids v) →
          List.foldlM (update_branch_child sys (update_branch_cost sys n) v) s l = some st' →
          ∀ x, ¬ (x ∈ st.list_vertices ∧
              Relation.TransGen (fun a b => st.par a = some b) x v) →
            st'.heap x = s.heap x := by
        intro l
        induction l with
        | nil =>
          intro s _ _ hf x _
          simp at hf
          subst hf
          rfl
        | cons c l ih =>
          intro s hs hl hf x hx
          rw [foldlM_option_cons] at hf
          cases hb : update_branch_child sys (update_branch_cost sys n) v s c with
          | none => simp [hb] at hf
          | some s3 =>
            simp only [hb, Option.some_bind] at hf
            obtain ⟨cur, vc, s2, h1, h2, h3, h4⟩ := update_branch_child_some hb
            have hs1 := SameLinks.setV_cost (cur.cost_from_root + vc.cost_from_parent) h2
            have hs2 := SameLinks.links_of_update_best_vertex h3
            have hheap2 := update_best_vertex_heap h3
            obtain ⟨hs3, _⟩ := update_branch_cost_links sys n _ _ _ h4
            have hs02 : SameLinks st s2 := hs.links_trans (hs1.links_trans hs2)
            have hs03 : SameLinks st s3 := hs02.links_trans hs3
            have t2 : TreeInv s2 := hs02.treeInv t
            have hcv : c ∈ st.kids v := hl c (List.mem_cons_self c l)
            obtain ⟨hcl, hcpar⟩ := (t.children_ok v hv).2 c hcv
            have hpf : s2.par = st.par := funext hs02.par_eq
            have hrec := update_branch_cost_frame sys n s2 s3 c t2 (by rw [hs02.1]; exact hcl) h4 x
              (by
                rw [hs02.1, hpf]
                rintro ⟨hxl, hxc⟩
                exact hx ⟨hxl, Relation.TransGen.tail hxc hcpar⟩)
            have hxc : x ≠ c := by
              intro e
              subst e
              exact hx ⟨hcl, Relation.TransGen.single hcpar⟩
            rw [ih s3 hs03 (fun c' hc' => hl c' (List.mem_cons_of_mem c hc')) hf x hx, hrec,
              hheap2, setV_heap_ne _ _ _ _ hxc]
      exact key vv.children st (SameLinks.links_refl st) (fun c hc => by rw [hkids]; exact hc) h

end Frame2

section BestOnS
variable {S U C O R : Type} [LinearOrderedAddCommMonoid C]
variable [Zero R] [Add R]

theorem BestOn.bestOn_congr {sys : System S U C O R} {st : Rrts S C O} {V W : Nat → Prop}
    (h : BestOn sys st V) (hvw : ∀ x, V x ↔ W x) : BestOn sys st W := by
  obtain ⟨h1, h2⟩ := h
  constructor
  · intro b hb
    obtain ⟨q1, q2⟩ := h1 b hb
    exact ⟨(hvw b).mp q1, q2⟩
  · intro g hg
    exact h2 g ((hvw g).mpr hg)

/-- A cost write at a vertex `c` outside the set of final vertices followed by
`update_best_vertex(c)` adds `c` to that set. -/
theorem bestOn_update {sys : System S U C O R} {s s2 : Rrts S C O} {c : Nat} {W : Nat → Prop}
    {vc : Vertex S C O} (x : C) (hb : BestOn sys s W) (hcw : ¬ W c)
    (hcl : c ∈ s.list_vertices) (hcr : s.root ≠ some c) (hvc : s.heap c = some vc)
    (hu : update_best_vertex sys (s.setV c { vc with cost_from_root := x }) c = some s2) :
    BestOn sys s2 (fun y => W y ∨ y = c) := by
  obtain ⟨vc1, hvc1, hcase⟩ := update_best_vertex_sharp hu
  rw [setV_heap_same] at hvc1
  have hvc1' := Option.some.inj hvc1
  subst hvc1'
  have hne : ∀ g, W g → g ≠ c := fun g hg e => hcw (e ▸ hg)
  rcases hcase with ⟨hunch, h1⟩ | ⟨hgoal, hcond, h1⟩
  · rw [h1]
    constructor
    · intro b hbv
      obtain ⟨q0, q1, q2, vb, q3, q4, q5⟩ := hb.1 b hbv
      exact ⟨Or.inl q0, q1, q2, vb, by rw [setV_heap_ne _ _ _ _ (hne b q0)]; exact q3, q4, q5⟩
    · intro g hg hgl vg hvg hr hgoal
      rcases hg with hg | hg
      · rw [setV_heap_ne _ _ _ _ (hne g hg)] at hvg
        exact hb.2 g hg hgl vg hvg hr hgoal
      · subst hg
        rw [setV_heap_same] at hvg
        have := Option.some.inj hvg
        subst this
        have hn : (s.setV g { vc with cost_from_root := x }).lower_bound_vertex ≠ none :=
          fun hn => hunch ⟨hgoal, Or.inl hn⟩
        have hl : ¬ x < (s.setV g { vc with cost_from_root := x }).lower_bound_cost :=
          fun hlt => hunch ⟨hgoal, Or.inr hlt⟩
        exact ⟨hn, not_lt.mp hl⟩
  · rw [h1]
    constructor
    · intro b hbv
      simp only at hbv
      have : b = c := (Option.some.inj hbv).symm
      subst this
      exact ⟨Or.inr rfl, hcl, hcr, _, setV_heap_same _ _ _, hgoal, rfl⟩
    · intro g hg hgl vg hvg hr hgl'
      refine ⟨by simp, ?_⟩
      show x ≤ vg.cost_from_root
      rcases hg with hg | hg
      · have hvg' : (s.setV c { vc with cost_from_root := x }).heap g = some vg := hvg
        rw [setV_heap_ne _ _ _ _ (hne g hg)] at hvg'
        obtain ⟨q1, q2⟩ := hb.2 g hg hgl vg hvg' hr hgl'
        rcases hcond with q | q
        · exact absurd q q1
        · exact le_trans (le_of_lt q) q2
      · subst hg
        have hvg' : (s.setV g { vc with cost_from_root := x }).heap g = some vg := hvg
        rw [setV_heap_same] at hvg'
        rw [← Option.some.inj hvg']

/-- Two different children of `v` have disjoint subtrees. -/
theorem TreeInv.siblings_disjoint {st : Rrts S C O} (t : TreeInv st) {v c c' x : Nat}
    (hv : v ∈ st.list_vertices) (hc : st.par c = some v) (hc' : st.par c' = some v)
    (hne : c ≠ c')
    (h1 : Relation.ReflTransGen (fun a b => st.par a = some b) x c)
    (h2 : Relation.ReflTransGen (fun a b => st.par a = some b) x c') : False := by
  have hu : Relator.RightUnique (fun a b : Nat => st.par a = some b) := by
    intro a b1 b2 e1 e2
    rw [e1] at e2
    exact Option.some.inj e2
  have side : ∀ a b, st.par a = some v → st.par b = some v → a ≠ b →
      Relation.ReflTransGen (fun a b => st.par a = some b) a b → False := by
    intro a b ha hb hab hch
    rcases Relation.ReflTransGen.cases_head hch with e | ⟨q, hq, hqb⟩
    · exact hab e
    · have hq' : st.par a = some q := hq
      rw [ha] at hq'
      have := Option.some.inj hq'
      subst this
      exact t.no_cycle hv (Relation.TransGen.tail' hqb hb)
  rcases Relation.ReflTransGen.total_of_right_unique hu h1 h2 with h | h
  · exact side c c' hc hc' hne h
  · exact side c' c hc' hc (Ne.symm hne) h

/-- Cost propagation from `v` makes the costs of the vertices strictly below `v`
final for the best-vertex record. -/
theorem update_branch_cost_bestOn (sys : System S U C O R) :
    ∀ (n : Nat) (st st' : Rrts S C O) (v : Nat) (V : Nat → Prop),
      TreeInv st → v ∈ st.list_vertices → BestOn sys st V →
      (∀ x, V x → ¬ Relation.TransGen (fun a b => st.par a = some b) x v) →
      update_branch_cost sys n st v = some st' →
      BestOn sys st' (fun x => V x ∨
        (x ∈ st.list_vertices ∧ Relation.TransGen (fun a b => st.par a = some b) x v))
  | 0, st, st', v, V, _, _, _, _, h => by simp [update_branch_cost] at h
  | n + 1, st, st', v, V, t, hv, hbo, hdis, h => by
    unfold update_branch_cost at h
    cases hvv : st.heap v with
    | none => simp [hvv] at h
    | some vv =>
      simp only [hvv] at h
      have hkids : st.kids v = vv.children := kids_of_heap hvv
      have key : ∀ (l : List Nat) (s : Rrts S C O) (W : Nat → Prop), SameLinks st s →
          (∀ c ∈ l, c ∈ st.kids v) → l.Nodup → BestOn sys s W →
          (∀ x, W x → ∀ c ∈ l,
            ¬ Relation.ReflTransGen (fun a b => st.par a = some b) x c) →
          List.foldlM (update_branch_child sys (update_branch_cost sys n) v) s l = some st' →
          BestOn sys st' (fun x => W x ∨ ∃ c ∈ l, x ∈ st.list_vertices ∧
            Relation.ReflTransGen (fun a b => st.par a = some b) x c) := by
        intro l
        induction l with
        | nil =>
          intro s W _ _ _ hB _ hf
          simp at hf
          subst hf
          exact hB.bestOn_congr (fun x => by simp)
        | cons c l ih =>
          intro s W hs hl hnd hB hW hf
          rw [foldlM_option_cons] at hf
          cases hb : update_branch_child sys (update_branch_cost sys n) v s c with
          | none => simp [hb] at hf
          | some s3 =>
            simp only [hb, Option.some_bind] at hf
            obtain ⟨cur, vc, s2, h1, h2, h3, h4⟩ := update_branch_child_some hb
            have hs1 := SameLinks.setV_cost (cur.cost_from_root + vc.cost_from_parent) h2
            have hs2 := SameLinks.links_of_update_best_vertex h3
            obtain ⟨hs3, _⟩ := update_branch_cost_links sys n _ _ _ h4
            have hs02 : SameLinks st s2 := hs.links_trans (hs1.links_trans hs2)
            have hs03 : SameLinks st s3 := hs02.links_trans hs3
            have t2 : TreeInv s2 := hs02.treeInv t
            have ts : TreeInv s := hs.treeInv t
            have hcv : c ∈ st.kids v := hl c (List.mem_cons_self c l)
            obtain ⟨hcl, hcpar⟩ := (t.children_ok v hv).2 c hcv
            obtain ⟨hcl0, hnd'⟩ := List.nodup_cons.mp hnd
            have hsl : s.list_vertices = st.list_vertices := hs.1
            have hspar : s.par c = some v := by rw [hs.par_eq]; exact hcpar
            have hpf : s2.par = st.par := funext hs02.par_eq
            have hcw : ¬ W c := fun hw =>
              hW c hw c (List.mem_cons_self c l) Relation.ReflTransGen.refl
            have hB2 := bestOn_update (cur.cost_from_root + vc.cost_from_parent) hB hcw
              (by rw [hsl]; exact hcl) (ts.root_ne_of_par hspar) h2 h3
            have hB3 := update_branch_cost_bestOn sys n s2 s3 c (fun y => W y ∨ y = c) t2
              (by rw [hs02.1]; exact hcl) hB2
              (by
                rw [hpf]
                rintro x (hx | hx) hch
                · exact hW x hx c (List.mem_cons_self c l) hch.to_reflTransGen
                · subst hx
                  exact t.no_cycle hcl hch) h4
            rw [hs02.1, hpf] at hB3
            have := ih s3 _ hs03 (fun c' hc' => hl c' (List.mem_cons_of_mem c hc')) hnd' hB3
              (by
                rintro x ((hx | hx) | ⟨_, hx⟩) c' hc' hch
                · exact hW x hx c' (List.mem_cons_of_mem c hc') hch
                · subst hx
                  have hc'v := ((t.children_ok v hv).2 c' (hl c' (List.mem_cons_of_mem _ hc'))).2
                  exact t.siblings_disjoint hv hcpar hc'v (fun e => hcl0 (e ▸ hc'))
                    Relation.ReflTransGen.refl hch
                · have hc'v := ((t.children_ok v hv).2 c' (hl c' (List.mem_cons_of_mem _ hc'))).2
                  exact t.siblings_disjoint hv hcpar hc'v (fun e => hcl0 (e ▸ hc'))
                    hx.to_reflTransGen hch) hf
            refine this.bestOn_congr (fun x => ?_)
            constructor
            · rintro (((h1 | h1) | ⟨h1, h1'⟩) | ⟨c', hc', h1⟩)
              · exact Or.inl h1
              · subst h1
                exact Or.inr ⟨x, List.mem_cons_self x l, hcl, Relation.ReflTransGen.refl⟩
              · exact Or.inr ⟨c, List.mem_cons_self c l, h1, h1'.to_reflTransGen⟩
              · exact Or.inr ⟨c', List.mem_cons_of_mem c hc', h1⟩
            · rintro (h1 | ⟨c', hc', h1, h1'⟩)
              · exact Or.inl (Or.inl (Or.inl h1))
              · rcases List.mem_cons.mp hc' with rfl | hc'
                · rcases Relation.reflTransGen_iff_eq_or_transGen.mp h1' with e | e
                  · exact Or.inl (Or.inl (Or.inr e.symm))
                  · exact Or.inl (Or.inr ⟨h1, e⟩)
                · exact Or.inr ⟨c', hc', h1, h1'⟩
      have := key vv.children st V (SameLinks.links_refl st)
        (fun c hc => by rw [hkids]; exact hc)
        (by rw [← hkids]; exact (t.children_ok v hv).1) hbo
        (by
          intro x hx c hc hch
          rw [← hkids] at hc
          exact hdis x hx (Relation.TransGen.tail' hch ((t.children_ok v hv).2 c hc).2)) h
      refine this.bestOn_congr (fun x => ?_)
      constructor
      · rintro (h1 | ⟨c, hc, h1, h1'⟩)
        · exact Or.inl h1
        · rw [← hkids] at hc
          exact Or.inr ⟨h1, Relation.TransGen.tail' h1' ((t.children_ok v hv).2 c hc).2⟩
      · rintro (h1 | ⟨h1, h1'⟩)
        · exact Or.inl h1
        · obtain ⟨c, hxc, hcv⟩ := Relation.TransGen.tail'_iff.mp h1'
          have hcl := t.chain_listed h1 hxc
          exact Or.inr ⟨c, by rw [← hkids]; exact (t.parent_ok c hcl v hcv).2.1, h1, hxc⟩

end BestOnS

set_option linter.unusedSectionVars false
section Costs2
variable {S U C O R : Type} [Add C] [LT C] [DecidableRel (fun a b : C => a < b)]
variable [Zero R] [Add R]

theorem SameLinks.links_marksClear {a b : Rrts S C O} (h : SameLinks a b) (m : MarksClear a) :
    MarksClear b := by
  intro x hx w hw
  have := h.2.2.2.2.2.2 x
  rw [hw] at this
  cases ha : a.heap x with
  | none => simp [ha] at this
  | some v =>
    simp only [ha, Option.map_some', Option.some.injEq, Vertex.links, Prod.mk.injEq] at this
    rw [this.2.2.2.1]
    exact m x (by rw [← h.1]; exact hx) v ha

theorem update_all_costs_eq {sys : System S U C O R} {fuel : Nat} {st st' : Rrts S C O}
    {r : Nat} (hr : st.root = some r) (h : update_all_costs sys fuel st = some st') :
    update_branch_cost sys fuel
      { st with lower_bound_cost := sys.get_inf_cost, lower_bound_vertex := none } r
      = some st' := by
  unfold update_all_costs at h
  split at h
  · simp at h
  · next r' hr' =>
    rw [hr] at hr'
    rw [Option.some.inj hr']
    exact h

/-- `update_all_costs` keeps the links and restores I2 when it can fail only at the
children of the root. -/
theorem update_all_costs_costs {sys : System S U C O R} {fuel : Nat} {st st' : Rrts S C O}
    (t : TreeInv st)
    (hcost : ∀ x ∈ st.list_vertices, CostAt st x ∨ ∃ r, st.root = some r ∧ st.par x = some r)
    (h : update_all_costs sys fuel st = some st') :
    SameLinks st st' ∧ TreeInv st' ∧ CostInv st' := by
  obtain ⟨r, hr, hrl, _⟩ := t.root_ok
  replace h := update_all_costs_eq hr h
  have hs0 : SameLinks st { st with lower_bound_cost := sys.get_inf_cost, lower_bound_vertex := none } :=
    ⟨rfl, rfl, rfl, rfl, rfl, rfl, fun _ => rfl⟩
  have t0 := hs0.treeInv t
  obtain ⟨hl, _⟩ := update_branch_cost_links sys fuel _ _ _ h
  have hsl := hs0.links_trans hl
  refine ⟨hsl, hsl.treeInv t, ?_⟩
  have := update_branch_cost_costs sys fuel _ st' r (fun _ => False) t0 hrl h
    (by
      intro x hx
      rcases hcost x hx with g | ⟨r', hr', g⟩
      · exact Or.inl g
      · rw [hr] at hr'
        rw [← Option.some.inj hr'] at g
        exact Or.inr (Or.inr g))
  intro x hx
  rw [hsl.1] at hx
  rcases this x hx with g | g
  · exact g
  · exact absurd g id

end Costs2

section Best2
variable {S U C O R : Type} [LinearOrderedAddCommMonoid C]
variable [Zero R] [Add R]

/-- After `update_all_costs` on a well-formed tree the best-vertex invariant holds,
whatever the record was before. -/
theorem update_all_costs_best {sys : System S U C O R} {fuel : Nat} {st st' : Rrts S C O}
    (t : TreeInv st) (h : update_all_costs sys fuel st = some st') : BestInv sys st' := by
  obtain ⟨r, hr, hrl, _⟩ := t.root_ok
  replace h := update_all_costs_eq hr h
  have hs0 : SameLinks st { st with lower_bound_cost := sys.get_inf_cost, lower_bound_vertex := none } :=
    ⟨rfl, rfl, rfl, rfl, rfl, rfl, fun _ => rfl⟩
  have t0 := hs0.treeInv t
  obtain ⟨hl, _⟩ := update_branch_cost_links sys fuel _ _ _ h
  have hsl := hs0.links_trans hl
  have t' := hsl.treeInv t
  have hb0 : BestOn sys { st with lower_bound_cost := sys.get_inf_cost, lower_bound_vertex := none }
      (fun _ => False) :=
    ⟨fun b hb => absurd hb (by simp), fun g hg => absurd hg id⟩
  have hbo := update_branch_cost_bestOn sys fuel _ st' r (fun _ => False) t0 hrl hb0
    (fun x hx => absurd hx id) h
  constructor
  · intro b hb
    obtain ⟨_, q⟩ := hbo.1 b hb
    exact q
  · intro g hg vg hvg hroot hgoal
    refine hbo.2 g (Or.inr ⟨by rw [← hsl.1]; exact hg, ?_⟩) hg vg hvg hroot hgoal
    have hr' : st'.root = some r := by rw [hsl.2.2.2.2.1]; exact hr
    have hch := t'.chain_root hr' g hg
    have hpf : st'.par = st.par := funext hsl.par_eq
    rw [hpf] at hch
    rcases Relation.reflTransGen_iff_eq_or_transGen.mp hch with e | e
    · rw [hr', e] at hroot
      exact absurd rfl hroot
    · exact e

end Best2

section Reroot2
variable {S U C O R : Type} [Add C]

theorem Rerooted.costs {sys : System S U C O R} {st st7 : Rrts S C O} {nrs : S} {c : Nat}
    {e : Edge S C O} (t : TreeInv st) (hci : CostInv st) (h : Rerooted sys st st7 nrs c e) :
    ∀ x ∈ st7.list_vertices, CostAt st7 x ∨ ∃ r, st7.root = some r ∧ st7.par x = some r := by
  obtain ⟨g1, g2, g3, g4, g5, ⟨surv, s1, s2, s3, s4, s5⟩, g7, ⟨vc, hvc, g8⟩, g9, g10⟩ := h
  intro x hx
  rw [s1, List.mem_cons, s5] at hx
  rcases hx with e1 | hd
  · left
    intro w p wp e2 e3 _
    rw [e1, g7] at e2
    rw [← Option.some.inj e2] at e3
    exact absurd e3 (by simp)
  · by_cases hxc : x = c
    · right
      exact ⟨st.next, g1, by rw [hxc]; simp [par_of_heap g8]⟩
    · left
      intro w p wp e2 e3 e4
      rw [g9 x hd hxc] at e2
      have hp : st.par x = some p := by rw [par_of_heap e2]; exact e3
      have hpd := hd.parent t hxc hp
      by_cases hpc : p = c
      · subst hpc
        rw [g8] at e4
        rw [← Option.some.inj e4]
        exact hci x hd.1 w p vc e2 e3 hvc
      · rw [g9 p hpd hpc] at e4
        exact hci x hd.1 w p wp e2 e3 e4

theorem Rerooted.marks {sys : System S U C O R} {st st7 : Rrts S C O} {nrs : S} {c : Nat}
    {e : Edge S C O} (m : MarksClear st) (h : Rerooted sys st st7 nrs c e) :
    MarksClear st7 := by
  obtain ⟨g1, g2, g3, g4, g5, ⟨surv, s1, s2, s3, s4, s5⟩, g7, ⟨vc, hvc, g8⟩, g9, g10⟩ := h
  intro x hx w hw
  rw [s1, List.mem_cons, s5] at hx
  rcases hx with e1 | hd
  · rw [e1, g7] at hw
    rw [← Option.some.inj hw]
  · by_cases hxc : x = c
    · rw [hxc, g8] at hw
      rw [← Option.some.inj hw]
      exact m c (hxc ▸ hd.1) vc hvc
    · rw [g9 x hd hxc] at hw
      exact m x hd.1 w hw

end Reroot2

section Path
variable {S U C O R : Type}

/-- The loop of `get_best_trajectory_vertices` puts ancestors of the start vertex in
front of the list, the start vertex last. -/
theorem get_best_trajectory_vertices_walk_spec :
    ∀ (fuel : Nat) (st : Rrts S C O) (x : Nat) (l path : List Nat),
      get_best_trajectory_vertices_walk fuel st (some x) l = some path →
      ∃ pre, path = pre ++ x :: l ∧
        ∀ y ∈ pre, Relation.ReflTransGen (fun a b => st.par a = some b) x y
  | 0, st, x, l, path, h => by simp [get_best_trajectory_vertices_walk] at h
  | fuel + 1, st, x, l, path, h => by
    unfold get_best_trajectory_vertices_walk at h
    cases hv : st.heap x with
    | none => simp [hv] at h
    | some vv =>
      simp only [hv] at h
      cases hp : vv.parent with
      | none =>
        rw [hp] at h
        simp only [get_best_trajectory_vertices_walk, Option.some.injEq] at h
        exact ⟨[], by rw [← h]; rfl, fun y hy => absurd hy (by simp)⟩
      | some p =>
        rw [hp] at h
        obtain ⟨pre, h1, h2⟩ := get_best_trajectory_vertices_walk_spec fuel st p (x :: l) path h
        have hxp : st.par x = some p := by rw [par_of_heap hv]; exact hp
        refine ⟨pre ++ [p], by rw [h1]; simp, fun y hy => ?_⟩
        rcases List.mem_append.mp hy with hy | hy
        · exact Relation.ReflTransGen.head hxp (h2 y hy)
        · rw [List.mem_singleton.mp hy]
          exact Relation.ReflTransGen.single hxp

end Path

set_option linter.unusedSectionVars false
section Cut
variable {S U C O R : Type} [Add C] [LT C] [DecidableRel (fun a b : C => a < b)]
variable [Zero R] [Add R] [LT R] [DecidableRel (fun a b : R => a < b)]

/-- Loop 1.b commits the states in front of the one it stops at, or all of them. -/
theorem switch_root_cut_states (dist : S → S → Bool → R) (distance : R) :
    ∀ (states : List S) (cc : List U) (sp : S) (len : R) (cm : Trajectory S U R)
      (res : R × Trajectory S U R × Option S),
      switch_root_cut dist distance states cc sp len cm = some res →
      (∀ nrs, res.2.2 = some nrs →
        ∃ pre post, states = pre ++ nrs :: post ∧ res.2.1.states = cm.states ++ pre) ∧
      (res.2.2 = none → res.2.1.states = cm.states ++ states)
  | [], cc, sp, len, cm, res, h => by
    simp only [switch_root_cut, Option.some.injEq] at h
    subst h
    simp
  | ps :: rest, cc, sp, len, cm, res, h => by
    unfold switch_root_cut at h
    simp only at h
    split at h
    · cases cc with
      | nil => simp at h
      | cons c cc1 =>
        simp only at h
        obtain ⟨r1, r2⟩ := switch_root_cut_states dist distance rest cc1 ps _ _ res h
        constructor
        · intro nrs hn
          obtain ⟨pre, post, e1, e2⟩ := r1 nrs hn
          exact ⟨ps :: pre, post, by rw [e1]; rfl, by rw [e2]; simp⟩
        · intro hn
          rw [r2 hn]; simp
    · simp only [Option.some.injEq] at h
      subst h
      constructor
      · intro nrs hn
        simp only [Option.some.injEq] at hn
        subst hn
        exact ⟨[], rest, rfl, by simp⟩
      · intro hn
        simp at hn

/-- When the walk of `switch_root` stops inside the edge of `c`: `c` is a vertex of the
path with a parent, the new root state is a state of the trajectory of that edge, and
the committed trajectory ends with the states in front of it. -/
theorem switch_root_walk_found (sys : System S U C O R) (dist : S → S → Bool → R)
    (distance : R) :
    ∀ (path : List Nat) (st : Rrts S C O) (len : R) (cm : Trajectory S U R)
      (code : Int) (nrs : S) (c : Nat) (len1 : R) (cm1 : Trajectory S U R) (st1 : Rrts S C O),
      switch_root_walk sys dist distance path st len cm
        = some (code, some (nrs, c), len1, cm1, st1) →
      code = 0 ∧ c ∈ path ∧
      ∃ s vc p vp e front pre post, SameShape st s ∧ s.heap c = some vc ∧
        vc.parent = some p ∧ s.heap p = some vp ∧ vc.edge_from_parent = some e ∧
        (sys.extend_to vp.state vc.state false Trajectory.empty e.opt_data).1 = 0 ∧
        (sys.extend_to vp.state vc.state false Trajectory.empty e.opt_data).2.1.states
          = pre ++ nrs :: post ∧
        cm1.states = front ++ pre
  | [], st, len, cm, code, nrs, c, len1, cm1, st1, h => by
    simp [switch_root_walk] at h
  | pv :: rest, st, len, cm, code, nrs, c, len1, cm1, st1, h => by
    unfold switch_root_walk at h
    cases hv : st.heap pv with
    | none => simp [hv] at h
    | some vc =>
      simp only [hv] at h
      cases hp : vc.parent with
      | none =>
        simp only [hp] at h
        obtain ⟨r1, r2, r3⟩ :=
          switch_root_walk_found sys dist distance rest st len cm code nrs c len1 cm1 st1 h
        exact ⟨r1, List.mem_cons_of_mem _ r2, r3⟩
      | some p =>
        simp only [hp] at h
        cases hvp : st.heap p with
        | none => simp [hvp] at h
        | some vp =>
          cases he : vc.edge_from_parent with
          | none => simp [hvp, he] at h
          | some e =>
            simp only [hvp, he] at h
            have hs1 : SameShape st (st.setV pv { vc with edge_from_parent := some { e with
                opt_data := (sys.extend_to vp.state vc.state false Trajectory.empty
                  e.opt_data).2.2 } }) := SameShape.setV_edge hv he
            simp only [hp] at hs1
            have lift : ∀ {s2 : Rrts S C O} {ln : R} {cmx : Trajectory S U R},
                switch_root_walk sys dist distance rest s2 ln cmx
                  = some (code, some (nrs, c), len1, cm1, st1) → SameShape st s2 →
                code = 0 ∧ c ∈ pv :: rest ∧
                ∃ s vc p vp e front pre post, SameShape st s ∧ s.heap c = some vc ∧
                  vc.parent = some p ∧ s.heap p = some vp ∧ vc.edge_from_parent = some e ∧
                  (sys.extend_to vp.state vc.state false Trajectory.empty e.opt_data).1 = 0 ∧
                  (sys.extend_to vp.state vc.state false Trajectory.empty e.opt_data).2.1.states
                    = pre ++ nrs :: post ∧
                  cm1.states = front ++ pre := by
              intro s2 ln cmx hw hs
              obtain ⟨r1, r2, s, a1, a2, a3, a4, a5, a6, a7, q⟩ :=
                switch_root_walk_found sys dist distance rest s2 ln cmx code nrs c len1 cm1
                  st1 hw
              exact ⟨r1, List.mem_cons_of_mem _ r2, s, a1, a2, a3, a4, a5, a6, a7,
                hs.shape_trans q.1, q.2⟩
            split at h
            · next hx0 =>
              split at h
              · exact lift h hs1
              · split at h
                · simp at h
                · next s0 tl hst =>
                  split at h
                  · simp at h
                  · next ln cmx nr hcut =>
                    simp only [Option.some.injEq, Prod.mk.injEq] at h
                    obtain ⟨rfl, ⟨rfl, rfl⟩, rfl, rfl, rfl⟩ := h
                    obtain ⟨pre, post, e1, e2⟩ :=
                      (switch_root_cut_states dist distance _ _ _ _ _ _ hcut).1 _ rfl
                    exact ⟨rfl, List.mem_cons_self _ _, st, vc, p, vp, e, cm.states, pre, post,
                      SameShape.shape_refl st, hv, hp, hvp, he, hx0, e1, e2⟩
                  · exact lift h hs1
            · simp at h

end Cut

set_option linter.unusedSectionVars false
section PruneInv
variable {S U C O R : Type} [LinearOrderedAddCommMonoid C]
variable [Zero R] [Add R]

/-- The re-rooting branch of `switch_root`, when it returns 0, leaves the re-rooted
tree with recomputed costs: the invariants hold again. -/
theorem switch_root_prune_inv {sys : System S U C O R} {fuel : Nat} {st st' : Rrts S C O}
    {nrs : S} {c : Nat} (t : TreeInv st) (m : MarksClear st) (hci : CostInv st)
    (hc : c ∈ st.list_vertices)
    (h : switch_root_prune sys fuel st nrs c = some (0, st')) :
    ∃ vc st7, st.heap c = some vc ∧
      Rerooted sys st st7 nrs c
        { start_state := nrs, end_state := vc.state,
          cost := (sys.evaluate_extend_cost nrs vc.state
            (sys.extend_to nrs vc.state false Trajectory.empty sys.opt_data_default).2.2).2.2,
          opt_data := (sys.evaluate_extend_cost nrs vc.state
            (sys.extend_to nrs vc.state false Trajectory.empty sys.opt_data_default).2.2).2.1 } ∧
      SameLinks st7 st' ∧ st'.heap st.next = st7.heap st.next ∧
      TreeInv st' ∧ CostInv st' ∧ BestInv sys st' ∧ MarksClear st' := by
  obtain ⟨vc, hvc, hcase⟩ := switch_root_prune_cases t m hc h
  rcases hcase with ⟨h5, _⟩ | ⟨h6, _⟩ | ⟨_, _, _, st7, hre, hu⟩
  · exact absurd h5 (by decide)
  · exact absurd h6 (by decide)
  · have t7 := hre.rerooted_treeInv t hc
    obtain ⟨hsl, t', hc'⟩ := update_all_costs_costs t7 (hre.costs t hci) hu
    have hb' : BestInv sys st' := update_all_costs_best t7 hu
    refine ⟨vc, st7, hvc, hre, hsl, ?_, t', hc', hb', hsl.links_marksClear (hre.marks m)⟩
    have hr7 : st7.root = some st.next := hre.1
    have hu' := update_all_costs_eq hr7 hu
    have hs0 : SameLinks st7
        { st7 with lower_bound_cost := sys.get_inf_cost, lower_bound_vertex := none } :=
      ⟨rfl, rfl, rfl, rfl, rfl, rfl, fun _ => rfl⟩
    obtain ⟨r, hr, hrl, _⟩ := t7.root_ok
    rw [hr7] at hr
    have hrr := Option.some.inj hr
    subst hrr
    exact update_branch_cost_frame sys fuel _ st' st.next (hs0.treeInv t7) hrl hu' st.next
      (fun ⟨_, hch⟩ => t7.no_cycle hrl hch)

end PruneInv

set_option linter.unusedSectionVars false
section CutInv
variable {S U C O R : Type}

theorem marksClear_of_check {st : Rrts S C O} (h : marks_clear_check st = true) :
    MarksClear st := by
  intro x hx vv hv
  unfold marks_clear_check at h
  rw [List.all_eq_true] at h
  have := h x hx
  rw [hv] at this
  simpa using this

theorem SameLinks.heap_none {a b : Rrts S C O} (h : SameLinks a b) {k : Nat}
    (hk : a.heap k = none) : b.heap k = none := by
  have := h.2.2.2.2.2.2 k
  rw [hk] at this
  cases hb : b.heap k with
  | none => rfl
  | some w => simp [hb] at this

theorem Rerooted.links {sys : System S U C O R} {st st7 : Rrts S C O} {nrs : S} {c : Nat}
    {e : Edge S C O} (h : Rerooted sys st st7 nrs c e) :
    st7.par st.next = none ∧ st7.kids st.next = [c] ∧ st7.par c = some st.next ∧
    (∀ x, Desc st c x → st7.kids x = st.kids x) ∧
    (∀ x, Desc st c x → x ≠ c → st7.par x = st.par x) := by
  obtain ⟨g1, g2, g3, g4, g5, ⟨surv, s1, s2, s3, s4, s5⟩, g7, ⟨vc, hvc, g8⟩, g9, g10⟩ := h
  refine ⟨by simp [par_of_heap g7], by simp [kids_of_heap g7], by simp [par_of_heap g8], ?_, ?_⟩
  · intro x hx
    by_cases hxc : x = c
    · subst hxc
      rw [kids_of_heap g8, kids_of_heap hvc]
    · unfold Rrts.kids
      rw [g9 x hx hxc]
  · intro x hx hxc
    unfold Rrts.par
    rw [g9 x hx hxc]

end CutInv

section CutInv2
variable {S U C O R : Type} [Add C] [LT C] [DecidableRel (fun a b : C => a < b)]
variable [Zero R] [Add R] [LT R] [DecidableRel (fun a b : R => a < b)]

/-- A call of `switch_root` whose walk stopped inside the edge of `c` continues with
the re-rooting branch for `c`, a vertex with a parent on the path to the best vertex. -/
theorem switch_root_cut_inv {sys : System S U C O R} {dist : S → S → Bool → R} {fuel : Nat}
    {distance : R} {cm cm' cm1 : Trajectory S U R} {st st' st1 : Rrts S C O} {code pc : Int}
    {b c : Nat} {path : List Nat} {nrs : S} {len : R}
    (t : TreeInv st) (hbl : BestListed st) (hb : st.lower_bound_vertex = some b)
    (hg : ∀ r vr, st.root = some r → st.heap r = some vr → sys.is_in_goal vr.state = false)
    (hp : get_best_trajectory_vertices fuel st [] = some (pc, path))
    (hw : switch_root_walk sys dist distance path st 0 cm
      = some (0, some (nrs, c), len, cm1, st1))
    (h : switch_root sys dist fuel distance cm st = some (code, cm', st')) :
    cm' = cm1 ∧ switch_root_prune sys fuel st1 nrs c = some (code, st') ∧ SameShape st st1 ∧
    c ∈ st.list_vertices ∧ Desc st c b ∧ st.par c ≠ none := by
  have hsh := switch_root_walk_shape sys dist distance path st 0 cm _ hw
  simp only at hsh
  obtain ⟨_, hcp, s, vc, p, vp, e, front, pre, post, hs, a1, a2, _⟩ :=
    switch_root_walk_found sys dist distance path st 0 cm 0 nrs c len cm1 st1 hw
  have hbl' := hbl b hb
  have hpar : st.par c ≠ none := by
    obtain ⟨v0, hv0, hsp⟩ := hs.shape_heap_some' a1
    simp only [Vertex.shape, Prod.mk.injEq] at hsp
    rw [par_of_heap hv0, ← hsp.1, a2]
    simp
  have hdesc : Desc st c b := by
    unfold get_best_trajectory_vertices at hp
    simp only [hb] at hp
    cases hq : get_best_trajectory_vertices_walk fuel st (some b) [] with
    | none => simp [hq] at hp
    | some l =>
      simp only [hq, Option.some.injEq, Prod.mk.injEq] at hp
      obtain ⟨pre', e1, e2⟩ := get_best_trajectory_vertices_walk_spec fuel st b [] l hq
      rw [← hp.2, e1] at hcp
      rcases List.mem_append.mp hcp with hc | hc
      · exact ⟨hbl', e2 c hc⟩
      · rw [List.mem_singleton.mp hc]
        exact ⟨hbl', Relation.ReflTransGen.refl⟩
  have hcl : c ∈ st.list_vertices := t.chain_listed hdesc.1 hdesc.2
  refine ⟨?_, ?_, hsh, hcl, hdesc, hpar⟩
  · rcases switch_root_cases h with ⟨q, _⟩ | ⟨b', r, vr, _, hr, hvr, ⟨hgt, _⟩ |
      ⟨_, pc', path', wcode, found, len', st1', hp', hw', _⟩⟩
    · rw [hb] at q; exact absurd q (by simp)
    · rw [hg r vr hr hvr] at hgt; exact absurd hgt (by simp)
    · rw [hp] at hp'
      simp only [Option.some.injEq, Prod.mk.injEq] at hp'
      rw [← hp'.2, hw] at hw'
      simp only [Option.some.injEq, Prod.mk.injEq] at hw'
      exact hw'.2.2.2.1.symm
  · rcases switch_root_cases h with ⟨q, _⟩ | ⟨b', r, vr, _, hr, hvr, ⟨hgt, _⟩ |
      ⟨_, pc', path', wcode, found, len', st1', hp', hw', hcase⟩⟩
    · rw [hb] at q; exact absurd q (by simp)
    · rw [hg r vr hr hvr] at hgt; exact absurd hgt (by simp)
    · rw [hp] at hp'
      simp only [Option.some.injEq, Prod.mk.injEq] at hp'
      rw [← hp'.2, hw] at hw'
      simp only [Option.some.injEq, Prod.mk.injEq] at hw'
      obtain ⟨rfl, rfl, _, _, rfl⟩ := hw'
      rcases hcase with ⟨q, _⟩ | ⟨_, q, _⟩ | ⟨_, nrs', c', q, hpr⟩
      · exact absurd rfl q
      · simp at q
      · simp only [Option.some.injEq, Prod.mk.injEq] at q
        obtain ⟨rfl, rfl⟩ := q
        exact hpr

end CutInv2

set_option linter.unusedSectionVars false
section Claims7
variable {S U C O R : Type} [LinearOrderedAddCommMonoid C]
variable [Zero R] [Add R] [LT R] [DecidableRel (fun a b : R => a < b)]

/-- **C15** (re-rooting when the cut falls inside an edge).  Let the planner satisfy the
tree invariant and I2 with all marks clear, let a best vertex be recorded and the root
not be in the goal, and let the walk of `switch_root` stop inside the edge of the path
vertex `c` with the new root state `nrs`.  When `switch_root` returns 0: the new root is
the fresh vertex `st.next`, with state `nrs`, no parent, the only child `c` and zero
`cost_from_root` and `cost_from_parent`; the vertex list holds exactly the new root and
the vertices of the subtree of `c` before the call, every other old vertex, the old
root included, being deleted; inside that subtree the child sets are unchanged and so
are the parents, except that the parent of `c` is the new root; `c.cost_from_parent` is
the cost that `evaluate_extend_cost` gives for `(nrs, c.state)`; and I2 holds. -/
theorem switch_root_rerooting (sys : System S U C O R) (dist : S → S → Bool → R)
    (fuel : Nat) (distance : R) (cm cm' cm1 : Trajectory S U R) (st st' st1 : Rrts S C O)
    (pc : Int) (b c : Nat) (path : List Nat) (nrs : S) (len : R)
    (t : TreeInv st) (m : MarksClear st) (hci : CostInv st) (hbl : BestListed st)
    (hb : st.lower_bound_vertex = some b)
    (hg : ∀ r vr, st.root = some r → st.heap r = some vr → sys.is_in_goal vr.state = false)
    (hp : get_best_trajectory_vertices fuel st [] = some (pc, path))
    (hw : switch_root_walk sys dist distance path st 0 cm
      = some (0, some (nrs, c), len, cm1, st1))
    (h : switch_root sys dist fuel distance cm st = some (0, cm', st')) :
    st'.root = some st.next ∧ st.next ∉ st.list_vertices ∧
    (∃ vr, st'.heap st.next = some vr ∧ vr.parent = none ∧ vr.state = nrs ∧
      vr.children = [c] ∧ vr.cost_from_root = sys.get_zero_cost ∧
      vr.cost_from_parent = sys.get_zero_cost) ∧
    (∀ x, x ∈ st'.list_vertices ↔ x = st.next ∨ Desc st c x) ∧
    (∀ x ∈ st.list_vertices, ¬ Desc st c x → st'.heap x = none) ∧
    (∀ r, st.root = some r → ¬ Desc st c r) ∧
    (∀ x, Desc st c x → st'.kids x = st.kids x ∧ (x ≠ c → st'.par x = st.par x)) ∧
    st'.par c = some st.next ∧
    (∃ vc vc', st.heap c = some vc ∧ st'.heap c = some vc' ∧
      vc'.cost_from_parent = (sys.evaluate_extend_cost nrs vc.state
        (sys.extend_to nrs vc.state false Trajectory.empty sys.opt_data_default).2.2).2.2) ∧
    CostInv st' ∧ TreeInv st' := by
  obtain ⟨_, hpr, hsh, hcl, hdb, hpc⟩ := switch_root_cut_inv t hbl hb hg hp hw h
  have hst := hsh.shape_sameTree
  have t1 := hst.tree_treeInv t
  obtain ⟨vc1, st7, hvc1, hre, hsl, hroot, t', hc', _, _⟩ :=
    switch_root_prune_inv t1 (hsh.shape_marksClear m) (hsh.costInv hci) (by rw [hsh.1]; exact hcl) hpr
  have hn : st1.next = st.next := hsh.2.2.1
  have hd : ∀ x, Desc st1 c x ↔ Desc st c x := fun x => Desc.of_sameTree hst c x
  obtain ⟨l1, l2, l3, l4, l5⟩ := hre.links
  obtain ⟨g1, g2, g3, g4, g5, ⟨surv, s1, s2, s3, s4, s5⟩, g7, ⟨vcx, hvcx, g8⟩, g9, g10⟩ := hre
  rw [hn] at g1 g7 hroot l1 l2 l3 s1
  obtain ⟨vc, hvc, hshape⟩ := hsh.shape_heap_some' hvc1
  simp only [Vertex.shape, Prod.mk.injEq] at hshape
  refine ⟨by rw [hsl.2.2.2.2.1]; exact g1,
    fun hm => absurd (t.fresh _ hm) (lt_irrefl _), ?_, ?_, ?_, ?_, ?_, ?_, ?_, hc', t'⟩
  · rw [hroot, g7]
    exact ⟨_, rfl, rfl, rfl, rfl, rfl, rfl⟩
  · intro x
    rw [hsl.1, s1, List.mem_cons, s5, hd]
  · intro x hx hnd
    exact hsl.heap_none (g10 x (by rw [hsh.1]; exact hx) (fun q => hnd ((hd x).mp q)))
  · intro r hr hdr
    have hpr' : st.par r = none := by
      obtain ⟨r', e1, _, e3⟩ := t.root_ok
      rw [hr] at e1
      rw [Option.some.inj e1]
      exact e3
    by_cases hrc : r = c
    · rw [hrc] at hpr'
      exact hpc hpr'
    · exact hdr.par_ne_none hrc hpr'
  · intro x hx
    refine ⟨?_, fun hxc => ?_⟩
    · rw [hsl.kids_eq, l4 x ((hd x).mpr hx), hst.tree_kids_eq]
    · rw [hsl.par_eq, l5 x ((hd x).mpr hx) hxc, hst.tree_par_eq]
  · rw [hsl.par_eq]; exact l3
  · obtain ⟨w, hw1, hw2⟩ := hsl.links_heap_some g8
    simp only [Vertex.links, Prod.mk.injEq] at hw2
    rw [hvc1] at hvcx
    have := Option.some.inj hvcx
    subst this
    refine ⟨vc, w, hvc, hw1, ?_⟩
    rw [hw2.2.2.2.2.1, hshape.2.1]

/-- **C18** (the best vertex survives a root switch).  Let the planner satisfy the tree
invariant and the best-vertex invariant with all marks clear, for costs forming a
totally ordered monoid, and let the walk of `switch_root` stop inside the edge of the
path vertex `c`.  When `switch_root` returns 0, a best vertex is recorded afterwards: a
listed vertex of the surviving tree other than the root, goal-resident, whose
`cost_from_root` is `lower_bound_cost` and is the minimum over the goal-resident listed
vertices other than the root; and the old best vertex is itself a survivor. -/
theorem best_vertex_survives (sys : System S U C O R) (dist : S → S → Bool → R)
    (fuel : Nat) (distance : R) (cm cm' cm1 : Trajectory S U R) (st st' st1 : Rrts S C O)
    (pc : Int) (b c : Nat) (path : List Nat) (nrs : S) (len : R)
    (t : TreeInv st) (m : MarksClear st) (hci : CostInv st) (hbi : BestInv sys st)
    (hb : st.lower_bound_vertex = some b)
    (hg : ∀ r vr, st.root = some r → st.heap r = some vr → sys.is_in_goal vr.state = false)
    (hp : get_best_trajectory_vertices fuel st [] = some (pc, path))
    (hw : switch_root_walk sys dist distance path st 0 cm
      = some (0, some (nrs, c), len, cm1, st1))
    (h : switch_root sys dist fuel distance cm st = some (0, cm', st')) :
    b ∈ st'.list_vertices ∧
    ∃ b' vb', st'.lower_bound_vertex = some b' ∧ b' ∈ st'.list_vertices ∧
      st'.root ≠ some b' ∧ st'.heap b' = some vb' ∧ sys.is_in_goal vb'.state = true ∧
      st'.lower_bound_cost = vb'.cost_from_root ∧
      ∀ g ∈ st'.list_vertices, ∀ vg, st'.heap g = some vg → st'.root ≠ some g →
        sys.is_in_goal vg.state = true → vb'.cost_from_root ≤ vg.cost_from_root := by
  obtain ⟨_, hpr, hsh, hcl, hdb, hpc⟩ :=
    switch_root_cut_inv t hbi.bestListed hb hg hp hw h
  have hst := hsh.shape_sameTree
  have t1 := hst.tree_treeInv t
  obtain ⟨vc1, st7, hvc1, hre, hsl, hroot, t', hc', hb', _⟩ :=
    switch_root_prune_inv t1 (hsh.shape_marksClear m) (hsh.costInv hci) (by rw [hsh.1]; exact hcl) hpr
  have hn : st1.next = st.next := hsh.2.2.1
  obtain ⟨g1, g2, g3, g4, g5, ⟨surv, s1, s2, s3, s4, s5⟩, g7, ⟨vcx, hvcx, g8⟩, g9, g10⟩ := hre
  have hbl' : b ∈ st'.list_vertices := by
    rw [hsl.1, s1, List.mem_cons, s5]
    exact Or.inr ((Desc.of_sameTree hst c b).mpr hdb)
  obtain ⟨q1, q2, vb, q3, q4, q5⟩ := hbi.1 b hb
  have hbn : b ≠ st.next := fun e => absurd (t.fresh b q1) (by rw [e]; exact lt_irrefl _)
  have hroot' : st'.root ≠ some b := by
    rw [hsl.2.2.2.2.1, g1, hn]
    exact fun e => hbn (Option.some.inj e).symm
  obtain ⟨wb, hwb⟩ := t'.live b hbl'
  have hgoal : sys.is_in_goal wb.state = true := by
    obtain ⟨_, _, _, _, _, _, hstate⟩ := hsl.frame
    have e7 : (st7.heap b).map (fun v => v.state) = (st1.heap b).map (fun v => v.state) := by
      by_cases hbc : b = c
      · rw [hbc, g8, hvcx]; rfl
      · rw [g9 b ((Desc.of_sameTree hst c b).mpr hdb) hbc]
    obtain ⟨v1, hv1, hs1⟩ := hsh.shape_heap_some q3
    simp only [Vertex.shape, Prod.mk.injEq] at hs1
    have := hstate b
    rw [hwb, e7, hv1] at this
    simp only [Option.map_some', Option.some.injEq] at this
    rw [this, hs1.2.1]
    exact q4
  obtain ⟨hne, _⟩ := hb'.2 b hbl' wb hwb hroot' hgoal
  cases hlb : st'.lower_bound_vertex with
  | none => exact absurd hlb hne
  | some b' =>
    obtain ⟨r1, r2, vb', r3, r4, r5⟩ := hb'.1 b' hlb
    refine ⟨hbl', b', vb', rfl, r1, r2, r3, r4, r5, ?_⟩
    intro g hgl vg hvg hgr hgg
    rw [← r5]
    exact (hb'.2 g hgl vg hvg hgr hgg).2

end Claims7

set_option linter.unusedSectionVars false
section Witnesses7

theorem line_s2_root_free : ∀ r vr, line_s2.root = some r → line_s2.heap r = some vr →
    line_system.is_in_goal vr.state = false := by
  intro r vr hr hvr
  have h0 : line_s2.root = some 0 := rfl
  rw [h0] at hr
  rw [← Option.some.inj hr] at hvr
  have h1 : (line_s2.heap 0).map (fun v => v.state) = some 0 := rfl
  rw [hvr] at h1
  simp only [Option.map_some', Option.some.injEq] at h1
  rw [h1]
  rfl

theorem line_s2_walk :
    ∃ st1, switch_root_walk line_system line_dist 3 [0, 2, 1] line_s2 0 Trajectory.empty
      = some (0, some (5, 2), 0, { states := [0], controls := [0], total_variation := 0 }, st1) :=
  ⟨_, rfl⟩

theorem line_s2_switch :
    switch_root line_system line_dist 5 3 Trajectory.empty line_s2
      = some (0, { states := [0], controls := [0], total_variation := 0 }, line_s2_cut) := rfl

/-- Witness of **C15**: in the line example a switch of the root by 3 cuts inside the
edge of vertex 2; the fresh root 3 gets the only child 2, and vertex 1 stays below 2. -/
theorem switch_root_rerooting_witness :
    line_s2_cut.root = some 3 ∧
    (∃ vr, line_s2_cut.heap 3 = some vr ∧ vr.parent = none ∧ vr.state = 5 ∧
      vr.children = [2] ∧ vr.cost_from_root = 0 ∧ vr.cost_from_parent = 0) ∧
    (∀ x, x ∈ line_s2_cut.list_vertices ↔ x = 3 ∨ Desc line_s2 2 x) ∧
    line_s2_cut.list_vertices = [3, 1, 2] ∧ line_s2_cut.heap 0 = none ∧
    line_s2_cut.par 1 = some 2 ∧ line_s2_cut.par 2 = some 3 ∧ CostInv line_s2_cut :=
  Exists.elim line_s2_walk (fun st1 hw =>
    (fun H => ⟨H.1, H.2.2.1, H.2.2.2.1, rfl, rfl, rfl, H.2.2.2.2.2.2.2.1, H.2.2.2.2.2.2.2.2.2.1⟩)
      (switch_root_rerooting line_system line_dist 5 3 Trajectory.empty _ _ line_s2
        line_s2_cut st1 0 1 2 [0, 2, 1] 5 0 (reachable_inv line_s2_reachable).1
        (marksClear_of_check rfl) (reachable_inv line_s2_reachable).2.1
        (reachable_inv line_s2_reachable).2.2 rfl line_s2_root_free line_s2_path hw
        line_s2_switch))

/-- Witness of **C18**: after that switch the best vertex is still vertex 1, now of
cost 25. -/
theorem best_vertex_survives_witness :
    1 ∈ line_s2_cut.list_vertices ∧ line_s2_cut.lower_bound_vertex = some 1 ∧
    line_s2_cut.lower_bound_cost = 25 ∧
    ∃ b' vb', line_s2_cut.lower_bound_vertex = some b' ∧ b' ∈ line_s2_cut.list_vertices ∧
      line_s2_cut.root ≠ some b' ∧ line_s2_cut.heap b' = some vb' ∧
      line_system.is_in_goal vb'.state = true ∧
      line_s2_cut.lower_bound_cost = vb'.cost_from_root ∧
      ∀ g ∈ line_s2_cut.list_vertices, ∀ vg, line_s2_cut.heap g = some vg →
        line_s2_cut.root ≠ some g → line_system.is_in_goal vg.state = true →
        vb'.cost_from_root ≤ vg.cost_from_root :=
  Exists.elim line_s2_walk (fun st1 hw =>
    (fun H => ⟨H.1, rfl, rfl, H.2⟩)
      (best_vertex_survives line_system line_dist 5 3 Trajectory.empty _ _ line_s2
        line_s2_cut st1 0 1 2 [0, 2, 1] 5 0 (reachable_inv line_s2_reachable).1
        (marksClear_of_check rfl) (reachable_inv line_s2_reachable).2.1
        (reachable_best line_s2_reachable) rfl line_s2_root_free line_s2_path hw
        line_s2_switch))

end Witnesses7

set_option linter.unusedSectionVars false
section Inv14
variable {S U C O R : Type} [LinearOrderedAddCommMonoid C]
variable [Zero R] [Add R] [LT R] [DecidableRel (fun a b : R => a < b)]

/-- A planner that holds a single fresh root and no best vertex satisfies the
invariants. -/
theorem fresh_root_inv {sys : System S U C O R} {st' : Rrts S C O} {n : Nat} {rs : S}
    (h2 : st'.list_vertices = [n]) (h3 : st'.root = some n)
    (h4 : st'.heap n =
        some { parent := none, state := rs, children := [], mark := 0, edge_from_parent := none,
               cost_from_root := sys.get_zero_cost, cost_from_parent := sys.get_zero_cost })
    (h5 : st'.num_vertices = 1) (h6 : st'.lower_bound_vertex = none)
    (h9 : st'.kdtree = some [n]) (h10 : st'.next = n + 1) :
    TreeInv st' ∧ CostInv st' ∧ BestInv sys st' ∧ MarksClear st' := by
  have hpar : st'.par n = none := by simp [par_of_heap h4]
  have hkids : st'.kids n = [] := by simp [kids_of_heap h4]
  refine ⟨⟨?_, ?_, ?_, ?_, ?_, ?_, ?_, ?_, ?_, ?_⟩, ?_, ⟨?_, ?_⟩, ?_⟩
  · rw [h2]; exact List.nodup_singleton _
  · rw [h2, h5]; simp
  · rw [h2, h9]
  · rw [h2, h10]; intro k hk; rw [List.mem_singleton.mp hk]; omega
  · rw [h2]; intro k hk; rw [List.mem_singleton.mp hk]; exact ⟨_, h4⟩
  · exact ⟨n, h3, by rw [h2]; simp, hpar⟩
  · rw [h2, h3]; intro k hk _; rw [List.mem_singleton.mp hk]
  · rw [h2]; intro k hk p hp
    rw [List.mem_singleton.mp hk, hpar] at hp
    exact absurd hp (by simp)
  · rw [h2]; intro u hu
    rw [List.mem_singleton.mp hu, hkids]
    exact ⟨List.nodup_nil, fun c hc => absurd hc (by simp)⟩
  · refine ⟨fun _ => 0, ?_⟩
    rw [h2]; intro k hk p hp
    rw [List.mem_singleton.mp hk, hpar] at hp
    exact absurd hp (by simp)
  · rw [CostInv, h2]; intro x hx a p ap e1 e2 _
    rw [List.mem_singleton.mp hx, h4] at e1
    rw [← Option.some.inj e1] at e2
    exact absurd e2 (by simp)
  · intro b hb; rw [h6] at hb; exact absurd hb (by simp)
  · rw [h2, h3]; intro g hg vg _ hr
    rw [List.mem_singleton.mp hg] at hr
    exact absurd rfl hr
  · rw [MarksClear, h2]; intro x hx w hw
    rw [List.mem_singleton.mp hx, h4] at hw
    rw [← Option.some.inj hw]

theorem switch_root_inv_aux {sys : System S U C O R} {dist : S → S → Bool → R} {fuel : Nat}
    {distance : R} {cm cm' : Trajectory S U R} {st st' : Rrts S C O} {code : Int}
    (t : TreeInv st) (hci : CostInv st) (hbi : BestInv sys st) (m : MarksClear st)
    (h : switch_root sys dist fuel distance cm st = some (code, cm', st'))
    (hcode : code = 0 ∨ code = 1 ∨ code = 2) :
    TreeInv st' ∧ CostInv st' ∧ BestInv sys st' ∧ MarksClear st' := by
  rcases switch_root_cases h with ⟨_, _, _, rfl⟩ | ⟨b, r, vr, hb, hr, hvr, ⟨_, _, _, rfl⟩ |
    ⟨hg, pc, path, wcode, found, len, st1, hp, hw, hcase⟩⟩
  · exact ⟨t, hci, hbi, m⟩
  · exact ⟨t, hci, hbi, m⟩
  · have hsh := switch_root_walk_shape sys dist distance path st 0 cm _ hw
    simp only at hsh
    rcases hcase with ⟨_, _, rfl⟩ | ⟨_, _, vb, hvb, hgo⟩ | ⟨rfl, nrs, c, rfl, hpr⟩
    · exact ⟨hsh.shape_sameTree.tree_treeInv t, hsh.costInv hci, hsh.shape_bestInv hbi, hsh.shape_marksClear m⟩
    · obtain ⟨n, rfl⟩ := get_best_trajectory_vertices_fuel hb hp
      obtain ⟨s, h1, h2, h3, h4, h5, h6, h7, h8, h9, h10, _⟩ :=
        switch_root_goal_spec sys n st1 vb.state
      rw [h1] at hgo
      simp only [Option.some.injEq, Prod.mk.injEq] at hgo
      rw [← hgo.2]
      exact fresh_root_inv h2 h3 h4 h5 h6 h9 h10
    · have hg' : ∀ r' vr', st.root = some r' → st.heap r' = some vr' →
          sys.is_in_goal vr'.state = false := by
        intro r' vr' e1 e2
        rw [hr] at e1
        rw [← Option.some.inj e1, hvr] at e2
        rw [← Option.some.inj e2]
        exact hg
      obtain ⟨_, _, _, hcl, _, _⟩ := switch_root_cut_inv t hbi.bestListed hb hg' hp hw h
      have t1 := hsh.shape_sameTree.tree_treeInv t
      have hcl1 : c ∈ st1.list_vertices := by rw [hsh.1]; exact hcl
      have hc0 : code = 0 := by
        obtain ⟨_, _, q | q | q⟩ := switch_root_prune_cases t1 (hsh.shape_marksClear m) hcl1 hpr
        · rcases hcode with e | e | e <;> rw [q.1] at e <;> exact absurd e (by decide)
        · rcases hcode with e | e | e <;> rw [q.1] at e <;> exact absurd e (by decide)
        · exact q.1
      subst hc0
      obtain ⟨_, _, _, _, _, _, t', c', b', m'⟩ :=
        switch_root_prune_inv t1 (hsh.shape_marksClear m) (hsh.costInv hci) hcl1 hpr
      exact ⟨t', c', b', m'⟩

/-- **C14** (invariants after `switch_root`, for the return codes 0, 1 and 2).  Let the
planner satisfy the tree invariant (bookkeeping, I1, I4, edges), I2 and the best-vertex
invariant, with all marks
clear, for costs forming a totally ordered monoid.  After `switch_root` returns 0, 1
or 2, the planner satisfies them again: exactly one parentless listed vertex, the root,
reached from every listed vertex by parent links; the vertex list is duplicate free,
counted by `num_vertices`, mirrored by the index and made of live vertices; every listed
vertex with a parent has a listed parent, is in its child set and has an edge; child sets
hold listed vertices with that parent; I2 holds; and the best vertex, if set, is a
listed goal-resident vertex other than the root of minimum cost.  (After the return
codes 5 and 6 the invariants are broken.) -/
theorem switch_root_invariants (sys : System S U C O R) (dist : S → S → Bool → R)
    (fuel : Nat) (distance : R) (cm cm' : Trajectory S U R) (st st' : Rrts S C O)
    (code : Int) (t : TreeInv st) (hci : CostInv st) (hbi : BestInv sys st)
    (m : MarksClear st)
    (h : switch_root sys dist fuel distance cm st = some (code, cm', st'))
    (hcode : code = 0 ∨ code = 1 ∨ code = 2) :
    TreeInv st' ∧ CostInv st' ∧ BestInv sys st' ∧ MarksClear st' ∧
    ∃ r, st'.root = some r ∧ r ∈ st'.list_vertices ∧ st'.par r = none ∧
      (∀ x ∈ st'.list_vertices, st'.par x = none → x = r) ∧
      ∀ x ∈ st'.list_vertices,
        Relation.ReflTransGen (fun a b => st'.par a = some b) x r := by
  obtain ⟨t', c', b', m'⟩ := switch_root_inv_aux t hci hbi m h hcode
  obtain ⟨r, h1, h2, h3⟩ := t'.root_ok
  refine ⟨t', c', b', m', r, h1, h2, h3, ?_, t'.chain_root h1⟩
  intro x hx hp
  have := t'.root_unique x hx hp
  rw [h1] at this
  exact (Option.some.inj this).symm

end Inv14

section Witnesses8

theorem strict_s1_reachable : Reachable strict_system strict_s1 :=
  Reachable.iter strict_s0 (line_draw 10 [0]) 4 0 _
    (Reachable.init (rrts_c strict_system) 0 true _ rfl) (by decide) rfl

/-- Witness of **C14**: the line example after the switch of the root by 3. -/
theorem switch_root_invariants_witness :
    TreeInv line_s2_cut ∧ CostInv line_s2_cut ∧ BestInv line_system line_s2_cut ∧
    MarksClear line_s2_cut ∧
    ∃ r, line_s2_cut.root = some r ∧ r ∈ line_s2_cut.list_vertices ∧
      line_s2_cut.par r = none ∧
      (∀ x ∈ line_s2_cut.list_vertices, line_s2_cut.par x = none → x = r) ∧
      ∀ x ∈ line_s2_cut.list_vertices,
        Relation.ReflTransGen (fun a b => line_s2_cut.par a = some b) x r :=
  switch_root_invariants line_system line_dist 5 3 Trajectory.empty _ line_s2 line_s2_cut 0
    (reachable_inv line_s2_reachable).1 (reachable_inv line_s2_reachable).2.1
    (reachable_best line_s2_reachable) (marksClear_of_check rfl) line_s2_switch (Or.inl rfl)

/-- The failing input of **C14**: in `strict_system` the switch of the root of the
reachable state `strict_s1` by 3 cuts inside the edge of vertex 1 at the state 10 of
vertex 1 itself, steering from the new root state to vertex 1 fails and `switch_root`
returns 5.  Afterwards the vertex list holds only the fresh root 2, while the best
vertex is still vertex 1, a live vertex outside the vertex list whose parent, the old
root 0, is deleted. -/
theorem switch_root_failure_counterexample :
    Reachable strict_system strict_s1 ∧ marks_clear_check strict_s1 = true ∧
    switch_root strict_system line_dist 5 3 Trajectory.empty strict_s1
      = some (5, { states := [0], controls := [0], total_variation := 0 },
          strict_s1_switched) ∧
    strict_s1_switched.list_vertices = [2] ∧
    strict_s1_switched.lower_bound_vertex = some 1 ∧
    1 ∉ strict_s1_switched.list_vertices ∧
    (strict_s1_switched.heap 1).isSome = true ∧
    strict_s1_switched.par 1 = some 0 ∧ strict_s1_switched.heap 0 = none ∧
    ¬ BestListed strict_s1_switched :=
  ⟨strict_s1_reachable, rfl, rfl, rfl, rfl, by decide, rfl, rfl, rfl,
    fun hb => absurd (hb 1 rfl) (by decide)⟩

end Witnesses8

set_option linter.unusedSectionVars false
section Claims9
variable {S U C O R : Type} [LinearOrderedAddCommMonoid C]
variable [Zero R] [Add R] [LT R] [DecidableRel (fun a b : R => a < b)]

end Claims9

section Witnesses9

end Witnesses9

set_option linter.unusedSectionVars false
section CheckTree
variable {S U C O R : Type} [Zero R]

theorem par_setV {st : Rrts S C O} {k : Nat} {vv w : Vertex S C O} (h : st.heap k = some vv)
    (hp : w.parent = vv.parent) (x : Nat) : (st.setV k w).par x = st.par x := by
  unfold Rrts.par
  rw [setV_heap]
  split
  · next e => subst e; simp [h, hp]
  · rfl

theorem kids_setV (st : Rrts S C O) (k : Nat) (w : Vertex S C O) (u : Nat) :
    (st.setV k w).kids u = if u = k then w.children else st.kids u := by
  unfold Rrts.kids
  rw [setV_heap]
  by_cases e : u = k
  · simp [e]
  · simp [e]

theorem erase_step {st st1 : Rrts S C O} {v p : Nat} {vv W : Vertex S C O}
    (hm : (st.setV v W).modify p (fun x => { x with children := x.children.erase v })
      = some st1)
    (hvv : st.heap v = some vv) (hWp : W.parent = vv.parent) (hWc : W.children = vv.children) :
    st1.list_vertices = st.list_vertices ∧ (∀ x, st1.par x = st.par x) ∧
    ∀ u, st1.kids u = if u = p then (st.kids p).erase v else st.kids u := by
  obtain ⟨vp0, hvp0, rfl⟩ := modify_eq_some.mp hm
  have hparA : ∀ x, (st.setV v W).par x = st.par x := par_setV hvv hWp
  have hkidsA : ∀ u, (st.setV v W).kids u = st.kids u := by
    intro u
    rw [kids_setV]
    split
    · next e => subst e; rw [kids_of_heap hvv, hWc]
    · rfl
  refine ⟨rfl, fun x => ?_, fun u => ?_⟩
  · refine Eq.trans (par_setV hvp0 ?_ x) (hparA x)
    rfl
  · rw [kids_setV]
    split
    · rw [← hkidsA p, kids_of_heap hvp0]
    · exact hkidsA u

theorem TreeInv.kidsOK {st : Rrts S C O} (t : TreeInv st) : KidsOK st := t.children_ok

/-- `mark_vertex_and_remove_from_parent(v)` has a result only when `v` has no child
left, and then `v` is no longer in the child set of its parent. -/
theorem mark_vertex_erases :
    ∀ (fuel : Nat) (st st' : Rrts S C O) (v : Nat), KidsOK st → v ∈ st.list_vertices →
      (∀ p, st.par v = some p → p ∈ st.list_vertices) →
      mark_vertex_and_remove_from_parent fuel st v = some st' →
      ∃ p, st.par v = some p ∧ v ∉ st'.kids p
  | 0, st, st', v, _, _, _, h => by simp [mark_vertex_and_remove_from_parent] at h
  | fuel + 1, st, st', v, k, hv, hpl, h => by
    unfold mark_vertex_and_remove_from_parent at h
    cases hvv : st.heap v with
    | none => simp [hvv] at h
    | some vv =>
      simp only [hvv] at h
      cases hp : vv.parent with
      | none => simp [hp] at h
      | some p =>
        simp only [hp] at h
        have hpar : st.par v = some p := by rw [par_of_heap hvv, hp]
        have hpL : p ∈ st.list_vertices := hpl p hpar
        split at h
        · exact absurd h (by simp)
        · next st1 hm =>
          obtain ⟨hl1, hpar1, hkids1⟩ := erase_step hm hvv hp.symm rfl
          have k1 : KidsOK st1 := by
            intro u hu
            have hu' : u ∈ st.list_vertices := by rw [← hl1]; exact hu
            obtain ⟨n1, n2⟩ := k u hu'
            rw [hkids1]
            split
            · next e =>
              subst e
              refine ⟨n1.erase v, fun c hc => ?_⟩
              have := n2 c (List.mem_of_mem_erase hc)
              exact ⟨by rw [hl1]; exact this.1, by rw [hpar1]; exact this.2⟩
            · exact ⟨n1, fun c hc =>
                ⟨by rw [hl1]; exact (n2 c hc).1, by rw [hpar1]; exact (n2 c hc).2⟩⟩
          cases hk : st1.kids v with
          | nil =>
            rw [hk] at h
            simp only [for_children, Option.some.injEq] at h
            subst h
            refine ⟨p, hpar, ?_⟩
            rw [hkids1, if_pos rfl]
            exact fun hm' => (List.Nodup.mem_erase_iff (k p hpL).1).mp hm' |>.1 rfl
          | cons pc rest =>
            rw [hk] at h
            unfold for_children at h
            have hpc : pc ∈ st1.kids v := by rw [hk]; exact List.mem_cons_self _ _
            rw [if_pos hpc] at h
            cases hb : mark_vertex_and_remove_from_parent fuel st1 pc with
            | none => simp [hb] at h
            | some st2 =>
              simp only [hb] at h
              have hv1 : v ∈ st1.list_vertices := by rw [hl1]; exact hv
              obtain ⟨c1, c2⟩ := (k1 v hv1).2 pc hpc
              obtain ⟨p', e1, e2⟩ := mark_vertex_erases fuel st1 st2 pc k1 c1
                (fun q hq => by
                  rw [c2] at hq
                  rw [← Option.some.inj hq]
                  exact hv1) hb
              rw [c2] at e1
              rw [← Option.some.inj e1] at e2
              rw [if_neg e2] at h
              exact absurd h (by simp)

theorem TreeInv.subtrees_disjoint {st : Rrts S C O} (t : TreeInv st) {v c c' x : Nat}
    (hv : v ∈ st.list_vertices) (hc : st.par c = some v) (hc' : st.par c' = some v)
    (hne : c ≠ c')
    (h1 : Relation.ReflTransGen (fun a b => st.par a = some b) x c)
    (h2 : Relation.ReflTransGen (fun a b => st.par a = some b) x c') : False := by
  have hu : Relator.RightUnique (fun a b : Nat => st.par a = some b) := by
    intro a b1 b2 e1 e2
    rw [e1] at e2
    exact Option.some.inj e2
  have side : ∀ a b, st.par a = some v → st.par b = some v → a ≠ b →
      Relation.ReflTransGen (fun a b => st.par a = some b) a b → False := by
    intro a b ha hb hab hch
    rcases Relation.ReflTransGen.cases_head hch with e | ⟨q, hq, hqb⟩
    · exact hab e
    · have hq' : st.par a = some q := hq
      rw [ha] at hq'
      have := Option.some.inj hq'
      subst this
      exact t.no_cycle hv (Relation.TransGen.tail' hqb hb)
  rcases Relation.ReflTransGen.total_of_right_unique hu h1 h2 with h | h
  · exact side c c' hc hc' hne h
  · exact side c' c hc' hc (Ne.symm hne) h

theorem EdgeFree.transfer {sys : System S U C O R} {st s : Rrts S C O} {x : Nat}
    (hx : s.heap x = st.heap x)
    (hs : ∀ p vp', s.heap p = some vp' → ∃ vp, st.heap p = some vp ∧ vp.state = vp'.state)
    (h : EdgeFree sys s x) : EdgeFree sys st x := by
  obtain ⟨vx, p, vp', e, h1, h2, h3, h4, h5⟩ := h
  obtain ⟨vp, g1, g2⟩ := hs p vp' h3
  exact ⟨vx, p, vp, e, by rw [← hx]; exact h1, h2, g1, h4, by rw [g2]; exact h5⟩

theorem SameShape.state_back {st s : Rrts S C O} (h : SameShape st s) :
    ∀ p vp', s.heap p = some vp' → ∃ vp, st.heap p = some vp ∧ vp.state = vp'.state := by
  intro p vp' hp
  obtain ⟨vp, h1, h2⟩ := h.shape_heap_some' hp
  simp only [Vertex.shape, Prod.mk.injEq] at h2
  exact ⟨vp, h1, h2.2.1.symm⟩

theorem SameShape.setV_shape {st : Rrts S C O} {k : Nat} {vv W : Vertex S C O}
    (hv : st.heap k = some vv) (hW : W.shape = vv.shape) : SameShape st (st.setV k W) := by
  refine ⟨rfl, rfl, rfl, rfl, rfl, rfl, rfl, rfl, fun j => ?_⟩
  rw [setV_heap]
  split
  · next hk => subst hk; simp [hv, hW]
  · rfl

theorem Checked.checked_congr {sys : System S U C O R} {st st' : Rrts S C O} {T G T' G' : Nat → Prop}
    (h : Checked sys st st' T G) (hT : ∀ x, T x → T' x) (hG : ∀ x, G' x → G x) :
    Checked sys st st' T' G' :=
  ⟨h.1, fun x hx => h.2.1 x (fun ht => hx (hT x ht)), fun x hx => h.2.2 x (hG x hx)⟩

/-- The loop over the children of `v` that calls `check_and_mark_children`: when it has
a result, the edges of all the subtrees visited are obstacle free. -/
theorem for_children_checked (sys : System S U C O R) (fuel : Nat)
    (IH : ∀ (s s3 : Rrts S C O) (c : Nat), TreeInv s → c ∈ s.list_vertices →
      check_and_mark_children sys fuel s c = some s3 →
      (∃ p, s.par c = some p ∧ c ∉ s3.kids p) ∨ Checked sys s s3 (Desc s c) (Desc s c))
    {st st' : Rrts S C O} {v : Nat} (t : TreeInv st) (hv : v ∈ st.list_vertices) :
    ∀ (l : List Nat) (s : Rrts S C O) (T G : Nat → Prop), Checked sys st s T G →
      (∀ c ∈ l, c ∈ st.kids v) → l.Nodup → (∀ c ∈ l, ∀ x, Desc st c x → ¬ T x) →
      for_children (check_and_mark_children sys fuel) v l s = some st' →
      Checked sys st st' (fun x => T x ∨ ∃ c ∈ l, Desc st c x)
        (fun x => G x ∨ ∃ c ∈ l, Desc st c x) := by
  intro l
  induction l with
  | nil =>
    intro s T G hs _ _ _ hf
    simp only [for_children, Option.some.injEq] at hf
    subst hf
    exact hs.checked_congr (fun x hx => Or.inl hx) (fun x hx => by simpa using hx)
  | cons c l ih =>
    intro s T G hs hl hnd hdis hf
    have hcv : c ∈ st.kids v := hl c (List.mem_cons_self c l)
    obtain ⟨hcl, hcp⟩ := (t.children_ok v hv).2 c hcv
    have hst := hs.1.shape_sameTree
    have ts : TreeInv s := hst.tree_treeInv t
    unfold for_children at hf
    rw [if_pos (by rw [hst.tree_kids_eq]; exact hcv)] at hf
    cases hb : check_and_mark_children sys fuel s c with
    | none => simp [hb] at hf
    | some s3 =>
      simp only [hb] at hf
      rcases IH s s3 c ts (by rw [hs.1.1]; exact hcl) hb with ⟨p, e1, e2⟩ | hch
      · rw [hst.tree_par_eq, hcp] at e1
        rw [← Option.some.inj e1] at e2
        rw [if_neg e2] at hf
        exact absurd hf (by simp)
      · by_cases hin : c ∈ s3.kids v
        · rw [if_pos hin] at hf
          obtain ⟨hc3, hnd'⟩ := List.nodup_cons.mp hnd
          have hd : ∀ x, Desc s c x ↔ Desc st c x := fun x => Desc.of_sameTree hst c x
          have h3 : Checked sys st s3 (fun x => T x ∨ Desc st c x)
              (fun x => G x ∨ Desc st c x) := by
            refine ⟨hs.1.shape_trans hch.1, fun x hx => ?_, fun x hx => ?_⟩
            · rw [not_or] at hx
              rw [hch.2.1 x (fun hh => hx.2 ((hd x).mp hh)), hs.2.1 x hx.1]
            · rcases hx with hx | hx
              · exact hs.2.2 x hx
              · exact EdgeFree.transfer
                  (hs.2.1 x (hdis c (List.mem_cons_self c l) x hx)) hs.1.state_back
                  (hch.2.2 x ((hd x).mpr hx))
          have := ih s3 _ _ h3 (fun c' hc' => hl c' (List.mem_cons_of_mem c hc')) hnd'
            (fun c' hc' x hx => by
              rw [not_or]
              refine ⟨hdis c' (List.mem_cons_of_mem c hc') x hx, fun hx' => ?_⟩
              have hne : c ≠ c' := fun e => hc3 (e ▸ hc')
              exact t.subtrees_disjoint hv hcp
                ((t.children_ok v hv).2 c' (hl c' (List.mem_cons_of_mem c hc'))).2 hne
                hx'.2 hx.2) hf
          refine this.checked_congr (fun x hx => ?_) (fun x hx => ?_)
          · rcases hx with (h1 | h1) | ⟨c', hc', h1⟩
            · exact Or.inl h1
            · exact Or.inr ⟨c, List.mem_cons_self c l, h1⟩
            · exact Or.inr ⟨c', List.mem_cons_of_mem c hc', h1⟩
          · rcases hx with h1 | ⟨c', hc', h1⟩
            · exact Or.inl (Or.inl h1)
            · rcases List.mem_cons.mp hc' with rfl | hc'
              · exact Or.inl (Or.inr h1)
              · exact Or.inr ⟨c', hc', h1⟩
        · rw [if_neg hin] at hf
          exact absurd hf (by simp)

/-- `check_and_mark_children(v)`: when it has a result, either the edge of `v` failed
the check and `v` was erased from the child set of its parent (the set its caller is
iterating), or every edge of the subtree of `v` is obstacle free and nothing but the
cached `opt_data` of that subtree changed. -/
theorem check_and_mark_children_spec (sys : System S U C O R) :
    ∀ (fuel : Nat) (st st' : Rrts S C O) (v : Nat), TreeInv st → v ∈ st.list_vertices →
      check_and_mark_children sys fuel st v = some st' →
      (∃ p, st.par v = some p ∧ v ∉ st'.kids p) ∨ Checked sys st st' (Desc st v) (Desc st v)
  | 0, st, st', v, _, _, h => by simp [check_and_mark_children] at h
  | fuel + 1, st, st', v, t, hv, h => by
    unfold check_and_mark_children at h
    cases hvv : st.heap v with
    | none => simp [hvv] at h
    | some vv =>
      simp only [hvv] at h
      split at h
      · next p e hp he =>
        split at h
        · exact absurd h (by simp)
        · next vp hvp =>
          have hsh : SameShape st (st.setV v { vv with edge_from_parent := some { e with
              opt_data := (sys.extend_to vp.state vv.state true Trajectory.empty
                e.opt_data).2.2 } }) := SameShape.setV_edge hvv he
          have t1 := hsh.shape_sameTree.tree_treeInv t
          have hpar : st.par v = some p := by rw [par_of_heap hvv, hp]
          split at h
          · obtain ⟨p', e1, e2⟩ := mark_vertex_erases fuel _ st' v t1.kidsOK hv
              (fun q hq => (t1.parent_ok v hv q hq).1) h
            rw [hsh.shape_sameTree.tree_par_eq] at e1
            exact Or.inl ⟨p', e1, e2⟩
          · next hr =>
            have hr' : (sys.extend_to vp.state vv.state true Trajectory.empty e.opt_data).1 = 0 :=
              not_not.mp hr
            have h0 : Checked sys st (st.setV v { vv with edge_from_parent := some { e with
                opt_data := (sys.extend_to vp.state vv.state true Trajectory.empty
                  e.opt_data).2.2 } }) (fun x => x = v) (fun x => x = v) := by
              refine ⟨hsh, fun x hx => setV_heap_ne _ _ _ _ hx, fun x hx => ?_⟩
              subst hx
              exact ⟨vv, p, vp, e, hvv, hp, hvp, he, hr'⟩
            have hkids : st.kids v = vv.children := kids_of_heap hvv
            have := for_children_checked sys fuel
              (fun s s3 c ts hc hb => check_and_mark_children_spec sys fuel s s3 c ts hc hb)
              t hv vv.children _ _ _ h0 (fun c hc => by rw [hkids]; exact hc)
              (by rw [← hkids]; exact (t.children_ok v hv).1)
              (fun c hc x hx e => by
                subst e
                rw [← hkids] at hc
                exact t.no_cycle hv (Relation.TransGen.tail' hx.2
                  ((t.children_ok _ hv).2 c hc).2)) h
            refine Or.inr (this.checked_congr (fun x hx => ?_) (fun x hx => ?_))
            · rw [t.desc_iff hv x, hkids]; exact hx
            · rw [t.desc_iff hv x, hkids] at hx; exact hx
      · exact absurd h (by simp)

theorem SameTree.setV_tree {st : Rrts S C O} {k : Nat} {vv W : Vertex S C O}
    (hv : st.heap k = some vv) (hW : W.tree = vv.tree) : SameTree st (st.setV k W) := by
  refine ⟨rfl, rfl, rfl, rfl, rfl, fun j => ?_⟩
  rw [setV_heap]
  split
  · next hk => subst hk; simp [hv, hW]
  · rfl

end CheckTree

section CheckTree2
variable {S U C O R : Type} [Add C] [LT C] [DecidableRel (fun a b : C => a < b)] [Zero R]

/-- When `check_tree` has a result on a tree whose root is not in collision, every edge
of the tree is obstacle free. -/
theorem check_tree_edges_aux {sys : System S U C O R} {fuel : Nat} {st : Rrts S C O}
    {res : Int × Rrts S C O} (t : TreeInv st)
    (hfree : ∀ r vr, st.root = some r → st.heap r = some vr →
      sys.is_in_collision vr.state = false)
    (h : check_tree sys fuel st = some res) :
    ∀ x ∈ st.list_vertices, st.root ≠ some x → EdgeFree sys st x := by
  intro x hx hxr
  obtain ⟨r, hr, hrl, _⟩ := t.root_ok
  obtain ⟨vr, hvr⟩ := t.live r hrl
  have hne : x ≠ r := fun e => hxr (by rw [hr, e])
  have hdx : Desc st r x := ⟨hx, t.chain_root hr x hx⟩
  have hkids : st.kids r = vr.children := kids_of_heap hvr
  rw [t.desc_iff hrl x] at hdx
  rcases hdx with e | ⟨c, hc, hcx⟩
  · exact absurd e hne
  unfold check_tree at h
  simp only [hr, hvr, hfree r vr hr hvr] at h
  rw [if_neg (by simp)] at h
  split at h
  · next hch =>
    have hst : SameTree st (st.setV r { vr with mark := 0 }) := SameTree.setV_tree hvr rfl
    have t1 := hst.tree_treeInv t
    split at h
    · exact absurd h (by simp)
    · next st2 hloop =>
      have h0 : Checked sys (st.setV r { vr with mark := 0 }) (st.setV r { vr with mark := 0 })
          (fun y => y = r) (fun _ => False) :=
        ⟨SameShape.shape_refl _, fun _ _ => rfl, fun _ hf => absurd hf id⟩
      have hd : ∀ c y, Desc (st.setV r { vr with mark := 0 }) c y ↔ Desc st c y :=
        fun c y => Desc.of_sameTree hst c y
      have hk1 : (st.setV r { vr with mark := 0 }).kids r = vr.children := by
        rw [hst.tree_kids_eq, hkids]
      have := for_children_checked sys fuel
        (fun s s3 c ts hc hb => check_and_mark_children_spec sys fuel s s3 c ts hc hb)
        t1 hrl vr.children _ _ _ h0 (fun c hc => by rw [hk1]; exact hc)
        (by rw [← hkids]; exact (t.children_ok r hrl).1)
        (fun c' hc' y hy e => by
          rw [e] at hy
          rw [← hkids] at hc'
          exact t.no_cycle hrl (Relation.TransGen.tail' ((hd c' r).mp hy).2
            ((t.children_ok _ hrl).2 c' hc').2)) hloop
      have hx1 := this.2.2 x (Or.inr ⟨c, by rw [← hkids]; exact hc, (hd c x).mpr hcx⟩)
      refine EdgeFree.transfer (setV_heap_ne _ _ _ _ hne) (fun p vp' hp => ?_) hx1
      rw [setV_heap] at hp
      split at hp
      · next e =>
        subst e
        exact ⟨vr, hvr, by rw [← Option.some.inj hp]⟩
      · exact ⟨vp', hp, rfl⟩
  · next hch =>
    rw [hkids, not_not.mp hch] at hc
    exact absurd hc (by simp)

/-- **C12** (survivors of `check_tree`: the code has no defined result when a vertex is
doomed).  Let the planner satisfy the tree invariant (I1 and I4) with a root that is
not in collision.  If `check_tree` has a result at all, then for every listed vertex
other than the root the obstacle-checked `extend_to(parent.state, v.state)` with the
cached `opt_data` succeeds.  So whenever some edge fails the check, `check_tree` erases
a vertex from the child set that a range-based `for` is iterating and has no defined
result, instead of removing the doomed vertices and returning 0. -/
theorem check_tree_needs_free_edges (sys : System S U C O R) (fuel : Nat) (st : Rrts S C O)
    (res : Int × Rrts S C O) (t : TreeInv st)
    (hfree : ∀ r vr, st.root = some r → st.heap r = some vr →
      sys.is_in_collision vr.state = false)
    (h : check_tree sys fuel st = some res) :
    ∀ x ∈ st.list_vertices, st.root ≠ some x → EdgeFree sys st x :=
  check_tree_edges_aux t hfree h

end CheckTree2

section Witnesses10

/-- Witness of **C12**: in the line example `check_tree` has a result and the edges of
the vertices 1 and 2 are obstacle free. -/
theorem check_tree_needs_free_edges_witness :
    (∃ res, check_tree line_system 5 line_s2 = some res) ∧
    ∀ x ∈ line_s2.list_vertices, line_s2.root ≠ some x → EdgeFree line_system line_s2 x :=
  ⟨⟨_, rfl⟩, check_tree_needs_free_edges line_system 5 line_s2 _
    (reachable_inv line_s2_reachable).1 (fun _ _ _ _ => rfl) rfl⟩

/-- With an obstacle at the point 10 the edge into vertex 1 of `line_s2` fails the
check, and `check_tree` has no defined result, whatever the recursion budget. -/
theorem check_tree_blocked_undefined (fuel : Nat) :
    check_tree blocked_system fuel line_s2 = none := by
  cases h : check_tree blocked_system fuel line_s2 with
  | none => rfl
  | some res =>
    have := check_tree_edges_aux (reachable_inv line_s2_reachable).1 (fun _ _ _ _ => rfl) h
      1 (by decide) (by decide)
    obtain ⟨vx, p, vp, e, h1, h2, h3, h4, h5⟩ := this
    have hs : (line_s2.heap 1).map (fun v => v.state) = some 10 := rfl
    rw [h1] at hs
    have hs' : vx.state = 10 := Option.some.inj hs
    rw [hs'] at h5
    simp [blocked_system] at h5

/-- The failing input of **C12**: the reachable tree `line_s2` (root 0 at the point 0,
vertex 2 at the point 5 below it and vertex 1 at the point 10 below vertex 2) with an
obstacle at the point 10.  The root is not in collision, the edge into vertex 2 passes
the check and the edge into vertex 1 fails it, so vertex 1 is doomed; `check_tree` has
no defined result, while without the obstacle it returns 0 with the same budget. -/
theorem check_tree_blocked_counterexample :
    Reachable line_system line_s2 ∧ line_s2.list_vertices = [0, 1, 2] ∧
    line_s2.root = some 0 ∧ line_s2.par 2 = some 0 ∧ line_s2.par 1 = some 2 ∧
    (line_s2.heap 0).map (fun v => blocked_system.is_in_collision v.state) = some false ∧
    (blocked_system.extend_to 0 5 true Trajectory.empty 0).1 = 0 ∧
    (∀ o, (blocked_system.extend_to 5 10 true Trajectory.empty o).1 ≠ 0) ∧
    check_tree blocked_system 5 line_s2 = none ∧
    (∃ st', check_tree line_system 5 line_s2 = some (0, st')) :=
  ⟨line_s2_reachable, rfl, rfl, rfl, rfl, rfl, rfl, fun o => by simp [blocked_system], rfl, _, rfl⟩

end Witnesses10

set_option linter.unusedSectionVars false
section Ends
variable {S U C O R : Type} [Add C] [LT C] [DecidableRel (fun a b : C => a < b)]
variable [Zero R] [Add R]

end Ends

set_option linter.unusedSectionVars false
section DubinsFacts
variable {K : Type} [LinearOrderedField K] [FloorRing K]

/-- The first arc loop ends within `n` steps when `n` steps of `del_t` cover what is
left of the increment. -/
theorem extend_dubins_spheres_arc1_total (m : Libm K) (x_s1 y_s1 t_s1 r : K) (dir : Int)
    (del_t t_inc : K) (hd : 0 < del_t) :
    ∀ (n : Nat) (t : K) (traj : dubins_trajectory_t K), t_inc - t ≤ (n : K) * del_t →
      ∃ res, extend_dubins_spheres_arc1 m x_s1 y_s1 t_s1 r dir del_t t_inc n t traj = some res
  | 0, t, traj, h => by
    unfold extend_dubins_spheres_arc1
    have : ¬ t < t_inc := by
      simp only [Nat.cast_zero, zero_mul] at h
      intro hlt
      linarith
    rw [if_neg this]
    exact ⟨_, rfl⟩
  | n + 1, t, traj, h => by
    unfold extend_dubins_spheres_arc1
    by_cases hlt : t < t_inc
    · rw [if_pos hlt]
      simp only
      apply extend_dubins_spheres_arc1_total m x_s1 y_s1 t_s1 r dir del_t t_inc hd n
      push_cast at h
      split
      · have : (0 : K) ≤ (n : K) * del_t := mul_nonneg (Nat.cast_nonneg n) hd.le
        linarith
      · linarith
    · rw [if_neg hlt]
      exact ⟨_, rfl⟩

theorem extend_dubins_spheres_line_total (m : Libm K) (x_start y_start x_end y_end t_s1 : K)
    (dir : Int) (t_inc_curr del_d distance : K) (hd : 0 < del_d) :
    ∀ (n : Nat) (t : K) (traj : dubins_trajectory_t K), distance - t ≤ (n : K) * del_d →
      ∃ res, extend_dubins_spheres_line m x_start y_start x_end y_end t_s1 dir t_inc_curr
        del_d distance n t traj = some res
  | 0, t, traj, h => by
    unfold extend_dubins_spheres_line
    have : ¬ t < distance := by
      simp only [Nat.cast_zero, zero_mul] at h
      intro hlt
      linarith
    rw [if_neg this]
    exact ⟨_, rfl⟩
  | n + 1, t, traj, h => by
    unfold extend_dubins_spheres_line
    by_cases hlt : t < distance
    · rw [if_pos hlt]
      simp only
      apply extend_dubins_spheres_line_total m x_start y_start x_end y_end t_s1 dir t_inc_curr
        del_d distance hd n
      push_cast at h
      split
      · have : (0 : K) ≤ (n : K) * del_d := mul_nonneg (Nat.cast_nonneg n) hd.le
        linarith
      · linarith
    · rw [if_neg hlt]
      exact ⟨_, rfl⟩

theorem extend_dubins_spheres_arc2_total (m : Libm K) (x_s2 y_s2 t_s2 r : K) (dir : Int)
    (del_t t_inc : K) (hd : 0 < del_t) :
    ∀ (n : Nat) (t : K) (traj : dubins_trajectory_t K), t_inc - t ≤ (n : K) * del_t →
      ∃ res, extend_dubins_spheres_arc2 m x_s2 y_s2 t_s2 r dir del_t t_inc n t traj = some res
  | 0, t, traj, h => by
    unfold extend_dubins_spheres_arc2
    have : ¬ t < t_inc := by
      simp only [Nat.cast_zero, zero_mul] at h
      intro hlt
      linarith
    rw [if_neg this]
    exact ⟨_, rfl⟩
  | n + 1, t, traj, h => by
    unfold extend_dubins_spheres_arc2
    by_cases hlt : t < t_inc
    · rw [if_pos hlt]
      simp only
      apply extend_dubins_spheres_arc2_total m x_s2 y_s2 t_s2 r dir del_t t_inc hd n
      push_cast at h
      split
      · have : (0 : K) ≤ (n : K) * del_t := mul_nonneg (Nat.cast_nonneg n) hd.le
        linarith
      · linarith
    · rw [if_neg hlt]
      exact ⟨_, rfl⟩

/-- `modulo_zero_2pi` reduces to `[0, 2π)`. -/
theorem modulo_zero_2pi_range (m : Libm K) (hpi : 0 < m.M_PI) (t : K) :
    0 ≤ modulo_zero_2pi m t ∧ modulo_zero_2pi m t < 2 * m.M_PI := by
  unfold modulo_zero_2pi
  have h2 : 0 < 2 * m.M_PI := by linarith
  have h1 := Int.floor_le (t / (2 * m.M_PI))
  have h3 := Int.lt_floor_add_one (t / (2 * m.M_PI))
  rw [le_div_iff₀ h2] at h1
  rw [div_lt_iff₀ h2] at h3
  constructor
  · linarith
  · linarith

/-- The trajectory block of `extend_dubins_spheres` returns when the recursion budget
covers the two increments and the distance. -/
theorem extend_dubins_spheres_trajectory_total (d : dubins_c K) (m : Libm K) (n : Nat)
    (x_s1 y_s1 t_s1 x_s2 y_s2 t_s2 r distance x_start y_start x_end y_end : K)
    (dir1 dir2 : Int) (t_inc1 t_inc2 total_cost : K)
    (hr : 0 < r) (hd : 0 < d.delta_distance)
    (h1 : t_inc1 ≤ (n : K) * (d.delta_distance / r))
    (h2 : t_inc2 ≤ (n : K) * (d.delta_distance / r))
    (h3 : distance ≤ (n : K) * d.delta_distance) :
    ∃ res, extend_dubins_spheres_trajectory d m n x_s1 y_s1 t_s1 x_s2 y_s2 t_s2 r distance
      x_start y_start x_end y_end dir1 dir2 t_inc1 t_inc2 total_cost = some res := by
  unfold extend_dubins_spheres_trajectory
  simp only
  have hdt : 0 < d.delta_distance / r := div_pos hd hr
  obtain ⟨⟨t1, traj1⟩, e1⟩ := extend_dubins_spheres_arc1_total m x_s1 y_s1 t_s1 r dir1
    (d.delta_distance / r) t_inc1 hdt n 0
    { states := [], controls := [], total_variation := total_cost } (by linarith)
  rw [e1]
  simp only
  obtain ⟨traj2, e2⟩ := extend_dubins_spheres_line_total m x_start y_start x_end y_end t_s1
    dir1 t1 d.delta_distance distance hd n 0 traj1 (by linarith)
  rw [e2]
  simp only
  exact extend_dubins_spheres_arc2_total m x_s2 y_s2 t_s2 r dir2 (d.delta_distance / r)
    t_inc2 hdt n 0 traj2 (by linarith)

/-- `extend_dubins_spheres` returns when the recursion budget covers a full turn on each
circle and the distance of the centres, for a positive radius and step. -/
theorem extend_dubins_spheres_total (d : dubins_c K) (m : Libm K) (n : Nat)
    (si sf : dubins_state_t K) (comb_no : Int) (r : K) (rt : Bool)
    (traj : dubins_trajectory_t K) (hpi : 0 < m.M_PI) (hr : 0 < r) (hd : 0 < d.delta_distance)
    (hn1 : 2 * m.M_PI ≤ (n : K) * (d.delta_distance / r))
    (hn2 : m.sqrt ((sf.1 - si.1) * (sf.1 - si.1) + (sf.2.1 - si.2.1) * (sf.2.1 - si.2.1))
      ≤ (n : K) * d.delta_distance) :
    ∃ res, d.extend_dubins_spheres m n si sf comb_no r rt traj = some res := by
  unfold dubins_c.extend_dubins_spheres
  simp only
  cases extend_dubins_spheres_angles m comb_no r _ _ with
  | none => exact ⟨_, rfl⟩
  | some a =>
    obtain ⟨t_start, t_end⟩ := a
    simp only
    generalize (if comb_no = 2 ∨ comb_no = 4 then (-1 : Int) else 1) = dir1
    generalize (if comb_no = 1 ∨ comb_no = 4 then (-1 : Int) else 1) = dir2
    split_ifs
    · exact ⟨_, rfl⟩
    · obtain ⟨t3, e3⟩ := extend_dubins_spheres_trajectory_total d m n si.1 si.2.1 si.2.2
        sf.1 sf.2.1 sf.2.2 r
        (m.sqrt ((sf.1 - si.1) * (sf.1 - si.1) + (sf.2.1 - si.2.1) * (sf.2.1 - si.2.1)))
        (si.1 + r * m.cos t_start) (si.2.1 + r * m.sin t_start)
        (sf.1 + r * m.cos t_end) (sf.2.1 + r * m.sin t_end) dir1 dir2
        (modulo_zero_2pi m ((dir1 : K) * (t_start - si.2.2)))
        (modulo_zero_2pi m ((dir2 : K) * (sf.2.2 - t_end)))
        ((|modulo_mpi_pi m (modulo_zero_2pi m ((dir1 : K) * (t_start - si.2.2)))|
            + |modulo_mpi_pi m (modulo_zero_2pi m ((dir2 : K) * (sf.2.2 - t_end)))|) * r
          + m.sqrt ((sf.1 - si.1) * (sf.1 - si.1) + (sf.2.1 - si.2.1) * (sf.2.1 - si.2.1))
          + 0 * (|modulo_mpi_pi m (modulo_zero_2pi m ((dir1 : K) * (t_start - si.2.2)))|
            + |modulo_mpi_pi m (modulo_zero_2pi m ((dir2 : K) * (sf.2.2 - t_end)))|))
        hr hd
        (le_trans (modulo_zero_2pi_range m hpi _).2.le hn1)
        (le_trans (modulo_zero_2pi_range m hpi _).2.le hn1) hn2
      rw [e3]
      exact ⟨_, rfl⟩
    · exact ⟨_, rfl⟩

end DubinsFacts

set_option linter.unusedSectionVars false
section DubinsExample
variable {K : Type} [LinearOrderedField K] [FloorRing K]

theorem modulo_mpi_pi_zero (m : Libm K) (hpi : 0 < m.M_PI) : modulo_mpi_pi m 0 = 0 := by
  unfold modulo_mpi_pi
  have h : (0 + m.M_PI) / (2 * m.M_PI) = 1 / 2 := by
    field_simp
    ring
  rw [h]
  have hf : Int.floor ((1 : K) / 2) = 0 := by
    rw [Int.floor_eq_iff]
    constructor <;> norm_num
  rw [hf]
  simp

end DubinsExample

set_option linter.unusedSectionVars false
section DubinsExample2
variable {K : Type} [LinearOrderedField K] [FloorRing K]

end DubinsExample2

section DubinsReal

/-- The functions of the real numbers satisfy `Libm.Sound`; `atan2 y x` is the argument
of the complex number `x + y i`. -/
theorem real_libm_sound :
    Libm.Sound ({ cos := Real.cos, sin := Real.sin, atan2 := fun y x => Complex.arg ⟨x, y⟩, acos := Real.arccos, sqrt := Real.sqrt, M_PI := Real.pi, FLT_MAX := 2 ^ 128 - 2 ^ 104 } : Libm ℝ) where
  pi_pos := Real.pi_pos
  pi_le_four := Real.pi_le_four
  cos_zero := Real.cos_zero
  sin_zero := Real.sin_zero
  cos_pi_div_two := Real.cos_pi_div_two
  sin_pi_div_two := Real.sin_pi_div_two
  sqrt_mul_self := fun _ hx => Real.sqrt_mul_self hx
  sqrt_le_sqrt := fun _ _ h => Real.sqrt_le_sqrt h
  atan2_zero := fun x hx => by
    show Complex.arg (x : ℂ) = 0
    exact Complex.arg_ofReal_of_nonneg hx.le

end DubinsReal

set_option linter.unusedSectionVars false
section Ends2
variable {S U C O R : Type} [Add C] [LT C] [DecidableRel (fun a b : C => a < b)]
variable [Zero R] [Add R]

end Ends2

section Witnesses11

end Witnesses11

section Witnesses12

/-- The failing input of **C13**: on the reachable tree `line_s2` with an obstacle at the
point 10 the root is not in collision, and yet `check_tree` does not return 0: the edge
into vertex 1 fails the check, vertex 1 is erased from the child set that is being
iterated, and the call has no defined result, whatever the recursion budget. -/
theorem check_tree_return_counterexample :
    Reachable line_system line_s2 ∧ line_s2.root = some 0 ∧
    (line_s2.heap 0).map (fun v => blocked_system.is_in_collision v.state) = some false ∧
    (∀ fuel, check_tree blocked_system fuel line_s2 = none) ∧
    ¬ ∃ fuel st', check_tree blocked_system fuel line_s2 = some (0, st') :=
  ⟨line_s2_reachable, rfl, rfl, check_tree_blocked_undefined,
    fun h => Exists.elim h (fun fuel h1 => Exists.elim h1 (fun st' h2 =>
      absurd ((check_tree_blocked_undefined fuel).symm.trans h2) (by simp)))⟩

end Witnesses12

set_option linter.unusedSectionVars false
section CheckTreeTotal
variable {S U C O R : Type} [Zero R]

theorem SameShape.state_forth {st s : Rrts S C O} (h : SameShape st s) :
    ∀ p vp, st.heap p = some vp → ∃ vp', s.heap p = some vp' ∧ vp'.state = vp.state := by
  intro p vp hp
  obtain ⟨w, h1, h2⟩ := h.shape_heap_some hp
  simp only [Vertex.shape, Prod.mk.injEq] at h2
  exact ⟨w, h1, h2.2.1⟩

/-- The loop over the children of `v` returns when every edge below them is obstacle
free and the recursion budget covers the height of their subtrees. -/
theorem for_children_total (sys : System S U C O R) (fuel : Nat)
    (IH : ∀ (s : Rrts S C O) (c : Nat), TreeInv s → c ∈ s.list_vertices →
      (∀ x, Desc s c x → EdgeFree sys s x) → Below s.kids fuel c →
      ∃ s3, check_and_mark_children sys fuel s c = some s3 ∧
        Checked sys s s3 (Desc s c) (Desc s c))
    {st : Rrts S C O} {v : Nat} (t : TreeInv st) (hv : v ∈ st.list_vertices) :
    ∀ (l : List Nat) (s : Rrts S C O) (T : Nat → Prop), SameShape st s →
      (∀ x, ¬ T x → s.heap x = st.heap x) →
      (∀ c ∈ l, c ∈ st.kids v) → l.Nodup → (∀ c ∈ l, ∀ x, Desc st c x → ¬ T x) →
      (∀ c ∈ l, ∀ x, Desc st c x → EdgeFree sys st x) →
      (∀ c ∈ l, Below st.kids fuel c) →
      ∃ st', for_children (check_and_mark_children sys fuel) v l s = some st' ∧
        SameShape st st' := by
  intro l
  induction l with
  | nil =>
    intro s T hs _ _ _ _ _ _
    exact ⟨s, rfl, hs⟩
  | cons c l ih =>
    intro s T hs hfr hl hnd hdis hfree hbel
    have hcv : c ∈ st.kids v := hl c (List.mem_cons_self c l)
    obtain ⟨hcl, hcp⟩ := (t.children_ok v hv).2 c hcv
    have hst := hs.shape_sameTree
    have ts : TreeInv s := hst.tree_treeInv t
    have hd : ∀ x, Desc s c x ↔ Desc st c x := fun x => Desc.of_sameTree hst c x
    have hkf : s.kids = st.kids := funext hst.tree_kids_eq
    obtain ⟨s3, hb, hch⟩ := IH s c ts (by rw [hs.1]; exact hcl)
      (fun x hx => EdgeFree.transfer
        (hfr x (hdis c (List.mem_cons_self c l) x ((hd x).mp hx))).symm hs.state_forth
        (hfree c (List.mem_cons_self c l) x ((hd x).mp hx)))
      (by rw [hkf]; exact hbel c (List.mem_cons_self c l))
    unfold for_children
    rw [if_pos (by rw [hst.tree_kids_eq]; exact hcv)]
    simp only [hb]
    have hs3 : SameShape st s3 := hs.shape_trans hch.1
    rw [if_pos (by rw [hs3.shape_sameTree.tree_kids_eq]; exact hcv)]
    obtain ⟨hc3, hnd'⟩ := List.nodup_cons.mp hnd
    exact ih s3 (fun x => T x ∨ Desc st c x) hs3
      (fun x hx => by
        rw [not_or] at hx
        rw [hch.2.1 x (fun hh => hx.2 ((hd x).mp hh)), hfr x hx.1])
      (fun c' hc' => hl c' (List.mem_cons_of_mem c hc')) hnd'
      (fun c' hc' x hx => by
        rw [not_or]
        refine ⟨hdis c' (List.mem_cons_of_mem c hc') x hx, fun hx' => ?_⟩
        have hne : c ≠ c' := fun e => hc3 (e ▸ hc')
        exact t.subtrees_disjoint hv hcp
          ((t.children_ok v hv).2 c' (hl c' (List.mem_cons_of_mem c hc'))).2 hne
          hx'.2 hx.2)
      (fun c' hc' => hfree c' (List.mem_cons_of_mem c hc'))
      (fun c' hc' => hbel c' (List.mem_cons_of_mem c hc'))

/-- `check_and_mark_children(v)` returns, leaving the tree as it is, when every edge of
the subtree of `v` is obstacle free and the recursion budget covers its height. -/
theorem check_and_mark_children_total (sys : System S U C O R) :
    ∀ (fuel : Nat) (st : Rrts S C O) (v : Nat), TreeInv st → v ∈ st.list_vertices →
      (∀ x, Desc st v x → EdgeFree sys st x) → Below st.kids fuel v →
      ∃ st', check_and_mark_children sys fuel st v = some st' ∧
        Checked sys st st' (Desc st v) (Desc st v)
  | 0, st, v, _, _, _, hb => by simp [Below] at hb
  | fuel + 1, st, v, t, hv, hfree, hb => by
    obtain ⟨vv, p, vp, e, hvv, hp, hvp, he, hr⟩ := hfree v ⟨hv, Relation.ReflTransGen.refl⟩
    have hkids : st.kids v = vv.children := kids_of_heap hvv
    have hsh : SameShape st (st.setV v { vv with edge_from_parent := some { e with
        opt_data := (sys.extend_to vp.state vv.state true Trajectory.empty
          e.opt_data).2.2 } }) := SameShape.setV_edge hvv he
    obtain ⟨st', h1, hss⟩ := for_children_total sys fuel
      (fun s c ts hc hf hbl => check_and_mark_children_total sys fuel s c ts hc hf hbl)
      t hv vv.children _ (fun x => x = v) hsh (fun x hx => setV_heap_ne _ _ _ _ hx)
      (fun c hc => by rw [hkids]; exact hc)
      (by rw [← hkids]; exact (t.children_ok v hv).1)
      (fun c hc x hx e => by
        rw [e] at hx
        rw [← hkids] at hc
        exact t.no_cycle hv (Relation.TransGen.tail' hx.2
          ((t.children_ok _ hv).2 c hc).2))
      (fun c hc x hx => by
        rw [← hkids] at hc
        exact hfree x ⟨hx.1, hx.2.trans
          (Relation.ReflTransGen.single ((t.children_ok v hv).2 c hc).2)⟩)
      (fun c hc => by
        rw [← hkids] at hc
        exact hb c hc)
    have hcall : check_and_mark_children sys (fuel + 1) st v = some st' := by
      unfold check_and_mark_children
      simp only [hvv, hp, he, hvp]
      rw [if_neg (by rw [hr]; simp)]
      simp only [hp] at h1
      exact h1
    refine ⟨st', hcall, ?_⟩
    rcases check_and_mark_children_spec sys (fuel + 1) st st' v t hv hcall with ⟨q, e1, e2⟩ | hc
    · exfalso
      have hq : st.par v = some p := by rw [par_of_heap hvv, hp]
      rw [hq] at e1
      rw [← Option.some.inj e1] at e2
      apply e2
      rw [hss.shape_sameTree.tree_kids_eq]
      exact (t.parent_ok v hv p hq).2.1
    · exact hc

end CheckTreeTotal

section CheckTreeTotal2
variable {S U C O R : Type} [Add C] [LT C] [DecidableRel (fun a b : C => a < b)]
variable [Zero R] [Add R]

/-- The sweep of `check_tree` keeps every vertex when no mark is set. -/
theorem check_tree_sweep_all :
    ∀ (l : List Nat) (acc : List Nat × Rrts S C O),
      (∀ x ∈ l, ∃ v, acc.2.heap x = some v ∧ v.mark = 0) →
      List.foldlM check_tree_sweep acc l = some (acc.1 ++ l, acc.2)
  | [], acc, _ => by simp
  | x :: l, acc, h => by
    rw [foldlM_option_cons]
    obtain ⟨v, hv, hm⟩ := h x (List.mem_cons_self x l)
    have : check_tree_sweep acc x = some (acc.1 ++ [x], acc.2) := by
      simp [check_tree_sweep, hv, hm]
    rw [this, Option.some_bind,
      check_tree_sweep_all l (acc.1 ++ [x], acc.2) (fun y hy => h y (List.mem_cons_of_mem x hy))]
    simp

/-- Inserting live vertices into the index returns. -/
theorem insert_all_total :
    ∀ (l : List Nat) (s : Rrts S C O) (kd : List Nat), s.kdtree = some kd →
      (∀ x ∈ l, ∃ v, s.heap x = some v) →
      List.foldlM insert_into_kdtree s l
        = some { s with kdtree := some (kd ++ l), list_vertices := s.list_vertices ++ l, num_vertices := s.num_vertices + (l.length : Int) }
  | [], s, kd, hk, _ => by
    simp only [List.foldlM_nil, pure, List.append_nil, List.length_nil, Nat.cast_zero, add_zero]
    rw [← hk]
  | x :: l, s, kd, hk, h => by
    rw [foldlM_option_cons]
    obtain ⟨v, hv⟩ := h x (List.mem_cons_self x l)
    have : insert_into_kdtree s x = some { s with kdtree := some (kd ++ [x]), list_vertices := s.list_vertices ++ [x], num_vertices := s.num_vertices + 1 } := by
      simp [insert_into_kdtree, hv, hk]
    rw [this, Option.some_bind]
    refine (insert_all_total l { s with kdtree := some (kd ++ [x]), list_vertices := s.list_vertices ++ [x], num_vertices := s.num_vertices + 1 } (kd ++ [x]) rfl
      (fun y hy => h y (List.mem_cons_of_mem x hy))).trans ?_
    simp only [List.append_assoc, List.singleton_append, List.length_cons, Nat.cast_add,
      Nat.cast_one, Option.some.injEq]
    congr 1
    ring

/-- `check_tree` returns 0 on a well-formed tree with clear marks whose root is not in
collision and whose edges are all obstacle free, when the recursion budget covers the
number of vertices. -/
theorem check_tree_free_returns (sys : System S U C O R) (fuel : Nat) (st : Rrts S C O)
    (t : TreeInv st) (m : MarksClear st)
    (hfree : ∀ r vr, st.root = some r → st.heap r = some vr →
      sys.is_in_collision vr.state = false)
    (hedge : ∀ x ∈ st.list_vertices, st.root ≠ some x → EdgeFree sys st x)
    (hfuel : st.list_vertices.length ≤ fuel) :
    ∃ st', check_tree sys fuel st = some (0, st') ∧
      st'.list_vertices = st.list_vertices := by
  obtain ⟨r, hr, hrl, hrp⟩ := t.root_ok
  obtain ⟨vr, hvr⟩ := t.live r hrl
  have hkids : st.kids r = vr.children := kids_of_heap hvr
  unfold check_tree
  simp only [hr, hvr, hfree r vr hr hvr]
  rw [if_neg (by simp)]
  by_cases hch : vr.children = []
  · rw [if_neg (not_not.mpr hch)]
    exact ⟨st, rfl, rfl⟩
  rw [if_pos hch]
  have hsh : SameShape st (st.setV r { vr with mark := 0 }) :=
    SameShape.setV_shape hvr (by simp [Vertex.shape, m r hrl vr hvr])
  have hnr : ∀ c ∈ st.kids r, ∀ x, Desc st c x → x ≠ r := by
    intro c hc x hx e
    rw [e] at hx
    exact t.no_cycle hrl (Relation.TransGen.tail' hx.2 ((t.children_ok _ hrl).2 c hc).2)
  obtain ⟨st2, h2, hs2⟩ := for_children_total sys fuel
    (fun s c ts hc hf hbl => check_and_mark_children_total sys fuel s c ts hc hf hbl)
    t hrl vr.children _ (fun x => x = r) hsh (fun x hx => setV_heap_ne _ _ _ _ hx)
    (fun c hc => by rw [hkids]; exact hc)
    (by rw [← hkids]; exact (t.children_ok r hrl).1)
    (fun c hc x hx => hnr c (by rw [hkids]; exact hc) x hx)
    (fun c hc x hx => hedge x hx.1 (fun e => by
      rw [hr] at e
      exact hnr c (by rw [hkids]; exact hc) x hx (Option.some.inj e).symm))
    (fun c hc => below_mono_le hfuel
      (t.below c ((t.children_ok r hrl).2 c (by rw [hkids]; exact hc)).1))
  rw [h2]
  simp only
  have t2 := hs2.shape_sameTree.tree_treeInv t
  have m2 := hs2.shape_marksClear m
  have hsw := check_tree_sweep_all st2.list_vertices ([], st2) (fun x hx => by
    obtain ⟨v, hv⟩ := t2.live x hx
    exact ⟨v, hv, m2 x hx v hv⟩)
  rw [hsw]
  simp only [List.nil_append]
  have hins := insert_all_total st2.list_vertices
    { st2 with kdtree := some [], list_vertices := [], num_vertices := 0 } [] rfl
    (fun x hx => t2.live x hx)
  rw [hins]
  simp only [List.nil_append, zero_add]
  have hback : ({ st2 with kdtree := some st2.list_vertices, num_vertices := (st2.list_vertices.length : Int) } : Rrts S C O) = st2 := by
    have h1 := t2.index
    have h2 := t2.count
    cases st2
    simp only at h1 h2
    simp [h1, h2]
  rw [hback]
  have hs0 : SameLinks st2 { st2 with lower_bound_cost := sys.get_inf_cost, lower_bound_vertex := none } :=
    ⟨rfl, rfl, rfl, rfl, rfl, rfl, fun _ => rfl⟩
  have hr2 : st2.root = some r := by rw [hs2.2.2.2.2.1]; exact hr
  have hl2 : st2.list_vertices = st.list_vertices := hs2.1
  obtain ⟨st5, h5⟩ := update_branch_cost_total sys fuel _ r (hs0.treeInv t2)
    (by show r ∈ st2.list_vertices; rw [hl2]; exact hrl)
    (by
      show Below st2.kids fuel r
      rw [funext hs2.shape_sameTree.tree_kids_eq]
      exact below_mono_le hfuel (t.below r hrl))
  have hu : update_all_costs sys fuel st2 = some st5 := by
    unfold update_all_costs
    simp only [hr2]
    simp only [hr2] at h5
    exact h5
  rw [hu]
  refine ⟨st5, rfl, ?_⟩
  have := (update_branch_cost_links sys fuel _ _ _ h5).1
  rw [this.1]
  exact hl2

end CheckTreeTotal2

section DubinsCost
variable {K : Type} [LinearOrderedField K] [FloorRing K]

/-- `extend_dubins_all` is the selection loop applied to the array `times` of the four
calls. -/
theorem extend_dubins_all_eq_times (d : dubins_c K) (m : Libm K) (fuel : Nat)
    (si sf : dubins_state_t K) (rt : Bool) (traj : dubins_trajectory_t K) (r : K) :
    d.extend_dubins_all m fuel si sf rt traj r
      = match extend_dubins_all_times d m fuel si sf rt traj r with
        | none => none
        | some (times, traj1) =>
          if (extend_dubins_all_select m times).2 = -1 then some (-1, traj1)
          else some ((extend_dubins_all_select m times).1, traj1) := by
  unfold dubins_c.extend_dubins_all extend_dubins_all_times extend_dubins_all_left
    extend_dubins_all_right
  simp only
  cases d.extend_dubins_spheres m fuel _ _ 1 r rt traj with
  | none => rfl
  | some a1 =>
    simp only
    cases d.extend_dubins_spheres m fuel _ _ 2 r rt a1.2 with
    | none => rfl
    | some a2 =>
      simp only
      cases d.extend_dubins_spheres m fuel _ _ 3 r rt a2.2 with
      | none => rfl
      | some a3 =>
        simp only
        cases d.extend_dubins_spheres m fuel _ _ 4 r rt a3.2 with
        | none => rfl
        | some a4 => rfl

/-- The three loops of the trajectory block keep `total_variation`. -/
theorem extend_dubins_spheres_arc1_variation (m : Libm K) (x_s1 y_s1 t_s1 r : K) (dir : Int)
    (del_t t_inc : K) :
    ∀ (n : Nat) (t : K) (traj : dubins_trajectory_t K) (res : K × dubins_trajectory_t K),
      extend_dubins_spheres_arc1 m x_s1 y_s1 t_s1 r dir del_t t_inc n t traj = some res →
      res.2.total_variation = traj.total_variation := by
  intro n
  induction n with
  | zero =>
    intro t traj res h
    unfold extend_dubins_spheres_arc1 at h
    split at h
    · exact absurd h (by simp)
    · rw [← Option.some.inj h]
  | succ k ih =>
    intro t traj res h
    unfold extend_dubins_spheres_arc1 at h
    split at h
    · exact (ih _ _ _ h).trans rfl
    · rw [← Option.some.inj h]

theorem extend_dubins_spheres_line_variation (m : Libm K) (x_start y_start x_end y_end t_s1 : K)
    (dir : Int) (t_inc_curr del_d distance : K) :
    ∀ (n : Nat) (t : K) (traj res : dubins_trajectory_t K),
      extend_dubins_spheres_line m x_start y_start x_end y_end t_s1 dir t_inc_curr del_d
        distance n t traj = some res →
      res.total_variation = traj.total_variation := by
  intro n
  induction n with
  | zero =>
    intro t traj res h
    unfold extend_dubins_spheres_line at h
    split at h
    · exact absurd h (by simp)
    · rw [← Option.some.inj h]
  | succ k ih =>
    intro t traj res h
    unfold extend_dubins_spheres_line at h
    split at h
    · exact (ih _ _ _ h).trans rfl
    · rw [← Option.some.inj h]

theorem extend_dubins_spheres_arc2_variation (m : Libm K) (x_s2 y_s2 t_s2 r : K) (dir : Int)
    (del_t t_inc : K) :
    ∀ (n : Nat) (t : K) (traj res : dubins_trajectory_t K),
      extend_dubins_spheres_arc2 m x_s2 y_s2 t_s2 r dir del_t t_inc n t traj = some res →
      res.total_variation = traj.total_variation := by
  intro n
  induction n with
  | zero =>
    intro t traj res h
    unfold extend_dubins_spheres_arc2 at h
    split at h
    · exact absurd h (by simp)
    · rw [← Option.some.inj h]
  | succ k ih =>
    intro t traj res h
    unfold extend_dubins_spheres_arc2 at h
    split at h
    · exact (ih _ _ _ h).trans rfl
    · rw [← Option.some.inj h]

/-- The trajectory block leaves `total_cost` in `total_variation`. -/
theorem extend_dubins_spheres_trajectory_variation (d : dubins_c K) (m : Libm K) (n : Nat)
    (x_s1 y_s1 t_s1 x_s2 y_s2 t_s2 r distance x_start y_start x_end y_end : K)
    (dir1 dir2 : Int) (t_inc1 t_inc2 total_cost : K) (T : dubins_trajectory_t K)
    (h : extend_dubins_spheres_trajectory d m n x_s1 y_s1 t_s1 x_s2 y_s2 t_s2 r distance
      x_start y_start x_end y_end dir1 dir2 t_inc1 t_inc2 total_cost = some T) :
    T.total_variation = total_cost := by
  unfold extend_dubins_spheres_trajectory at h
  simp only at h
  split at h
  · exact absurd h (by simp)
  · rename_i t1 traj1 e1
    split at h
    · exact absurd h (by simp)
    · rename_i traj2 e2
      rw [extend_dubins_spheres_arc2_variation _ _ _ _ _ _ _ _ _ _ _ _ h,
        extend_dubins_spheres_line_variation _ _ _ _ _ _ _ _ _ _ _ _ _ _ e2]
      exact extend_dubins_spheres_arc1_variation _ _ _ _ _ _ _ _ _ _ _ _ e1

/-- Where the `switch` statements return `-1.0`, `extend_dubins_spheres` returns `-1`
and leaves `traj` as it was. -/
theorem extend_dubins_spheres_none (d : dubins_c K) (m : Libm K) (fuel : Nat)
    (si sf : dubins_state_t K) (comb_no : Int) (r : K) (rt : Bool)
    (traj : dubins_trajectory_t K)
    (h : extend_dubins_spheres_increments m si sf comb_no r = none) :
    d.extend_dubins_spheres m fuel si sf comb_no r rt traj = some (-1, traj) := by
  unfold extend_dubins_spheres_increments at h
  unfold dubins_c.extend_dubins_spheres
  simp only at h ⊢
  cases ha : extend_dubins_spheres_angles m comb_no r _ _ with
  | none => rfl
  | some a => rw [ha] at h; exact absurd h (by simp)

/-- Where the test on the turn increments fails, `extend_dubins_spheres` returns `-1`
and leaves `traj` as it was. -/
theorem extend_dubins_spheres_rejected (d : dubins_c K) (m : Libm K) (fuel : Nat)
    (si sf : dubins_state_t K) (comb_no : Int) (r : K) (rt : Bool)
    (traj : dubins_trajectory_t K) (inc : K × K)
    (h : extend_dubins_spheres_increments m si sf comb_no r = some inc)
    (hj : extend_dubins_spheres_rejects m inc) :
    d.extend_dubins_spheres m fuel si sf comb_no r rt traj = some (-1, traj) := by
  unfold extend_dubins_spheres_increments at h
  unfold dubins_c.extend_dubins_spheres
  simp only at h ⊢
  cases ha : extend_dubins_spheres_angles m comb_no r _ _ with
  | none => rfl
  | some a =>
    rw [ha] at h
    simp only at h ⊢
    have e := Option.some.inj h
    unfold extend_dubins_spheres_rejects at hj
    rw [← e] at hj
    rw [if_pos hj]

/-- Where the test on the turn increments passes, a call of `extend_dubins_spheres` that
returns gives `total_cost`, and with `return_trajectory` it leaves `total_cost` in
`traj.total_variation`; without, it leaves `traj` as it was. -/
theorem extend_dubins_spheres_accepted (d : dubins_c K) (m : Libm K) (fuel : Nat)
    (si sf : dubins_state_t K) (comb_no : Int) (r : K) (rt : Bool)
    (traj : dubins_trajectory_t K) (inc : K × K)
    (h : extend_dubins_spheres_increments m si sf comb_no r = some inc)
    (hj : ¬ extend_dubins_spheres_rejects m inc) :
    (rt = false → d.extend_dubins_spheres m fuel si sf comb_no r rt traj
      = some (extend_dubins_spheres_cost m inc r (extend_dubins_spheres_distance m si sf),
          traj)) ∧
    ∀ res, d.extend_dubins_spheres m fuel si sf comb_no r rt traj = some res →
      res.1 = extend_dubins_spheres_cost m inc r (extend_dubins_spheres_distance m si sf) ∧
      (rt = true → res.2.total_variation = res.1) := by
  unfold extend_dubins_spheres_increments at h
  unfold dubins_c.extend_dubins_spheres
  simp only at h ⊢
  cases ha : extend_dubins_spheres_angles m comb_no r _ _ with
  | none => rw [ha] at h; exact absurd h (by simp)
  | some a =>
    rw [ha] at h
    simp only at h ⊢
    have e := Option.some.inj h
    unfold extend_dubins_spheres_rejects at hj
    rw [← e] at hj
    rw [if_neg hj]
    unfold extend_dubins_spheres_cost extend_dubins_spheres_distance
    rw [← e]
    simp only
    constructor
    · intro hrt
      rw [hrt]
      rfl
    · intro res hres
      cases rt with
      | false =>
        simp only [Bool.false_eq_true, if_false] at hres
        rw [← Option.some.inj hres]
        exact ⟨rfl, fun x => absurd x (by simp)⟩
      | true =>
        simp only [if_true] at hres
        split at hres
        · exact absurd hres (by simp)
        · rename_i T eT
          rw [← Option.some.inj hres]
          exact ⟨rfl, fun _ => extend_dubins_spheres_trajectory_variation _ _ _ _ _ _ _ _ _ _ _
            _ _ _ _ _ _ _ _ _ _ eT⟩

end DubinsCost

section DubinsSelect
variable {K : Type} [LinearOrderedField K] [FloorRing K]

/-- One step of the selection loop. -/
theorem extend_dubins_all_select_step (F : K) (ts : List K) (acc : K × Int) (n : Int)
    (t : K)
    (h : (acc.2 = -1 ∧ acc.1 = F ∧ ∀ x ∈ ts, ¬ (0 ≤ x ∧ x < F)) ∨
      (acc.2 ≠ -1 ∧ acc.1 ∈ ts ∧ 0 ≤ acc.1 ∧ acc.1 < F ∧ ∀ x ∈ ts, 0 ≤ x → acc.1 ≤ x))
    (hn : n ≠ -1) :
    let acc1 := if t ≥ 0 ∧ t < acc.1 then (t, n) else acc
    (acc1.2 = -1 ∧ acc1.1 = F ∧ ∀ x ∈ ts ++ [t], ¬ (0 ≤ x ∧ x < F)) ∨
      (acc1.2 ≠ -1 ∧ acc1.1 ∈ ts ++ [t] ∧ 0 ≤ acc1.1 ∧ acc1.1 < F ∧
        ∀ x ∈ ts ++ [t], 0 ≤ x → acc1.1 ≤ x) := by
  intro acc1
  by_cases hc : t ≥ 0 ∧ t < acc.1
  · have e : acc1 = (t, n) := if_pos hc
    rw [e]
    right
    refine ⟨hn, by simp, hc.1, ?_, ?_⟩
    · rcases h with ⟨_, h2, _⟩ | ⟨_, _, _, h4, _⟩
      · rw [← h2]; exact hc.2
      · exact lt_trans hc.2 h4
    · intro x hx hx0
      rcases List.mem_append.mp hx with hx | hx
      · rcases h with ⟨_, h2, h3⟩ | ⟨_, _, _, _, h5⟩
        · have := h3 x hx
          rw [not_and, not_lt] at this
          have := this hx0
          show t ≤ x
          rw [h2] at hc
          exact le_of_lt (lt_of_lt_of_le hc.2 this)
        · exact le_trans (le_of_lt hc.2) (h5 x hx hx0)
      · rw [List.mem_singleton.mp hx]
  · have e : acc1 = acc := if_neg hc
    rw [e]
    rcases h with ⟨h1, h2, h3⟩ | ⟨h1, h2, h3, h4, h5⟩
    · left
      refine ⟨h1, h2, ?_⟩
      intro x hx
      rcases List.mem_append.mp hx with hx | hx
      · exact h3 x hx
      · rw [List.mem_singleton.mp hx, ← h2]
        exact hc
    · right
      refine ⟨h1, List.mem_append_left _ h2, h3, h4, ?_⟩
      intro x hx hx0
      rcases List.mem_append.mp hx with hx | hx
      · exact h5 x hx hx0
      · rw [List.mem_singleton.mp hx] at hx0 ⊢
        by_contra hlt
        exact hc ⟨hx0, not_le.mp hlt⟩

/-- The selection loop of `extend_dubins_all`: either no entry of `times` lies in
`[0, FLT_MAX/2)` and `comb_min` stays `-1`, or `min_time` is the least of the entries
that are not negative, and it lies in `[0, FLT_MAX/2)`. -/
theorem extend_dubins_all_select_spec (m : Libm K) (t0 t1 t2 t3 : K) :
    ((extend_dubins_all_select m [t0, t1, t2, t3]).2 = -1 ∧
      ∀ x ∈ [t0, t1, t2, t3], ¬ (0 ≤ x ∧ x < m.FLT_MAX / 2)) ∨
    ((extend_dubins_all_select m [t0, t1, t2, t3]).2 ≠ -1 ∧
      (extend_dubins_all_select m [t0, t1, t2, t3]).1 ∈ [t0, t1, t2, t3] ∧
      0 ≤ (extend_dubins_all_select m [t0, t1, t2, t3]).1 ∧
      (extend_dubins_all_select m [t0, t1, t2, t3]).1 < m.FLT_MAX / 2 ∧
      ∀ x ∈ [t0, t1, t2, t3], 0 ≤ x → (extend_dubins_all_select m [t0, t1, t2, t3]).1 ≤ x) := by
  have e : extend_dubins_all_select m [t0, t1, t2, t3]
      = (fun acc : K × Int => if t3 ≥ 0 ∧ t3 < acc.1 then (t3, (4 : Int)) else acc)
        ((fun acc : K × Int => if t2 ≥ 0 ∧ t2 < acc.1 then (t2, (3 : Int)) else acc)
        ((fun acc : K × Int => if t1 ≥ 0 ∧ t1 < acc.1 then (t1, (2 : Int)) else acc)
        ((fun acc : K × Int => if t0 ≥ 0 ∧ t0 < acc.1 then (t0, (1 : Int)) else acc)
          (m.FLT_MAX / 2, -1)))) := by
    unfold extend_dubins_all_select
    have : List.range 4 = [0, 1, 2, 3] := rfl
    rw [this]
    simp only [List.foldl, List.get?]
    norm_num
  rw [e]
  have s0 : (((m.FLT_MAX / 2, (-1 : Int)) : K × Int).2 = -1 ∧
      ((m.FLT_MAX / 2, (-1 : Int)) : K × Int).1 = m.FLT_MAX / 2 ∧
      ∀ x ∈ ([] : List K), ¬ (0 ≤ x ∧ x < m.FLT_MAX / 2)) ∨
      (((m.FLT_MAX / 2, (-1 : Int)) : K × Int).2 ≠ -1 ∧
        ((m.FLT_MAX / 2, (-1 : Int)) : K × Int).1 ∈ ([] : List K) ∧
        0 ≤ ((m.FLT_MAX / 2, (-1 : Int)) : K × Int).1 ∧
        ((m.FLT_MAX / 2, (-1 : Int)) : K × Int).1 < m.FLT_MAX / 2 ∧
        ∀ x ∈ ([] : List K), 0 ≤ x → ((m.FLT_MAX / 2, (-1 : Int)) : K × Int).1 ≤ x) :=
    Or.inl ⟨rfl, rfl, fun x hx => absurd hx (by simp)⟩
  have s1 := extend_dubins_all_select_step (m.FLT_MAX / 2) [] _ 1 t0 s0 (by decide)
  have s2 := extend_dubins_all_select_step (m.FLT_MAX / 2) _ _ 2 t1 s1 (by decide)
  have s3 := extend_dubins_all_select_step (m.FLT_MAX / 2) _ _ 3 t2 s2 (by decide)
  have s4 := extend_dubins_all_select_step (m.FLT_MAX / 2) _ _ 4 t3 s3 (by decide)
  rcases s4 with ⟨h1, _, h3⟩ | ⟨h1, h2, h3, h4, h5⟩
  · exact Or.inl ⟨h1, h3⟩
  · exact Or.inr ⟨h1, h2, h3, h4, h5⟩

end DubinsSelect

section DubinsEncoding
variable {K : Type} [LinearOrderedField K] [FloorRing K]

/-- `modulo_zero_2pi` on an angle that differs from `x` in `[0, 2π)` by a whole number
of turns. -/
theorem modulo_zero_2pi_eq (m : Libm K) (hpi : 0 < m.M_PI) (k : Int) (t x : K)
    (h : t = x + 2 * m.M_PI * (k : K)) (h0 : 0 ≤ x) (h1 : x < 2 * m.M_PI) :
    modulo_zero_2pi m t = x := by
  unfold modulo_zero_2pi
  have h2 : 0 < 2 * m.M_PI := by linarith
  have hf : Int.floor (t / (2 * m.M_PI)) = k := by
    rw [Int.floor_eq_iff, le_div_iff₀ h2, div_lt_iff₀ h2, h]
    constructor
    · nlinarith
    · nlinarith
  rw [hf, h]
  ring

/-- `modulo_mpi_pi` on an angle that differs from `x` in `[-π, π)` by a whole number of
turns. -/
theorem modulo_mpi_pi_eq (m : Libm K) (hpi : 0 < m.M_PI) (k : Int) (t x : K)
    (h : t = x + 2 * m.M_PI * (k : K)) (h0 : -m.M_PI ≤ x) (h1 : x < m.M_PI) :
    modulo_mpi_pi m t = x := by
  unfold modulo_mpi_pi
  have h2 : 0 < 2 * m.M_PI := by linarith
  have hf : Int.floor ((t + m.M_PI) / (2 * m.M_PI)) = k := by
    rw [Int.floor_eq_iff, le_div_iff₀ h2, div_lt_iff₀ h2, h]
    constructor
    · nlinarith
    · nlinarith
  rw [hf, h]
  ring

/-- The square root of the math library is not negative on a sum of two squares. -/
theorem libm_sqrt_nonneg {m : Libm K} (hm : m.Sound) (a b : K) :
    0 ≤ m.sqrt (a * a + b * b) := by
  have h0 : m.sqrt (0 * 0) = 0 := hm.sqrt_mul_self 0 (le_refl _)
  have h1 := hm.sqrt_le_sqrt (0 * 0) (a * a + b * b)
    (by nlinarith [mul_self_nonneg a, mul_self_nonneg b])
  rw [h0] at h1
  exact h1

theorem extend_dubins_spheres_distance_nonneg {m : Libm K} (hm : m.Sound)
    (si sf : dubins_state_t K) : 0 ≤ extend_dubins_spheres_distance m si sf :=
  libm_sqrt_nonneg hm _ _

/-- The cost is the centre distance plus the two turns. -/
theorem extend_dubins_spheres_cost_ge (m : Libm K) (inc : K × K) (r dist : K) (hr : 0 ≤ r) :
    dist ≤ extend_dubins_spheres_cost m inc r dist := by
  unfold extend_dubins_spheres_cost
  simp only
  have h1 := abs_nonneg (modulo_mpi_pi m inc.1)
  have h2 := abs_nonneg (modulo_mpi_pi m inc.2)
  have h3 : 0 ≤ (|modulo_mpi_pi m inc.1| + |modulo_mpi_pi m inc.2|) * r :=
    mul_nonneg (by linarith) hr
  linarith

/-- Where the `switch` statements of `extend_dubins_spheres` return `-1.0`. -/
theorem extend_dubins_spheres_increments_none (m : Libm K) (si sf : dubins_state_t K)
    (comb_no : Int) (r : K) :
    extend_dubins_spheres_increments m si sf comb_no r = none ↔
      ((comb_no = 1 ∨ comb_no = 2) ∧ extend_dubins_spheres_distance m si sf ≤ 2 * r) ∨
      (¬ (comb_no = 1 ∨ comb_no = 2 ∨ comb_no = 3 ∨ comb_no = 4) ∧
        2 * r < extend_dubins_spheres_distance m si sf) := by
  unfold extend_dubins_spheres_increments extend_dubins_spheres_distance
    extend_dubins_spheres_angles
  simp only
  by_cases hd : m.sqrt ((sf.1 - si.1) * (sf.1 - si.1) + (sf.2.1 - si.2.1) * (sf.2.1 - si.2.1))
      > 2 * r
  · rw [if_pos hd]
    by_cases h1 : comb_no = 1
    · simp [h1, not_le.mpr hd]
    · by_cases h2 : comb_no = 2
      · simp [h2, not_le.mpr hd]
      · by_cases h3 : comb_no = 3
        · simp [h3, not_le.mpr hd]
        · by_cases h4 : comb_no = 4
          · simp [h4, not_le.mpr hd]
          · simp [h1, h2, h3, h4, hd]
  · rw [if_neg hd]
    by_cases h12 : comb_no = 1 ∨ comb_no = 2
    · rw [if_pos h12]
      simp [h12, not_lt.mp hd]
    · rw [if_neg h12]
      have hd2 : ¬ 2 * r < m.sqrt ((sf.1 - si.1) * (sf.1 - si.1)
          + (sf.2.1 - si.2.1) * (sf.2.1 - si.2.1)) := hd
      by_cases h3 : comb_no = 3
      · simp [h3, hd2]
      · by_cases h4 : comb_no = 4
        · simp [h4, hd2]
        · simp [h3, h4, h12, hd2]

/-- A call of `extend_dubins_spheres` without `return_trajectory` returns, leaves `traj`
as it was, and gives the value that every returning call on the same states gives:
`-1` where the `switch` statements or the test on the increments say so (then every
call returns and leaves `traj` as it was), and `total_cost` otherwise (then a call with
`return_trajectory` leaves it in `traj.total_variation`). -/
theorem extend_dubins_spheres_false (d : dubins_c K) (m : Libm K) (fuel : Nat)
    (si sf : dubins_state_t K) (comb_no : Int) (r : K) (traj : dubins_trajectory_t K) :
    ∃ c, d.extend_dubins_spheres m fuel si sf comb_no r false traj = some (c, traj) ∧
      (∀ (fuel1 : Nat) (rt : Bool) (tr : dubins_trajectory_t K)
        (res : K × dubins_trajectory_t K),
        d.extend_dubins_spheres m fuel1 si sf comb_no r rt tr = some res → res.1 = c) ∧
      ((c = -1 ∧ (extend_dubins_spheres_increments m si sf comb_no r = none ∨
          ∃ inc, extend_dubins_spheres_increments m si sf comb_no r = some inc ∧
            extend_dubins_spheres_rejects m inc) ∧
          ∀ (fuel1 : Nat) (rt : Bool) (tr : dubins_trajectory_t K),
            d.extend_dubins_spheres m fuel1 si sf comb_no r rt tr = some (-1, tr)) ∨
        (∃ inc, extend_dubins_spheres_increments m si sf comb_no r = some inc ∧
          ¬ extend_dubins_spheres_rejects m inc ∧
          c = extend_dubins_spheres_cost m inc r (extend_dubins_spheres_distance m si sf) ∧
          ∀ (fuel1 : Nat) (tr : dubins_trajectory_t K) (res : K × dubins_trajectory_t K),
            d.extend_dubins_spheres m fuel1 si sf comb_no r true tr = some res →
            res.2.total_variation = c)) := by
  cases hi : extend_dubins_spheres_increments m si sf comb_no r with
  | none =>
    refine ⟨-1, extend_dubins_spheres_none d m fuel si sf comb_no r false traj hi, ?_,
      Or.inl ⟨rfl, Or.inl rfl, fun fuel1 rt tr =>
        extend_dubins_spheres_none d m fuel1 si sf comb_no r rt tr hi⟩⟩
    intro fuel1 rt tr res hres
    rw [extend_dubins_spheres_none d m fuel1 si sf comb_no r rt tr hi] at hres
    rw [← Option.some.inj hres]
  | some inc =>
    by_cases hj : extend_dubins_spheres_rejects m inc
    · refine ⟨-1, extend_dubins_spheres_rejected d m fuel si sf comb_no r false traj inc hi hj,
        ?_, Or.inl ⟨rfl, Or.inr ⟨inc, rfl, hj⟩, fun fuel1 rt tr =>
          extend_dubins_spheres_rejected d m fuel1 si sf comb_no r rt tr inc hi hj⟩⟩
      intro fuel1 rt tr res hres
      rw [extend_dubins_spheres_rejected d m fuel1 si sf comb_no r rt tr inc hi hj] at hres
      rw [← Option.some.inj hres]
    · refine ⟨_, (extend_dubins_spheres_accepted d m fuel si sf comb_no r false traj inc hi
        hj).1 rfl, ?_, Or.inr ⟨inc, rfl, hj, rfl, ?_⟩⟩
      · intro fuel1 rt tr res hres
        exact ((extend_dubins_spheres_accepted d m fuel1 si sf comb_no r rt tr inc hi
          hj).2 res hres).1
      · intro fuel1 tr res hres
        have h := (extend_dubins_spheres_accepted d m fuel1 si sf comb_no r true tr inc hi
          hj).2 res hres
        rw [h.2 rfl, h.1]

/-- For a radius that is not negative, the value of `extend_dubins_spheres` is `-1` or
at least the centre distance, which is not negative. -/
theorem extend_dubins_spheres_bound (d : dubins_c K) (m : Libm K) (hm : m.Sound) (fuel : Nat)
    (si sf : dubins_state_t K) (comb_no : Int) (r : K) (hr : 0 ≤ r)
    (traj : dubins_trajectory_t K) :
    ∃ c, d.extend_dubins_spheres m fuel si sf comb_no r false traj = some (c, traj) ∧
      (∀ (fuel1 : Nat) (rt : Bool) (tr : dubins_trajectory_t K)
        (res : K × dubins_trajectory_t K),
        d.extend_dubins_spheres m fuel1 si sf comb_no r rt tr = some res → res.1 = c) ∧
      ((c = -1 ∧ ∀ (fuel1 : Nat) (rt : Bool) (tr : dubins_trajectory_t K),
            d.extend_dubins_spheres m fuel1 si sf comb_no r rt tr = some (-1, tr)) ∨
        (0 ≤ c ∧ extend_dubins_spheres_distance m si sf ≤ c ∧
          ∀ (fuel1 : Nat) (tr : dubins_trajectory_t K) (res : K × dubins_trajectory_t K),
            d.extend_dubins_spheres m fuel1 si sf comb_no r true tr = some res →
            res.2.total_variation = c)) := by
  obtain ⟨c, h1, h2, h3⟩ := extend_dubins_spheres_false d m fuel si sf comb_no r traj
  refine ⟨c, h1, h2, ?_⟩
  rcases h3 with ⟨e, _, h⟩ | ⟨inc, _, _, e, h⟩
  · exact Or.inl ⟨e, h⟩
  · have hge := extend_dubins_spheres_cost_ge m inc r (extend_dubins_spheres_distance m si sf) hr
    rw [← e] at hge
    exact Or.inr ⟨le_trans (extend_dubins_spheres_distance_nonneg hm si sf) hge, hge, h⟩

end DubinsEncoding

section DubinsTimes
variable {K : Type} [LinearOrderedField K] [FloorRing K]

/-- The four calls of `extend_dubins_all`, for a radius that is not negative: without
`return_trajectory` they return and leave `traj` as it was; every entry of `times` is
`-1` or not negative; a run with or without `return_trajectory` that returns gives the
same `times`; and with `return_trajectory` it leaves in `traj.total_variation` the
entry of the last combination whose entry is not `-1` (and `traj` as it was when all
are `-1`). -/
theorem extend_dubins_all_times_spec (d : dubins_c K) (m : Libm K) (hm : m.Sound)
    (fuel : Nat) (si sf : dubins_state_t K) (r : K) (hr : 0 ≤ r)
    (traj : dubins_trajectory_t K) :
    ∃ t0 t1 t2 t3,
      d.extend_dubins_spheres m fuel (extend_dubins_all_left m si r)
        (extend_dubins_all_right m sf r) 1 r false traj = some (t0, traj) ∧
      d.extend_dubins_spheres m fuel (extend_dubins_all_right m si r)
        (extend_dubins_all_left m sf r) 2 r false traj = some (t1, traj) ∧
      d.extend_dubins_spheres m fuel (extend_dubins_all_left m si r)
        (extend_dubins_all_left m sf r) 3 r false traj = some (t2, traj) ∧
      d.extend_dubins_spheres m fuel (extend_dubins_all_right m si r)
        (extend_dubins_all_right m sf r) 4 r false traj = some (t3, traj) ∧
      extend_dubins_all_times d m fuel si sf false traj r = some ([t0, t1, t2, t3], traj) ∧
      (∀ t ∈ [t0, t1, t2, t3], t = -1 ∨ 0 ≤ t) ∧
      ∀ (fuel1 : Nat) (rt : Bool) (tr : dubins_trajectory_t K) (ts : List K)
        (T : dubins_trajectory_t K),
        extend_dubins_all_times d m fuel1 si sf rt tr r = some (ts, T) →
        ts = [t0, t1, t2, t3] ∧
        (rt = true →
          (t3 ≠ -1 → T.total_variation = t3) ∧
          (t3 = -1 → t2 ≠ -1 → T.total_variation = t2) ∧
          (t3 = -1 → t2 = -1 → t1 ≠ -1 → T.total_variation = t1) ∧
          (t3 = -1 → t2 = -1 → t1 = -1 → t0 ≠ -1 → T.total_variation = t0) ∧
          (t3 = -1 → t2 = -1 → t1 = -1 → t0 = -1 → T = tr)) := by
  obtain ⟨t0, a0, b0, c0⟩ := extend_dubins_spheres_bound d m hm fuel
    (extend_dubins_all_left m si r) (extend_dubins_all_right m sf r) 1 r hr traj
  obtain ⟨t1, a1, b1, c1⟩ := extend_dubins_spheres_bound d m hm fuel
    (extend_dubins_all_right m si r) (extend_dubins_all_left m sf r) 2 r hr traj
  obtain ⟨t2, a2, b2, c2⟩ := extend_dubins_spheres_bound d m hm fuel
    (extend_dubins_all_left m si r) (extend_dubins_all_left m sf r) 3 r hr traj
  obtain ⟨t3, a3, b3, c3⟩ := extend_dubins_spheres_bound d m hm fuel
    (extend_dubins_all_right m si r) (extend_dubins_all_right m sf r) 4 r hr traj
  have hneg : ∀ x : K, 0 ≤ x → x ≠ -1 := by
    intro x hx e
    rw [e] at hx
    linarith
  refine ⟨t0, t1, t2, t3, a0, a1, a2, a3, ?_, ?_, ?_⟩
  · unfold extend_dubins_all_times
    simp only [a0, a1, a2, a3]
  · intro t ht
    simp only [List.mem_cons, List.mem_singleton, List.not_mem_nil, or_false] at ht
    rcases ht with e | e | e | e
    · rw [e]; rcases c0 with h | h
      · exact Or.inl h.1
      · exact Or.inr h.1
    · rw [e]; rcases c1 with h | h
      · exact Or.inl h.1
      · exact Or.inr h.1
    · rw [e]; rcases c2 with h | h
      · exact Or.inl h.1
      · exact Or.inr h.1
    · rw [e]; rcases c3 with h | h
      · exact Or.inl h.1
      · exact Or.inr h.1
  · intro fuel1 rt tr ts T h
    unfold extend_dubins_all_times at h
    simp only at h
    cases e0 : d.extend_dubins_spheres m fuel1 (extend_dubins_all_left m si r)
        (extend_dubins_all_right m sf r) 1 r rt tr with
    | none => rw [e0] at h; exact absurd h (by simp)
    | some x0 =>
      rw [e0] at h
      simp only at h
      cases e1 : d.extend_dubins_spheres m fuel1 (extend_dubins_all_right m si r)
          (extend_dubins_all_left m sf r) 2 r rt x0.2 with
      | none => rw [e1] at h; exact absurd h (by simp)
      | some x1 =>
        rw [e1] at h
        simp only at h
        cases e2 : d.extend_dubins_spheres m fuel1 (extend_dubins_all_left m si r)
            (extend_dubins_all_left m sf r) 3 r rt x1.2 with
        | none => rw [e2] at h; exact absurd h (by simp)
        | some x2 =>
          rw [e2] at h
          simp only at h
          cases e3 : d.extend_dubins_spheres m fuel1 (extend_dubins_all_right m si r)
              (extend_dubins_all_right m sf r) 4 r rt x2.2 with
          | none => rw [e3] at h; exact absurd h (by simp)
          | some x3 =>
            rw [e3] at h
            simp only [Option.some.injEq, Prod.mk.injEq] at h
            obtain ⟨hts, hT⟩ := h
            have q0 := b0 _ _ _ _ e0
            have q1 := b1 _ _ _ _ e1
            have q2 := b2 _ _ _ _ e2
            have q3 := b3 _ _ _ _ e3
            refine ⟨by rw [← hts, q0, q1, q2, q3], ?_⟩
            intro hrt
            subst hrt
            -- what an entry `-1` means for the trajectory
            have k0 : t0 = -1 → x0.2 = tr := by
              intro e
              rcases c0 with ⟨_, g⟩ | ⟨g, _⟩
              · have := g fuel1 true tr
                rw [e0] at this
                have q := Option.some.inj this
                rw [q]
              · exact absurd e (hneg _ g)
            have k1 : t1 = -1 → x1.2 = x0.2 := by
              intro e
              rcases c1 with ⟨_, g⟩ | ⟨g, _⟩
              · have := g fuel1 true x0.2
                rw [e1] at this
                have q := Option.some.inj this
                rw [q]
              · exact absurd e (hneg _ g)
            have k2 : t2 = -1 → x2.2 = x1.2 := by
              intro e
              rcases c2 with ⟨_, g⟩ | ⟨g, _⟩
              · have := g fuel1 true x1.2
                rw [e2] at this
                have q := Option.some.inj this
                rw [q]
              · exact absurd e (hneg _ g)
            have k3 : t3 = -1 → x3.2 = x2.2 := by
              intro e
              rcases c3 with ⟨_, g⟩ | ⟨g, _⟩
              · have := g fuel1 true x2.2
                rw [e3] at this
                have q := Option.some.inj this
                rw [q]
              · exact absurd e (hneg _ g)
            have n0 : t0 ≠ -1 → x0.2.total_variation = t0 := by
              intro e
              rcases c0 with ⟨g, _⟩ | ⟨_, _, g⟩
              · exact absurd g e
              · exact g _ _ _ e0
            have n1 : t1 ≠ -1 → x1.2.total_variation = t1 := by
              intro e
              rcases c1 with ⟨g, _⟩ | ⟨_, _, g⟩
              · exact absurd g e
              · exact g _ _ _ e1
            have n2 : t2 ≠ -1 → x2.2.total_variation = t2 := by
              intro e
              rcases c2 with ⟨g, _⟩ | ⟨_, _, g⟩
              · exact absurd g e
              · exact g _ _ _ e2
            have n3 : t3 ≠ -1 → x3.2.total_variation = t3 := by
              intro e
              rcases c3 with ⟨g, _⟩ | ⟨_, _, g⟩
              · exact absurd g e
              · exact g _ _ _ e3
            rw [← hT]
            refine ⟨n3, ?_, ?_, ?_, ?_⟩
            · intro h3 h2; rw [k3 h3]; exact n2 h2
            · intro h3 h2 h1; rw [k3 h3, k2 h2]; exact n1 h1
            · intro h3 h2 h1 h0; rw [k3 h3, k2 h2, k1 h1]; exact n0 h0
            · intro h3 h2 h1 h0; rw [k3 h3, k2 h2, k1 h1, k0 h0]

/-- The value of `extend_dubins_all`, for a radius that is not negative: a call without
`return_trajectory` returns and leaves `traj` as it was; the value is `-1` exactly when
no entry of `times` lies in `[0, FLT_MAX/2)`, and otherwise the least of the entries
other than `-1`, which is not negative; every returning call gives the same value. -/
theorem extend_dubins_all_encoding (d : dubins_c K) (m : Libm K) (hm : m.Sound)
    (fuel : Nat) (si sf : dubins_state_t K) (r : K) (hr : 0 ≤ r)
    (traj : dubins_trajectory_t K) :
    ∃ t0 t1 t2 t3 c,
      extend_dubins_all_times d m fuel si sf false traj r = some ([t0, t1, t2, t3], traj) ∧
      d.extend_dubins_all m fuel si sf false traj r = some (c, traj) ∧
      (c = -1 ↔ ∀ t ∈ [t0, t1, t2, t3], t = -1 ∨ m.FLT_MAX / 2 ≤ t) ∧
      (c ≠ -1 → c ∈ [t0, t1, t2, t3] ∧ 0 ≤ c ∧ c < m.FLT_MAX / 2 ∧
        ∀ t ∈ [t0, t1, t2, t3], t ≠ -1 → c ≤ t) ∧
      ∀ (fuel1 : Nat) (rt : Bool) (tr : dubins_trajectory_t K)
        (res : K × dubins_trajectory_t K),
        d.extend_dubins_all m fuel1 si sf rt tr r = some res → res.1 = c := by
  obtain ⟨t0, t1, t2, t3, _, _, _, _, ht, hs, hall⟩ :=
    extend_dubins_all_times_spec d m hm fuel si sf r hr traj
  have hneg : ∀ x : K, 0 ≤ x → x ≠ -1 := by
    intro x hx e
    rw [e] at hx
    linarith
  have hval : ∀ (fuel1 : Nat) (rt : Bool) (tr : dubins_trajectory_t K)
      (res : K × dubins_trajectory_t K),
      d.extend_dubins_all m fuel1 si sf rt tr r = some res →
      res.1 = if (extend_dubins_all_select m [t0, t1, t2, t3]).2 = -1 then -1
        else (extend_dubins_all_select m [t0, t1, t2, t3]).1 := by
    intro fuel1 rt tr res h
    rw [extend_dubins_all_eq_times] at h
    cases e : extend_dubins_all_times d m fuel1 si sf rt tr r with
    | none => rw [e] at h; exact absurd h (by simp)
    | some a =>
      obtain ⟨ts, T⟩ := a
      rw [e] at h
      simp only at h
      rw [(hall _ _ _ _ _ e).1] at h
      split at h
      · rename_i hc
        rw [← Option.some.inj h, if_pos hc]
      · rename_i hc
        rw [← Option.some.inj h, if_neg hc]
  have hfalse : d.extend_dubins_all m fuel si sf false traj r
      = some (if (extend_dubins_all_select m [t0, t1, t2, t3]).2 = -1 then -1
        else (extend_dubins_all_select m [t0, t1, t2, t3]).1, traj) := by
    rw [extend_dubins_all_eq_times, ht]
    simp only
    split <;> rfl
  refine ⟨t0, t1, t2, t3, _, ht, hfalse, ?_, ?_, hval⟩
  · rcases extend_dubins_all_select_spec m t0 t1 t2 t3 with ⟨h1, h2⟩ | ⟨h1, h2, h3, h4, h5⟩
    · rw [if_pos h1]
      refine ⟨fun _ => ?_, fun _ => rfl⟩
      intro t htm
      rcases hs t htm with e | e
      · exact Or.inl e
      · have := h2 t htm
        rw [not_and, not_lt] at this
        exact Or.inr (this e)
    · rw [if_neg h1]
      constructor
      · intro e
        exact absurd e (hneg _ h3)
      · intro hall2
        exfalso
        rcases hall2 _ h2 with e | e
        · exact hneg _ h3 e
        · exact absurd h4 (not_lt.mpr e)
  · rcases extend_dubins_all_select_spec m t0 t1 t2 t3 with ⟨h1, h2⟩ | ⟨h1, h2, h3, h4, h5⟩
    · rw [if_pos h1]
      intro e
      exact absurd rfl e
    · rw [if_neg h1]
      intro _
      refine ⟨h2, h3, h4, ?_⟩
      intro t htm hne
      rcases hs t htm with e | e
      · exact absurd e hne
      · exact h5 t htm e

end DubinsTimes

section DubinsStraight
variable {K : Type} [LinearOrderedField K] [FloorRing K]

theorem extend_dubins_all_left_zero (m : Libm K) (hm : m.Sound) (x r : K) :
    extend_dubins_all_left m (x, 0, 0) r = (x, r, 3 * m.M_PI_2) := by
  unfold extend_dubins_all_left
  simp only [neg_zero, hm.sin_zero, hm.cos_zero, mul_zero, mul_one, add_zero, zero_add]

theorem extend_dubins_all_right_zero (m : Libm K) (hm : m.Sound) (x r : K) :
    extend_dubins_all_right m (x, 0, 0) r = (x, -r, m.M_PI_2) := by
  unfold extend_dubins_all_right
  simp only [neg_zero, hm.sin_zero, hm.cos_zero, mul_zero, mul_one, sub_zero, zero_add,
    zero_sub]

theorem extend_dubins_spheres_angles_three (m : Libm K) (r dist t : K) :
    extend_dubins_spheres_angles m 3 r dist t = some (t - m.M_PI_2, t - m.M_PI_2) := by
  unfold extend_dubins_spheres_angles
  by_cases h : dist > 2 * r
  · rw [if_pos h]
    norm_num
  · rw [if_neg h]
    norm_num

theorem extend_dubins_spheres_angles_four (m : Libm K) (r dist t : K) :
    extend_dubins_spheres_angles m 4 r dist t = some (t + m.M_PI_2, t + m.M_PI_2) := by
  unfold extend_dubins_spheres_angles
  by_cases h : dist > 2 * r
  · rw [if_pos h]
    norm_num
  · rw [if_neg h]
    norm_num

/-- The turn increments of the combination 3 (left circle to left circle). -/
theorem extend_dubins_spheres_increments_three (m : Libm K) (si sf : dubins_state_t K)
    (r : K) :
    extend_dubins_spheres_increments m si sf 3 r
      = some (modulo_zero_2pi m (m.atan2 (sf.2.1 - si.2.1) (sf.1 - si.1) - m.M_PI_2 - si.2.2),
          modulo_zero_2pi m
            (sf.2.2 - (m.atan2 (sf.2.1 - si.2.1) (sf.1 - si.1) - m.M_PI_2))) := by
  unfold extend_dubins_spheres_increments
  simp only [extend_dubins_spheres_angles_three, extend_dubins_spheres_angles_four]
  norm_num

/-- The turn increments of the combination 4 (right circle to right circle). -/
theorem extend_dubins_spheres_increments_four (m : Libm K) (si sf : dubins_state_t K)
    (r : K) :
    extend_dubins_spheres_increments m si sf 4 r
      = some (modulo_zero_2pi m
            (-(m.atan2 (sf.2.1 - si.2.1) (sf.1 - si.1) + m.M_PI_2 - si.2.2)),
          modulo_zero_2pi m
            (-(sf.2.2 - (m.atan2 (sf.2.1 - si.2.1) (sf.1 - si.1) + m.M_PI_2)))) := by
  unfold extend_dubins_spheres_increments
  simp only [extend_dubins_spheres_angles_three, extend_dubins_spheres_angles_four]
  norm_num

/-- The cost of two turn increments that are zero is the centre distance. -/
theorem extend_dubins_spheres_cost_zero (m : Libm K) (hpi : 0 < m.M_PI) (r dist : K) :
    extend_dubins_spheres_cost m (0, 0) r dist = dist := by
  unfold extend_dubins_spheres_cost
  simp only [modulo_mpi_pi_zero m hpi, abs_zero, add_zero, zero_mul, mul_zero, zero_add]

theorem extend_dubins_spheres_rejects_zero (m : Libm K) (hpi : 0 < m.M_PI) :
    ¬ extend_dubins_spheres_rejects m (0, 0) := by
  unfold extend_dubins_spheres_rejects Libm.M_PI_2
  simp only [gt_iff_lt, not_or, not_and, not_lt]
  have : (0 : K) ≤ 3 * (m.M_PI / 2) := by linarith
  exact ⟨fun _ => hpi.le, this, this⟩

/-- The steering from `(0, 0, 0)` straight ahead to `(D, 0, 0)`: the combinations 3 and 4
have both turn increments zero and the cost `D`; the combinations 1 and 2 are infeasible
or cost at least `D`. -/
theorem extend_dubins_straight (d : dubins_c K) (m : Libm K) (hm : m.Sound) (fuel : Nat)
    (D r : K) (hD : 0 < D) (hr : 0 ≤ r) (traj : dubins_trajectory_t K) :
    extend_dubins_spheres_increments m (extend_dubins_all_left m (0, 0, 0) r)
      (extend_dubins_all_left m (D, 0, 0) r) 3 r = some (0, 0) ∧
    extend_dubins_spheres_increments m (extend_dubins_all_right m (0, 0, 0) r)
      (extend_dubins_all_right m (D, 0, 0) r) 4 r = some (0, 0) ∧
    ∃ t0 t1, extend_dubins_all_times d m fuel (0, 0, 0) (D, 0, 0) false traj r
        = some ([t0, t1, D, D], traj) ∧ (t0 = -1 ∨ D ≤ t0) ∧ (t1 = -1 ∨ D ≤ t1) := by
  have hpi := hm.pi_pos
  have hat : m.atan2 0 D = 0 := hm.atan2_zero D hD
  have hsq : m.sqrt (D * D) = D := hm.sqrt_mul_self D hD.le
  have i3 : extend_dubins_spheres_increments m (extend_dubins_all_left m (0, 0, 0) r)
      (extend_dubins_all_left m (D, 0, 0) r) 3 r = some (0, 0) := by
    rw [extend_dubins_spheres_increments_three, extend_dubins_all_left_zero m hm,
      extend_dubins_all_left_zero m hm]
    simp only [sub_self, sub_zero, hat]
    rw [modulo_zero_2pi_eq m hpi (-1) _ 0 (by unfold Libm.M_PI_2; push_cast; ring)
        (le_refl _) (by linarith),
      modulo_zero_2pi_eq m hpi 1 _ 0 (by unfold Libm.M_PI_2; push_cast; ring)
        (le_refl _) (by linarith)]
  have i4 : extend_dubins_spheres_increments m (extend_dubins_all_right m (0, 0, 0) r)
      (extend_dubins_all_right m (D, 0, 0) r) 4 r = some (0, 0) := by
    rw [extend_dubins_spheres_increments_four, extend_dubins_all_right_zero m hm,
      extend_dubins_all_right_zero m hm]
    simp only [sub_self, sub_zero, hat]
    rw [modulo_zero_2pi_eq m hpi 0 _ 0 (by unfold Libm.M_PI_2; push_cast; ring)
        (le_refl _) (by linarith),
      modulo_zero_2pi_eq m hpi 0 _ 0 (by unfold Libm.M_PI_2; push_cast; ring)
        (le_refl _) (by linarith)]
  have d3 : extend_dubins_spheres_distance m (extend_dubins_all_left m (0, 0, 0) r)
      (extend_dubins_all_left m (D, 0, 0) r) = D := by
    rw [extend_dubins_all_left_zero m hm, extend_dubins_all_left_zero m hm]
    unfold extend_dubins_spheres_distance
    simp only [sub_self, sub_zero, mul_zero, add_zero]
    exact hsq
  have d4 : extend_dubins_spheres_distance m (extend_dubins_all_right m (0, 0, 0) r)
      (extend_dubins_all_right m (D, 0, 0) r) = D := by
    rw [extend_dubins_all_right_zero m hm, extend_dubins_all_right_zero m hm]
    unfold extend_dubins_spheres_distance
    simp only [sub_self, sub_zero, mul_zero, add_zero]
    exact hsq
  have d1 : D ≤ extend_dubins_spheres_distance m (extend_dubins_all_left m (0, 0, 0) r)
      (extend_dubins_all_right m (D, 0, 0) r) := by
    rw [extend_dubins_all_left_zero m hm, extend_dubins_all_right_zero m hm]
    unfold extend_dubins_spheres_distance
    have := hm.sqrt_le_sqrt (D * D) ((D - 0) * (D - 0) + (-r - r) * (-r - r))
      (by nlinarith [mul_self_nonneg (-r - r)])
    rw [hsq] at this
    exact this
  have d2 : D ≤ extend_dubins_spheres_distance m (extend_dubins_all_right m (0, 0, 0) r)
      (extend_dubins_all_left m (D, 0, 0) r) := by
    rw [extend_dubins_all_left_zero m hm, extend_dubins_all_right_zero m hm]
    unfold extend_dubins_spheres_distance
    have := hm.sqrt_le_sqrt (D * D) ((D - 0) * (D - 0) + (r - -r) * (r - -r))
      (by nlinarith [mul_self_nonneg (r - -r)])
    rw [hsq] at this
    exact this
  refine ⟨i3, i4, ?_⟩
  obtain ⟨t0, t1, t2, t3, a0, a1, a2, a3, ht, _, _⟩ :=
    extend_dubins_all_times_spec d m hm fuel (0, 0, 0) (D, 0, 0) r hr traj
  have e2 : t2 = D := by
    have := (extend_dubins_spheres_accepted d m fuel _ _ 3 r false traj (0, 0) i3
      (extend_dubins_spheres_rejects_zero m hpi)).1 rfl
    rw [a2, d3, extend_dubins_spheres_cost_zero m hpi] at this
    exact congrArg Prod.fst (Option.some.inj this)
  have e3 : t3 = D := by
    have := (extend_dubins_spheres_accepted d m fuel _ _ 4 r false traj (0, 0) i4
      (extend_dubins_spheres_rejects_zero m hpi)).1 rfl
    rw [a3, d4, extend_dubins_spheres_cost_zero m hpi] at this
    exact congrArg Prod.fst (Option.some.inj this)
  have b0 : t0 = -1 ∨ D ≤ t0 := by
    obtain ⟨c, q1, _, q3⟩ := extend_dubins_spheres_bound d m hm fuel
      (extend_dubins_all_left m (0, 0, 0) r) (extend_dubins_all_right m (D, 0, 0) r) 1 r hr traj
    rw [a0] at q1
    have e : t0 = c := congrArg Prod.fst (Option.some.inj q1)
    rw [e]
    rcases q3 with ⟨g, _⟩ | ⟨_, g, _⟩
    · exact Or.inl g
    · exact Or.inr (le_trans d1 g)
  have b1 : t1 = -1 ∨ D ≤ t1 := by
    obtain ⟨c, q1, _, q3⟩ := extend_dubins_spheres_bound d m hm fuel
      (extend_dubins_all_right m (0, 0, 0) r) (extend_dubins_all_left m (D, 0, 0) r) 2 r hr traj
    rw [a1] at q1
    have e : t1 = c := congrArg Prod.fst (Option.some.inj q1)
    rw [e]
    rcases q3 with ⟨g, _⟩ | ⟨_, g, _⟩
    · exact Or.inl g
    · exact Or.inr (le_trans d2 g)
  rw [e2, e3] at ht
  exact ⟨t0, t1, ht, b0, b1⟩

/-- The value of `extend_dubins_all` from `(0, 0, 0)` straight ahead to `(D, 0, 0)`: the
distance `D` when it is below `FLT_MAX/2`, and `-1` otherwise. -/
theorem extend_dubins_all_straight (d : dubins_c K) (m : Libm K) (hm : m.Sound) (fuel : Nat)
    (D r : K) (hD : 0 < D) (hr : 0 ≤ r) (traj : dubins_trajectory_t K) :
    d.extend_dubins_all m fuel (0, 0, 0) (D, 0, 0) false traj r
      = some (if D < m.FLT_MAX / 2 then D else -1, traj) ∧
    ∀ (fuel1 : Nat) (rt : Bool) (tr : dubins_trajectory_t K)
      (res : K × dubins_trajectory_t K),
      d.extend_dubins_all m fuel1 (0, 0, 0) (D, 0, 0) rt tr r = some res →
      res.1 = if D < m.FLT_MAX / 2 then D else -1 := by
  obtain ⟨_, _, t0, t1, ht, b0, b1⟩ := extend_dubins_straight d m hm fuel D r hD hr traj
  obtain ⟨s0, s1, s2, s3, c, ht2, hc, h1, h2, h3⟩ :=
    extend_dubins_all_encoding d m hm fuel (0, 0, 0) (D, 0, 0) r hr traj
  rw [ht] at ht2
  have hl : [t0, t1, D, D] = [s0, s1, s2, s3] := congrArg Prod.fst (Option.some.inj ht2)
  rw [← hl] at h1 h2
  have hDne : D ≠ -1 := by
    intro e
    rw [e] at hD
    linarith
  have hcv : c = if D < m.FLT_MAX / 2 then D else -1 := by
    by_cases hlt : D < m.FLT_MAX / 2
    · rw [if_pos hlt]
      have hne : c ≠ -1 := by
        intro e
        rcases h1.mp e D (by simp) with g | g
        · exact hDne g
        · exact absurd hlt (not_lt.mpr g)
      obtain ⟨g1, g2, _, g4⟩ := h2 hne
      have hle : c ≤ D := g4 D (by simp) hDne
      have hc1 : ∀ t : K, (t = -1 ∨ D ≤ t) → c = t → c = D := by
        intro t ht e
        rcases ht with q | q
        · rw [q] at e
          exact absurd e hne
        · rw [← e] at q
          exact le_antisymm hle q
      simp only [List.mem_cons, List.mem_singleton, List.not_mem_nil, or_false] at g1
      rcases g1 with e | e | e | e
      · exact hc1 t0 b0 e
      · exact hc1 t1 b1 e
      · exact e
      · exact e
    · rw [if_neg hlt]
      rw [h1]
      intro t htm
      simp only [List.mem_cons, List.mem_singleton, List.not_mem_nil, or_false] at htm
      have hge : m.FLT_MAX / 2 ≤ D := not_lt.mp hlt
      rcases htm with e | e | e | e
      · rw [e]; rcases b0 with q | q
        · exact Or.inl q
        · exact Or.inr (le_trans hge q)
      · rw [e]; rcases b1 with q | q
        · exact Or.inl q
        · exact Or.inr (le_trans hge q)
      · rw [e]; exact Or.inr hge
      · rw [e]; exact Or.inr hge
  rw [← hcv]
  exact ⟨hc, h3⟩

end DubinsStraight

section DubinsStraight2
variable {K : Type} [LinearOrderedField K] [FloorRing K]

/-- `extend_dubins_all` returns when the recursion budget covers a full turn on each
circle and the four centre distances, for a positive radius and step. -/
theorem extend_dubins_all_total (d : dubins_c K) (m : Libm K) (n : Nat)
    (si sf : dubins_state_t K) (rt : Bool) (traj : dubins_trajectory_t K) (r : K)
    (hpi : 0 < m.M_PI) (hr : 0 < r) (hd : 0 < d.delta_distance)
    (hn1 : 2 * m.M_PI ≤ (n : K) * (d.delta_distance / r))
    (hn2 : ∀ a ∈ [extend_dubins_all_left m si r, extend_dubins_all_right m si r],
      ∀ b ∈ [extend_dubins_all_left m sf r, extend_dubins_all_right m sf r],
        extend_dubins_spheres_distance m a b ≤ (n : K) * d.delta_distance) :
    ∃ res, d.extend_dubins_all m n si sf rt traj r = some res := by
  rw [extend_dubins_all_eq_times]
  unfold extend_dubins_all_times
  simp only
  obtain ⟨x0, e0⟩ := extend_dubins_spheres_total d m n (extend_dubins_all_left m si r)
    (extend_dubins_all_right m sf r) 1 r rt traj hpi hr hd hn1
    (hn2 _ (by simp) _ (by simp))
  rw [e0]
  simp only
  obtain ⟨x1, e1⟩ := extend_dubins_spheres_total d m n (extend_dubins_all_right m si r)
    (extend_dubins_all_left m sf r) 2 r rt x0.2 hpi hr hd hn1
    (hn2 _ (by simp) _ (by simp))
  rw [e1]
  simp only
  obtain ⟨x2, e2⟩ := extend_dubins_spheres_total d m n (extend_dubins_all_left m si r)
    (extend_dubins_all_left m sf r) 3 r rt x1.2 hpi hr hd hn1
    (hn2 _ (by simp) _ (by simp))
  rw [e2]
  simp only
  obtain ⟨x3, e3⟩ := extend_dubins_spheres_total d m n (extend_dubins_all_right m si r)
    (extend_dubins_all_right m sf r) 4 r rt x2.2 hpi hr hd hn1
    (hn2 _ (by simp) _ (by simp))
  rw [e3]
  simp only
  split
  · exact ⟨_, rfl⟩
  · exact ⟨_, rfl⟩

/-- `evaluate_extend_cost` of the planner `dubins_c()` on a fresh `opt_data`, from the
value `c` of `extend_dubins_all` with the one turning radius: a cost in `(0, FLT_MAX/2]`
is returned with the index 0, and for a cost that is not positive the result is `-1`. -/
theorem evaluate_extend_cost_fresh (m : Libm K) (fuel : Nat) (si sf : dubins_state_t K)
    (c : K) (T : dubins_trajectory_t K)
    (h : (dubins_new : dubins_c K).extend_dubins_all m fuel si sf false Trajectory.empty
      (35 / 10) = some (c, T)) :
    (0 < c → c < m.FLT_MAX → c ≤ m.FLT_MAX / 2 →
      (dubins_new : dubins_c K).evaluate_extend_cost m fuel si sf dubins_optimization_data_new
        = some (c, { turning_radius := 0 })) ∧
    (c ≤ 0 → 0 < m.FLT_MAX →
      (dubins_new : dubins_c K).evaluate_extend_cost m fuel si sf dubins_optimization_data_new
        = some (-1, { turning_radius := -1 })) := by
  have e : (List.range (dubins_new : dubins_c K).turning_radii.length).reverse = [0] := rfl
  have e1 : (dubins_new : dubins_c K).turning_radii.get? 0 = some (35 / 10) := rfl
  constructor
  · intro h0 h1 h2
    unfold dubins_c.evaluate_extend_cost
    simp only
    rw [if_neg (by decide), e]
    simp only [List.foldl, evaluate_extend_cost_step, e1, h, gt_iff_lt, h0, h1, if_true]
    rw [if_neg (by
      simp only [not_or, not_lt]
      exact ⟨h0.le, h2⟩)]
    rfl
  · intro h0 h1
    unfold dubins_c.evaluate_extend_cost
    simp only
    rw [if_neg (by decide), e]
    simp only [List.foldl, evaluate_extend_cost_step, e1, h, gt_iff_lt, not_lt.mpr h0,
      if_false]
    rw [if_pos (Or.inr (by linarith))]

end DubinsStraight2

section DubinsRange
variable {K : Type} [LinearOrderedField K] [FloorRing K]

/-- `modulo_mpi_pi` reduces an angle to `[-π, π)`. -/
theorem modulo_mpi_pi_range (m : Libm K) (hpi : 0 < m.M_PI) (t : K) :
    -m.M_PI ≤ modulo_mpi_pi m t ∧ modulo_mpi_pi m t < m.M_PI := by
  unfold modulo_mpi_pi
  have h2 : 0 < 2 * m.M_PI := by linarith
  have h1 := Int.floor_le ((t + m.M_PI) / (2 * m.M_PI))
  have h3 := Int.lt_floor_add_one ((t + m.M_PI) / (2 * m.M_PI))
  rw [le_div_iff₀ h2] at h1
  rw [div_lt_iff₀ h2] at h3
  constructor
  · linarith
  · linarith

/-- The cost is at most the centre distance plus two half turns. -/
theorem extend_dubins_spheres_cost_le (m : Libm K) (hpi : 0 < m.M_PI) (inc : K × K)
    (r dist : K) (hr : 0 ≤ r) :
    extend_dubins_spheres_cost m inc r dist ≤ 2 * m.M_PI * r + dist := by
  unfold extend_dubins_spheres_cost
  simp only
  obtain ⟨a1, a2⟩ := modulo_mpi_pi_range m hpi inc.1
  obtain ⟨b1, b2⟩ := modulo_mpi_pi_range m hpi inc.2
  have h1 : |modulo_mpi_pi m inc.1| ≤ m.M_PI := abs_le.mpr ⟨a1, a2.le⟩
  have h2 : |modulo_mpi_pi m inc.2| ≤ m.M_PI := abs_le.mpr ⟨b1, b2.le⟩
  have h3 : (|modulo_mpi_pi m inc.1| + |modulo_mpi_pi m inc.2|) * r ≤ (2 * m.M_PI) * r :=
    mul_le_mul_of_nonneg_right (by linarith) hr
  linarith

/-- Below the overflow range of `float` a cost that `extend_dubins_spheres` returns is
below `FLT_MAX/2`: for a bound `B` above 18 whose square is at most `FLT_MAX`, a turning
radius of at most `B` and circle centres whose squared distance is at most `B * B`. -/
theorem extend_dubins_spheres_below (d : dubins_c K) (m : Libm K) (hm : m.Sound)
    (fuel : Nat) (si sf : dubins_state_t K) (comb_no : Int) (r : K) (hr : 0 ≤ r)
    (traj : dubins_trajectory_t K) (B : K) (hB : 18 < B) (hF : B * B ≤ m.FLT_MAX)
    (hrB : r ≤ B)
    (hsq : (sf.1 - si.1) * (sf.1 - si.1) + (sf.2.1 - si.2.1) * (sf.2.1 - si.2.1) ≤ B * B)
    (c : K) (h : d.extend_dubins_spheres m fuel si sf comb_no r false traj = some (c, traj)) :
    c = -1 ∨ c < m.FLT_MAX / 2 := by
  obtain ⟨c1, h1, _, h3⟩ := extend_dubins_spheres_false d m fuel si sf comb_no r traj
  rw [h1] at h
  have hc : c1 = c := congrArg Prod.fst (Option.some.inj h)
  subst hc
  rcases h3 with ⟨e, _, _⟩ | ⟨inc, _, _, e, _⟩
  · exact Or.inl e
  · right
    have hle := extend_dubins_spheres_cost_le m hm.pi_pos inc r
      (extend_dubins_spheres_distance m si sf) hr
    have hd : extend_dubins_spheres_distance m si sf ≤ B := by
      unfold extend_dubins_spheres_distance
      have := hm.sqrt_le_sqrt _ _ hsq
      rw [hm.sqrt_mul_self B (by linarith)] at this
      exact this
    have hp4 := hm.pi_le_four
    have hpr : 2 * m.M_PI * r ≤ 8 * B := by nlinarith [hm.pi_pos]
    rw [e]
    nlinarith

/-- Below the overflow range of `float`, `extend_dubins_all` returns `-1` exactly when
all four entries of `times` are `-1`, and otherwise the least of the entries other than
`-1`. -/
theorem extend_dubins_all_exact (d : dubins_c K) (m : Libm K) (hm : m.Sound) (fuel : Nat)
    (si sf : dubins_state_t K) (r : K) (hr : 0 ≤ r) (traj : dubins_trajectory_t K)
    (B : K) (hB : 18 < B) (hF : B * B ≤ m.FLT_MAX) (hrB : r ≤ B)
    (hsq : ∀ a ∈ [extend_dubins_all_left m si r, extend_dubins_all_right m si r],
      ∀ b ∈ [extend_dubins_all_left m sf r, extend_dubins_all_right m sf r],
        (b.1 - a.1) * (b.1 - a.1) + (b.2.1 - a.2.1) * (b.2.1 - a.2.1) ≤ B * B) :
    ∃ t0 t1 t2 t3 c,
      extend_dubins_all_times d m fuel si sf false traj r = some ([t0, t1, t2, t3], traj) ∧
      d.extend_dubins_all m fuel si sf false traj r = some (c, traj) ∧
      (c = -1 ↔ ∀ t ∈ [t0, t1, t2, t3], t = -1) ∧
      (c ≠ -1 → c ∈ [t0, t1, t2, t3] ∧ 0 ≤ c ∧
        ∀ t ∈ [t0, t1, t2, t3], t ≠ -1 → c ≤ t) ∧
      ∀ (fuel1 : Nat) (rt : Bool) (tr : dubins_trajectory_t K)
        (res : K × dubins_trajectory_t K),
        d.extend_dubins_all m fuel1 si sf rt tr r = some res → res.1 = c := by
  obtain ⟨t0, t1, t2, t3, e0, e1, e2, e3, ht, _, _⟩ :=
    extend_dubins_all_times_spec d m hm fuel si sf r hr traj
  obtain ⟨s0, s1, s2, s3, c, hs, hall, g1, g2, g3⟩ :=
    extend_dubins_all_encoding d m hm fuel si sf r hr traj
  rw [ht] at hs
  have hl : [t0, t1, t2, t3] = [s0, s1, s2, s3] := congrArg Prod.fst (Option.some.inj hs)
  rw [← hl] at g1 g2
  have b0 := extend_dubins_spheres_below d m hm fuel _ _ 1 r hr traj B hB hF hrB
    (hsq _ (by simp) _ (by simp)) t0 e0
  have b1 := extend_dubins_spheres_below d m hm fuel _ _ 2 r hr traj B hB hF hrB
    (hsq _ (by simp) _ (by simp)) t1 e1
  have b2 := extend_dubins_spheres_below d m hm fuel _ _ 3 r hr traj B hB hF hrB
    (hsq _ (by simp) _ (by simp)) t2 e2
  have b3 := extend_dubins_spheres_below d m hm fuel _ _ 4 r hr traj B hB hF hrB
    (hsq _ (by simp) _ (by simp)) t3 e3
  have hb : ∀ t ∈ [t0, t1, t2, t3], t = -1 ∨ t < m.FLT_MAX / 2 := by
    intro t ht'
    simp only [List.mem_cons, List.mem_singleton, List.not_mem_nil, or_false] at ht'
    rcases ht' with q | q | q | q <;> rw [q] <;> assumption
  refine ⟨t0, t1, t2, t3, c, ht, hall, ?_, ?_, g3⟩
  · rw [g1]
    constructor
    · intro h t ht'
      rcases h t ht' with q | q
      · exact q
      · rcases hb t ht' with p | p
        · exact p
        · exact absurd q (not_le.mpr p)
    · intro h t ht'
      exact Or.inl (h t ht')
  · intro hne
    obtain ⟨k1, k2, _, k4⟩ := g2 hne
    exact ⟨k1, k2, k4⟩

end DubinsRange

section DubinsClaims
variable {K : Type} [LinearOrderedField K] [FloorRing K]

/-- **C21** (Dubins straight shot).  In the planner `dubins_c()`, whose one turning radius
is `35/10`, over exact arithmetic with a math library that satisfies `Libm.Sound` and
with `FLT_MAX > 20`, for `si = (0, 0, 0)` and `sf = (10, 0, 0)`: `extend_dubins_all`
returns the cost `10` (without `return_trajectory` for every recursion budget, leaving
`traj` as it was; with it for every budget of at least 560; and every call that
returns gives `10`); `evaluate_extend_cost` on a fresh `opt_data` returns `10` and sets
the index 0; the entries of `times` for the combinations 3 and 4 are `10`, both with
the two turn increments equal to `0`, and the combinations 1 and 2 are infeasible or
cost at least `10`. -/
theorem dubins_straight_shot (m : Libm K) (hm : m.Sound) (hf : 20 < m.FLT_MAX) (fuel : Nat)
    (traj : dubins_trajectory_t K) :
    (dubins_new : dubins_c K).extend_dubins_all m fuel (0, 0, 0) (10, 0, 0) false traj (35 / 10)
      = some (10, traj) ∧
    (dubins_new : dubins_c K).evaluate_extend_cost m fuel (0, 0, 0) (10, 0, 0)
      dubins_optimization_data_new = some (10, { turning_radius := 0 }) ∧
    (∃ t0 t1, extend_dubins_all_times (dubins_new : dubins_c K) m fuel (0, 0, 0) (10, 0, 0)
        false traj (35 / 10) = some ([t0, t1, 10, 10], traj) ∧
      (t0 = -1 ∨ 10 ≤ t0) ∧ (t1 = -1 ∨ 10 ≤ t1)) ∧
    extend_dubins_spheres_increments m (extend_dubins_all_left m (0, 0, 0) (35 / 10))
      (extend_dubins_all_left m (10, 0, 0) (35 / 10)) 3 (35 / 10) = some (0, 0) ∧
    extend_dubins_spheres_increments m (extend_dubins_all_right m (0, 0, 0) (35 / 10))
      (extend_dubins_all_right m (10, 0, 0) (35 / 10)) 4 (35 / 10) = some (0, 0) ∧
    (∀ (fuel1 : Nat) (rt : Bool) (tr : dubins_trajectory_t K)
      (res : K × dubins_trajectory_t K),
      (dubins_new : dubins_c K).extend_dubins_all m fuel1 (0, 0, 0) (10, 0, 0) rt tr (35 / 10)
        = some res → res.1 = 10) ∧
    (560 ≤ fuel → ∃ T, (dubins_new : dubins_c K).extend_dubins_all m fuel (0, 0, 0)
      (10, 0, 0) true traj (35 / 10) = some (10, T)) := by
  have hpi := hm.pi_pos
  have hr : (0 : K) ≤ 35 / 10 := by norm_num
  have hlt : (10 : K) < m.FLT_MAX / 2 := by linarith
  obtain ⟨i3, i4, hts⟩ := extend_dubins_straight (dubins_new : dubins_c K) m hm fuel 10
    (35 / 10) (by norm_num) hr traj
  have hall := fun (f : Nat) (tr : dubins_trajectory_t K) =>
    extend_dubins_all_straight (dubins_new : dubins_c K) m hm f 10 (35 / 10) (by norm_num) hr tr
  simp only [if_pos hlt] at hall
  refine ⟨(hall fuel traj).1, ?_, hts, i3, i4, (hall fuel traj).2, ?_⟩
  · exact (evaluate_extend_cost_fresh m fuel (0, 0, 0) (10, 0, 0) 10 _
      (hall fuel Trajectory.empty).1).1 (by norm_num) (by linarith) hlt.le
  · intro hn
    have hnK : (560 : K) ≤ (fuel : K) := by exact_mod_cast hn
    have h28 : m.sqrt (28 * 28) = 28 := hm.sqrt_mul_self 28 (by norm_num)
    obtain ⟨res, hres⟩ := extend_dubins_all_total (dubins_new : dubins_c K) m fuel (0, 0, 0)
      (10, 0, 0) true traj (35 / 10) hpi (by norm_num)
      (by simp only [dubins_new]; norm_num)
      (by
        have := hm.pi_le_four
        simp only [dubins_new]
        linarith)
      (by
        intro a ha b hb
        have hb2 : ∀ x : K, x ≤ 28 * 28 →
            m.sqrt x ≤ (fuel : K) * (dubins_new : dubins_c K).delta_distance := by
          intro x hx
          have := hm.sqrt_le_sqrt x (28 * 28) hx
          rw [h28] at this
          simp only [dubins_new]
          linarith
        rw [extend_dubins_all_left_zero m hm, extend_dubins_all_right_zero m hm] at ha hb
        simp only [List.mem_cons, List.mem_singleton, List.not_mem_nil, or_false] at ha hb
        unfold extend_dubins_spheres_distance
        rcases ha with e | e <;> rcases hb with g | g <;> rw [e, g] <;> apply hb2 <;> norm_num)
    have e := (hall fuel traj).2 _ _ _ _ hres
    refine ⟨res.2, ?_⟩
    rw [hres, ← e]

/-- **C26** (Dubins cost encoding), below the overflow range of `float`.  For a turning
radius `r ≥ 0`, over exact arithmetic with a math library that satisfies `Libm.Sound`: a
call of `extend_dubins_spheres` without `return_trajectory` returns (every returning
call gives the same value), and its value is either exactly `-1` or at least the centre
distance, which is not negative; it is `-1` exactly when the `switch` statements return
(combination 1 or 2 with centre distance at most `2r`, or a combination number outside
1..4 with centre distance above `2r`) or the test on the turn increments fails.  When the
turning radius is at most `B` and the squared distances of the circle centres are at most
`B * B`, for a bound `B > 18` with `B * B ≤ FLT_MAX` (so that `x_tr*x_tr + y_tr*y_tr` stays
in the range of `float`), `extend_dubins_all` returns `-1` exactly when every entry of
`times` is `-1`, and otherwise the least of the entries other than `-1`, which is not
negative. -/
theorem dubins_cost_encoding (d : dubins_c K) (m : Libm K) (hm : m.Sound) (fuel : Nat)
    (si sf : dubins_state_t K) (r : K) (hr : 0 ≤ r) (traj : dubins_trajectory_t K) :
    (∀ comb_no : Int, ∃ c,
      d.extend_dubins_spheres m fuel si sf comb_no r false traj = some (c, traj) ∧
      (c = -1 ∨ (0 ≤ extend_dubins_spheres_distance m si sf ∧
        extend_dubins_spheres_distance m si sf ≤ c)) ∧
      (c = -1 ↔ (extend_dubins_spheres_increments m si sf comb_no r = none ∨
        ∃ inc, extend_dubins_spheres_increments m si sf comb_no r = some inc ∧
          extend_dubins_spheres_rejects m inc)) ∧
      (extend_dubins_spheres_increments m si sf comb_no r = none ↔
        ((comb_no = 1 ∨ comb_no = 2) ∧ extend_dubins_spheres_distance m si sf ≤ 2 * r) ∨
        (¬ (comb_no = 1 ∨ comb_no = 2 ∨ comb_no = 3 ∨ comb_no = 4) ∧
          2 * r < extend_dubins_spheres_distance m si sf)) ∧
      ∀ (fuel1 : Nat) (rt : Bool) (tr : dubins_trajectory_t K)
        (res : K × dubins_trajectory_t K),
        d.extend_dubins_spheres m fuel1 si sf comb_no r rt tr = some res → res.1 = c) ∧
    ∀ B : K, 18 < B → B * B ≤ m.FLT_MAX → r ≤ B →
      (∀ a ∈ [extend_dubins_all_left m si r, extend_dubins_all_right m si r],
        ∀ b ∈ [extend_dubins_all_left m sf r, extend_dubins_all_right m sf r],
          (b.1 - a.1) * (b.1 - a.1) + (b.2.1 - a.2.1) * (b.2.1 - a.2.1) ≤ B * B) →
      ∃ t0 t1 t2 t3 c,
        extend_dubins_all_times d m fuel si sf false traj r
          = some ([t0, t1, t2, t3], traj) ∧
        d.extend_dubins_all m fuel si sf false traj r = some (c, traj) ∧
        (c = -1 ↔ ∀ t ∈ [t0, t1, t2, t3], t = -1) ∧
        (c ≠ -1 → c ∈ [t0, t1, t2, t3] ∧ 0 ≤ c ∧
          ∀ t ∈ [t0, t1, t2, t3], t ≠ -1 → c ≤ t) ∧
        ∀ (fuel1 : Nat) (rt : Bool) (tr : dubins_trajectory_t K)
          (res : K × dubins_trajectory_t K),
          d.extend_dubins_all m fuel1 si sf rt tr r = some res → res.1 = c := by
  refine ⟨?_, fun B hB hF hrB hsq =>
    extend_dubins_all_exact d m hm fuel si sf r hr traj B hB hF hrB hsq⟩
  intro comb_no
  obtain ⟨c, h1, h2, h3⟩ := extend_dubins_spheres_false d m fuel si sf comb_no r traj
  have hd := extend_dubins_spheres_distance_nonneg hm si sf
  refine ⟨c, h1, ?_, ?_, extend_dubins_spheres_increments_none m si sf comb_no r, h2⟩
  · rcases h3 with ⟨e, _, _⟩ | ⟨inc, _, _, e, _⟩
    · exact Or.inl e
    · right
      rw [e]
      exact ⟨hd, extend_dubins_spheres_cost_ge m inc r _ hr⟩
  · rcases h3 with ⟨e, h, _⟩ | ⟨inc, hi, hj, e, _⟩
    · exact ⟨fun _ => h, fun _ => e⟩
    · constructor
      · intro hc
        exfalso
        have := extend_dubins_spheres_cost_ge m inc r (extend_dubins_spheres_distance m si sf) hr
        rw [← e, hc] at this
        linarith
      · intro h
        exfalso
        rcases h with h | ⟨inc2, h, hj2⟩
        · rw [hi] at h
          exact absurd h (by simp)
        · rw [hi] at h
          rw [Option.some.inj h] at hj
          exact hj hj2

end DubinsClaims

section DubinsRealClaims

/-- The functions of the real numbers satisfy `Libm.Exact`. -/
theorem real_libm_exact :
    Libm.Exact ({ cos := Real.cos, sin := Real.sin, atan2 := fun y x => Complex.arg ⟨x, y⟩, acos := Real.arccos, sqrt := Real.sqrt, M_PI := Real.pi, FLT_MAX := 2 ^ 128 - 2 ^ 104 } : Libm ℝ) where
  cos_neg_pi := by
    show Real.cos (-Real.pi) = -1
    rw [Real.cos_neg, Real.cos_pi]
  sin_neg_pi := by
    show Real.sin (-Real.pi) = 0
    rw [Real.sin_neg, Real.sin_pi, neg_zero]
  atan2_pos_zero := fun y hy => by
    show Complex.arg ⟨0, y⟩ = Real.pi / 2
    rw [Complex.arg_eq_pi_div_two_iff]
    exact ⟨rfl, hy⟩
  atan2_neg_zero := fun y hy => by
    show Complex.arg ⟨0, y⟩ = -(Real.pi / 2)
    rw [Complex.arg_eq_neg_pi_div_two_iff]
    exact ⟨rfl, hy⟩
  atan2_zero_zero := by
    show Complex.arg ⟨0, 0⟩ = 0
    exact Complex.arg_zero
  flt_max_ge := by
    show (10 : ℝ) ^ 37 ≤ 2 ^ 128 - 2 ^ 104
    norm_num

/-- The straight shot over the real numbers: an instance of `dubins_straight_shot`. -/
theorem dubins_straight_shot_witness :
    (20 : ℝ) < 2 ^ 128 - 2 ^ 104 ∧
    (dubins_new : dubins_c ℝ).extend_dubins_all
      { cos := Real.cos, sin := Real.sin, atan2 := fun y x => Complex.arg ⟨x, y⟩, acos := Real.arccos, sqrt := Real.sqrt, M_PI := Real.pi, FLT_MAX := 2 ^ 128 - 2 ^ 104 }
      0 (0, 0, 0) (10, 0, 0) false Trajectory.empty (35 / 10) = some (10, Trajectory.empty) ∧
    (dubins_new : dubins_c ℝ).evaluate_extend_cost
      { cos := Real.cos, sin := Real.sin, atan2 := fun y x => Complex.arg ⟨x, y⟩, acos := Real.arccos, sqrt := Real.sqrt, M_PI := Real.pi, FLT_MAX := 2 ^ 128 - 2 ^ 104 }
      0 (0, 0, 0) (10, 0, 0) dubins_optimization_data_new
      = some (10, { turning_radius := 0 }) :=
  ⟨by norm_num,
    (dubins_straight_shot _ real_libm_sound (by show (20 : ℝ) < 2 ^ 128 - 2 ^ 104; norm_num) 0
      Trajectory.empty).1,
    (dubins_straight_shot _ real_libm_sound (by show (20 : ℝ) < 2 ^ 128 - 2 ^ 104; norm_num) 0
      Trajectory.empty).2.1⟩

/-- The cost encoding over the real numbers, for the radius `35/10`, the states
`(0, 0, 0)` and `(10, 0, 0)` and the bound 50: an instance of `dubins_cost_encoding`. -/
theorem dubins_cost_encoding_witness :
    (0 : ℝ) ≤ 35 / 10 ∧ (18 : ℝ) < 50 ∧ (50 : ℝ) * 50 ≤ 2 ^ 128 - 2 ^ 104 ∧
    (35 / 10 : ℝ) ≤ 50 ∧
    ∃ c, (dubins_new : dubins_c ℝ).extend_dubins_all
      { cos := Real.cos, sin := Real.sin, atan2 := fun y x => Complex.arg ⟨x, y⟩, acos := Real.arccos, sqrt := Real.sqrt, M_PI := Real.pi, FLT_MAX := 2 ^ 128 - 2 ^ 104 }
      0 (0, 0, 0) (10, 0, 0) false Trajectory.empty (35 / 10) = some (c, Trajectory.empty) ∧
      (c ≠ -1 → 0 ≤ c) := by
  refine ⟨by norm_num, by norm_num, by norm_num, by norm_num, ?_⟩
  obtain ⟨_, _, _, _, c, _, h, _, h4, _⟩ :=
    (dubins_cost_encoding (dubins_new : dubins_c ℝ) _ real_libm_sound 0 (0, 0, 0)
      (10, 0, 0) (35 / 10) (by norm_num) Trajectory.empty).2 50 (by norm_num)
      (by show (50 : ℝ) * 50 ≤ 2 ^ 128 - 2 ^ 104; norm_num) (by norm_num)
      (by
        intro a ha b hb
        rw [extend_dubins_all_left_zero _ real_libm_sound,
          extend_dubins_all_right_zero _ real_libm_sound] at ha hb
        simp only [List.mem_cons, List.mem_singleton, List.not_mem_nil, or_false] at ha hb
        rcases ha with e | e <;> rcases hb with g | g <;> rw [e, g] <;> norm_num)
  exact ⟨c, h, fun hne => (h4 hne).2.1⟩

/-- Counterexample to **C26** as stated: over the real numbers with
`FLT_MAX = 2^128 - 2^104`, radius `35/10`, from `(0, 0, 0)` to `(2^127, 0, 0)` the
combination 4 is feasible, its entry of `times` is not `-1` (it is not negative and not
below `FLT_MAX/2`), and `extend_dubins_all` returns `-1`. -/
theorem dubins_far_counterexample :
    ∃ t0 t1 t2 t3, extend_dubins_all_times (dubins_new : dubins_c ℝ)
      { cos := Real.cos, sin := Real.sin, atan2 := fun y x => Complex.arg ⟨x, y⟩, acos := Real.arccos, sqrt := Real.sqrt, M_PI := Real.pi, FLT_MAX := 2 ^ 128 - 2 ^ 104 }
      0 (0, 0, 0) (2 ^ 127, 0, 0) false Trajectory.empty (35 / 10)
        = some ([t0, t1, t2, t3], Trajectory.empty) ∧
      t3 ≠ -1 ∧ 0 ≤ t3 ∧ ((2 : ℝ) ^ 128 - 2 ^ 104) / 2 ≤ t3 ∧
      (dubins_new : dubins_c ℝ).extend_dubins_all
        { cos := Real.cos, sin := Real.sin, atan2 := fun y x => Complex.arg ⟨x, y⟩, acos := Real.arccos, sqrt := Real.sqrt, M_PI := Real.pi, FLT_MAX := 2 ^ 128 - 2 ^ 104 }
        0 (0, 0, 0) (2 ^ 127, 0, 0) false Trajectory.empty (35 / 10)
        = some (-1, Trajectory.empty) := by
  obtain ⟨_, _, t0, t1, ht, _, _⟩ := extend_dubins_straight (dubins_new : dubins_c ℝ) _
    real_libm_sound 0 ((2 : ℝ) ^ 127) (35 / 10) (by norm_num) (by norm_num) Trajectory.empty
  refine ⟨t0, t1, 2 ^ 127, 2 ^ 127, ht, by norm_num, by norm_num, by norm_num, ?_⟩
  have h := (extend_dubins_all_straight (dubins_new : dubins_c ℝ) _ real_libm_sound 0
    ((2 : ℝ) ^ 127) (35 / 10) (by norm_num) (by norm_num) Trajectory.empty).1
  rw [if_neg (by show ¬ ((2 : ℝ) ^ 127 < (2 ^ 128 - 2 ^ 104) / 2); norm_num)] at h
  exact h

end DubinsRealClaims

section DubinsTurns
variable {K : Type} [LinearOrderedField K] [FloorRing K]

/-- The two circle centres of the state `(x, y, π)`. -/
theorem extend_dubins_all_left_pi (m : Libm K) (hx : m.Exact) (x y r : K) :
    extend_dubins_all_left m (x, y, m.M_PI) r = (x, y - r, m.M_PI + 3 * m.M_PI_2) := by
  unfold extend_dubins_all_left
  simp only [hx.cos_neg_pi, hx.sin_neg_pi, mul_zero, add_zero, mul_neg, mul_one,
    ← sub_eq_add_neg]

theorem extend_dubins_all_right_pi (m : Libm K) (hx : m.Exact) (x y r : K) :
    extend_dubins_all_right m (x, y, m.M_PI) r = (x, y + r, m.M_PI + m.M_PI_2) := by
  unfold extend_dubins_all_right
  simp only [hx.cos_neg_pi, hx.sin_neg_pi, mul_zero, sub_zero, mul_neg, mul_one, sub_neg_eq_add]

/-- The combinations 1 and 2 are infeasible when the centre distance is at most `2r`. -/
theorem extend_dubins_spheres_increments_near (m : Libm K) (si sf : dubins_state_t K)
    (comb_no : Int) (r : K) (hc : comb_no = 1 ∨ comb_no = 2)
    (h : extend_dubins_spheres_distance m si sf ≤ 2 * r) :
    extend_dubins_spheres_increments m si sf comb_no r = none :=
  (extend_dubins_spheres_increments_none m si sf comb_no r).mpr (Or.inl ⟨hc, h⟩)

/-- Both turn increments `3π/2` fail the test of `extend_dubins_spheres`. -/
theorem extend_dubins_spheres_rejects_both (m : Libm K) (hpi : 0 < m.M_PI) :
    extend_dubins_spheres_rejects m (3 * m.M_PI_2, 3 * m.M_PI_2) := by
  unfold extend_dubins_spheres_rejects Libm.M_PI_2
  left
  constructor <;> simp only [gt_iff_lt] <;> linarith

/-- The U-turn in place, from `(0, 0, 0)` to `(0, 0, π)` with the radius `r > 0`: the
circle centres of the combinations 1 and 2 coincide, and the combinations 3 and 4 have
both turn increments `3π/2`. -/
theorem extend_dubins_u_turn_increments (m : Libm K) (hm : m.Sound) (hx : m.Exact) (r : K)
    (hr : 0 < r) :
    extend_dubins_spheres_increments m (extend_dubins_all_left m (0, 0, 0) r)
      (extend_dubins_all_right m (0, 0, m.M_PI) r) 1 r = none ∧
    extend_dubins_spheres_increments m (extend_dubins_all_right m (0, 0, 0) r)
      (extend_dubins_all_left m (0, 0, m.M_PI) r) 2 r = none ∧
    extend_dubins_spheres_increments m (extend_dubins_all_left m (0, 0, 0) r)
      (extend_dubins_all_left m (0, 0, m.M_PI) r) 3 r
        = some (3 * m.M_PI_2, 3 * m.M_PI_2) ∧
    extend_dubins_spheres_increments m (extend_dubins_all_right m (0, 0, 0) r)
      (extend_dubins_all_right m (0, 0, m.M_PI) r) 4 r
        = some (3 * m.M_PI_2, 3 * m.M_PI_2) := by
  have hpi := hm.pi_pos
  have hs0 : m.sqrt (0 * 0) = 0 := hm.sqrt_mul_self 0 (le_refl _)
  rw [extend_dubins_all_left_zero m hm, extend_dubins_all_right_zero m hm,
    extend_dubins_all_left_pi m hx, extend_dubins_all_right_pi m hx]
  refine ⟨?_, ?_, ?_, ?_⟩
  · apply extend_dubins_spheres_increments_near m _ _ 1 r (Or.inl rfl)
    unfold extend_dubins_spheres_distance
    simp only [sub_self, zero_add, mul_zero, add_zero]
    rw [show (0 : K) = 0 * 0 by ring, hs0]
    linarith
  · apply extend_dubins_spheres_increments_near m _ _ 2 r (Or.inr rfl)
    unfold extend_dubins_spheres_distance
    simp only [sub_self, zero_sub, sub_neg_eq_add, neg_add_cancel, mul_zero, add_zero]
    rw [show (0 : K) = 0 * 0 by ring, hs0]
    linarith
  · rw [extend_dubins_spheres_increments_three]
    simp only [sub_self, zero_sub]
    rw [hx.atan2_neg_zero (-r - r) (by linarith)]
    rw [modulo_zero_2pi_eq m hpi (-2) _ (3 * m.M_PI_2)
        (by unfold Libm.M_PI_2; push_cast; ring)
        (by unfold Libm.M_PI_2; linarith) (by unfold Libm.M_PI_2; linarith),
      modulo_zero_2pi_eq m hpi 1 _ (3 * m.M_PI_2)
        (by unfold Libm.M_PI_2; push_cast; ring)
        (by unfold Libm.M_PI_2; linarith) (by unfold Libm.M_PI_2; linarith)]
  · rw [extend_dubins_spheres_increments_four]
    simp only [sub_self, zero_add, sub_neg_eq_add]
    rw [hx.atan2_pos_zero (r + r) (by linarith)]
    rw [modulo_zero_2pi_eq m hpi (-1) _ (3 * m.M_PI_2)
        (by unfold Libm.M_PI_2; push_cast; ring)
        (by unfold Libm.M_PI_2; linarith) (by unfold Libm.M_PI_2; linarith),
      modulo_zero_2pi_eq m hpi (-1) _ (3 * m.M_PI_2)
        (by unfold Libm.M_PI_2; push_cast; ring)
        (by unfold Libm.M_PI_2; linarith) (by unfold Libm.M_PI_2; linarith)]

/-- The U-turn in place is infeasible: each of the four calls returns `-1`, and so does
`extend_dubins_all`, for every recursion budget, with and without
`return_trajectory`, leaving `traj` as it was. -/
theorem extend_dubins_all_u_turn (d : dubins_c K) (m : Libm K) (hm : m.Sound) (hx : m.Exact)
    (r : K) (hr : 0 < r) (fuel : Nat) (rt : Bool) (traj : dubins_trajectory_t K) :
    extend_dubins_all_times d m fuel (0, 0, 0) (0, 0, m.M_PI) rt traj r
      = some ([-1, -1, -1, -1], traj) ∧
    d.extend_dubins_all m fuel (0, 0, 0) (0, 0, m.M_PI) rt traj r = some (-1, traj) := by
  obtain ⟨i1, i2, i3, i4⟩ := extend_dubins_u_turn_increments m hm hx r hr
  have hj := extend_dubins_spheres_rejects_both m hm.pi_pos
  have ht : extend_dubins_all_times d m fuel (0, 0, 0) (0, 0, m.M_PI) rt traj r
      = some ([-1, -1, -1, -1], traj) := by
    unfold extend_dubins_all_times
    simp only [extend_dubins_spheres_none d m fuel _ _ 1 r rt traj i1,
      extend_dubins_spheres_none d m fuel _ _ 2 r rt traj i2,
      extend_dubins_spheres_rejected d m fuel _ _ 3 r rt traj _ i3 hj,
      extend_dubins_spheres_rejected d m fuel _ _ 4 r rt traj _ i4 hj]
  refine ⟨ht, ?_⟩
  rw [extend_dubins_all_eq_times, ht]
  simp only
  rcases extend_dubins_all_select_spec m (-1) (-1) (-1) (-1) with ⟨h1, _⟩ | ⟨_, h2, h3, _⟩
  · rw [if_pos h1]
  · exfalso
    simp only [List.mem_cons, List.mem_singleton, List.not_mem_nil, or_false, or_self] at h2
    rw [h2] at h3
    linarith

end DubinsTurns

section DubinsClaims2
variable {K : Type} [LinearOrderedField K] [FloorRing K]

/-- **C22** (Dubins U-turn), as the code computes it.  In the planner `dubins_c()`
(turning radius `35/10`), over exact arithmetic with a math library that satisfies
`Libm.Sound` and `Libm.Exact`, for `si = (0, 0, 0)` and `sf = (0, 0, π)` no combination
is feasible: the circle centres of the combinations 1 and 2 coincide, the combinations
3 and 4 have both turn increments `3π/2`, which the test on the increments rejects;
all four entries of `times` are `-1`, `extend_dubins_all` returns `-1` (for every
recursion budget, with and without `return_trajectory`, leaving `traj` as it was) and
`evaluate_extend_cost` on a fresh `opt_data` returns `-1`. -/
theorem dubins_u_turn (m : Libm K) (hm : m.Sound) (hx : m.Exact) (fuel : Nat) (rt : Bool)
    (traj : dubins_trajectory_t K) :
    extend_dubins_spheres_increments m (extend_dubins_all_left m (0, 0, 0) (35 / 10))
      (extend_dubins_all_right m (0, 0, m.M_PI) (35 / 10)) 1 (35 / 10) = none ∧
    extend_dubins_spheres_increments m (extend_dubins_all_right m (0, 0, 0) (35 / 10))
      (extend_dubins_all_left m (0, 0, m.M_PI) (35 / 10)) 2 (35 / 10) = none ∧
    extend_dubins_spheres_increments m (extend_dubins_all_left m (0, 0, 0) (35 / 10))
      (extend_dubins_all_left m (0, 0, m.M_PI) (35 / 10)) 3 (35 / 10)
        = some (3 * m.M_PI_2, 3 * m.M_PI_2) ∧
    extend_dubins_spheres_increments m (extend_dubins_all_right m (0, 0, 0) (35 / 10))
      (extend_dubins_all_right m (0, 0, m.M_PI) (35 / 10)) 4 (35 / 10)
        = some (3 * m.M_PI_2, 3 * m.M_PI_2) ∧
    extend_dubins_spheres_rejects m (3 * m.M_PI_2, 3 * m.M_PI_2) ∧
    extend_dubins_all_times (dubins_new : dubins_c K) m fuel (0, 0, 0) (0, 0, m.M_PI) rt traj
      (35 / 10) = some ([-1, -1, -1, -1], traj) ∧
    (dubins_new : dubins_c K).extend_dubins_all m fuel (0, 0, 0) (0, 0, m.M_PI) rt traj
      (35 / 10) = some (-1, traj) ∧
    (dubins_new : dubins_c K).evaluate_extend_cost m fuel (0, 0, 0) (0, 0, m.M_PI)
      dubins_optimization_data_new = some (-1, { turning_radius := -1 }) := by
  have hpi := hm.pi_pos
  have hr : (0 : K) < 35 / 10 := by norm_num
  have hbig : (28 : K) < 10 ^ 37 := by norm_num
  have hfm := hx.flt_max_ge
  obtain ⟨i1, i2, i3, i4⟩ := extend_dubins_u_turn_increments m hm hx (35 / 10) hr
  have hu := fun (tr : dubins_trajectory_t K) (b : Bool) =>
    extend_dubins_all_u_turn (dubins_new : dubins_c K) m hm hx (35 / 10) hr fuel b tr
  refine ⟨i1, i2, i3, i4, extend_dubins_spheres_rejects_both m hpi, (hu traj rt).1,
    (hu traj rt).2, ?_⟩
  exact (evaluate_extend_cost_fresh m fuel (0, 0, 0) (0, 0, m.M_PI) (-1) _
    (hu Trajectory.empty false).2).2 (by norm_num) (by linarith)

/-- What `extend_dubins_all` leaves in `traj` with `return_trajectory`, for a radius that
is not negative: the `total_variation` is the entry of `times` of the last combination
whose entry is not `-1`, and the returned cost is the least such entry (below
`FLT_MAX/2`). -/
theorem extend_dubins_all_last (d : dubins_c K) (m : Libm K) (hm : m.Sound) (fuel : Nat)
    (si sf : dubins_state_t K) (r : K) (hr : 0 ≤ r) (traj : dubins_trajectory_t K) (c : K)
    (T : dubins_trajectory_t K)
    (h : d.extend_dubins_all m fuel si sf true traj r = some (c, T)) :
    ∃ t0 t1 t2 t3,
      extend_dubins_all_times d m fuel si sf false traj r = some ([t0, t1, t2, t3], traj) ∧
      (t3 ≠ -1 → T.total_variation = t3) ∧
      (t3 = -1 → t2 ≠ -1 → T.total_variation = t2) ∧
      (t3 = -1 → t2 = -1 → t1 ≠ -1 → T.total_variation = t1) ∧
      (t3 = -1 → t2 = -1 → t1 = -1 → t0 ≠ -1 → T.total_variation = t0) ∧
      (t3 = -1 → t2 = -1 → t1 = -1 → t0 = -1 → T = traj) ∧
      (c = -1 ↔ ∀ t ∈ [t0, t1, t2, t3], t = -1 ∨ m.FLT_MAX / 2 ≤ t) ∧
      (c ≠ -1 → c ∈ [t0, t1, t2, t3] ∧ 0 ≤ c ∧ c < m.FLT_MAX / 2 ∧
        ∀ t ∈ [t0, t1, t2, t3], t ≠ -1 → c ≤ t) := by
  obtain ⟨t0, t1, t2, t3, _, _, _, _, ht, _, hall⟩ :=
    extend_dubins_all_times_spec d m hm fuel si sf r hr traj
  obtain ⟨s0, s1, s2, s3, c1, hs, _, g1, g2, g3⟩ :=
    extend_dubins_all_encoding d m hm fuel si sf r hr traj
  rw [ht] at hs
  have hl : [t0, t1, t2, t3] = [s0, s1, s2, s3] := congrArg Prod.fst (Option.some.inj hs)
  rw [← hl] at g1 g2
  have hc : c = c1 := g3 _ _ _ _ h
  rw [← hc] at g1 g2
  rw [extend_dubins_all_eq_times] at h
  cases e : extend_dubins_all_times d m fuel si sf true traj r with
  | none => rw [e] at h; exact absurd h (by simp)
  | some a =>
    obtain ⟨ts, T1⟩ := a
    rw [e] at h
    simp only at h
    have hT : T1 = T := by
      split at h
      · exact congrArg Prod.snd (Option.some.inj h)
      · exact congrArg Prod.snd (Option.some.inj h)
    obtain ⟨_, q⟩ := hall _ _ _ _ _ e
    rw [hT] at q
    obtain ⟨q1, q2, q3, q4, q5⟩ := q rfl
    exact ⟨t0, t1, t2, t3, ht, q1, q2, q3, q4, q5, g1, g2⟩

/-- **C24** (materialised trajectory), as the code computes it.  For a turning radius
`r ≥ 0`, over exact arithmetic with a math library that satisfies `Libm.Sound`: when
`extend_dubins_all` with `return_trajectory` returns the cost `c` and leaves `T` in
`traj`, then with `times = [t0, t1, t2, t3]` the costs of the four combinations (`-1`
for an infeasible one), `T.total_variation` is the cost of the last feasible
combination in the order 1, 2, 3, 4 (and `T` is the `traj` passed in when none is
feasible), whereas `c` is the least of the feasible costs. -/
theorem extend_dubins_all_trajectory (d : dubins_c K) (m : Libm K) (hm : m.Sound)
    (fuel : Nat) (si sf : dubins_state_t K) (r : K) (hr : 0 ≤ r)
    (traj : dubins_trajectory_t K) (c : K) (T : dubins_trajectory_t K)
    (h : d.extend_dubins_all m fuel si sf true traj r = some (c, T)) :
    ∃ t0 t1 t2 t3,
      extend_dubins_all_times d m fuel si sf false traj r = some ([t0, t1, t2, t3], traj) ∧
      (t3 ≠ -1 → T.total_variation = t3) ∧
      (t3 = -1 → t2 ≠ -1 → T.total_variation = t2) ∧
      (t3 = -1 → t2 = -1 → t1 ≠ -1 → T.total_variation = t1) ∧
      (t3 = -1 → t2 = -1 → t1 = -1 → t0 ≠ -1 → T.total_variation = t0) ∧
      (t3 = -1 → t2 = -1 → t1 = -1 → t0 = -1 → T = traj) ∧
      (c ≠ -1 → c ∈ [t0, t1, t2, t3] ∧ 0 ≤ c ∧
        ∀ t ∈ [t0, t1, t2, t3], t ≠ -1 → c ≤ t) := by
  obtain ⟨t0, t1, t2, t3, ht, q1, q2, q3, q4, q5, _, g2⟩ :=
    extend_dubins_all_last d m hm fuel si sf r hr traj c T h
  exact ⟨t0, t1, t2, t3, ht, q1, q2, q3, q4, q5,
    fun hne => ⟨(g2 hne).1, (g2 hne).2.1, (g2 hne).2.2.2⟩⟩

/-- The straight shot with `return_trajectory`, in the planner `dubins_c()`: for a
recursion budget of at least 560 the call returns. -/
theorem extend_dubins_all_straight_total (m : Libm K) (hm : m.Sound) (n : Nat)
    (hn : 560 ≤ n) (traj : dubins_trajectory_t K) :
    ∃ c T, (dubins_new : dubins_c K).extend_dubins_all m n (0, 0, 0) (10, 0, 0) true traj
      (35 / 10) = some (c, T) := by
  have hpi := hm.pi_pos
  have hnK : (560 : K) ≤ (n : K) := by exact_mod_cast hn
  have h28 : m.sqrt (28 * 28) = 28 := hm.sqrt_mul_self 28 (by norm_num)
  obtain ⟨res, hres⟩ := extend_dubins_all_total (dubins_new : dubins_c K) m n (0, 0, 0)
    (10, 0, 0) true traj (35 / 10) hpi (by norm_num)
    (by simp only [dubins_new]; norm_num)
    (by
      have := hm.pi_le_four
      simp only [dubins_new]
      linarith)
    (by
      intro a ha b hb
      have hb2 : ∀ x : K, x ≤ 28 * 28 →
          m.sqrt x ≤ (n : K) * (dubins_new : dubins_c K).delta_distance := by
        intro x hx
        have := hm.sqrt_le_sqrt x (28 * 28) hx
        rw [h28] at this
        simp only [dubins_new]
        linarith
      rw [extend_dubins_all_left_zero m hm, extend_dubins_all_right_zero m hm] at ha hb
      simp only [List.mem_cons, List.mem_singleton, List.not_mem_nil, or_false] at ha hb
      unfold extend_dubins_spheres_distance
      rcases ha with e | e <;> rcases hb with g | g <;> rw [e, g] <;> apply hb2 <;> norm_num)
  exact ⟨res.1, res.2, hres⟩

end DubinsClaims2

section DubinsRealClaims2

/-- The U-turn over the real numbers: an instance of `dubins_u_turn`, with
`return_trajectory`. -/
theorem dubins_u_turn_witness :
    (dubins_new : dubins_c ℝ).extend_dubins_all
      { cos := Real.cos, sin := Real.sin, atan2 := fun y x => Complex.arg ⟨x, y⟩, acos := Real.arccos, sqrt := Real.sqrt, M_PI := Real.pi, FLT_MAX := 2 ^ 128 - 2 ^ 104 }
      0 (0, 0, 0) (0, 0, Real.pi) true Trajectory.empty (35 / 10)
      = some (-1, Trajectory.empty) ∧
    (dubins_new : dubins_c ℝ).evaluate_extend_cost
      { cos := Real.cos, sin := Real.sin, atan2 := fun y x => Complex.arg ⟨x, y⟩, acos := Real.arccos, sqrt := Real.sqrt, M_PI := Real.pi, FLT_MAX := 2 ^ 128 - 2 ^ 104 }
      0 (0, 0, 0) (0, 0, Real.pi) dubins_optimization_data_new
      = some (-1, { turning_radius := -1 }) :=
  ⟨(dubins_u_turn _ real_libm_sound real_libm_exact 0 true Trajectory.empty).2.2.2.2.2.2.1,
    (dubins_u_turn _ real_libm_sound real_libm_exact 0 true Trajectory.empty).2.2.2.2.2.2.2⟩

/-- Counterexample to **C22** as stated: over the real numbers, in the planner
`dubins_c()` (radius `35/10`), for `si = (0, 0, 0)` and `sf = (0, 0, π)` all four
entries of `times` are `-1` and `extend_dubins_all` returns `-1`, which is negative. -/
theorem dubins_u_turn_counterexample :
    extend_dubins_all_times (dubins_new : dubins_c ℝ)
      { cos := Real.cos, sin := Real.sin, atan2 := fun y x => Complex.arg ⟨x, y⟩, acos := Real.arccos, sqrt := Real.sqrt, M_PI := Real.pi, FLT_MAX := 2 ^ 128 - 2 ^ 104 }
      0 (0, 0, 0) (0, 0, Real.pi) false Trajectory.empty (35 / 10)
      = some ([-1, -1, -1, -1], Trajectory.empty) ∧
    (dubins_new : dubins_c ℝ).extend_dubins_all
      { cos := Real.cos, sin := Real.sin, atan2 := fun y x => Complex.arg ⟨x, y⟩, acos := Real.arccos, sqrt := Real.sqrt, M_PI := Real.pi, FLT_MAX := 2 ^ 128 - 2 ^ 104 }
      0 (0, 0, 0) (0, 0, Real.pi) false Trajectory.empty (35 / 10)
      = some (-1, Trajectory.empty) ∧
    ¬ ((0 : ℝ) ≤ -1) :=
  ⟨(extend_dubins_all_u_turn (dubins_new : dubins_c ℝ) _ real_libm_sound real_libm_exact
      (35 / 10) (by norm_num) 0 false Trajectory.empty).1,
    (extend_dubins_all_u_turn (dubins_new : dubins_c ℝ) _ real_libm_sound real_libm_exact
      (35 / 10) (by norm_num) 0 false Trajectory.empty).2,
    by norm_num⟩

/-- The straight shot over the real numbers: an instance of
`extend_dubins_all_trajectory`, where the last feasible combination is the
combination 4, whose cost 10 is also the returned cost. -/
theorem extend_dubins_all_trajectory_witness :
    (0 : ℝ) ≤ 35 / 10 ∧
    ∃ c T, (dubins_new : dubins_c ℝ).extend_dubins_all
        { cos := Real.cos, sin := Real.sin, atan2 := fun y x => Complex.arg ⟨x, y⟩, acos := Real.arccos, sqrt := Real.sqrt, M_PI := Real.pi, FLT_MAX := 2 ^ 128 - 2 ^ 104 }
        560 (0, 0, 0) (10, 0, 0) true Trajectory.empty (35 / 10) = some (c, T) ∧
      T.total_variation = 10 ∧ c = 10 := by
  refine ⟨by norm_num, ?_⟩
  obtain ⟨c, T, h⟩ := extend_dubins_all_straight_total _ real_libm_sound 560
    (le_refl _) Trajectory.empty
  obtain ⟨t0, t1, t2, t3, ht, q, _⟩ := extend_dubins_all_trajectory _ _ real_libm_sound 560
    _ _ (35 / 10) (by norm_num) Trajectory.empty c T h
  obtain ⟨_, _, s0, s1, hs, _, _⟩ := extend_dubins_straight (dubins_new : dubins_c ℝ) _
    real_libm_sound 560 10 (35 / 10) (by norm_num) (by norm_num) Trajectory.empty
  rw [ht] at hs
  have hl := congrArg Prod.fst (Option.some.inj hs)
  simp only [List.cons.injEq, and_true] at hl
  obtain ⟨_, _, _, e3⟩ := hl
  have e := (extend_dubins_all_straight (dubins_new : dubins_c ℝ) _ real_libm_sound 560 10
    (35 / 10) (by norm_num) (by norm_num) Trajectory.empty).2 _ _ _ _ h
  rw [if_pos (by show (10 : ℝ) < (2 ^ 128 - 2 ^ 104) / 2; norm_num)] at e
  refine ⟨c, T, h, ?_, e⟩
  rw [q (by rw [e3]; norm_num), e3]

end DubinsRealClaims2

section DubinsOvertaken
variable {K : Type} [LinearOrderedField K] [FloorRing K]

/-- The two circle centres of the state `(x, y, -π/2)`. -/
theorem extend_dubins_all_left_neg (m : Libm K) (hm : m.Sound) (x y r : K) :
    extend_dubins_all_left m (x, y, -(m.M_PI / 2)) r
      = (x + r, y, -(m.M_PI / 2) + 3 * m.M_PI_2) := by
  unfold extend_dubins_all_left
  simp only [neg_neg, hm.sin_pi_div_two, hm.cos_pi_div_two, mul_one, mul_zero, add_zero]

theorem extend_dubins_all_right_neg (m : Libm K) (hm : m.Sound) (x y r : K) :
    extend_dubins_all_right m (x, y, -(m.M_PI / 2)) r
      = (x - r, y, -(m.M_PI / 2) + m.M_PI_2) := by
  unfold extend_dubins_all_right
  simp only [neg_neg, hm.sin_pi_div_two, hm.cos_pi_div_two, mul_one, mul_zero, sub_zero]

/-- The turn increments of the combination 1 (left circle to right circle) for centres
more than `2r` apart. -/
theorem extend_dubins_spheres_increments_one (m : Libm K) (si sf : dubins_state_t K) (r : K)
    (h : 2 * r < extend_dubins_spheres_distance m si sf) :
    extend_dubins_spheres_increments m si sf 1 r
      = some (modulo_zero_2pi m (m.atan2 (sf.2.1 - si.2.1) (sf.1 - si.1)
            - m.acos (2 * r / extend_dubins_spheres_distance m si sf) - si.2.2),
          modulo_zero_2pi m (-(sf.2.2 - (m.atan2 (sf.2.1 - si.2.1) (sf.1 - si.1) + m.M_PI
            - m.acos (2 * r / extend_dubins_spheres_distance m si sf))))) := by
  unfold extend_dubins_spheres_distance at h ⊢
  unfold extend_dubins_spheres_increments extend_dubins_spheres_angles
  simp only
  rw [if_pos h]
  norm_num

/-- The cost of two turn increments that differ from `x` and `y` in `[-π, π)` by whole
numbers of turns. -/
theorem extend_dubins_spheres_cost_eq (m : Libm K) (hpi : 0 < m.M_PI) (a b x y r dist : K)
    (k1 k2 : Int) (ha : a = x + 2 * m.M_PI * (k1 : K)) (hx0 : -m.M_PI ≤ x) (hx1 : x < m.M_PI)
    (hb : b = y + 2 * m.M_PI * (k2 : K)) (hy0 : -m.M_PI ≤ y) (hy1 : y < m.M_PI) :
    extend_dubins_spheres_cost m (a, b) r dist = (|x| + |y|) * r + dist := by
  unfold extend_dubins_spheres_cost
  simp only
  rw [modulo_mpi_pi_eq m hpi k1 a x ha hx0 hx1, modulo_mpi_pi_eq m hpi k2 b y hb hy0 hy1]
  ring

/-- The combination 1 from `(0, 0, 0)` to `(55/2, 43/2, -π/2)` with the radius `35/10`:
the centres are 30 apart, the turn increments are `t1 - tb + π/2` and `t1 - tb + π` for
`t1 = atan2 18 24` and `tb = acos (7/30)`, the test on the increments passes, and the
cost is between 30 and `447/10`. -/
theorem extend_dubins_overtaken_one (m : Libm K) (hm : m.Sound) (hp2 : m.M_PI < 315 / 100)
    (h1a : 0 ≤ m.atan2 18 24) (h1b : m.atan2 18 24 ≤ m.M_PI / 4)
    (hba : m.M_PI / 3 ≤ m.acos (7 / 30)) (hbb : m.acos (7 / 30) ≤ m.M_PI / 2) :
    ∃ inc, extend_dubins_spheres_increments m (extend_dubins_all_left m (0, 0, 0) (35 / 10))
        (extend_dubins_all_right m (55 / 2, 43 / 2, -(m.M_PI / 2)) (35 / 10)) 1 (35 / 10)
        = some inc ∧
      ¬ extend_dubins_spheres_rejects m inc ∧
      30 ≤ extend_dubins_spheres_cost m inc (35 / 10)
        (extend_dubins_spheres_distance m (extend_dubins_all_left m (0, 0, 0) (35 / 10))
          (extend_dubins_all_right m (55 / 2, 43 / 2, -(m.M_PI / 2)) (35 / 10))) ∧
      extend_dubins_spheres_cost m inc (35 / 10)
        (extend_dubins_spheres_distance m (extend_dubins_all_left m (0, 0, 0) (35 / 10))
          (extend_dubins_all_right m (55 / 2, 43 / 2, -(m.M_PI / 2)) (35 / 10)))
        ≤ 447 / 10 := by
  have hpi := hm.pi_pos
  have hd1 : extend_dubins_spheres_distance m (extend_dubins_all_left m (0, 0, 0) (35 / 10))
      (extend_dubins_all_right m (55 / 2, 43 / 2, -(m.M_PI / 2)) (35 / 10)) = 30 := by
    rw [extend_dubins_all_left_zero m hm, extend_dubins_all_right_neg m hm]
    unfold extend_dubins_spheres_distance
    simp only
    rw [show ((55 / 2 - 35 / 10 - 0) * (55 / 2 - 35 / 10 - 0)
      + (43 / 2 - 35 / 10) * (43 / 2 - 35 / 10) : K) = 30 * 30 by norm_num]
    exact hm.sqrt_mul_self 30 (by norm_num)
  obtain ⟨u, hu⟩ : ∃ u, u = m.atan2 18 24 - m.acos (7 / 30) := ⟨_, rfl⟩
  have u0 : -(m.M_PI / 2) ≤ u := by rw [hu]; linarith
  have u1 : u ≤ -(m.M_PI / 12) := by rw [hu]; linarith
  clear h1a h1b hba hbb
  refine ⟨(u + m.M_PI / 2, u + m.M_PI), ?_, ?_, ?_⟩
  · rw [extend_dubins_spheres_increments_one m _ _ _ (by rw [hd1]; norm_num), hd1,
      extend_dubins_all_left_zero m hm, extend_dubins_all_right_neg m hm]
    simp only
    rw [show (43 / 2 - 35 / 10 : K) = 18 by norm_num,
      show (55 / 2 - 35 / 10 - 0 : K) = 24 by norm_num,
      show (2 * (35 / 10) / 30 : K) = 7 / 30 by norm_num, ← hu]
    rw [modulo_zero_2pi_eq m hpi (-1) _ (u + m.M_PI / 2)
        (by unfold Libm.M_PI_2; push_cast; ring) (by linarith) (by linarith),
      modulo_zero_2pi_eq m hpi 0 _ (u + m.M_PI)
        (by unfold Libm.M_PI_2; rw [hu]; push_cast; ring) (by linarith) (by linarith)]
  · unfold extend_dubins_spheres_rejects Libm.M_PI_2
    simp only [gt_iff_lt, not_or, not_and, not_lt]
    exact ⟨fun hh => by linarith, by linarith, by linarith⟩
  · have k1 : |u + m.M_PI / 2| = u + m.M_PI / 2 := abs_of_nonneg (by linarith)
    have k2 : |u + m.M_PI| = u + m.M_PI := abs_of_nonneg (by linarith)
    rw [hd1, extend_dubins_spheres_cost_eq m hpi (u + m.M_PI / 2) (u + m.M_PI)
      (u + m.M_PI / 2) (u + m.M_PI) (35 / 10) 30 0 0
      (by push_cast; ring) (by linarith) (by linarith)
      (by push_cast; ring) (by linarith) (by linarith), k1, k2]
    constructor <;> linarith

/-- The combination 3 on the same states: the turn increments are `t` and `3π/2 - t`
for `t = atan2 18 31`, the test on the increments passes, and the cost is at least
45. -/
theorem extend_dubins_overtaken_three (m : Libm K) (hm : m.Sound)
    (hp1 : 314 / 100 < m.M_PI)
    (h3a : m.M_PI / 6 ≤ m.atan2 18 31) (h3b : m.atan2 18 31 ≤ m.M_PI / 2)
    (hd3 : 35846 / 1000 ≤ m.sqrt 1285) :
    ∃ inc, extend_dubins_spheres_increments m (extend_dubins_all_left m (0, 0, 0) (35 / 10))
        (extend_dubins_all_left m (55 / 2, 43 / 2, -(m.M_PI / 2)) (35 / 10)) 3 (35 / 10)
        = some inc ∧
      ¬ extend_dubins_spheres_rejects m inc ∧
      45 ≤ extend_dubins_spheres_cost m inc (35 / 10)
        (extend_dubins_spheres_distance m (extend_dubins_all_left m (0, 0, 0) (35 / 10))
          (extend_dubins_all_left m (55 / 2, 43 / 2, -(m.M_PI / 2)) (35 / 10))) := by
  have hpi := hm.pi_pos
  have hd : extend_dubins_spheres_distance m (extend_dubins_all_left m (0, 0, 0) (35 / 10))
      (extend_dubins_all_left m (55 / 2, 43 / 2, -(m.M_PI / 2)) (35 / 10)) = m.sqrt 1285 := by
    rw [extend_dubins_all_left_zero m hm, extend_dubins_all_left_neg m hm]
    unfold extend_dubins_spheres_distance
    simp only
    rw [show ((55 / 2 + 35 / 10 - 0) * (55 / 2 + 35 / 10 - 0)
      + (43 / 2 - 35 / 10) * (43 / 2 - 35 / 10) : K) = 1285 by norm_num]
  obtain ⟨t, ht⟩ : ∃ t, t = m.atan2 18 31 := ⟨_, rfl⟩
  obtain ⟨s, hs⟩ : ∃ s, s = m.sqrt 1285 := ⟨_, rfl⟩
  rw [← ht] at h3a h3b
  rw [← hs] at hd3
  refine ⟨(t, 3 * m.M_PI / 2 - t), ?_, ?_, ?_⟩
  · rw [extend_dubins_spheres_increments_three, extend_dubins_all_left_zero m hm,
      extend_dubins_all_left_neg m hm]
    simp only
    rw [show (43 / 2 - 35 / 10 : K) = 18 by norm_num,
      show (55 / 2 + 35 / 10 - 0 : K) = 31 by norm_num, ← ht]
    rw [modulo_zero_2pi_eq m hpi (-1) _ t
        (by unfold Libm.M_PI_2; push_cast; ring) (by linarith) (by linarith),
      modulo_zero_2pi_eq m hpi 0 _ (3 * m.M_PI / 2 - t)
        (by unfold Libm.M_PI_2; push_cast; ring) (by linarith) (by linarith)]
  · unfold extend_dubins_spheres_rejects Libm.M_PI_2
    simp only [gt_iff_lt, not_or, not_and, not_lt]
    exact ⟨fun hh => by linarith, by linarith, by linarith⟩
  · have k1 : |t| = t := abs_of_nonneg (by linarith)
    have k2 : |(-(m.M_PI / 2) - t)| = -(-(m.M_PI / 2) - t) := abs_of_nonpos (by linarith)
    rw [hd, ← hs, extend_dubins_spheres_cost_eq m hpi t (3 * m.M_PI / 2 - t) t
      (-(m.M_PI / 2) - t) (35 / 10) s 0 1
      (by push_cast; ring) (by linarith) (by linarith)
      (by push_cast; ring) (by linarith) (by linarith), k1, k2]
    linarith

/-- The combination 4 on the same states: the first turn increment is `2π - t4` for
`t4 = atan2 25 24`, which the test on the increments rejects. -/
theorem extend_dubins_overtaken_four (m : Libm K) (hm : m.Sound)
    (h4a : 0 < m.atan2 25 24) (h4b : m.atan2 25 24 < m.M_PI / 2) :
    ∃ inc, extend_dubins_spheres_increments m (extend_dubins_all_right m (0, 0, 0) (35 / 10))
        (extend_dubins_all_right m (55 / 2, 43 / 2, -(m.M_PI / 2)) (35 / 10)) 4 (35 / 10)
        = some inc ∧
      extend_dubins_spheres_rejects m inc := by
  have hpi := hm.pi_pos
  rw [extend_dubins_spheres_increments_four, extend_dubins_all_right_zero m hm,
    extend_dubins_all_right_neg m hm]
  simp only
  rw [show (43 / 2 - -(35 / 10) : K) = 25 by norm_num,
    show (55 / 2 - 35 / 10 - 0 : K) = 24 by norm_num]
  rw [modulo_zero_2pi_eq m hpi (-1) _ (2 * m.M_PI - m.atan2 25 24)
      (by unfold Libm.M_PI_2; push_cast; ring) (by linarith) (by linarith)]
  refine ⟨_, rfl, ?_⟩
  unfold extend_dubins_spheres_rejects Libm.M_PI_2
  right
  left
  simp only [gt_iff_lt]
  linarith

/-- From `(0, 0, 0)` to `(55/2, 43/2, -π/2)` with the radius `35/10`, given bounds on
the values of the math library at the four arguments that occur: the combination 4 is
rejected, the combination 3 is feasible and costs at least 45, the combination 1 is
feasible and costs at most `447/10`; a call of `extend_dubins_all` with
`return_trajectory` that returns gives a cost of at most `447/10` and leaves a
`total_variation` of at least 45 in `traj`. -/
theorem extend_dubins_all_overtaken (m : Libm K) (hm : m.Sound)
    (hp1 : 314 / 100 < m.M_PI) (hp2 : m.M_PI < 315 / 100) (hF : 90 < m.FLT_MAX)
    (h1a : 0 ≤ m.atan2 18 24) (h1b : m.atan2 18 24 ≤ m.M_PI / 4)
    (hba : m.M_PI / 3 ≤ m.acos (7 / 30)) (hbb : m.acos (7 / 30) ≤ m.M_PI / 2)
    (h3a : m.M_PI / 6 ≤ m.atan2 18 31) (h3b : m.atan2 18 31 ≤ m.M_PI / 2)
    (hd3 : 35846 / 1000 ≤ m.sqrt 1285)
    (h4a : 0 < m.atan2 25 24) (h4b : m.atan2 25 24 < m.M_PI / 2)
    (fuel : Nat) (traj : dubins_trajectory_t K) (c : K) (T : dubins_trajectory_t K)
    (h : (dubins_new : dubins_c K).extend_dubins_all m fuel (0, 0, 0)
      (55 / 2, 43 / 2, -(m.M_PI / 2)) true traj (35 / 10) = some (c, T)) :
    c ≤ 447 / 10 ∧ 45 ≤ T.total_variation := by
  have hr : (0 : K) ≤ 35 / 10 := by norm_num
  obtain ⟨inc1, i1, j1, b0a, b0b⟩ := extend_dubins_overtaken_one m hm hp2 h1a h1b hba hbb
  obtain ⟨inc3, i3, j3, b2⟩ := extend_dubins_overtaken_three m hm hp1 h3a h3b hd3
  obtain ⟨inc4, i4, j4⟩ := extend_dubins_overtaken_four m hm h4a h4b
  clear hp1 hp2 h1a h1b hba hbb h3a h3b hd3 h4a h4b
  obtain ⟨t0, t1, t2, t3, a0, _, a2, a3, ht, _, _⟩ :=
    extend_dubins_all_times_spec (dubins_new : dubins_c K) m hm fuel (0, 0, 0)
      (55 / 2, 43 / 2, -(m.M_PI / 2)) (35 / 10) hr traj
  have e0 := (extend_dubins_spheres_accepted (dubins_new : dubins_c K) m fuel _ _ 1 (35 / 10)
    false traj _ i1 j1).1 rfl
  rw [a0] at e0
  rw [← (Prod.mk.inj (Option.some.inj e0)).1] at b0a b0b
  have e2 := (extend_dubins_spheres_accepted (dubins_new : dubins_c K) m fuel _ _ 3 (35 / 10)
    false traj _ i3 j3).1 rfl
  rw [a2] at e2
  rw [← (Prod.mk.inj (Option.some.inj e2)).1] at b2
  have e3 : t3 = -1 := by
    have := extend_dubins_spheres_rejected (dubins_new : dubins_c K) m fuel _ _ 4 (35 / 10)
      false traj _ i4 j4
    rw [a3] at this
    exact congrArg Prod.fst (Option.some.inj this)
  obtain ⟨s0, s1, s2, s3, hs, _, q2, _, _, _, g1, g2⟩ :=
    extend_dubins_all_last (dubins_new : dubins_c K) m hm fuel _ _ _ hr traj c T h
  rw [ht] at hs
  have hl := congrArg Prod.fst (Option.some.inj hs)
  simp only [List.cons.injEq, and_true] at hl
  obtain ⟨l0, l1, l2, l3⟩ := hl
  rw [← l0, ← l1, ← l2, ← l3] at g1 g2
  rw [← l2, ← l3] at q2
  have hne : c ≠ -1 := by
    intro e
    rcases g1.mp e t0 (by simp) with g | g
    · linarith
    · linarith
  constructor
  · exact le_trans ((g2 hne).2.2.2 t0 (by simp) (by intro e; linarith)) b0b
  · rw [q2 e3 (by intro e; linarith)]
    exact b2

/-- The call of `extend_dubins_all` with `return_trajectory` from `(0, 0, 0)` to
`(55/2, 43/2, -π/2)` in the planner `dubins_c()` returns for a recursion budget of at
least 800. -/
theorem extend_dubins_all_overtaken_total (m : Libm K) (hm : m.Sound) (n : Nat)
    (hn : 800 ≤ n) (traj : dubins_trajectory_t K) :
    ∃ c T, (dubins_new : dubins_c K).extend_dubins_all m n (0, 0, 0)
      (55 / 2, 43 / 2, -(m.M_PI / 2)) true traj (35 / 10) = some (c, T) := by
  have hpi := hm.pi_pos
  have hnK : (800 : K) ≤ (n : K) := by exact_mod_cast hn
  have h40 : m.sqrt (40 * 40) = 40 := hm.sqrt_mul_self 40 (by norm_num)
  obtain ⟨res, hres⟩ := extend_dubins_all_total (dubins_new : dubins_c K) m n (0, 0, 0)
    (55 / 2, 43 / 2, -(m.M_PI / 2)) true traj (35 / 10) hpi (by norm_num)
    (by simp only [dubins_new]; norm_num)
    (by
      have := hm.pi_le_four
      simp only [dubins_new]
      linarith)
    (by
      intro a ha b hb
      have hb2 : ∀ x : K, x ≤ 40 * 40 →
          m.sqrt x ≤ (n : K) * (dubins_new : dubins_c K).delta_distance := by
        intro x hx
        have := hm.sqrt_le_sqrt x (40 * 40) hx
        rw [h40] at this
        simp only [dubins_new]
        linarith
      rw [extend_dubins_all_left_zero m hm, extend_dubins_all_right_zero m hm] at ha
      rw [extend_dubins_all_left_neg m hm, extend_dubins_all_right_neg m hm] at hb
      simp only [List.mem_cons, List.mem_singleton, List.not_mem_nil, or_false] at ha hb
      unfold extend_dubins_spheres_distance
      rcases ha with e | e <;> rcases hb with g | g <;> rw [e, g] <;> apply hb2 <;> norm_num)
  exact ⟨res.1, res.2, hres⟩

end DubinsOvertaken


section DubinsRealOvertaken

/-- The failing input of **C24**: over the real numbers, in the planner `dubins_c()`
(radius `35/10`), the call of `extend_dubins_all` with `return_trajectory` from
`(0, 0, 0)` to `(55/2, 43/2, -π/2)` returns; the cost it returns is at most `447/10`
(the combination 1 is feasible and costs that much at most), while the trajectory it
leaves in `traj` has a `total_variation` of at least 45 (it is the trajectory of the
combination 3, the last feasible one). -/
theorem extend_dubins_all_overtaken_counterexample :
    ∃ c T, (dubins_new : dubins_c ℝ).extend_dubins_all
        { cos := Real.cos, sin := Real.sin, atan2 := fun y x => Complex.arg ⟨x, y⟩, acos := Real.arccos, sqrt := Real.sqrt, M_PI := Real.pi, FLT_MAX := 2 ^ 128 - 2 ^ 104 }
        800 (0, 0, 0) (55 / 2, 43 / 2, -(Real.pi / 2)) true Trajectory.empty (35 / 10)
        = some (c, T) ∧
      c ≤ 447 / 10 ∧ 45 ≤ T.total_variation := by
  have hpos := Real.pi_pos
  have hp1 : (314 / 100 : ℝ) < Real.pi := by
    have := Real.pi_gt_d2
    norm_num at this ⊢
    linarith
  have hp2 : Real.pi < (315 / 100 : ℝ) := by
    have := Real.pi_lt_d2
    norm_num at this ⊢
    linarith
  have h1a : 0 ≤ Complex.arg ⟨24, 18⟩ := by
    rw [Complex.arg_nonneg_iff]
    norm_num
  have h1b : Complex.arg ⟨24, 18⟩ ≤ Real.pi / 4 := by
    by_contra hc
    have hlt : Complex.arg ⟨24, 18⟩ < Real.pi / 2 := by
      rw [Complex.arg_lt_pi_div_two_iff]
      left
      norm_num
    have := Real.tan_lt_tan_of_lt_of_lt_pi_div_two (by linarith) hlt (not_le.mp hc)
    rw [Real.tan_pi_div_four, Complex.tan_arg] at this
    norm_num at this
  have hba : Real.pi / 3 ≤ Real.arccos (7 / 30) := by
    have e : Real.arccos (1 / 2) = Real.pi / 3 := by
      rw [← Real.cos_pi_div_three, Real.arccos_cos (by linarith) (by linarith)]
    rw [← e]
    exact Real.strictAntiOn_arccos.antitoneOn (by constructor <;> norm_num)
      (by constructor <;> norm_num) (by norm_num)
  have hbb : Real.arccos (7 / 30) ≤ Real.pi / 2 := by
    rw [Real.arccos_le_pi_div_two]
    norm_num
  have h3b : Complex.arg ⟨31, 18⟩ ≤ Real.pi / 2 := by
    rw [Complex.arg_le_pi_div_two_iff]
    left
    norm_num
  have h3a : Real.pi / 6 ≤ Complex.arg ⟨31, 18⟩ := by
    by_contra hc
    have h0 : 0 ≤ Complex.arg ⟨31, 18⟩ := by
      rw [Complex.arg_nonneg_iff]
      norm_num
    have := Real.tan_lt_tan_of_lt_of_lt_pi_div_two (by linarith) (by linarith) (not_le.mp hc)
    rw [Real.tan_pi_div_six, Complex.tan_arg] at this
    have hs : (31 / 18 : ℝ) ≤ Real.sqrt 3 := by
      rw [Real.le_sqrt' (by norm_num)]
      norm_num
    have hs0 : (0 : ℝ) < Real.sqrt 3 := by linarith
    rw [div_lt_div_iff₀ (by norm_num) hs0] at this
    norm_num at this
    linarith
  have hd3 : (35846 / 1000 : ℝ) ≤ Real.sqrt 1285 := by
    rw [Real.le_sqrt' (by norm_num)]
    norm_num
  have h4a : 0 < Complex.arg ⟨24, 25⟩ := by
    have h0 : 0 ≤ Complex.arg ⟨24, 25⟩ := by
      rw [Complex.arg_nonneg_iff]
      norm_num
    have hne : Complex.arg ⟨24, 25⟩ ≠ 0 := by
      rw [Ne, Complex.arg_eq_zero_iff]
      norm_num
    exact lt_of_le_of_ne h0 (Ne.symm hne)
  have h4b : Complex.arg ⟨24, 25⟩ < Real.pi / 2 := by
    rw [Complex.arg_lt_pi_div_two_iff]
    left
    norm_num
  obtain ⟨c, T, h⟩ := extend_dubins_all_overtaken_total _ real_libm_sound 800 (le_refl _)
    Trajectory.empty
  exact ⟨c, T, h, extend_dubins_all_overtaken _ real_libm_sound hp1 hp2
    (by show (90 : ℝ) < 2 ^ 128 - 2 ^ 104; norm_num) h1a h1b hba hbb h3a h3b hd3 h4a h4b 800
    Trajectory.empty c T h⟩

end DubinsRealOvertaken

set_option linter.unusedSectionVars false
section FindBest
variable {S U C O R : Type} [LinearOrder C] [Add C]
variable [Zero R] [Add R]

theorem find_best_parent_pairs_recorded (sys : System S U C O R) (st : Rrts S C O) (si : S) :
    ∀ (near : List Nat) (pairs : List (Nat × C)) (vmap : List (Nat × (C × C × O)))
      (pairs' : List (Nat × C)) (vmap' : List (Nat × (C × C × O))),
      near.Nodup → (∀ x ∈ near, vmap.lookup x = none) → (∀ p ∈ pairs, p.1 ∉ near) →
      (∀ p ∈ pairs, Recorded sys st si vmap p) → (pairs.map Prod.fst).Nodup →
      find_best_parent_pairs sys st si near pairs vmap = some (pairs', vmap') →
      (∀ p ∈ pairs', Recorded sys st si vmap' p) ∧ (pairs'.map Prod.fst).Nodup ∧
      (∀ p ∈ pairs', p ∈ pairs ∨ p.1 ∈ near) ∧
      (∀ u ∈ near, ∀ v, st.heap u = some v →
        (sys.evaluate_extend_cost v.state si sys.opt_data_default).1 = 0 →
        (u, find_best_parent_v_cost sys si v) ∈ pairs')
  | [], pairs, vmap, pairs', vmap', _, _, _, hG, hnd, h => by
    simp only [find_best_parent_pairs, Option.some.injEq, Prod.mk.injEq] at h
    rw [← h.1, ← h.2]
    exact ⟨hG, hnd, fun p hp => Or.inl hp, fun u hu => absurd hu (by simp)⟩
  | pv :: rest, pairs, vmap, pairs', vmap', hn, hl, hp, hG, hnd, h => by
    unfold find_best_parent_pairs at h
    have hn1 : pv ∉ rest := (List.nodup_cons.mp hn).1
    have hn2 : rest.Nodup := (List.nodup_cons.mp hn).2
    cases hv : st.heap pv with
    | none => simp [hv] at h
    | some v =>
      simp only [hv] at h
      split at h
      · rename_i hr
        obtain ⟨k1, k2, k3, k4⟩ := find_best_parent_pairs_recorded sys st si rest pairs vmap
          pairs' vmap' hn2 (fun x hx => hl x (List.mem_cons_of_mem _ hx))
          (fun p hpp hm => hp p hpp (List.mem_cons_of_mem _ hm)) hG hnd h
        refine ⟨k1, k2, ?_, ?_⟩
        · intro p hpp
          rcases k3 p hpp with g | g
          · exact Or.inl g
          · exact Or.inr (List.mem_cons_of_mem _ g)
        · intro u hu w hw he
          rcases List.mem_cons.mp hu with e | e
          · rw [e, hv] at hw
            rw [← Option.some.inj hw] at he
            exact absurd he hr
          · exact k4 u e w hw he
      · rename_i hr
        have hr0 : (sys.evaluate_extend_cost v.state si sys.opt_data_default).1 = 0 :=
          not_not.mp hr
        have hlk : vmap.lookup pv = none := hl pv (List.mem_cons_self _ _)
        have hmap : (if (vmap.lookup pv).isSome = true then vmap
            else vmap ++ [(pv, ((sys.evaluate_extend_cost v.state si sys.opt_data_default).2.2,
              v.cost_from_root + (sys.evaluate_extend_cost v.state si sys.opt_data_default).2.2,
              (sys.evaluate_extend_cost v.state si sys.opt_data_default).2.1))])
            = vmap ++ [(pv, ((sys.evaluate_extend_cost v.state si sys.opt_data_default).2.2,
              v.cost_from_root + (sys.evaluate_extend_cost v.state si sys.opt_data_default).2.2,
              (sys.evaluate_extend_cost v.state si sys.opt_data_default).2.1))] := by
          rw [hlk]
          rfl
        rw [hmap] at h
        obtain ⟨k1, k2, k3, k4⟩ := find_best_parent_pairs_recorded sys st si rest _ _
          pairs' vmap' hn2
          (by
            intro x hx
            rw [lookup_append_singleton, hl x (List.mem_cons_of_mem _ hx)]
            have : x ≠ pv := fun e => hn1 (e ▸ hx)
            simp [this])
          (by
            intro p hpp hm
            rcases List.mem_append.mp hpp with g | g
            · exact hp p g (List.mem_cons_of_mem _ hm)
            · rw [List.mem_singleton.mp g] at hm
              exact hn1 hm)
          (by
            intro p hpp
            rcases List.mem_append.mp hpp with g | g
            · obtain ⟨w, w1, w2, w3, w4⟩ := hG p g
              refine ⟨w, w1, w2, w3, ?_⟩
              rw [lookup_append_singleton, w4]
            · rw [List.mem_singleton.mp g]
              refine ⟨v, hv, hr0, rfl, ?_⟩
              rw [lookup_append_singleton, hlk]
              simp only [if_true]
              rfl)
          (by
            rw [List.map_append, List.nodup_append]
            refine ⟨hnd, by simp, ?_⟩
            intro a ha hb
            simp only [List.map_cons, List.map_nil, List.mem_singleton] at hb
            obtain ⟨p, hpp, e⟩ := List.mem_map.mp ha
            exact hp p hpp (by rw [e, hb]; exact List.mem_cons_self _ _))
          h
        refine ⟨k1, k2, ?_, ?_⟩
        · intro p hpp
          rcases k3 p hpp with g | g
          · rcases List.mem_append.mp g with g | g
            · exact Or.inl g
            · right
              rw [List.mem_singleton.mp g]
              exact List.mem_cons_self _ _
          · exact Or.inr (List.mem_cons_of_mem _ g)
        · intro u hu w hw he
          rcases List.mem_cons.mp hu with e | e
          · rw [e, hv] at hw
            rw [← Option.some.inj hw, e]
            -- the pair pushed for `pv` stays in the list
            have hkeep : ∀ (near : List Nat) (ps : List (Nat × C))
                (vm : List (Nat × (C × C × O))) (ps' : List (Nat × C))
                (vm' : List (Nat × (C × C × O))),
                find_best_parent_pairs sys st si near ps vm = some (ps', vm') →
                ∀ q ∈ ps, q ∈ ps' := by
              intro near
              induction near with
              | nil =>
                intro ps vm ps' vm' hh q hq
                simp only [find_best_parent_pairs, Option.some.injEq, Prod.mk.injEq] at hh
                rw [← hh.1]
                exact hq
              | cons a tl ih =>
                intro ps vm ps' vm' hh q hq
                unfold find_best_parent_pairs at hh
                cases ha : st.heap a with
                | none => simp [ha] at hh
                | some va =>
                  simp only [ha] at hh
                  split at hh
                  · exact ih _ _ _ _ hh q hq
                  · exact ih _ _ _ _ hh q (List.mem_append_left _ hq)
            exact hkeep rest _ _ pairs' vmap' h _ (List.mem_append_right _ (by simp [find_best_parent_v_cost, find_best_parent_edge_cost]))
          · exact k4 u e w hw he

end FindBest

set_option linter.unusedSectionVars false
section FindBest2
variable {S U C O R : Type} [LinearOrder C] [Add C]
variable [Zero R] [Add R]

/-- The update of the map entry of `k` in step 3 of `find_best_parent` leaves the other
entries as they were. -/
theorem lookup_map_other (vmap : List (Nat × (C × C × O))) (k q : Nat) (o : O) (hq : q ≠ k) :
    (vmap.map (fun kv => if kv.1 = k then (kv.1, (kv.2.1, kv.2.2.1, o)) else kv)).lookup q
      = vmap.lookup q := by
  have hm : (vmap.map (fun kv => if kv.1 = k then (kv.1, (kv.2.1, kv.2.2.1, o)) else kv))
      = vmap.map (fun kv => (kv.1, (fun a y => if a = k then (y.1, y.2.1, o) else y)
          kv.1 kv.2)) := by
    apply List.map_congr_left
    intro kv _
    by_cases hk : kv.1 = k <;> simp [hk]
  have := lookup_map_entry vmap q (fun a y => if a = k then (y.1, y.2.1, o) else y)
  rw [hm, this]
  cases vmap.lookup q with
  | none => rfl
  | some y => simp [hq]

/-- Step 3 of `find_best_parent` on candidates that step 1 recorded, with distinct
vertices: it returns 1 when no candidate passes the obstacle-checked `extend_to`, and
otherwise 0 with the first candidate of the list that passes, whose edge carries the
recorded `edge_cost`. -/
theorem find_best_parent_scan_first (sys : System S U C O R) (ht : TrajectoryIsOutput sys)
    (st : Rrts S C O) (si : S) :
    ∀ (ps : List (Nat × C)) (traj : Trajectory S U R) (vmap : List (Nat × (C × C × O)))
      (ret : Int) (bp : Option Nat) (be : Option (Edge S C O)),
      (ps.map Prod.fst).Nodup → (∀ p ∈ ps, Recorded sys st si vmap p) →
      find_best_parent_scan sys st si ps traj vmap = some (ret, bp, be) →
      (ret = 1 ∧ bp = none ∧ be = none ∧
        ∀ p ∈ ps, ∀ v, st.heap p.1 = some v → ¬ PassesBoth sys si v) ∨
      (ret = 0 ∧ ∃ p v ps1 ps2 T, ps = ps1 ++ p :: ps2 ∧ st.heap p.1 = some v ∧
        (∀ q ∈ ps1, ∀ w, st.heap q.1 = some w → ¬ PassesBoth sys si w) ∧
        PassesBoth sys si v ∧ bp = some p.1 ∧
        be = some { start_state := v.state, end_state := si,
                    cost := find_best_parent_edge_cost sys si v,
                    opt_data := (sys.extend_to v.state si true T
                      (sys.evaluate_extend_cost v.state si sys.opt_data_default).2.1).2.2 })
  | [], traj, vmap, ret, bp, be, _, _, h => by
    simp only [find_best_parent_scan, Option.some.injEq, Prod.mk.injEq] at h
    exact Or.inl ⟨h.1.symm, h.2.1.symm, h.2.2.symm, fun p hp => absurd hp (by simp)⟩
  | p :: ps, traj, vmap, ret, bp, be, hnd, hG, h => by
    unfold find_best_parent_scan at h
    obtain ⟨v, hv, he, _, hlk⟩ := hG p (List.mem_cons_self _ _)
    simp only [hv, hlk, Option.getD_some] at h
    have hn1 : p.1 ∉ ps.map Prod.fst := (List.nodup_cons.mp hnd).1
    have hn2 : (ps.map Prod.fst).Nodup := (List.nodup_cons.mp hnd).2
    split at h
    · rename_i hr
      simp only [Option.some.injEq, Prod.mk.injEq] at h
      right
      refine ⟨h.1.symm, p, v, [], ps, traj, rfl, hv, fun q hq => absurd hq (by simp), ?_,
        h.2.1.symm, h.2.2.symm⟩
      refine ⟨he, ?_⟩
      rw [ht _ _ _ Trajectory.empty traj]
      exact hr
    · rename_i hr
      have hfail : ¬ PassesBoth sys si v := by
        intro hp
        apply hr
        rw [ht _ _ _ traj Trajectory.empty]
        exact hp.2
      rcases find_best_parent_scan_first sys ht st si ps _ _ ret bp be hn2
        (by
          intro q hq
          obtain ⟨w, w1, w2, w3, w4⟩ := hG q (List.mem_cons_of_mem _ hq)
          refine ⟨w, w1, w2, w3, ?_⟩
          rw [lookup_map_other _ _ _ _ (fun e => hn1 (List.mem_map.mpr ⟨q, hq, e⟩))]
          exact w4)
        h with ⟨g1, g2, g3, g4⟩ | ⟨g1, q, w, ps1, ps2, T, g2, g3, g4, g5, g6, g7⟩
      · left
        refine ⟨g1, g2, g3, ?_⟩
        intro q hq w hw
        rcases List.mem_cons.mp hq with e | e
        · rw [e, hv] at hw
          rw [← Option.some.inj hw]
          exact hfail
        · exact g4 q e w hw
      · right
        refine ⟨g1, q, w, p :: ps1, ps2, T, by rw [g2]; rfl, g3, ?_, g5, g6, g7⟩
        intro x hx y hy
        rcases List.mem_cons.mp hx with e | e
        · rw [e, hv] at hy
          rw [← Option.some.inj hy]
          exact hfail
        · exact g4 x e y hy

/-- The list that `find_best_parent` sorts is in ascending order of the costs. -/
theorem sort_vertex_cost_pairs_sorted (l : List (Nat × C)) :
    (sort_vertex_cost_pairs l).Pairwise (fun p1 p2 => p1.2 ≤ p2.2) := by
  unfold sort_vertex_cost_pairs
  have hs := @List.sorted_insertionSort (Nat × C)
    (fun p1 p2 => ¬ compare_vertex_cost_pairs p2 p1) _
    ⟨fun a b => by
      unfold compare_vertex_cost_pairs
      rcases le_total a.2 b.2 with h | h
      · exact Or.inl (not_lt.mpr h)
      · exact Or.inr (not_lt.mpr h)⟩
    ⟨fun a b c hab hbc => by
      unfold compare_vertex_cost_pairs at hab hbc ⊢
      exact not_lt.mpr (le_trans (not_lt.mp hab) (not_lt.mp hbc))⟩ l
  exact List.Pairwise.imp (fun {a b} h => by
    unfold compare_vertex_cost_pairs at h
    exact not_lt.mp h) hs

end FindBest2

set_option linter.unusedSectionVars false
section FindBest3
variable {S U C O R : Type} [LinearOrder C] [Add C]
variable [Zero R] [Add R]

/-- **C23** (best-parent selection).  For a system whose `extend_to` treats `traj` as an
output, and a list `near` of distinct live vertices, `find_best_parent(si, near)`
returns.  It returns 1 exactly when no near vertex passes both calls
(`evaluate_extend_cost` on a default `opt_data`, then the obstacle-checked `extend_to`
with the `opt_data` that the first call left), and then leaves no parent and no edge.
Otherwise it returns 0 with a `best_parent` `u` in `near` that passes both calls and
whose `v_cost = u.cost_from_root + edge_cost(u)` is at most that of every near vertex
that passes both calls; the returned edge goes from `u.state` to `si` and carries the
cost `edge_cost(u)`. -/
theorem find_best_parent_selects (sys : System S U C O R) (ht : TrajectoryIsOutput sys)
    (st : Rrts S C O) (si : S) (near : List Nat)
    (hlive : ∀ x ∈ near, (st.heap x).isSome = true) (hnd : near.Nodup) :
    ∃ ret bp be, find_best_parent sys st si near = some (ret, bp, be) ∧
      (ret = 1 ↔ ∀ u ∈ near, ∀ v, st.heap u = some v → ¬ PassesBoth sys si v) ∧
      ((ret = 1 ∧ bp = none ∧ be = none) ∨
        (ret = 0 ∧ ∃ u v ed, bp = some u ∧ be = some ed ∧ u ∈ near ∧ st.heap u = some v ∧
          PassesBoth sys si v ∧ ed.start_state = v.state ∧ ed.end_state = si ∧
          ed.cost = find_best_parent_edge_cost sys si v ∧
          ∀ u' ∈ near, ∀ v', st.heap u' = some v' → PassesBoth sys si v' →
            find_best_parent_v_cost sys si v ≤ find_best_parent_v_cost sys si v')) := by
  obtain ⟨⟨ret, bp, be⟩, h⟩ := find_best_parent_total sys st si near hlive
  refine ⟨ret, bp, be, h, ?_⟩
  unfold find_best_parent at h
  cases hp : find_best_parent_pairs sys st si near [] [] with
  | none => simp [hp] at h
  | some r =>
    obtain ⟨pairs, vmap⟩ := r
    simp only [hp] at h
    obtain ⟨k1, k2, k3, k4⟩ := find_best_parent_pairs_recorded sys st si near [] [] pairs vmap
      hnd (fun _ _ => rfl) (fun p hpp => absurd hpp (by simp))
      (fun p hpp => absurd hpp (by simp)) (by simp) hp
    have hperm : (sort_vertex_cost_pairs pairs).Perm pairs := by
      unfold sort_vertex_cost_pairs
      exact List.perm_insertionSort _ pairs
    have hsn : ((sort_vertex_cost_pairs pairs).map Prod.fst).Nodup :=
      (List.Perm.nodup_iff (hperm.map Prod.fst)).mpr k2
    have hsG : ∀ p ∈ sort_vertex_cost_pairs pairs, Recorded sys st si vmap p :=
      fun p hpp => k1 p (hperm.mem_iff.mp hpp)
    have hcand : ∀ u ∈ near, ∀ v, st.heap u = some v → PassesBoth sys si v →
        (u, find_best_parent_v_cost sys si v) ∈ sort_vertex_cost_pairs pairs :=
      fun u hu v hv hpass => hperm.mem_iff.mpr (k4 u hu v hv hpass.1)
    rcases find_best_parent_scan_first sys ht st si _ _ _ ret bp be hsn hsG h with
      ⟨g1, g2, g3, g4⟩ | ⟨g1, p, v, ps1, ps2, T, g2, g3, g4, g5, g6, g7⟩
    · have hnone : ∀ u ∈ near, ∀ v, st.heap u = some v → ¬ PassesBoth sys si v :=
        fun u hu v hv hpass => g4 _ (hcand u hu v hv hpass) v hv hpass
      exact ⟨⟨fun _ => hnone, fun _ => g1⟩, Or.inl ⟨g1, g2, g3⟩⟩
    · have hpm : p ∈ sort_vertex_cost_pairs pairs := by
        rw [g2]
        exact List.mem_append_right _ (List.mem_cons_self _ _)
      have hpn : p.1 ∈ near := by
        rcases k3 p (hperm.mem_iff.mp hpm) with e | e
        · exact absurd e (by simp)
        · exact e
      have hpc : p.2 = find_best_parent_v_cost sys si v := by
        obtain ⟨w, w1, _, w3, _⟩ := hsG p hpm
        rw [g3] at w1
        rw [Option.some.inj w1]
        exact w3
      refine ⟨⟨fun e => ?_, fun hn => absurd g5 (hn p.1 hpn v g3)⟩, Or.inr ⟨g1, p.1, v, _, g6,
        g7, hpn, g3, g5, rfl, rfl, rfl, ?_⟩⟩
      · rw [g1] at e
        exact absurd e (by decide)
      · intro u' hu' v' hv' hpass
        have hq := hcand u' hu' v' hv' hpass
        have hsorted := sort_vertex_cost_pairs_sorted pairs
        rw [g2] at hq hsorted
        rcases List.mem_append.mp hq with e | e
        · exact absurd hpass (g4 _ e v' hv')
        · rcases List.mem_cons.mp e with e | e
          · rw [← hpc, ← e]
          · have := (List.pairwise_cons.mp (List.pairwise_append.mp hsorted).2.1).1 _ e
            rw [hpc] at this
            exact this

end FindBest3

section FindBestWitness

/-- On the line example: after the points 10 and 5 were inserted, the best parent for
the point 7 among the three vertices is the vertex 2 at the point 5, with the edge
cost 4 (an instance of `find_best_parent_selects`). -/
theorem find_best_parent_selects_witness :
    TrajectoryIsOutput line_system ∧
    (∀ x ∈ [0, 1, 2], (line_s2.heap x).isSome = true) ∧ [0, 1, 2].Nodup ∧
    find_best_parent line_system line_s2 7 [0, 1, 2]
      = some (0, some 2, some { start_state := 5, end_state := 7, cost := 4, opt_data := 0 }) ∧
    ∃ ret bp be, find_best_parent line_system line_s2 7 [0, 1, 2] = some (ret, bp, be) ∧
      (ret = 1 ↔ ∀ u ∈ [0, 1, 2], ∀ v, line_s2.heap u = some v →
        ¬ PassesBoth line_system 7 v) ∧
      ((ret = 1 ∧ bp = none ∧ be = none) ∨
        (ret = 0 ∧ ∃ u v ed, bp = some u ∧ be = some ed ∧ u ∈ [0, 1, 2] ∧
          line_s2.heap u = some v ∧ PassesBoth line_system 7 v ∧
          ed.start_state = v.state ∧ ed.end_state = 7 ∧
          ed.cost = find_best_parent_edge_cost line_system 7 v ∧
          ∀ u' ∈ [0, 1, 2], ∀ v', line_s2.heap u' = some v' → PassesBoth line_system 7 v' →
            find_best_parent_v_cost line_system 7 v
              ≤ find_best_parent_v_cost line_system 7 v')) :=
  ⟨fun _ _ _ _ _ _ => rfl, by decide, by decide, rfl,
    find_best_parent_selects line_system (fun _ _ _ _ _ _ => rfl) line_s2 7 [0, 1, 2]
      (by decide) (by decide)⟩

end FindBestWitness

set_option linter.unusedSectionVars false
section Near2
variable {S U C O R : Type} [Add C] [LT C] [DecidableRel (fun a b : C => a < b)]
variable [Zero R] [Add R]

/-- Inserting a new vertex below a listed vertex preserves the tree invariant and the
marks, whatever the costs and the best-vertex record are. -/
theorem insert_edge_tree {sys : System S U C O R} {st st' : Rrts S C O} {vs nv : Nat}
    {e : Edge S C O} (t : TreeInv st) (hvs : vs ∈ st.list_vertices)
    (h : insert_edge sys st vs e = some (some nv, st')) :
    nv = st.next ∧ st'.list_vertices = st.list_vertices ++ [nv] ∧ TreeInv st' ∧
    Grown st st' ∧ (MarksClear st → MarksClear st') := by
  obtain ⟨vvs, h1, ⟨hr, _⟩ | ⟨hr, _, kd, hkd, hins⟩⟩ := insert_edge_cases h
  · exact absurd hr (by simp)
  have hnv : nv = st.next := Option.some.inj hr
  subst hnv
  have hfresh : st.next ∉ st.list_vertices := fun hm => absurd (t.fresh _ hm) (lt_irrefl _)
  have hnn : ∀ k ∈ st.list_vertices, k ≠ st.next := fun k hk hc' => hfresh (hc' ▸ hk)
  have hne : vs ≠ st.next := hnn _ hvs
  obtain ⟨vvs', vve, st2, g1, g2, g3, g4, g5, g6, g7, g8, g9, g10, g11, g12⟩ :=
    insert_edge_into_spec hins
  simp only [new_vertex, Function.update_same, Function.update_noteq hne] at g1 g2
  rw [h1] at g1
  have := Option.some.inj g1
  subst this
  have := Option.some.inj g2
  subst this
  obtain ⟨k1, k2, _, k4⟩ := g12 hne (by simp)
  simp only [new_vertex, if_false, reduceCtorEq] at k1 k2 k4 g6 g7 g8 g9 g10 g11
  have hold : ∀ k, k ≠ st.next → k ≠ vs → st'.heap k = st.heap k := by
    intro k q1 q2
    rw [k4 k q1 q2 (by simp)]
    exact Function.update_noteq q1 _ _
  have hparv : ∀ k, st'.par k = if k = st.next then some vs else st.par k := by
    intro k
    by_cases q1 : k = st.next
    · subst q1; simp [par_of_heap k1]
    · rw [if_neg q1]
      by_cases q2 : k = vs
      · subst q2; simp [par_of_heap k2, par_of_heap h1]
      · simp [Rrts.par, hold k q1 q2]
  have hkidsv : ∀ u, st'.kids u = if u = st.next then [] else if u = vs then
      (if st.next ∈ st.kids vs then st.kids vs else st.kids vs ++ [st.next]) else st.kids u := by
    intro u
    by_cases q1 : u = st.next
    · subst q1; simp [kids_of_heap k1]
    · rw [if_neg q1]
      by_cases q2 : u = vs
      · subst q2; simp [kids_of_heap k2, kids_of_heap h1]
      · simp [Rrts.kids, hold u q1 q2, q2]
  have hedgev : ∀ k, st'.has_edge k = if k = st.next then true else st.has_edge k := by
    intro k
    by_cases q1 : k = st.next
    · subst q1; simp [has_edge_of_heap k1]
    · rw [if_neg q1]
      by_cases q2 : k = vs
      · subst q2; simp [has_edge_of_heap k2, has_edge_of_heap h1]
      · simp [Rrts.has_edge, hold k q1 q2]
  have hmem : ∀ k, k ∈ st'.list_vertices ↔ k ∈ st.list_vertices ∨ k = st.next := by
    intro k; rw [g6]; simp
  obtain ⟨d, hd⟩ := t.depth
  refine ⟨rfl, g6, ⟨?_, ?_, ?_, ?_, ?_, ?_, ?_, ?_, ?_, ?_⟩, ⟨?_, ?_, ?_, ?_⟩, ?_⟩
  · rw [g6]
    exact List.Nodup.append t.nodup (List.nodup_singleton _) (by simpa using hfresh)
  · rw [g6, g7, t.count]; simp
  · rw [g6, g9]
    have := t.index
    rw [hkd] at this
    rw [Option.some.inj this]
  · intro k hk
    rw [g8]
    rcases (hmem k).mp hk with q | q
    · have := t.fresh k q; omega
    · omega
  · intro k hk
    rcases (hmem k).mp hk with q | q
    · by_cases q2 : k = vs
      · subst q2; exact ⟨_, k2⟩
      · rw [hold k (hnn _ q) q2]; exact t.live k q
    · subst q; exact ⟨_, k1⟩
  · obtain ⟨r, r1, r2, r3⟩ := t.root_ok
    refine ⟨r, by rw [g10]; exact r1, (hmem r).mpr (Or.inl r2), ?_⟩
    rw [hparv, if_neg (hnn _ r2)]; exact r3
  · intro k hk hp
    rw [hparv] at hp
    rw [g10]
    rcases (hmem k).mp hk with q | q
    · rw [if_neg (hnn _ q)] at hp
      exact t.root_unique k q hp
    · simp [q] at hp
  · intro k hk p hp
    rw [hparv] at hp
    rw [hedgev, hkidsv, hmem]
    rcases (hmem k).mp hk with q | q
    · have q1 : k ≠ st.next := hnn _ q
      rw [if_neg q1] at hp
      obtain ⟨z1, z2, z3⟩ := t.parent_ok k q p hp
      have q3 : p ≠ st.next := hnn _ z1
      refine ⟨Or.inl z1, ?_, by rw [if_neg q1]; exact z3⟩
      rw [if_neg q3]
      by_cases q4 : p = vs
      · subst q4; rw [if_pos rfl]; exact mem_ins.mpr (Or.inr z2)
      · rw [if_neg q4]; exact z2
    · subst q
      rw [if_pos rfl] at hp
      have : p = vs := (Option.some.inj hp).symm
      subst this
      refine ⟨Or.inl hvs, ?_, by simp⟩
      rw [if_neg hne, if_pos rfl]
      exact mem_ins.mpr (Or.inl rfl)
  · intro u hu
    rw [hkidsv]
    rcases (hmem u).mp hu with q | q
    · have q1 : u ≠ st.next := hnn _ q
      rw [if_neg q1]
      by_cases q4 : u = vs
      · subst q4
        rw [if_pos rfl]
        refine ⟨nodup_ins (t.children_ok u q).1, fun c hcm => ?_⟩
        rw [hparv, hmem]
        rcases mem_ins.mp hcm with z | z
        · subst z; exact ⟨Or.inr rfl, by simp⟩
        · obtain ⟨z1, z2⟩ := (t.children_ok u q).2 c z
          exact ⟨Or.inl z1, by rw [if_neg (hnn _ z1)]; exact z2⟩
      · rw [if_neg q4]
        refine ⟨(t.children_ok u q).1, fun c hcm => ?_⟩
        rw [hparv, hmem]
        obtain ⟨z1, z2⟩ := (t.children_ok u q).2 c hcm
        exact ⟨Or.inl z1, by rw [if_neg (hnn _ z1)]; exact z2⟩
    · subst q
      rw [if_pos rfl]
      exact ⟨List.nodup_nil, fun c hcm => absurd hcm (by simp)⟩
  · refine ⟨fun x => if x = st.next then d vs + 1 else d x, ?_⟩
    intro k hk p hp
    beta_reduce
    rw [hparv] at hp
    rcases (hmem k).mp hk with q | q
    · have q1 : k ≠ st.next := hnn _ q
      rw [if_neg q1] at hp
      obtain ⟨z1, _, _⟩ := t.parent_ok k q p hp
      rw [if_neg q1, if_neg (hnn _ z1)]
      exact hd k q p hp
    · subst q
      rw [if_pos rfl] at hp
      have : p = vs := (Option.some.inj hp).symm
      subst this
      rw [if_pos rfl, if_neg hne]; omega
  · intro k hk
    exact (hmem k).mpr (Or.inl hk)
  · rw [g8]; omega
  · intro k hk hkn
    have q1 : k ≠ st.next := by omega
    have q2 : k ≠ vs := fun q => hk (q ▸ hvs)
    refine ⟨fun hm => ?_, hold k q1 q2⟩
    rcases (hmem k).mp hm with q | q
    · exact hk q
    · exact q1 q
  · rw [g4]
    obtain ⟨x, _, c1 | ⟨_, _, c1⟩⟩ := update_best_vertex_cases g3
    · left; rw [c1]; rfl
    · right
      refine ⟨st.next, by rw [c1], (hmem _).mpr (Or.inr rfl)⟩
  · intro m k hk w hw
    rcases (hmem k).mp hk with q | q
    · by_cases q2 : k = vs
      · subst q2
        rw [k2] at hw
        rw [← Option.some.inj hw]
        exact m k q vvs h1
      · rw [hold k (hnn _ q) q2] at hw
        exact m k q w hw
    · subst q
      rw [k1] at hw
      rw [← Option.some.inj hw]

end Near2
set_option linter.unusedSectionVars false
section Near1
variable {S U C O R : Type}

/-- Walking the parent links from a dangling handle has no result, whatever the
budget. -/
theorem DeadChain.walk_none {st : Rrts S C O} {b : Nat} (h : DeadChain st b) :
    ∀ (fuel : Nat) (l : List Nat),
      get_best_trajectory_vertices_walk fuel st (some b) l = none := by
  induction h with
  | dead x _ _ hx =>
    intro fuel l
    cases fuel with
    | zero => rfl
    | succ n => simp [get_best_trajectory_vertices_walk, hx]
  | step x p v _ _ hx hp _ ih =>
    intro fuel l
    cases fuel with
    | zero => rfl
    | succ n =>
      simp only [get_best_trajectory_vertices_walk, hx, hp]
      exact ih n _

theorem Grown.grown_refl (st : Rrts S C O) : Grown st st :=
  ⟨fun _ h => h, le_refl _, fun _ h _ => ⟨h, rfl⟩, Or.inl rfl⟩

theorem Grown.grown_trans {a b c : Rrts S C O} (g : Grown a b) (k : Grown b c) :
    Grown a c := by
  obtain ⟨g1, g2, g3, g4⟩ := g
  obtain ⟨k1, k2, k3, k4⟩ := k
  refine ⟨fun h hh => k1 h (g1 h hh), le_trans g2 k2, fun h hl hn => ?_, ?_⟩
  · obtain ⟨q1, q2⟩ := g3 h hl hn
    obtain ⟨r1, r2⟩ := k3 h q1 (lt_of_lt_of_le hn g2)
    exact ⟨r1, r2.trans q2⟩
  · rcases k4 with k4 | k4
    · rcases g4 with g4 | ⟨x, g4, g5⟩
      · exact Or.inl (k4.trans g4)
      · exact Or.inr ⟨x, k4.trans g4, k1 x g5⟩
    · exact Or.inr k4

theorem DeadChain.dead_grown {st st' : Rrts S C O} (g : Grown st st') {b : Nat}
    (h : DeadChain st b) : DeadChain st' b := by
  induction h with
  | dead x hl hn hx =>
    obtain ⟨q1, q2⟩ := g.2.2.1 x hl hn
    exact DeadChain.dead x q1 (lt_of_lt_of_le hn g.2.1) (by rw [q2]; exact hx)
  | step x p v hl hn hx hp _ ih =>
    obtain ⟨q1, q2⟩ := g.2.2.1 x hl hn
    exact DeadChain.step x p v q1 (lt_of_lt_of_le hn g.2.1) (by rw [q2]; exact hx) hp ih

theorem BestSafe.safe_grown {st st' : Rrts S C O} (g : Grown st st') (h : BestSafe st) :
    BestSafe st' := by
  intro b hb
  rcases g.2.2.2 with q | ⟨x, q1, q2⟩
  · rw [q] at hb
    rcases h b hb with r | r
    · exact Or.inl (g.1 b r)
    · exact Or.inr (r.dead_grown g)
  · rw [q1] at hb
    rw [← Option.some.inj hb]
    exact Or.inl q2

theorem BestListed.bestSafe {st : Rrts S C O} (h : BestListed st) : BestSafe st :=
  fun b hb => Or.inl (h b hb)

end Near1

section Near2
variable {S U C O R : Type} [Add C] [LT C] [DecidableRel (fun a b : C => a < b)]
variable [Zero R] [Add R]

/-- `update_best_vertex` keeps the best-vertex record or names the vertex it looks
at. -/
theorem update_best_vertex_kept {sys : System S U C O R} {st st' : Rrts S C O} {v : Nat}
    (l0 : Option Nat) (h : update_best_vertex sys st v = some st')
    (hv : v ∈ st.list_vertices)
    (hb : st.lower_bound_vertex = l0 ∨
      ∃ b, st.lower_bound_vertex = some b ∧ b ∈ st.list_vertices) :
    st'.lower_bound_vertex = l0 ∨
      ∃ b, st'.lower_bound_vertex = some b ∧ b ∈ st'.list_vertices := by
  obtain ⟨vv, _, h1 | ⟨_, _, h1⟩⟩ := update_best_vertex_cases h <;> subst h1
  · exact hb
  · exact Or.inr ⟨v, rfl, hv⟩

/-- Cost propagation keeps the best-vertex record or names a listed vertex. -/
theorem update_branch_cost_kept (sys : System S U C O R) (l0 : Option Nat) :
    ∀ (n : Nat) (st st' : Rrts S C O) (v : Nat),
      TreeInv st → v ∈ st.list_vertices →
      (st.lower_bound_vertex = l0 ∨
        ∃ b, st.lower_bound_vertex = some b ∧ b ∈ st.list_vertices) →
      update_branch_cost sys n st v = some st' →
      (st'.lower_bound_vertex = l0 ∨
        ∃ b, st'.lower_bound_vertex = some b ∧ b ∈ st'.list_vertices)
  | 0, st, st', v, _, _, _, h => by simp [update_branch_cost] at h
  | n + 1, st, st', v, t, hv, hbl, h => by
    unfold update_branch_cost at h
    cases hvv : st.heap v with
    | none => simp [hvv] at h
    | some vv =>
      simp only [hvv] at h
      have hkids : st.kids v = vv.children := kids_of_heap hvv
      have key : ∀ (l : List Nat) (s : Rrts S C O), SameLinks st s →
          (∀ c ∈ l, c ∈ st.kids v) →
          (s.lower_bound_vertex = l0 ∨
            ∃ b, s.lower_bound_vertex = some b ∧ b ∈ s.list_vertices) →
          List.foldlM (update_branch_child sys (update_branch_cost sys n) v) s l = some st' →
          (st'.lower_bound_vertex = l0 ∨
            ∃ b, st'.lower_bound_vertex = some b ∧ b ∈ st'.list_vertices) := by
        intro l
        induction l with
        | nil =>
          intro s _ _ hJ hf
          simp at hf
          subst hf
          exact hJ
        | cons c l ih =>
          intro s hs hl hJ hf
          rw [foldlM_option_cons] at hf
          cases hb : update_branch_child sys (update_branch_cost sys n) v s c with
          | none => simp [hb] at hf
          | some s3 =>
            simp only [hb, Option.some_bind] at hf
            obtain ⟨cur, vc, s2, h1, h2, h3, h4⟩ := update_branch_child_some hb
            have hs1 := SameLinks.setV_cost (cur.cost_from_root + vc.cost_from_parent) h2
            have hs2 := SameLinks.links_of_update_best_vertex h3
            obtain ⟨hs3, _⟩ := update_branch_cost_links sys n _ _ _ h4
            have hs02 : SameLinks st s2 := hs.links_trans (hs1.links_trans hs2)
            have hs03 : SameLinks st s3 := hs02.links_trans hs3
            have t2 : TreeInv s2 := hs02.treeInv t
            have hcv : c ∈ st.kids v := hl c (List.mem_cons_self c l)
            obtain ⟨hcl, _⟩ := (t.children_ok v hv).2 c hcv
            have hJ2 := update_best_vertex_kept l0 h3 (by
                show c ∈ s.list_vertices
                rw [hs.1]; exact hcl) hJ
            have hJ3 := update_branch_cost_kept sys l0 n s2 s3 c t2
              (by rw [hs02.1]; exact hcl) hJ2 h4
            exact ih s3 hs03 (fun c' hc' => hl c' (List.mem_cons_of_mem c hc')) hJ3 hf
      exact key vv.children st (SameLinks.links_refl st) (fun c hc => by rw [hkids]; exact hc) hbl h

/-- Cost propagation from a listed vertex touches listed vertices only. -/
theorem update_branch_cost_grown (sys : System S U C O R) {n : Nat} {st st' : Rrts S C O}
    {v : Nat} (t : TreeInv st) (hv : v ∈ st.list_vertices)
    (h : update_branch_cost sys n st v = some st') : Grown st st' := by
  obtain ⟨hs, _⟩ := update_branch_cost_links sys n _ _ _ h
  refine ⟨fun x hx => by rw [hs.1]; exact hx, le_of_eq hs.2.2.1.symm, fun x hl _ => ?_, ?_⟩
  · exact ⟨by rw [hs.1]; exact hl,
      update_branch_cost_frame sys n st st' v t hv h x (fun q => hl q.1)⟩
  · exact update_branch_cost_kept sys st.lower_bound_vertex n st st' v t hv (Or.inl rfl) h

/-- Re-parenting a listed vertex below another listed vertex touches listed vertices
only and leaves the marks alone. -/
theorem rewire_insert_grown {sys : System S U C O R} {st st1 : Rrts S C O} {v vn : Nat}
    {e : Edge S C O} (t : TreeInv st) (hv : v ∈ st.list_vertices)
    (hvn : vn ∈ st.list_vertices) (hne : v ≠ vn)
    (h : insert_edge_into sys st v e vn = some st1) :
    Grown st st1 ∧ (MarksClear st → MarksClear st1) := by
  obtain ⟨vv, vvn, st2, h1, h2, h3, h4, h5, h6, h7, h8, h9, h10, h11, h12⟩ :=
    insert_edge_into_spec h
  have hpar : vvn.parent ≠ some vn := by
    have := t.par_ne_self hvn
    rwa [par_of_heap h2] at this
  obtain ⟨g1, g2, g3, g4⟩ := h12 hne hpar
  refine ⟨⟨fun x hx => by rw [h6]; exact hx, le_of_eq h8.symm, fun x hl _ => ?_, ?_⟩, ?_⟩
  · refine ⟨by rw [h6]; exact hl, g4 x (fun q => hl (q ▸ hvn)) (fun q => hl (q ▸ hv))
      (fun q => hl ?_)⟩
    exact (t.parent_ok vn hvn x (by rw [par_of_heap h2, q])).1
  · rw [h4]
    obtain ⟨x, _, c1 | ⟨_, _, c1⟩⟩ := update_best_vertex_cases h3
    · left; rw [c1]; rfl
    · right; exact ⟨vn, by rw [c1], by rw [h6]; exact hvn⟩
  · intro m x hx w hw
    rw [h6] at hx
    by_cases k1 : x = vn
    · subst k1
      rw [g1] at hw
      rw [← Option.some.inj hw]
      exact m x hx vvn h2
    · by_cases k2 : x = v
      · subst k2
        rw [g2] at hw
        rw [← Option.some.inj hw]
        exact m x hx vv h1
      · by_cases k3 : vvn.parent = some x
        · obtain ⟨vp, q1, q2⟩ := g3 x k3 k2
          rw [q2] at hw
          rw [← Option.some.inj hw]
          exact m x hx vp q1
        · rw [g4 x k1 k2 k3] at hw
          exact m x hx w hw

/-- One step of the rewiring loop preserves the tree invariant and the marks, whatever
the costs and the best-vertex record are. -/
theorem rewire_vertex_tree {sys : System S U C O R} {st st' : Rrts S C O} {v pvn fuel : Nat}
    (t : TreeInv st) (hv : v ∈ st.list_vertices) (hvn : pvn ∈ st.list_vertices)
    (hne : v ≠ pvn) (h : rewire_vertex sys fuel v st pvn = some st') :
    TreeInv st' ∧ st'.list_vertices = st.list_vertices ∧ Grown st st' ∧
      (MarksClear st → MarksClear st') := by
  obtain ⟨vv, vn, hvv, hvnn, ⟨_, rfl⟩ | ⟨_, _, _, st1, hins, hubc⟩⟩ := rewire_vertex_cases h
  · exact ⟨t, rfl, Grown.grown_refl _, fun m => m⟩
  · obtain ⟨hs, hbelow⟩ := update_branch_cost_links sys fuel _ _ _ hubc
    obtain ⟨t1, _⟩ := rewire_insert_tree t hv hvn hne hins hbelow
    obtain ⟨fr, _⟩ := rewire_insert_view t hv hvn hne hins
    obtain ⟨g1, m1⟩ := rewire_insert_grown t hv hvn hne hins
    have hl1 : st1.list_vertices = st.list_vertices := fr.1
    refine ⟨hs.treeInv t1, by rw [hs.1, hl1], g1.grown_trans
      (update_branch_cost_grown sys t1 (by rw [hl1]; exact hvn) hubc),
      fun m => hs.links_marksClear (m1 m)⟩

theorem rewire_vertices_tree {sys : System S U C O R} {fuel v : Nat} :
    ∀ (near : List Nat) (st st' : Rrts S C O), TreeInv st →
      v ∈ st.list_vertices → (∀ x ∈ near, x ∈ st.list_vertices ∧ x ≠ v) →
      rewire_vertices sys fuel st v near = some st' →
      TreeInv st' ∧ Grown st st' ∧ (MarksClear st → MarksClear st')
  | [], st, st', t, _, _, h => by
    simp [rewire_vertices] at h
    subst h
    exact ⟨t, Grown.grown_refl _, fun m => m⟩
  | x :: near, st, st', t, hv, hn, h => by
    unfold rewire_vertices at h
    rw [foldlM_option_cons] at h
    cases hb : rewire_vertex sys fuel v st x with
    | none => simp [hb] at h
    | some s1 =>
      simp only [hb, Option.some_bind] at h
      obtain ⟨hx1, hx2⟩ := hn x (List.mem_cons_self _ _)
      obtain ⟨t1, hl, g1, m1⟩ := rewire_vertex_tree t hv hx1 (Ne.symm hx2) hb
      obtain ⟨t2, g2, m2⟩ := rewire_vertices_tree near s1 st' t1 (by rw [hl]; exact hv)
        (fun y hy => by rw [hl]; exact hn y (List.mem_cons_of_mem _ hy)) h
      exact ⟨t2, g1.grown_trans g2, fun m => m2 (m1 m)⟩

/-- One `iteration` preserves the tree invariant and the marks and keeps a dangling
best vertex dangling, whatever the costs are. -/
theorem iteration_tree {sys : System S U C O R} {fuel : Nat} {d : Draw S} {st st' : Rrts S C O}
    {code : Int} (t : TreeInv st) (m : MarksClear st) (hbs : BestSafe st) (hk : KdSound st d)
    (h : iteration sys fuel d st = some (code, st')) :
    TreeInv st' ∧ MarksClear st' ∧ BestSafe st' := by
  rcases iteration_cases h with ⟨_, rfl, _⟩ | ⟨_, ret, near, hn, ⟨_, rfl, _⟩ | ⟨_, ret3, bp, be, hf,
    ⟨_, rfl, _⟩ | ⟨_, b, e, rfl, rfl, ⟨_, rfl, _⟩ | ⟨_, nv, st1, hi, _, hrw⟩⟩⟩⟩
  · exact ⟨t, m, hbs⟩
  · exact ⟨t, m, hbs⟩
  · exact ⟨t, m, hbs⟩
  · exact ⟨t, m, hbs⟩
  · have hnear : ∀ x ∈ near, x ∈ st.list_vertices := by
      obtain ⟨kd, hkd, g⟩ := get_near_vertices_cases hn
      obtain ⟨k1, k2⟩ := hk.elim hkd
      have hkl : kd = st.list_vertices := by
        have := t.index; rw [hkd] at this; exact Option.some.inj this
      rw [hkl] at k1 k2
      rcases g with ⟨_, g, _⟩ | ⟨_, _, vc, g1, g2⟩ | ⟨_, _, g⟩
      · rw [g]; simp
      · rw [g2]; intro x hx; rw [List.mem_singleton.mp hx]; exact k2 vc g1
      · rw [g]; exact k1
    rcases find_best_parent_cases hf with ⟨_, g, _⟩ | ⟨_, b', ed, g1, g2, g3, _⟩
    · exact absurd g (by simp)
    · have : b' = b := (Option.some.inj g1).symm
      subst this
      obtain ⟨q1, q2, t1, gr1, m1⟩ := insert_edge_tree t (hnear _ g3) hi
      have hfresh : ∀ x ∈ st.list_vertices, x ≠ nv := by
        intro x hx hxe
        have := t.fresh x hx
        rw [hxe, q1] at this
        exact absurd this (lt_irrefl _)
      obtain ⟨t2, gr2, m2⟩ := rewire_vertices_tree near st1 st' t1
        (by rw [q2]; simp)
        (fun x hx => ⟨by rw [q2]; exact List.mem_append_left _ (hnear x hx), hfresh x (hnear x hx)⟩)
        hrw
      exact ⟨t2, m2 (m1 m), hbs.safe_grown (gr1.grown_trans gr2)⟩

end Near2

set_option linter.unusedSectionVars false
section Near3
variable {S U C O R : Type} [Add C] [LT C] [DecidableRel (fun a b : C => a < b)]
variable [Zero R] [Add R]

/-- A returning `check_tree` preserves the tree invariant and the marks, and leaves a
best vertex that is listed (or none). -/
theorem check_tree_tree {sys : System S U C O R} {fuel : Nat} {st st' : Rrts S C O}
    {code : Int} (t : TreeInv st) (m : MarksClear st) (hbs : BestSafe st)
    (h : check_tree sys fuel st = some (code, st')) :
    TreeInv st' ∧ MarksClear st' ∧ BestSafe st' := by
  obtain ⟨r, hr, hrl, hrp⟩ := t.root_ok
  obtain ⟨vr, hvr⟩ := t.live r hrl
  have hkids : st.kids r = vr.children := kids_of_heap hvr
  unfold check_tree at h
  simp only [hr, hvr] at h
  split at h
  · simp only [Option.some.injEq, Prod.mk.injEq] at h
    rw [← h.2]
    exact ⟨t, m, hbs⟩
  split at h
  · next hch =>
    have hsh : SameShape st (st.setV r { vr with mark := 0 }) :=
      SameShape.setV_shape hvr (by simp [Vertex.shape, m r hrl vr hvr])
    have hst := hsh.shape_sameTree
    have t1 := hst.tree_treeInv t
    split at h
    · exact absurd h (by simp)
    · next st2 hloop =>
      have h0 : Checked sys (st.setV r { vr with mark := 0 }) (st.setV r { vr with mark := 0 })
          (fun y => y = r) (fun _ => False) :=
        ⟨SameShape.shape_refl _, fun _ _ => rfl, fun _ hf => absurd hf id⟩
      have hd : ∀ c y, Desc (st.setV r { vr with mark := 0 }) c y ↔ Desc st c y :=
        fun c y => Desc.of_sameTree hst c y
      have hk1 : (st.setV r { vr with mark := 0 }).kids r = vr.children := by
        rw [hst.tree_kids_eq, hkids]
      have hck := for_children_checked sys fuel
        (fun s s3 c ts hc hb => check_and_mark_children_spec sys fuel s s3 c ts hc hb)
        t1 hrl vr.children _ _ _ h0 (fun c hc => by rw [hk1]; exact hc)
        (by rw [← hkids]; exact (t.children_ok r hrl).1)
        (fun c' hc' y hy e => by
          rw [e] at hy
          rw [← hkids] at hc'
          exact t.no_cycle hrl (Relation.TransGen.tail' ((hd c' r).mp hy).2
            ((t.children_ok _ hrl).2 c' hc').2)) hloop
      have hs2 : SameShape st st2 := hsh.shape_trans hck.1
      have t2 := hs2.shape_sameTree.tree_treeInv t
      have m2 := hs2.shape_marksClear m
      have hsw := check_tree_sweep_all st2.list_vertices ([], st2) (fun x hx => by
        obtain ⟨v, hv⟩ := t2.live x hx
        exact ⟨v, hv, m2 x hx v hv⟩)
      rw [hsw] at h
      simp only [List.nil_append] at h
      have hins := insert_all_total st2.list_vertices
        { st2 with kdtree := some [], list_vertices := [], num_vertices := 0 } [] rfl
        (fun x hx => t2.live x hx)
      rw [hins] at h
      simp only [List.nil_append, zero_add] at h
      have hback : ({ st2 with kdtree := some st2.list_vertices, num_vertices := (st2.list_vertices.length : Int) } : Rrts S C O) = st2 := by
        have h1 := t2.index
        have h2 := t2.count
        cases st2
        simp only at h1 h2
        simp [h1, h2]
      rw [hback] at h
      split at h
      · exact absurd h (by simp)
      · next st5 hu =>
        simp only [Option.some.injEq, Prod.mk.injEq] at h
        rw [← h.2]
        have hr2 : st2.root = some r := by rw [hs2.2.2.2.2.1]; exact hr
        have hl2 : st2.list_vertices = st.list_vertices := hs2.1
        have hu5 := update_all_costs_eq hr2 hu
        have hs0 : SameLinks st2 { st2 with lower_bound_cost := sys.get_inf_cost, lower_bound_vertex := none } :=
          ⟨rfl, rfl, rfl, rfl, rfl, rfl, fun _ => rfl⟩
        have t3 := hs0.treeInv t2
        obtain ⟨hs5, _⟩ := update_branch_cost_links sys fuel _ _ _ hu5
        refine ⟨hs5.treeInv t3, hs5.links_marksClear (hs0.links_marksClear m2), ?_⟩
        have hk := update_branch_cost_kept sys none fuel _ st5 r t3
          (by show r ∈ st2.list_vertices; rw [hl2]; exact hrl) (Or.inl rfl) hu5
        intro b hb
        rcases hk with q | ⟨x, q1, q2⟩
        · rw [q] at hb; exact absurd hb (by simp)
        · rw [q1] at hb
          rw [← Option.some.inj hb]
          exact Or.inl q2
  · simp only [Option.some.injEq, Prod.mk.injEq] at h
    rw [← h.2]
    exact ⟨t, m, hbs⟩

end Near3

set_option linter.unusedSectionVars false
section Near4
variable {S U C O R : Type} [Add C] [LT C] [DecidableRel (fun a b : C => a < b)]
variable [Zero R] [Add R]

/-- A planner that holds a fresh root and nothing else satisfies the tree invariant
with clear marks. -/
theorem fresh_root_tree {st' : Rrts S C O} {n : Nat} {w : Vertex S C O}
    (h2 : st'.list_vertices = [n]) (h3 : st'.root = some n)
    (h4 : st'.heap n = some w) (hp : w.parent = none) (hk : w.children = [])
    (hm : w.mark = 0)
    (h5 : st'.num_vertices = 1) (h9 : st'.kdtree = some [n]) (h10 : st'.next = n + 1) :
    TreeInv st' ∧ MarksClear st' := by
  have hpar : st'.par n = none := by simp [par_of_heap h4, hp]
  have hkids : st'.kids n = [] := by simp [kids_of_heap h4, hk]
  refine ⟨⟨?_, ?_, ?_, ?_, ?_, ?_, ?_, ?_, ?_, ?_⟩, ?_⟩
  · rw [h2]; exact List.nodup_singleton _
  · rw [h2, h5]; simp
  · rw [h2, h9]
  · rw [h2, h10]; intro k hk; rw [List.mem_singleton.mp hk]; omega
  · rw [h2]; intro k hk; rw [List.mem_singleton.mp hk]; exact ⟨_, h4⟩
  · exact ⟨n, h3, by rw [h2]; simp, hpar⟩
  · rw [h2, h3]; intro k hk _; rw [List.mem_singleton.mp hk]
  · rw [h2]; intro k hk p hp
    rw [List.mem_singleton.mp hk, hpar] at hp
    exact absurd hp (by simp)
  · rw [h2]; intro u hu
    rw [List.mem_singleton.mp hu, hkids]
    exact ⟨List.nodup_nil, fun c hc => absurd hc (by simp)⟩
  · refine ⟨fun _ => 0, ?_⟩
    rw [h2]; intro k hk p hp
    rw [List.mem_singleton.mp hk, hpar] at hp
    exact absurd hp (by simp)
  · rw [MarksClear, h2]; intro x hx v hv
    rw [List.mem_singleton.mp hx, h4] at hv
    rw [← Option.some.inj hv]
    exact hm

/-- What `switch_root` leaves when the steering from the new root state to the vertex
`c` fails (return codes 5 and 6): a fresh root alone in the vertex list and in the
index, the subtree of `c` still allocated but unlisted, and the rest of the old tree
deleted. -/
theorem switch_root_prune_failed {sys : System S U C O R} {fuel : Nat} {st st' : Rrts S C O}
    {nrs : S} {c : Nat} {code : Int} (t : TreeInv st) (m : MarksClear st)
    (hc : c ∈ st.list_vertices)
    (h : switch_root_prune sys fuel st nrs c = some (code, st')) (hcode : code ≠ 0) :
    ∃ vc, st.heap c = some vc ∧
      st'.list_vertices = [st.next] ∧ st'.kdtree = some [st.next] ∧
      st'.root = some st.next ∧ st'.num_vertices = 1 ∧ st'.next = st.next + 1 ∧
      st'.lower_bound_vertex = st.lower_bound_vertex ∧
      st'.heap st.next = some { parent := none, state := nrs, children := [], mark := 0, cost_from_root := sys.get_zero_cost, cost_from_parent := sys.get_zero_cost, edge_from_parent := none } ∧
      st'.heap c = some { vc with edge_from_parent := none } ∧
      (∀ x, Desc st c x → x ≠ c → st'.heap x = st.heap x) ∧
      (∀ x ∈ st.list_vertices, ¬ Desc st c x → st'.heap x = none) := by
  obtain ⟨vc0, hvc0, hcase⟩ := switch_root_prune_cases t m hc h
  unfold switch_root_prune at h
  cases h1 : mark_descendent_vertices fuel st c with
  | none => simp [h1] at h
  | some st1 =>
    simp only [h1] at h
    cases h2 : delete_unmarked_vertices st1 with
    | none => simp [h2] at h
    | some ds =>
      obtain ⟨surv, st2⟩ := ds
      simp only [h2] at h
      obtain ⟨p1, p2, ⟨b1, b2, b3, b4, b5, b6, b7, b8⟩, p4, p5, p6⟩ := prune_sweep t m hc h1 h2
      have hcn : c ≠ st.next := fun e => absurd (t.fresh c hc) (by rw [e]; exact lt_irrefl _)
      have hcd : Desc st c c := ⟨hc, Relation.ReflTransGen.refl⟩
      obtain ⟨vc, hvc⟩ := t.live c hc
      have hvc2 : st2.heap c = some vc := by rw [p4 c hcd]; exact hvc
      refine ⟨vc, hvc, ?_⟩
      rw [hvc] at hvc0
      have hv0 := Option.some.inj hvc0
      subst hv0
      obtain ⟨s3, hs3, q1, q2, q3, q4, q5, q6, q7, q8, q9⟩ := set_root_spec sys
        { st2 with list_vertices := [], num_vertices := 0, kdtree := some [] } nrs [] rfl
      simp only [b3, List.nil_append, zero_add] at q1 q2 q3 q4 q5 q6 q7 q8 q9
      simp only [hs3] at h
      have h3c : s3.heap c = some vc := by
        rw [q1, Function.update_noteq hcn]; exact hvc2
      simp only [h3c] at h
      have key : st' = s3.setV c { vc with edge_from_parent := none } := by
        rcases hcase with ⟨_, hx, _⟩ | ⟨_, hx, hy, _⟩ | ⟨h0, _⟩
        · rw [if_pos hx] at h
          simp only [Option.some.injEq, Prod.mk.injEq] at h
          exact h.2.symm
        · rw [if_neg (not_not.mpr hx), if_pos hy] at h
          simp only [Option.some.injEq, Prod.mk.injEq] at h
          exact h.2.symm
        · exact absurd h0 hcode
      subst key
      refine ⟨q4, q9, q6, q3, q2, q8.trans b7, ?_, ?_, ?_, ?_⟩
      · rw [setV_heap_ne _ _ _ _ (Ne.symm hcn), q1, Function.update_same]
      · rw [setV_heap_same]
      · intro x hd hxc
        have hxn : x ≠ st.next :=
          fun e => absurd (t.fresh x hd.1) (by rw [e]; exact lt_irrefl _)
        rw [setV_heap_ne _ _ _ _ hxc, q1, Function.update_noteq hxn]
        exact p4 x hd
      · intro x hxl hd
        have hxn : x ≠ st.next :=
          fun e => absurd (t.fresh x hxl) (by rw [e]; exact lt_irrefl _)
        have hxc : x ≠ c := fun e => hd (e ▸ hcd)
        rw [setV_heap_ne _ _ _ _ hxc, q1, Function.update_noteq hxn]
        exact p5 x hxl hd

end Near4

section Near5
variable {S U C O R : Type}

/-- After a failed re-rooting every vertex of the subtree of `c` is dangling: its
parent chain leads through unlisted vertices to `c`, whose parent was deleted. -/
theorem dead_below_cut {st st' : Rrts S C O} {c : Nat} {vc w : Vertex S C O}
    (t : TreeInv st) (hc : c ∈ st.list_vertices) (hpar : st.par c ≠ none)
    (hvc : st.heap c = some vc)
    (hl : st'.list_vertices = [st.next]) (hn : st'.next = st.next + 1)
    (hc' : st'.heap c = some w) (hw : w.parent = vc.parent)
    (hkeep : ∀ x, Desc st c x → x ≠ c → st'.heap x = st.heap x)
    (hdel : ∀ x ∈ st.list_vertices, ¬ Desc st c x → st'.heap x = none) :
    ∀ x, Desc st c x → DeadChain st' x := by
  have hun : ∀ x ∈ st.list_vertices, x ∉ st'.list_vertices ∧ x < st'.next := by
    intro x hx
    have := t.fresh x hx
    rw [hl, hn]
    exact ⟨by simp; omega, by omega⟩
  have hbase : DeadChain st' c := by
    cases hp : vc.parent with
    | none => rw [par_of_heap hvc, hp] at hpar; exact absurd rfl hpar
    | some p =>
      have hcp : st.par c = some p := by rw [par_of_heap hvc, hp]
      have hpl := (t.parent_ok c hc p hcp).1
      have hnd : ¬ Desc st c p := fun hd =>
        t.no_cycle hc (Relation.TransGen.head' hcp hd.2)
      exact DeadChain.step c p w (hun c hc).1 (hun c hc).2 hc' (by rw [hw, hp])
        (DeadChain.dead p (hun p hpl).1 (hun p hpl).2 (hdel p hpl hnd))
  intro x hd
  obtain ⟨hxl, hch⟩ := hd
  revert hxl
  induction hch using Relation.ReflTransGen.head_induction_on with
  | refl => intro _; exact hbase
  | head hxy hyc ih =>
    rename_i x y
    intro hxl
    by_cases hxc : x = c
    · rw [hxc]; exact hbase
    · have hyl := (t.parent_ok x hxl y hxy).1
      obtain ⟨vx, hvx⟩ := t.live x hxl
      have hpx : vx.parent = some y := by
        have := hxy
        rw [par_of_heap hvx] at this
        exact this
      exact DeadChain.step x y vx (hun x hxl).1 (hun x hxl).2
        (by rw [hkeep x ⟨hxl, Relation.ReflTransGen.head hxy hyc⟩ hxc]; exact hvx) hpx (ih hyl)

end Near5

section Near6
variable {S U C O R : Type} [Add C] [LT C] [DecidableRel (fun a b : C => a < b)]
variable [Zero R] [Add R] [LT R] [DecidableRel (fun a b : R => a < b)]

/-- A returning `switch_root` preserves the tree invariant and the marks, whatever it
returns, and leaves a best vertex that is listed or dangling. -/
theorem switch_root_tree {sys : System S U C O R} {dist : S → S → Bool → R} {fuel : Nat}
    {distance : R} {cm cm' : Trajectory S U R} {st st' : Rrts S C O} {code : Int}
    (t : TreeInv st) (m : MarksClear st) (hbs : BestSafe st)
    (h : switch_root sys dist fuel distance cm st = some (code, cm', st')) :
    TreeInv st' ∧ MarksClear st' ∧ BestSafe st' := by
  rcases switch_root_cases h with ⟨_, _, _, rfl⟩ | ⟨b, r, vr, hb, hr, hvr, ⟨_, _, _, rfl⟩ |
    ⟨hg, pc, path, wcode, found, len, st1, hp, hw, hcase⟩⟩
  · exact ⟨t, m, hbs⟩
  · exact ⟨t, m, hbs⟩
  · have hbl : BestListed st := by
      intro b' hb'
      rw [hb] at hb'
      rw [← Option.some.inj hb']
      rcases hbs b hb with q | q
      · exact q
      · exfalso
        unfold get_best_trajectory_vertices at hp
        simp only [hb, q.walk_none] at hp
        exact absurd hp (by simp)
    have hsh := switch_root_walk_shape sys dist distance path st 0 cm _ hw
    simp only at hsh
    have t1 := hsh.shape_sameTree.tree_treeInv t
    have m1 := hsh.shape_marksClear m
    have hb1 : st1.lower_bound_vertex = some b := by rw [hsh.2.2.2.2.2.2.1]; exact hb
    rcases hcase with ⟨_, _, rfl⟩ | ⟨_, _, vb, hvb, hgo⟩ | ⟨rfl, nrs, c, rfl, hpr⟩
    · refine ⟨t1, m1, ?_⟩
      intro b' hb'
      rw [hb1] at hb'
      rw [← Option.some.inj hb', hsh.1]
      exact Or.inl (hbl b hb)
    · obtain ⟨n, rfl⟩ := get_best_trajectory_vertices_fuel hb hp
      obtain ⟨s, h1, h2, h3, h4, h5, h6, h7, h8, h9, h10, _⟩ :=
        switch_root_goal_spec sys n st1 vb.state
      rw [h1] at hgo
      simp only [Option.some.injEq, Prod.mk.injEq] at hgo
      rw [← hgo.2]
      obtain ⟨t', m'⟩ := fresh_root_tree h2 h3 h4 rfl rfl rfl h5 h9 h10
      refine ⟨t', m', ?_⟩
      intro b' hb'
      rw [h6] at hb'
      exact absurd hb' (by simp)
    · have hg' : ∀ r' vr', st.root = some r' → st.heap r' = some vr' →
          sys.is_in_goal vr'.state = false := by
        intro r' vr' e1 e2
        rw [hr] at e1
        rw [← Option.some.inj e1, hvr] at e2
        rw [← Option.some.inj e2]
        exact hg
      obtain ⟨_, _, _, hcl, hdb, hpc⟩ := switch_root_cut_inv t hbl hb hg' hp hw h
      have hcl1 : c ∈ st1.list_vertices := by rw [hsh.1]; exact hcl
      by_cases hc0 : code = 0
      · obtain ⟨_, _, q | q | ⟨_, _, _, st7, hre, hu⟩⟩ :=
          switch_root_prune_cases t1 m1 hcl1 hpr
        · rw [hc0] at q; exact absurd q.1 (by decide)
        · rw [hc0] at q; exact absurd q.1 (by decide)
        · have t7 := hre.rerooted_treeInv t1 hcl1
          have hr7 : st7.root = some st1.next := hre.1
          have hu' := update_all_costs_eq hr7 hu
          have hs0 : SameLinks st7
              { st7 with lower_bound_cost := sys.get_inf_cost, lower_bound_vertex := none } :=
            ⟨rfl, rfl, rfl, rfl, rfl, rfl, fun _ => rfl⟩
          have t8 := hs0.treeInv t7
          obtain ⟨hs, _⟩ := update_branch_cost_links sys fuel _ _ _ hu'
          obtain ⟨r7, hr7', hrl7, _⟩ := t7.root_ok
          rw [hr7] at hr7'
          have hrr := Option.some.inj hr7'
          subst hrr
          refine ⟨hs.treeInv t8, hs.links_marksClear (hs0.links_marksClear (hre.marks m1)), ?_⟩
          have hk := update_branch_cost_kept sys none fuel _ st' st1.next t8 hrl7 (Or.inl rfl) hu'
          intro b' hb'
          rcases hk with q | ⟨x, q1, q2⟩
          · rw [q] at hb'; exact absurd hb' (by simp)
          · rw [q1] at hb'
            rw [← Option.some.inj hb']
            exact Or.inl q2
      · obtain ⟨vc, hvc, f1, f2, f3, f4, f5, f6, f7, f8, f9, f10⟩ :=
          switch_root_prune_failed t1 m1 hcl1 hpr hc0
        obtain ⟨t', m'⟩ := fresh_root_tree f1 f3 f7 rfl rfl rfl f4 f2 f5
        refine ⟨t', m', ?_⟩
        intro b' hb'
        rw [f6, hb1] at hb'
        rw [← Option.some.inj hb']
        right
        have hpc1 : st1.par c ≠ none := by
          rw [hsh.shape_sameTree.tree_par_eq]; exact hpc
        exact dead_below_cut t1 hcl1 hpc1 hvc f1 f5 f8 rfl f9 f10 b
          ((Desc.of_sameTree hsh.shape_sameTree c b).mpr hdb)

end Near6

set_option linter.unusedSectionVars false
section Near7
variable {S U C O R : Type} [Add C] [LT C] [DecidableRel (fun a b : C => a < b)]
variable [Zero R] [Add R] [LT R] [DecidableRel (fun a b : R => a < b)]

/-- Every state reached by `initialize`, `iteration`, `check_tree` and `switch_root`
satisfies the tree invariant with clear marks, and its best vertex is listed or
dangling. -/
theorem operated_inv {sys : System S U C O R} {dist : S → S → Bool → R} {st : Rrts S C O}
    (h : Operated sys dist st) : TreeInv st ∧ MarksClear st ∧ BestSafe st := by
  induction h with
  | init st0 rs bnb st h =>
    obtain ⟨s, h1, h2, h3, h4, h5, h6, h7, h8, h9, h10, _⟩ := initialise_spec sys st0 rs bnb
    rw [h1] at h
    simp only [Option.some.injEq, Prod.mk.injEq] at h
    rw [← h.2]
    obtain ⟨t, m⟩ := fresh_root_tree h2 h3 h4 rfl rfl rfl h5 h9 h10
    refine ⟨t, m, ?_⟩
    intro b hb
    rw [h6] at hb
    exact absurd hb (by simp)
  | iter st d fuel code st' _ hk hi ih =>
    exact iteration_tree ih.1 ih.2.1 ih.2.2 hk hi
  | check st fuel code st' _ hc ih =>
    exact check_tree_tree ih.1 ih.2.1 ih.2.2 hc
  | switch st fuel distance cm cm' code st' _ hs ih =>
    exact switch_root_tree ih.1 ih.2.1 ih.2.2 hs

/-- On a planner whose index holds the root, a draw whose nearest-neighbour query
succeeds on a non-empty index makes `get_near_vertices` return 0 with the range result
or else the single nearest vertex, and `iteration` never returns 2. -/
theorem get_near_vertices_found (sys : System S U C O R) {st : Rrts S C O} {r : Nat}
    {kd : List Nat} (hk : st.kdtree = some kd) (hr : r ∈ kd) (d : Draw S)
    (hn : NearestFound st d) :
    (∃ near, get_near_vertices st d [] = some (0, near) ∧ near ≠ [] ∧
      (d.kd_nearest_range ≠ [] → near = d.kd_nearest_range) ∧
      (d.kd_nearest_range = [] → ∃ vc, d.kd_nearest = some vc ∧ near = [vc])) ∧
    ∀ fuel code st', iteration sys fuel d st = some (code, st') → code ≠ 2 := by
  have hne : kd ≠ [] := fun e => by rw [e] at hr; exact absurd hr (by simp)
  unfold NearestFound at hn
  rw [hk] at hn
  have hsome := hn hne
  have key : ∃ near, get_near_vertices st d [] = some (0, near) ∧ near ≠ [] ∧
      (d.kd_nearest_range ≠ [] → near = d.kd_nearest_range) ∧
      (d.kd_nearest_range = [] → ∃ vc, d.kd_nearest = some vc ∧ near = [vc]) := by
    unfold get_near_vertices
    simp only [hk]
    by_cases he : d.kd_nearest_range = []
    · obtain ⟨vc, hvc⟩ := Option.isSome_iff_exists.mp hsome
      rw [if_pos (by rw [he]; rfl)]
      simp only [hvc, List.nil_append]
      exact ⟨[vc], rfl, by simp, fun q => absurd he q, fun _ => ⟨vc, rfl, rfl⟩⟩
    · rw [if_neg (fun q => he (List.length_eq_zero.mp q))]
      simp only [List.nil_append]
      exact ⟨_, rfl, he, fun _ => rfl, fun q => absurd q he⟩
  refine ⟨key, ?_⟩
  intro fuel code st' hi hc
  obtain ⟨near, hg, _⟩ := key
  rcases iteration_cases hi with ⟨q, _⟩ | ⟨_, ret, near', hn', ⟨_, _, q⟩ | ⟨_, _, _, _, _,
    ⟨q, _⟩ | ⟨_, _, _, _, _, ⟨q, _⟩ | ⟨q, _⟩⟩⟩⟩
  · rw [hc] at q; exact absurd q (by decide)
  · rw [hg] at hn'
    simp only [Option.some.injEq, Prod.mk.injEq] at hn'
    exact q hn'.1.symm
  · rw [hc] at q; exact absurd q (by decide)
  · rw [hc] at q; exact absurd q (by decide)
  · rw [hc] at q; exact absurd q (by decide)

/-- **C25** (the near query never comes back empty after `initialize`).  In every
planner state reached from `initialize` by any sequence of returning calls of
`iteration`, `check_tree` and `switch_root`, whatever they return, the root is set and
stored in the index.  So for every draw whose nearest-neighbour query succeeds on a
non-empty index, `get_near_vertices` returns 0 with a non-empty list, which is the range
result when that is non-empty and otherwise exactly the single nearest vertex, and
`iteration` with that draw never returns 2. -/
theorem near_query_never_empty (sys : System S U C O R) (dist : S → S → Bool → R)
    (st : Rrts S C O) (h : Operated sys dist st) :
    (∃ r kd, st.root = some r ∧ st.kdtree = some kd ∧ r ∈ kd) ∧
    ∀ d : Draw S, NearestFound st d →
      (∃ near, get_near_vertices st d [] = some (0, near) ∧ near ≠ [] ∧
        (d.kd_nearest_range ≠ [] → near = d.kd_nearest_range) ∧
        (d.kd_nearest_range = [] → ∃ vc, d.kd_nearest = some vc ∧ near = [vc])) ∧
      ∀ fuel code st', iteration sys fuel d st = some (code, st') → code ≠ 2 := by
  obtain ⟨t, _, _⟩ := operated_inv h
  obtain ⟨r, hr, hrl, _⟩ := t.root_ok
  exact ⟨⟨r, st.list_vertices, hr, t.index, hrl⟩,
    fun d hn => get_near_vertices_found sys t.index hrl d hn⟩

end Near7

section Witnesses12

/-- The planner `strict_s1_switched`, left by a `switch_root` that returned 5, is
reached by `initialize`, one `iteration` and that `switch_root`. -/
theorem strict_s1_switched_operated :
    Operated strict_system line_dist strict_s1_switched :=
  Operated.switch strict_s1 5 3 Trajectory.empty _ 5 strict_s1_switched
    (Operated.iter strict_s0 (line_draw 10 [0]) 4 0 strict_s1
      (Operated.init (rrts_c strict_system) 0 true strict_s0 rfl) (by decide) rfl) rfl

/-- Witness of **C25**: after the `switch_root` that returned 5 and left the best vertex
dangling, the index holds the fresh root 2; for a draw with an empty range result whose
nearest vertex is 2 the near query returns 0 with the list `[2]`. -/
theorem near_query_never_empty_witness :
    Operated strict_system line_dist strict_s1_switched ∧
    strict_s1_switched.kdtree = some [2] ∧
    NearestFound strict_s1_switched
      { p_lt_goal_sample_freq := false, sample_in_goal := (1, 0), sample_state := (0, 7),
        kd_nearest_range := [], kd_nearest := some 2 } ∧
    get_near_vertices strict_s1_switched
      { p_lt_goal_sample_freq := false, sample_in_goal := (1, 0), sample_state := (0, 7),
        kd_nearest_range := [], kd_nearest := some 2 } [] = some (0, [2]) ∧
    ((∃ near, get_near_vertices strict_s1_switched
        { p_lt_goal_sample_freq := false, sample_in_goal := (1, 0), sample_state := (0, 7),
          kd_nearest_range := [], kd_nearest := some 2 } [] = some (0, near) ∧ near ≠ [] ∧
      (([] : List Nat) ≠ [] → near = []) ∧
      (([] : List Nat) = [] → ∃ vc, some 2 = some vc ∧ near = [vc])) ∧
     ∀ fuel code st', iteration strict_system fuel
        { p_lt_goal_sample_freq := false, sample_in_goal := (1, 0), sample_state := (0, 7),
          kd_nearest_range := [], kd_nearest := some 2 } strict_s1_switched
        = some (code, st') → code ≠ 2) :=
  ⟨strict_s1_switched_operated, rfl, by decide, rfl,
    (near_query_never_empty strict_system line_dist strict_s1_switched
      strict_s1_switched_operated).2 _ (by decide)⟩

end Witnesses12

end Smpl
